import Mathlib

/-!
# trivy-ansible: task compilation

A shallow embedding of the project model, the loader and the task compiler of
`trivy-ansible` (`task.go`, `role.go`, `loader.go`, `variable.go`, `types.go`,
`metadata.go`, `parse.go`), followed by theorems about them.

Conventions of the embedding.

* Go strings are `String`; every string function is written over `String.data`
  so that it evaluates by unfolding.
* Go `map[string]any` is an association list with first-match lookup; the
  constructors below keep keys unique.
* Objects that the Go code reaches through pointers and mutates (roles, plays,
  the loader) live in a `World` that every stateful function threads.  Tasks
  are owned by exactly one container (a block, a role, a play, a loaded
  file), so they are values; the identity of a task object is its `addr`,
  which is what the non-owning `parent` links hold.  A function that mutates
  a task returns the task after the call.  The tasks a compilation returns
  are the objects of the tree it walked; here they are copies, and the parent
  links a role include puts on the tasks it returns are not written back into
  the role object they came from, which the code does not read again.
* The libraries are modelled as far as the code depends on them: YAML
  documents are trees of scalars, sequences and mappings with scalar keys
  (no anchors or merge keys), file trees are lists of files in walk order,
  the template engine is a function of the world.
* A Go `panic` (explicit, or a nil dereference) is `Err.panic`.  Recursion that
  the Go code performs without a bound runs on fuel; `Err.outOfFuel` is not a
  behaviour of the program but the sign that the fuel given was too small.
-/

set_option autoImplicit false

namespace Ansible

/-! ## Dynamic values (`any`) and string-keyed maps -/

/-- The values a decoded YAML document holds once stored in an `any`. -/
inductive Value where
  | null
  | bool (b : Bool)
  | int (i : Int)
  | float (repr : String)
  | str (s : String)
  | list (xs : List Value)
  | map (kvs : List (String × Value))

/-- Go `map[string]any` used for variables. -/
abbrev Variables := List (String × Value)

/-- Lookup `m[k]` with the `exists` flag: `none` when the key is absent. -/
def mapGet {α : Type} (m : List (String × α)) (k : String) : Option α :=
  match m with
  | [] => none
  | (k', v) :: rest => if k' = k then some v else mapGet rest k

/-- Assignment `m[k] = v`: replaces the entry of `k` or adds one. -/
def mapSet {α : Type} (m : List (String × α)) (k : String) (v : α) : List (String × α) :=
  match m with
  | [] => [(k, v)]
  | (k', v') :: rest => if k' = k then (k, v) :: rest else (k', v') :: mapSet rest k v

/-- The merge `lo.Assign(a, b)`: a new map with the entries of `a` overwritten by those of `b`. -/
def loAssign {α : Type} (a b : List (String × α)) : List (String × α) :=
  b.foldl (fun acc kv => mapSet acc kv.1 kv.2) a

/-! ## `path/filepath` on a slash-separated system -/

/-- Splits a character list at every `/` (`strings.Split(s, "/")`). -/
def splitSlash : List Char → List (List Char)
  | [] => [[]]
  | c :: cs =>
    match splitSlash cs with
    | [] => [[]]
    | seg :: segs => if c = '/' then [] :: seg :: segs else (c :: seg) :: segs

/-- Joins components with `/`. -/
def joinSlash : List (List Char) → List Char
  | [] => []
  | [seg] => seg
  | seg :: segs => seg ++ '/' :: joinSlash segs

/-- One step of the element loop of `filepath.Clean`: `out` is the stack of
elements written so far, most recent first. -/
def cleanStep (rooted : Bool) (out : List (List Char)) (seg : List Char) : List (List Char) :=
  if seg = [] then out
  else if seg = ['.'] then out
  else if seg = ['.', '.'] then
    match out with
    | [] => if rooted then [] else [seg]
    | top :: below => if top = ['.', '.'] then seg :: top :: below else below
  else seg :: out

/-- The function `filepath.Clean` on character lists. -/
def cleanChars (p : List Char) : List Char :=
  if p = [] then ['.']
  else
    let rooted := p.head? = some '/'
    let out := (splitSlash p).foldl (cleanStep rooted) []
    if rooted then '/' :: joinSlash out.reverse
    else if out = [] then ['.'] else joinSlash out.reverse

/-- The function `filepath.Clean`. -/
def filepathClean (p : String) : String := ⟨cleanChars p.data⟩

/-- The function `filepath.Join`: the elements from the first non-empty one on,
joined with `/` and cleaned; the empty string when all are empty. -/
def filepathJoin (elems : List String) : String :=
  match elems.dropWhile (fun e => e.data = []) with
  | [] => ""
  | rest => ⟨cleanChars (joinSlash (rest.map String.data))⟩

/-- Everything after the last `/`, and whether a `/` was seen (scan from the left). -/
def afterLastSlash : List Char → List Char × Bool
  | [] => ([], false)
  | c :: cs =>
    match afterLastSlash cs with
    | (tail, true) => (tail, true)
    | (tail, false) => if c = '/' then (tail, true) else (c :: tail, false)

/-- The function `filepath.Split`: `(dir, file)` with `dir` ending in the last `/`. -/
def filepathSplit (p : String) : String × String :=
  let file := (afterLastSlash p.data).1
  (⟨p.data.take (p.data.length - file.length)⟩, ⟨file⟩)

/-- The function `filepath.Dir`: the cleaned directory part. -/
def filepathDir (p : String) : String := filepathClean (filepathSplit p).1

/-- The suffix of a file name from its last `.` on, if it has one. -/
def extChars : List Char → Option (List Char)
  | [] => none
  | c :: cs =>
    match extChars cs with
    | some e => some e
    | none => if c = '.' then some (c :: cs) else none

/-- The function `filepath.Ext`: the suffix of the last path element from its last `.` on. -/
def filepathExt (p : String) : String :=
  match extChars (afterLastSlash p.data).1 with
  | some e => ⟨e⟩
  | none => ""

/-- The function `filepath.IsAbs`. -/
def filepathIsAbs (p : String) : Bool := p.data.head? = some '/'

/-! ## Outcomes -/

/-- How a call can end without a result: a Go `panic`, or the fuel of the model ran out. -/
inductive Err where
  | panic (msg : String)
  | outOfFuel
  deriving DecidableEq, Repr

/-- The outcome of a call that may panic; a Go `error` result is an `Except String` inside. -/
abbrev Res (α : Type) := Except Err α

/-! ## YAML documents (`yaml.Node`) -/

/-- The resolved type of a scalar node. -/
inductive ScalarKind where
  | null
  | bool (b : Bool)
  | int (i : Int)
  | float
  | str
  deriving DecidableEq, Repr

/-- A parsed YAML node with its line. Mapping keys are scalars, kept as their text. -/
inductive Node where
  | scalar (line : Nat) (kind : ScalarKind) (text : String)
  | seq (line : Nat) (items : List Node)
  | map (line : Nat) (entries : List (String × Node))

/-- The field `node.Line`. -/
def Node.line : Node → Nat
  | .scalar l _ _ => l
  | .seq l _ => l
  | .map l _ => l

/-- Whether the node is the null scalar. -/
def Node.isNull : Node → Bool
  | .scalar _ .null _ => true
  | _ => false

mutual
/-- The function `calculateEndLine`: follow the last child while there is one. -/
def calculateEndLine : Node → Nat
  | .scalar l _ _ => l
  | .seq l items => endLineItems l items
  | .map l entries => endLineEntries l entries
/-- The end line of the last item, `dflt` for no item. -/
def endLineItems (dflt : Nat) : List Node → Nat
  | [] => dflt
  | [n] => calculateEndLine n
  | _ :: n :: ns => endLineItems dflt (n :: ns)
/-- The end line of the last value, `dflt` for no entry. -/
def endLineEntries (dflt : Nat) : List (String × Node) → Nat
  | [] => dflt
  | [(_, n)] => calculateEndLine n
  | _ :: e :: es => endLineEntries dflt (e :: es)
end

/-- Whether a key occurs twice in a mapping (the decoder rejects such a mapping). -/
def hasDupKeys {α : Type} : List (String × α) → Bool
  | [] => false
  | (k, _) :: rest => (rest.any fun e => e.1 = k) || hasDupKeys rest

mutual
/-- Decoding a node into an `any`. -/
def Node.toValue : Node → Except String Value
  | .scalar _ .null _ => .ok .null
  | .scalar _ (.bool b) _ => .ok (.bool b)
  | .scalar _ (.int i) _ => .ok (.int i)
  | .scalar _ .float t => .ok (.float t)
  | .scalar _ .str t => .ok (.str t)
  | .seq _ items =>
    match itemsToValues items with
    | .ok vs => .ok (.list vs)
    | .error e => .error e
  | .map _ entries =>
    if hasDupKeys entries then .error "mapping key already defined"
    else
      match entriesToValues entries with
      | .ok kvs => .ok (.map kvs)
      | .error e => .error e
/-- Decoding the items of a sequence. -/
def itemsToValues : List Node → Except String (List Value)
  | [] => .ok []
  | n :: ns =>
    match Node.toValue n, itemsToValues ns with
    | .ok v, .ok vs => .ok (v :: vs)
    | .error e, _ => .error e
    | _, .error e => .error e
/-- Decoding the entries of a mapping. -/
def entriesToValues : List (String × Node) → Except String (List (String × Value))
  | [] => .ok []
  | (k, n) :: es =>
    match Node.toValue n, entriesToValues es with
    | .ok v, .ok kvs => .ok ((k, v) :: kvs)
    | .error e, _ => .error e
    | _, .error e => .error e
end

/-- Decoding a node into a `map[string]any`: a mapping, or null for the nil map. -/
def Node.toStringMap : Node → Except String (List (String × Value))
  | .scalar _ .null _ => .ok []
  | .map _ entries =>
    if hasDupKeys entries then .error "mapping key already defined"
    else entriesToValues entries
  | _ => .error "cannot unmarshal into map[string]interface {}"

/-- Decoding a node into a `string` field: the text of a scalar, the zero value for null. -/
def Node.toStringField : Node → Except String String
  | .scalar _ .null _ => .ok ""
  | .scalar _ _ t => .ok t
  | _ => .error "cannot unmarshal into string"

/-! ## Provenance (`metadata.go`) -/

/-- The struct `Range`. -/
structure Range where
  startLine : Nat
  endLine : Nat
  deriving DecidableEq, Repr

/-- The function `RangeFromNode`. -/
def RangeFromNode (node : Node) : Range :=
  { startLine := node.line, endLine := calculateEndLine node }

/-- A `*Metadata`: the object whose `metadata` field is pointed to. -/
inductive MetaRef where
  | task (addr : Nat)
  | role (ptr : Nat)
  | roleMeta (ptr : Nat)
  | play (ptr : Nat)
  | other (id : Nat)
  deriving DecidableEq, Repr

/-- The struct `Metadata`; `parent` is a non-owning pointer. -/
structure Metadata where
  path : String
  rng : Range
  parent : Option MetaRef
  deriving DecidableEq, Repr

/-! ## Entities (`task.go`, `role.go`, `types.go`) -/

/-- The fields of `Task` other than its block. `addr` is the identity of the
task object; `role` and `play` index the heaps of the `World`; `dataloader`
tells whether the pointer is set (there is one `DataLoader`, in the `World`);
`cachedVars` is `none` for the nil map. -/
structure TaskData where
  addr : Nat
  name : String
  vars : Variables
  metadata : Metadata
  role : Option Nat
  play : Option Nat
  parent : Option Nat
  raw : List (String × Value)
  dataloader : Bool
  cachedVars : Option Variables

/-- The struct `Task`: its fields and `inner.Block`. -/
inductive Task where
  | mk (data : TaskData) (block : List Task)

/-- The type `Tasks`. -/
abbrev Tasks := List Task

/-- The fields of a task. -/
def Task.data : Task → TaskData
  | .mk d _ => d

/-- The field `inner.Block`. -/
def Task.block : Task → List Task
  | .mk _ b => b

/-- The method `Task.Name`. -/
def Task.Name (t : Task) : String := t.data.name

/-- The method `Task.Vars`. -/
def Task.Vars (t : Task) : Variables := t.data.vars

/-- The method `Task.GetMetadata`. -/
def Task.GetMetadata (t : Task) : Metadata := t.data.metadata

/-- The method `Task.Role`. -/
def Task.Role (t : Task) : Option Nat := t.data.role

/-- The struct `RoleDefinition` with its `inner` fields. -/
structure RoleDefinition where
  metadata : Metadata
  name : String
  vars : Variables

/-- The method `RoleDefinition.GetName`. -/
def RoleDefinition.GetName (r : RoleDefinition) : String := r.name

/-- The struct `RoleMeta`; a `none` dependency is the nil pointer a null item decodes to. -/
structure RoleMeta where
  metadata : Metadata
  dependencies : List (Option RoleDefinition)

/-- The method `RoleMeta.Dependencies`. -/
def RoleMeta.Dependencies (m : RoleMeta) : List (Option RoleDefinition) := m.dependencies

/-- The struct `Role`; `play`, `directDeps` and `allDeps` index the heaps of the `World`. -/
structure Role where
  name : String
  path : String
  pubic : Bool
  metadata : Metadata
  play : Option Nat
  tasks : List Task
  defaults : Variables
  vars : Variables
  meta : RoleMeta
  directDeps : List Nat
  allDeps : List Nat
  dataloader : Bool

/-- The method `Role.IsPublic`. -/
def Role.IsPublic (r : Role) : Bool := r.pubic

/-- The method `Role.Vars`. -/
def Role.Vars (r : Role) : Variables := r.vars

/-- The method `Role.getDirectDeps`. -/
def Role.getDirectDeps (r : Role) : List Nat := r.directDeps

/-- The struct `Play` with its `inner` fields, as `LoadPlaybook` leaves it in
the heap; `roles` indexes the role heap. -/
structure Play where
  metadata : Metadata
  raw : List (String × Value)
  roles : List Nat
  dataloader : Bool
  name : String
  importPlaybook : String
  hosts : String
  roleDefinitions : List RoleDefinition
  preTasks : List Task
  tasks : List Task
  postTasks : List Task
  vars : Variables
  varFiles : List String

/-- The method `Play.GetPath`. -/
def Play.GetPath (p : Play) : String := p.metadata.path

/-- The method `Play.GetRoles`. -/
def Play.GetRoles (p : Play) : List Nat := p.roles

/-- The method `Play.GetVars`. -/
def Play.GetVars (p : Play) : Variables := p.vars

/-- The method `Play.GetVarsFiles`. -/
def Play.GetVarsFiles (p : Play) : List String := p.varFiles

/-- The type `Playbook`. -/
abbrev Playbook := List Nat

/-! ## The file system (`fs.FS`) -/

/-- A read-only file tree: the regular files by their path in the order
`fs.WalkDir` visits them, each with its parsed YAML document (`none` when the
content is not a YAML document), and the directories that hold no file. -/
structure FS where
  files : List (String × Option Node)
  dirs : List String

/-- The function `fs.ValidPath`: `.`, or elements none of which is empty, `.` or `..`. -/
def validPath (p : String) : Bool :=
  p = "." || (splitSlash p.data).all fun seg => seg ≠ [] && seg ≠ ['.'] && seg ≠ ['.', '.']

/-- Whether `p` is `dir` or lies below it. -/
def isUnder (dir p : String) : Bool :=
  dir = "." || (dir.data ++ ['/']).isPrefixOf p.data

/-- Whether `p` names a directory of the tree. -/
def FS.isDir (fsys : FS) (p : String) : Bool :=
  p = "." || fsys.dirs.any (fun d => d = p || isUnder p d) || fsys.files.any (fun f => isUnder p f.1 && p ≠ ".")

/-- Whether `fs.Stat(fsys, p)` succeeds. -/
def FS.stat (fsys : FS) (p : String) : Bool :=
  validPath p && ((mapGet fsys.files p).isSome || fsys.isDir p)

/-- Opening a file and decoding it as one YAML document. -/
def FS.readYaml (fsys : FS) (p : String) : Except String Node :=
  if validPath p then
    match mapGet fsys.files p with
    | some (some n) => .ok n
    | some none => .error "yaml: cannot decode"
    | none => .error "open: file does not exist"
  else .error "open: invalid argument"

/-- The regular files `fs.WalkDir(fsys, root, fn)` passes to `fn`, in order; an
error when `root` cannot be read. -/
def FS.walkFiles (fsys : FS) (root : String) : Except String (List String) :=
  if fsys.stat root then
    if (mapGet fsys.files root).isSome then .ok [root]
    else .ok ((fsys.files.filter fun f => isUnder root f.1).map Prod.fst)
  else .error "stat: file does not exist"

/-! ## The loader and the world (`loader.go`) -/

/-- The struct `DataLoader`. -/
structure DataLoader where
  fsys : FS
  root : String
  roleCache : List (String × String)

/-- The function `NewDataloader`. -/
def NewDataloader (fsys : FS) (root : String) : DataLoader :=
  { fsys := fsys, root := root, roleCache := [] }

/-- Everything the code reads or mutates through pointers and the process
environment: the loader, the variable `DEFAULT_ROLES_PATH`, the absolute paths
that exist on the host, the template engine behind `Templater.Evaluate`, the
role and play objects allocated so far, and the next free task address. -/
structure World where
  loader : DataLoader
  defaultRolesPath : Option String
  hostPaths : List String
  evaluate : String → Variables → Except String String
  roles : List Role
  plays : List Play
  nextAddr : Nat

/-- Dereferencing a `*Role`. -/
def World.role (w : World) (p : Nat) : Res Role :=
  match w.roles.get? p with
  | some r => .ok r
  | none => .error (.panic "invalid memory address or nil pointer dereference")

/-- Dereferencing a `*Play`. -/
def World.play (w : World) (p : Nat) : Res Play :=
  match w.plays.get? p with
  | some r => .ok r
  | none => .error (.panic "invalid memory address or nil pointer dereference")

/-- A write through a `*Role`. -/
def World.modifyRole (w : World) (p : Nat) (f : Role → Role) : World :=
  { w with roles := w.roles.modify f p }

/-- A write through a `*Play`. -/
def World.modifyPlay (w : World) (p : Nat) (f : Play → Play) : World :=
  { w with plays := w.plays.modify f p }

/-- The struct `LoadRoleOptions` (its `Public` field is never read). -/
structure LoadRoleOptions where
  TasksFile : String
  DefaultsFile : String
  VarsFile : String
  deriving DecidableEq, Repr

/-- The method `LoadRoleOptions.WithDefaults`. -/
def LoadRoleOptions.WithDefaults (o : LoadRoleOptions) : LoadRoleOptions :=
  { TasksFile := if o.TasksFile ≠ "" then o.TasksFile else "main"
    DefaultsFile := if o.DefaultsFile ≠ "" then o.DefaultsFile else "main"
    VarsFile := if o.VarsFile ≠ "" then o.VarsFile else "main" }

/-- The function `isPathExists`. -/
def isPathExists (w : World) (path : String) : Bool :=
  (filepathIsAbs path && w.hostPaths.contains path) || w.loader.fsys.stat path

/-- The function `isYAMLFile`. -/
def isYAMLFile (path : String) : Bool :=
  filepathExt path = ".yaml" || filepathExt path = ".yml"

/-- The function `cutExtension`. -/
def cutExtension (path : String) : String :=
  ⟨path.data.take (path.data.length - (filepathExt path).data.length)⟩

/-- The method `DataLoader.resolveRolePath`. -/
def resolveRolePath (w : World) (name : String) : Option String :=
  let paths := [filepathJoin [w.loader.root, "roles", name]] ++
    (match w.defaultRolesPath with
     | some p => [p]
     | none => [])
  paths.find? (isPathExists w)

/-! ## Decoding tasks (`Task.UnmarshalYAML`) and `LoadTasks` -/

/-- The method `Task.updateParent`: both links now point to `parent`. -/
def Task.updateParent (t : Task) (parent : Task) : Task :=
  .mk { t.data with
        parent := some parent.data.addr
        metadata := { t.data.metadata with parent := some (.task parent.data.addr) } } t.block

/-- The method `Task.UpdateNested`: the path of the task, and path, loader and
role of the tasks directly in its block. -/
def Task.UpdateNested (t : Task) (path : String) : Task :=
  .mk { t.data with metadata := { t.data.metadata with path := path } }
    (t.block.map fun b =>
      .mk { b.data with
            metadata := { b.data.metadata with path := path }
            dataloader := t.data.dataloader
            role := t.data.role } b.block)

/-- A task struct as `UnmarshalYAML` fills it before the parent links. -/
def newTask (addr : Nat) (node : Node) (raw : List (String × Value)) (name : String)
    (vars : Variables) : TaskData :=
  { addr := addr, name := name, vars := vars
    metadata := { path := "", rng := RangeFromNode node, parent := none }
    role := none, play := none, parent := none, raw := raw
    dataloader := false, cachedVars := none }

/-- The field of a struct decoded from the entry `key`, the zero value when it is absent. -/
def fieldOf {α : Type} (entries : List (String × Node)) (key : String) (zero : α)
    (dec : Node → Except String α) : Except String α :=
  match mapGet entries key with
  | some n => dec n
  | none => .ok zero

/-- Puts an item in front of the decoded rest; a type error in either is kept. -/
def consDecoded {α : Type} (x : Except String α) (xs : Except String (List α)) :
    Except String (List α) :=
  match x, xs with
  | .ok a, .ok as => .ok (a :: as)
  | .error e, _ => .error e
  | _, .error e => .error e

mutual
/-- The method `Task.UnmarshalYAML` on a node, allocating task objects from
`addr` on. The decoder records a type error and goes on, so a nil dereference
in a later block still panics. -/
def decodeTask : Node → Nat → Res (Except String Task × Nat)
  | .scalar l .null tx, addr =>
    .ok (.ok (.mk (newTask addr (.scalar l .null tx) [] "" []) []), addr + 1)
  | .scalar _ _ _, addr => .ok (.error "cannot unmarshal into map[string]interface {}", addr)
  | .seq _ _, addr => .ok (.error "cannot unmarshal into map[string]interface {}", addr)
  | .map l entries, addr =>
    if hasDupKeys entries then .ok (.error "mapping key already defined", addr)
    else
      match entriesToValues entries with
      | .error e => .ok (.error e, addr)
      | .ok raw =>
        match decodeBlockField entries (addr + 1) with
        | .error e => .error e
        | .ok (blk, next) =>
          match fieldOf entries "name" "" Node.toStringField,
                fieldOf entries "vars" [] Node.toStringMap, blk with
          | .ok name, .ok vars, .ok children =>
            if children.any Option.isNone then
              .error (.panic "invalid memory address or nil pointer dereference")
            else
              let t := Task.mk (newTask addr (.map l entries) raw name vars) []
              .ok (.ok (.mk t.data ((children.filterMap id).map fun b => b.updateParent t)), next)
          | .error e, _, _ => .ok (.error e, next)
          | _, .error e, _ => .ok (.error e, next)
          | _, _, .error e => .ok (.error e, next)
/-- The field `block` of `taskInner`, decoded from the entry with that key. -/
def decodeBlockField : List (String × Node) → Nat →
    Res (Except String (List (Option Task)) × Nat)
  | [], addr => .ok (.ok [], addr)
  | (k, n) :: rest, addr =>
    if k = "block" then
      match n with
      | .seq _ items => decodeTaskItems items addr
      | .scalar _ .null _ => .ok (.ok [], addr)
      | _ => .ok (.error "cannot unmarshal into []*Task", addr)
    else decodeBlockField rest addr
/-- Decoding the items of a `[]*Task`: a null item gives the nil pointer. -/
def decodeTaskItems : List Node → Nat → Res (Except String (List (Option Task)) × Nat)
  | [], addr => .ok (.ok [], addr)
  | n :: ns, addr =>
    if n.isNull then
      match decodeTaskItems ns addr with
      | .error e => .error e
      | .ok (rest, next) => .ok (consDecoded (.ok none) rest, next)
    else
      match decodeTask n addr with
      | .error e => .error e
      | .ok (t, mid) =>
        match decodeTaskItems ns mid with
        | .error e => .error e
        | .ok (rest, next) => .ok (consDecoded (t.map some) rest, next)
end

/-- Decoding a document into `Tasks`. -/
def decodeTasks (node : Node) (addr : Nat) : Res (Except String (List (Option Task)) × Nat) :=
  match node with
  | .seq _ items => decodeTaskItems items addr
  | .scalar _ .null _ => .ok (.ok [], addr)
  | _ => .ok (.error "cannot unmarshal into Tasks", addr)

/-- The method `DataLoader.LoadTasks`; `role` is the `*Role` given to the tasks. -/
def LoadTasks (w : World) (sourceMetadata : Option MetaRef) (role : Option Nat)
    (path : String) : Res (Except String Tasks × World) :=
  match w.loader.fsys.readYaml path with
  | .error e => .ok (.error ("failed to decode tasks file: " ++ e), w)
  | .ok node =>
    match decodeTasks node w.nextAddr with
    | .error e => .error e
    | .ok (.error e, _) => .ok (.error ("failed to decode tasks file: " ++ e), w)
    | .ok (.ok tasks, next) =>
      if tasks.any Option.isNone then
        .error (.panic "invalid memory address or nil pointer dereference")
      else
        .ok (.ok ((tasks.filterMap id).map fun task =>
          Task.UpdateNested
            (.mk { task.data with
                   metadata := { task.data.metadata with parent := sourceMetadata }
                   dataloader := true
                   role := role } task.block) path),
          { w with nextAddr := next })

/-! ## Decoding role files and `LoadRoleWithOptions` -/

/-- The zero `Metadata`. -/
def Metadata.zero : Metadata := { path := "", rng := { startLine := 0, endLine := 0 }, parent := none }

/-- The method `RoleDefinition.UnmarshalYAML`: a scalar is the role name, a
mapping is decoded into the fields `role` and `vars`. -/
def decodeRoleDefinition (node : Node) : Except String RoleDefinition :=
  let metadata : Metadata := { path := "", rng := RangeFromNode node, parent := none }
  match node with
  | .scalar _ _ text => .ok { metadata := metadata, name := text, vars := [] }
  | .seq _ _ => .error "cannot unmarshal into roleDefinitionInner"
  | .map _ entries =>
    if hasDupKeys entries then .error "mapping key already defined"
    else
      match fieldOf entries "role" "" Node.toStringField,
            fieldOf entries "vars" [] Node.toStringMap with
      | .ok name, .ok vars => .ok { metadata := metadata, name := name, vars := vars }
      | .error e, _ => .error e
      | _, .error e => .error e

/-- Decoding the items of a `[]*RoleDefinition`: a null item gives the nil pointer. -/
def decodeRoleDefinitions : List Node → Except String (List (Option RoleDefinition))
  | [] => .ok []
  | n :: ns =>
    if n.isNull then consDecoded (.ok none) (decodeRoleDefinitions ns)
    else consDecoded ((decodeRoleDefinition n).map some) (decodeRoleDefinitions ns)

/-- Decoding a node into a `[]*RoleDefinition` field. -/
def Node.toRoleDefinitions : Node → Except String (List (Option RoleDefinition))
  | .seq _ items => decodeRoleDefinitions items
  | .scalar _ .null _ => .ok []
  | _ => .error "cannot unmarshal into []*RoleDefinition"

/-- Decoding a document into a `RoleMeta` (`RoleMeta.UnmarshalYAML`); a null
document leaves the zero value. -/
def decodeRoleMeta (node : Node) : Except String RoleMeta :=
  match node with
  | .scalar _ .null _ => .ok { metadata := Metadata.zero, dependencies := [] }
  | .map _ entries =>
    if hasDupKeys entries then .error "mapping key already defined"
    else
      match fieldOf entries "dependencies" [] Node.toRoleDefinitions with
      | .ok deps =>
        .ok { metadata := { path := "", rng := RangeFromNode node, parent := none }
              dependencies := deps }
      | .error e => .error e
  | _ => .error "cannot unmarshal into roleMetaInner"

/-- The method `DataLoader.parseVarsFile`. -/
def parseVarsFile (w : World) (path : String) : Except String Variables :=
  match w.loader.fsys.readYaml path with
  | .ok node => node.toStringMap
  | .error e => .error e

/-- The method `DataLoader.parseMetaFile`. -/
def parseMetaFile (w : World) (path : String) : Except String RoleMeta :=
  match w.loader.fsys.readYaml path with
  | .ok node =>
    match decodeRoleMeta node with
    | .ok m => .ok { m with metadata := { m.metadata with path := path } }
    | .error e => .error e
  | .error e => .error e

/-- The expression `parts[len(parts)-2]` of the walk function, where `parts`
is the directory split at the separator; `none` when the index is out of range. -/
def parentFolder (dir : String) : Option String :=
  let parts := splitSlash dir.data
  if parts.length < 2 then none
  else (parts.get? (parts.length - 2)).map String.mk

/-- The walk function of `LoadRoleWithOptions` on one regular file; `ptr` is
the address of the role `r` being filled. -/
def walkFn (opt : LoadRoleOptions) (ptr : Nat) (path : String) (r : Role) (w : World) :
    Res (Except String Role × World) :=
  let filename := (filepathSplit path).2
  if !isYAMLFile filename then .ok (.ok r, w)
  else
    match parentFolder (filepathSplit path).1 with
    | none => .error (.panic "index out of range")
    | some folder =>
      if folder = "tasks" then
        if cutExtension filename ≠ opt.TasksFile then .ok (.ok r, w)
        else
          match LoadTasks w (some (.role ptr)) (some ptr) path with
          | .error e => .error e
          | .ok (.error e, w1) => .ok (.error ("failed to load tasks: " ++ e), w1)
          | .ok (.ok tasks, w1) => .ok (.ok { r with tasks := r.tasks ++ tasks }, w1)
      else if folder = "defaults" then
        if cutExtension filename ≠ opt.DefaultsFile then .ok (.ok r, w)
        else
          match parseVarsFile w path with
          | .ok vars => .ok (.ok { r with defaults := loAssign r.defaults vars }, w)
          | .error _ => .ok (.ok r, w)
      else if folder = "vars" then
        if cutExtension filename ≠ opt.VarsFile then .ok (.ok r, w)
        else
          match parseVarsFile w path with
          | .ok vars => .ok (.ok { r with vars := loAssign r.vars vars }, w)
          | .error _ => .ok (.ok r, w)
      else if folder = "meta" then
        if cutExtension filename ≠ "main" then .ok (.ok r, w)
        else
          match parseMetaFile w path with
          | .ok m =>
            .ok (.ok { r with meta := { m with metadata := { m.metadata with parent := some (.role ptr) } } }, w)
          | .error _ => .ok (.ok r, w)
      else .ok (.ok r, w)

/-- The traversal `fs.WalkDir` of the role directory: the walk function on each
file in turn, stopping at the first error. -/
def walkRole (opt : LoadRoleOptions) (ptr : Nat) : List String → Role → World →
    Res (Except String Role × World)
  | [], r, w => .ok (.ok r, w)
  | path :: rest, r, w =>
    match walkFn opt ptr path r w with
    | .error e => .error e
    | .ok (.error e, w1) => .ok (.error e, w1)
    | .ok (.ok r1, w1) => walkRole opt ptr rest r1 w1

/-- The method `DataLoader.LoadRoleWithOptions`. On success the new role object
is the last of the heap and its address is returned; on a Go error the world
is as before the call. -/
def LoadRoleWithOptions (w : World) (parentMeta : Option MetaRef) (play : Option Nat)
    (roleName : String) (opt : LoadRoleOptions) : Res (Except String Nat × World) :=
  let opt := opt.WithDefaults
  let rolePath :=
    match mapGet w.loader.roleCache roleName with
    | some val => val
    | none =>
      match resolveRolePath w roleName with
      | some val => val
      | none => ""
  if rolePath = "" then .ok (.error ("role not found: " ++ roleName), w)
  else
    let ptr := w.roles.length
    let r : Role :=
      { name := roleName, path := rolePath, pubic := false
        metadata := { path := rolePath, rng := { startLine := 0, endLine := 0 }, parent := parentMeta }
        play := play, tasks := [], defaults := [], vars := []
        meta := { metadata := Metadata.zero, dependencies := [] }
        directDeps := [], allDeps := [], dataloader := true }
    match w.loader.fsys.walkFiles rolePath with
    | .error e => .ok (.error e, w)
    | .ok files =>
      match walkRole opt ptr files r w with
      | .error e => .error e
      | .ok (.error e, _) => .ok (.error e, w)
      | .ok (.ok r1, w1) =>
        .ok (.ok ptr,
          { w1 with
            roles := w1.roles ++ [r1]
            loader := { w1.loader with roleCache := mapSet w1.loader.roleCache roleName rolePath } })

/-- The method `DataLoader.LoadRole`. -/
def LoadRole (w : World) (parentMeta : Option MetaRef) (play : Option Nat) (roleName : String) :
    Res (Except String Nat × World) :=
  LoadRoleWithOptions w parentMeta play roleName
    { TasksFile := "", DefaultsFile := "", VarsFile := "" }

/-- The method `DataLoader.LoadPlayVarsFile`. -/
def LoadPlayVarsFile (w : World) (playPath varsFile : String) : Except String Variables :=
  match w.loader.fsys.readYaml (filepathJoin [playPath, "vars", varsFile]) with
  | .ok node =>
    match node.toStringMap with
    | .ok vars => .ok vars
    | .error e => .error ("failed to decode variables: " ++ e)
  | .error e => .error e

/-! ## Role dependencies and the variable resolver (`role.go`, `variable.go`) -/

/-- The loop of `Role.getAllDeps` over the direct dependencies; `getAll` is the
recursive call. -/
def getAllDepsLoop (getAll : World → Nat → Res (List Nat × World)) (r : Nat) :
    List Nat → World → Res World
  | [], w => .ok w
  | dep :: rest, w =>
    match getAll w dep with
    | .error e => .error e
    | .ok (ds, w1) =>
      getAllDepsLoop getAll r rest
        (w1.modifyRole r fun c => { c with allDeps := c.allDeps ++ ds ++ [dep] })

/-- The method `Role.getAllDeps`: the memoised list when it is not empty, else
the transitive dependencies, each dependency after its own. -/
def getAllDeps : Nat → World → Nat → Res (List Nat × World)
  | 0, _, _ => .error .outOfFuel
  | fuel + 1, w, r =>
    match w.role r with
    | .error e => .error e
    | .ok role =>
      if role.allDeps.length > 0 then .ok (role.allDeps, w)
      else
        match getAllDepsLoop (getAllDeps fuel) r role.getDirectDeps w with
        | .error e => .error e
        | .ok w1 =>
          match w1.role r with
          | .error e => .error e
          | .ok role1 => .ok (role1.allDeps, w1)

/-- The loop of `Role.LoadDefaultVars` over the transitive dependencies. -/
def loadDefaultVarsLoop (load : World → Nat → Res (Variables × World)) :
    List Nat → Variables → World → Res (Variables × World)
  | [], vars, w => .ok (vars, w)
  | dep :: rest, vars, w =>
    match load w dep with
    | .error e => .error e
    | .ok (dv, w1) => loadDefaultVarsLoop load rest (loAssign vars dv) w1

/-- The method `Role.LoadDefaultVars`. -/
def LoadDefaultVars : Nat → World → Nat → Res (Variables × World)
  | 0, _, _ => .error .outOfFuel
  | fuel + 1, w, r =>
    match getAllDeps (fuel + 1) w r with
    | .error e => .error e
    | .ok (deps, w1) =>
      match loadDefaultVarsLoop (LoadDefaultVars fuel) deps [] w1 with
      | .error e => .error e
      | .ok (vars, w2) =>
        match w2.role r with
        | .error e => .error e
        | .ok role => .ok (loAssign vars role.defaults, w2)

/-- The first loop of `GetVars`: the default variables of the roles of the play. -/
def roleDefaultsLoop (fuel : Nat) : List Nat → Variables → World → Res (Variables × World)
  | [], res, w => .ok (res, w)
  | role :: rest, res, w =>
    match LoadDefaultVars fuel w role with
    | .error e => .error e
    | .ok (dv, w1) => roleDefaultsLoop fuel rest (loAssign res dv) w1

/-- The loop of `GetVars` over the vars files of the play; a file that does not
load panics, as does a play without loader. -/
def varsFilesLoop (w : World) (play : Play) : List String → Variables → Res Variables
  | [], res => .ok res
  | varsFile :: rest, res =>
    if !play.dataloader then .error (.panic "invalid memory address or nil pointer dereference")
    else
      match LoadPlayVarsFile w play.GetPath varsFile with
      | .error e => .error (.panic e)
      | .ok f => varsFilesLoop w play rest (loAssign res f)

/-- The last loop of `GetVars` over the roles of the play: their own variables. -/
def roleVarsLoop (w : World) : List Nat → Variables → Res Variables
  | [], res => .ok res
  | role :: rest, res =>
    match w.role role with
    | .error e => .error e
    | .ok r => roleVarsLoop w rest (loAssign res r.Vars)

/-- The part of `GetVars` for a play that is not nil: the default variables of
its roles, its own variables, its vars files, the variables of its roles. -/
def playVars (fuel : Nat) (w : World) (p : Nat) : Res (Variables × World) :=
  match w.play p with
  | .error e => .error e
  | .ok pl =>
    match roleDefaultsLoop fuel pl.GetRoles [] w with
    | .error e => .error e
    | .ok (res, w1) =>
      match varsFilesLoop w1 pl pl.GetVarsFiles (loAssign res pl.GetVars) with
      | .error e => .error e
      | .ok res1 =>
        match roleVarsLoop w1 pl.GetRoles res1 with
        | .error e => .error e
        | .ok res2 => .ok (res2, w1)

/-- The part of `GetVars` for a task that is not nil: the variables of its role,
then its own. -/
def taskVars (w : World) (res : Variables) (t : Task) : Res Variables :=
  match t.Role with
  | none => .ok (loAssign res t.Vars)
  | some r =>
    match w.role r with
    | .error e => .error e
    | .ok role => .ok (loAssign (loAssign res role.Vars) t.Vars)

/-- The method `VariableResolver.GetVars`. -/
def GetVars (fuel : Nat) (w : World) (play : Option Nat) (task : Option Task) :
    Res (Variables × World) :=
  let fromPlay : Res (Variables × World) :=
    match play with
    | none => .ok ([], w)
    | some p => playVars fuel w p
  match fromPlay with
  | .error e => .error e
  | .ok (res, w1) =>
    match task with
    | none => .ok (res, w1)
    | some t =>
      match taskVars w1 res t with
      | .error e => .error e
      | .ok vars => .ok (vars, w1)

/-! ## Actions, parameters and templates (`task.go`) -/

/-- The constant `ansibleBuiltinPrefix`. -/
def ansibleBuiltinPrefix : String := "ansible.builtin."

/-- The constant `includeRoleAction`. -/
def includeRoleAction : String := "include_role"

/-- The constant `importRoleAction`. -/
def importRoleAction : String := "import_role"

/-- The constant `includeTasksAction`. -/
def includeTasksAction : String := "include_tasks"

/-- The constant `importTasksAction`. -/
def importTasksAction : String := "import_tasks"

/-- The function `applyBuiltinPrefix`. -/
def applyBuiltinPrefix (action : String) : String := ansibleBuiltinPrefix ++ action

/-- The function `applyBuiltinPrefixAll`. -/
def applyBuiltinPrefixAll (actions : List String) : List String :=
  actions ++ actions.map applyBuiltinPrefix

/-- The type `Module`. -/
abbrev Module := List (String × Value)

/-- The method `Module.ToStringMap`: the entries whose value is a string. -/
def Module.ToStringMap (m : Module) : List (String × String) :=
  m.filterMap fun kv =>
    match kv.2 with
    | .str s => some (kv.1, s)
    | _ => none

/-- The method `Task.Play`: the play of the role when there is a role. -/
def Task.Play (w : World) (t : Task) : Res (Option Nat) :=
  match t.data.role with
  | some r =>
    match w.role r with
    | .ok role => .ok role.play
    | .error e => .error e
  | none => .ok t.data.play

mutual
/-- The method `Task.renderVariable`: strings are evaluated as templates,
sequences and mappings are rendered element by element, other values are
returned as they are. -/
def renderVariable (ev : String → Variables → Except String String) (vars : Variables) :
    Value → Except String Value
  | .str v =>
    match ev v vars with
    | .ok rendered => .ok (.str rendered)
    | .error e => .error e
  | .list v =>
    match renderList ev vars v with
    | .ok res => .ok (.list res)
    | .error e => .error e
  | .map v =>
    match renderMap ev vars v with
    | .ok res => .ok (.map res)
    | .error e => .error e
  | .null => .ok .null
  | .bool b => .ok (.bool b)
  | .int i => .ok (.int i)
  | .float r => .ok (.float r)
/-- The loop of `renderVariable` over a sequence. -/
def renderList (ev : String → Variables → Except String String) (vars : Variables) :
    List Value → Except String (List Value)
  | [] => .ok []
  | vv :: rest =>
    match renderVariable ev vars vv with
    | .error e => .error e
    | .ok rendered =>
      match renderList ev vars rest with
      | .error e => .error e
      | .ok res => .ok (rendered :: res)
/-- The loop of `renderVariable` (and of `Module`) over a mapping. -/
def renderMap (ev : String → Variables → Except String String) (vars : Variables) :
    List (String × Value) → Except String (List (String × Value))
  | [] => .ok []
  | (k, vv) :: rest =>
    match renderVariable ev vars vv with
    | .error e => .error e
    | .ok rendered =>
      match renderMap ev vars rest with
      | .error e => .error e
      | .ok res => .ok ((k, rendered) :: res)
end

/-- The expression `t.varResolver.GetVars(t.Play(), t)`. -/
def Task.resolveVars (fuel : Nat) (w : World) (t : Task) : Res (Variables × World) :=
  match t.Play w with
  | .error e => .error e
  | .ok play => GetVars fuel w play (some t)

/-- The method `Task.isModuleFreeForm`: the rendered parameter when the raw
value of the key is a string that renders. -/
def Task.isModuleFreeForm (fuel : Nat) (w : World) (t : Task) (moduleName : String) :
    Res (Option String × World) :=
  match mapGet t.data.raw moduleName with
  | some (.str param) =>
    match t.resolveVars fuel w with
    | .error e => .error e
    | .ok (vars, w1) =>
      match w.evaluate param vars with
      | .ok val => .ok (some val, w1)
      | .error _ => .ok (none, w1)
  | _ => .ok (none, w)

/-- The variables `Task.Module` renders against: the cached ones, else the
resolved ones, which are then cached in the task. -/
def Task.moduleVars (fuel : Nat) (w : World) (t : Task) : Res (Variables × Task × World) :=
  match t.data.cachedVars with
  | some vars => .ok (vars, t, w)
  | none =>
    match t.resolveVars fuel w with
    | .error e => .error e
    | .ok (vars, w1) => .ok (vars, .mk { t.data with cachedVars := some vars } t.block, w1)

/-- The method `Task.Module`: the rendered parameters when the raw value of the
key is a mapping. -/
def Task.Module (fuel : Nat) (w : World) (t : Task) (moduleName : String) :
    Res (Option Module × Task × World) :=
  match mapGet t.data.raw moduleName with
  | some (.map params) =>
    match t.moduleVars fuel w with
    | .error e => .error e
    | .ok (vars, t1, w1) =>
      match renderMap w.evaluate vars params with
      | .ok module => .ok (some module, t1, w1)
      | .error _ => .ok (none, t1, w1)
  | _ => .ok (none, t, w)

/-- The method `Task.actionOneOf`. -/
def Task.actionOneOf (t : Task) (actions : List String) : Bool :=
  actions.any fun action => (mapGet t.data.raw action).isSome

/-- The method `Task.isTaskInclude`. -/
def Task.isTaskInclude (t : Task) : Bool :=
  t.actionOneOf (applyBuiltinPrefixAll [importTasksAction, includeTasksAction])

/-- The method `Task.isRoleInclude`. -/
def Task.isRoleInclude (t : Task) : Bool :=
  t.actionOneOf (applyBuiltinPrefixAll [importRoleAction, includeRoleAction])

/-- The method `Task.IsBlock`. -/
def Task.IsBlock (t : Task) : Bool := t.block.length > 0

/-! ## Decoding include parameters (`mapstructure.Decode`) -/

/-- The struct tag `mapstructure.Decode` reads: the default `TagName` of its configuration. -/
def mapstructureTagName : String := "mapstructure"

/-- A struct field as declared in the source: its Go name and its struct tag. -/
structure Field where
  name : String
  tagKey : String
  tagValue : String

/-- The map key the decoder looks for: the value of the tag it reads when the
field carries one, else the name of the field. -/
def Field.key (f : Field) : String :=
  if f.tagKey = mapstructureTagName ∧ f.tagValue ≠ "" then f.tagValue else f.name

/-- The function `strings.EqualFold` on ASCII letters. -/
def equalFold (a b : String) : Bool :=
  a.data.map Char.toLower = b.data.map Char.toLower

/-- The map entry the decoder assigns to a field: the entry of the exact key,
else an entry whose key matches without regard to case (the first in the order
of the list, where Go takes any). -/
def fieldValue (m : List (String × String)) (f : Field) : Option String :=
  match mapGet m f.key with
  | some v => some v
  | none => (m.find? fun kv => equalFold kv.1 f.key).map Prod.snd

/-- The struct `TaskInclude`. -/
structure TaskInclude where
  File : String
  deriving DecidableEq, Repr

/-- The field `File string` with tag `mapstruct:"file"`. -/
def TaskInclude.fileField : Field := { name := "File", tagKey := "mapstruct", tagValue := "file" }

/-- The call `mapstructure.Decode(rawModule, &module)` for a `TaskInclude`. -/
def decodeTaskInclude (rawModule : List (String × String)) : Except String TaskInclude :=
  .ok { File := (fieldValue rawModule TaskInclude.fileField).getD "" }

/-- The struct `RoleIncludeModule`. -/
structure RoleIncludeModule where
  Name : String
  TasksFrom : String
  DefaultsFrom : String
  VarsFrom : String
  Public : Bool
  deriving DecidableEq, Repr

/-- The field `Name string` with tag `mapstruct:"name"`. -/
def RoleIncludeModule.nameField : Field :=
  { name := "Name", tagKey := "mapstruct", tagValue := "name" }

/-- The field `TasksFrom string` with tag `mapstruct:"tasks_from"`. -/
def RoleIncludeModule.tasksFromField : Field :=
  { name := "TasksFrom", tagKey := "mapstruct", tagValue := "tasks_from" }

/-- The field `DefaultsFrom string` with tag `mapstruct:"defaults_from"`. -/
def RoleIncludeModule.defaultsFromField : Field :=
  { name := "DefaultsFrom", tagKey := "mapstruct", tagValue := "defaults_from" }

/-- The field `VarsFrom string` with tag `mapstruct:"vars_from"`. -/
def RoleIncludeModule.varsFromField : Field :=
  { name := "VarsFrom", tagKey := "mapstruct", tagValue := "vars_from" }

/-- The field `Public bool` with tag `mapstruct:"public"`. -/
def RoleIncludeModule.publicField : Field :=
  { name := "Public", tagKey := "mapstruct", tagValue := "public" }

/-- The call `mapstructure.Decode(rawModule, &module)` for a `RoleIncludeModule`:
the source map holds strings, which the decoder does not convert to `bool`. -/
def decodeRoleIncludeModule (rawModule : List (String × String)) :
    Except String RoleIncludeModule :=
  match fieldValue rawModule RoleIncludeModule.publicField with
  | some _ => .error "'Public' expected type 'bool', got unconvertible type 'string'"
  | none =>
    .ok { Name := (fieldValue rawModule RoleIncludeModule.nameField).getD ""
          TasksFrom := (fieldValue rawModule RoleIncludeModule.tasksFromField).getD ""
          DefaultsFrom := (fieldValue rawModule RoleIncludeModule.defaultsFromField).getD ""
          VarsFrom := (fieldValue rawModule RoleIncludeModule.varsFromField).getD ""
          Public := false }

/-! ## Compilation (`Task.Compile`, `Tasks.Compile`, `Role.Compile`) -/

/-- What compiling a task gives: the resulting tasks, the task itself after the
call (its cached variables may have been set) and the world after the call. -/
structure Compiled where
  out : Tasks
  task : Task
  world : World

/-- What compiling a list of tasks gives. -/
structure CompiledTasks where
  out : Tasks
  tasks : List Task
  world : World

/-- What compiling a role gives. -/
structure CompiledRole where
  out : Tasks
  world : World

/-- A recursive call of `Task.Compile`. -/
abbrev TaskCompiler := World → Task → Res Compiled

/-- A recursive call of `Role.Compile`. -/
abbrev RoleCompiler := World → Nat → Res CompiledRole

/-- The loop `for _, task := range tasks { res = append(res, task.Compile()...) }`. -/
def compileEach (c : TaskCompiler) : List Task → World → Res CompiledTasks
  | [], w => .ok { out := [], tasks := [], world := w }
  | task :: rest, w =>
    match c w task with
    | .error e => .error e
    | .ok r1 =>
      match compileEach c rest r1.world with
      | .error e => .error e
      | .ok r2 =>
        .ok { out := r1.out ++ r2.out, tasks := r1.task :: r2.tasks, world := r2.world }

/-- The method `Task.compileBlockTasks`. -/
def Task.compileBlockTasks (c : TaskCompiler) (w : World) (t : Task) : Res Compiled :=
  match compileEach c t.block w with
  | .error e => .error e
  | .ok r => .ok { out := r.out, task := .mk t.data r.tasks, world := r.world }

/-- The loop that builds `rawModule` in `compileTaskInclude` and
`compileRoleInclude`: a free-form parameter sets the key `file`, a mapping
parameter replaces the map by its string entries. -/
def moduleParams (fuel : Nat) : List String → List (String × String) → Task → World →
    Res (List (String × String) × Task × World)
  | [], rawModule, t, w => .ok (rawModule, t, w)
  | action :: rest, rawModule, t, w =>
    match t.isModuleFreeForm fuel w action with
    | .error e => .error e
    | .ok (some val, w1) => moduleParams fuel rest (mapSet rawModule "file" val) t w1
    | .ok (none, w1) =>
      match t.Module fuel w1 action with
      | .error e => .error e
      | .ok (some val, t1, w2) => moduleParams fuel rest val.ToStringMap t1 w2
      | .ok (none, t1, w2) => moduleParams fuel rest rawModule t1 w2

/-- The first half of `compileTaskInclude`: the path `tasksFile` given to `LoadTasks`. -/
def Task.tasksFile (fuel : Nat) (w : World) (t : Task) : Res (String × Task × World) :=
  match moduleParams fuel (applyBuiltinPrefixAll [includeTasksAction, importTasksAction]) [] t w with
  | .error e => .error e
  | .ok (rawModule, t1, w1) =>
    match decodeTaskInclude rawModule with
    | .error e => .error (.panic e)
    | .ok module =>
      .ok (filepathJoin [filepathDir t1.data.metadata.path, module.File], t1, w1)

/-- The method `Task.compileTaskInclude`. -/
def Task.compileTaskInclude (fuel : Nat) (c : TaskCompiler) (w : World) (t : Task) :
    Res Compiled :=
  match t.tasksFile fuel w with
  | .error e => .error e
  | .ok (tasksFile, t1, w1) =>
    if !t1.data.dataloader then .error (.panic "invalid memory address or nil pointer dereference")
    else
      match LoadTasks w1 (some (.task t1.data.addr)) t1.data.role tasksFile with
      | .error e => .error e
      | .ok (.error e, _) => .error (.panic e)
      | .ok (.ok loadedTasks, w2) =>
        match compileEach c (loadedTasks.map fun task => task.updateParent t1) w2 with
        | .error e => .error e
        | .ok r => .ok { out := r.out, task := t1, world := r.world }

/-- The first half of `compileRoleInclude`: the decoded module. -/
def Task.roleIncludeModule (fuel : Nat) (w : World) (t : Task) :
    Res (RoleIncludeModule × Task × World) :=
  match moduleParams fuel (applyBuiltinPrefixAll [includeRoleAction, importRoleAction]) [] t w with
  | .error e => .error e
  | .ok (rawModule, t1, w1) =>
    match decodeRoleIncludeModule rawModule with
    | .error e => .error (.panic e)
    | .ok module => .ok (module, t1, w1)

/-- The options `compileRoleInclude` passes to `LoadRoleWithOptions`. -/
def roleIncludeOptions (module : RoleIncludeModule) : LoadRoleOptions :=
  { TasksFile := module.TasksFrom
    DefaultsFile := module.Name
    VarsFile := module.VarsFrom }

/-- The method `Task.compileRoleInclude`. -/
def Task.compileRoleInclude (fuel : Nat) (rc : RoleCompiler) (w : World) (t : Task) :
    Res Compiled :=
  match t.roleIncludeModule fuel w with
  | .error e => .error e
  | .ok (module, t1, w1) =>
    match t1.data.role with
    | none => .error (.panic "invalid memory address or nil pointer dereference")
    | some rolePtr =>
      match w1.role rolePtr with
      | .error e => .error e
      | .ok role =>
        if !t1.data.dataloader then
          .error (.panic "invalid memory address or nil pointer dereference")
        else
          match LoadRoleWithOptions w1 (some (.task t1.data.addr)) role.play module.Name
              (roleIncludeOptions module) with
          | .error e => .error e
          | .ok (.error e, _) => .error (.panic e)
          | .ok (.ok r, w2) =>
            match rc w2 r with
            | .error e => .error e
            | .ok cr =>
              .ok { out := cr.out.map fun task => task.updateParent t1, task := t1, world := cr.world }

/-- The method `Task.Compile`, with its recursive calls as parameters. -/
def Task.compileWith (fuel : Nat) (c : TaskCompiler) (rc : RoleCompiler) (w : World) (t : Task) :
    Res Compiled :=
  if t.block.length > 0 then t.compileBlockTasks c w
  else if t.isTaskInclude then t.compileTaskInclude fuel c w
  else if t.isRoleInclude then t.compileRoleInclude fuel rc w
  else .ok { out := [t], task := t, world := w }

/-- The method `Role.loadDeps`: each declared dependency is loaded and appended
to the direct dependencies. -/
def loadDeps (r : Nat) : List (Option RoleDefinition) → World → Res World
  | [], w => .ok w
  | none :: _, _ => .error (.panic "invalid memory address or nil pointer dereference")
  | some dep :: rest, w =>
    match w.role r with
    | .error e => .error e
    | .ok role =>
      if !role.dataloader then .error (.panic "invalid memory address or nil pointer dereference")
      else
        match LoadRole w (some (.roleMeta r)) role.play dep.GetName with
        | .error e => .error e
        | .ok (.error e, _) => .error (.panic e)
        | .ok (.ok depRole, w1) =>
          loadDeps r rest (w1.modifyRole r fun c => { c with directDeps := c.directDeps ++ [depRole] })

/-- The loop of `Role.Compile` over the direct dependencies. -/
def compileDeps (rc : RoleCompiler) : List Nat → World → Res CompiledRole
  | [], w => .ok { out := [], world := w }
  | dep :: rest, w =>
    match rc w dep with
    | .error e => .error e
    | .ok r1 =>
      match compileDeps rc rest r1.world with
      | .error e => .error e
      | .ok r2 => .ok { out := r1.out ++ r2.out, world := r2.world }

/-- The method `Role.Compile`, with its recursive calls as parameters. -/
def Role.compileWith (c : TaskCompiler) (rc : RoleCompiler) (w : World) (r : Nat) :
    Res CompiledRole := do
  let role ← w.role r
  let w1 ← loadDeps r role.meta.Dependencies w
  let role1 ← w1.role r
  let deps ← compileDeps rc role1.getDirectDeps w1
  let role2 ← deps.world.role r
  let own ← compileEach c role2.tasks deps.world
  pure { out := deps.out ++ own.out
         world := own.world.modifyRole r fun cell => { cell with tasks := own.tasks } }

/-- The compilers with `fuel` levels of recursion left. -/
def compileFuel : Nat → TaskCompiler × RoleCompiler
  | 0 => (fun _ _ => .error .outOfFuel, fun _ _ => .error .outOfFuel)
  | fuel + 1 =>
    (Task.compileWith (fuel + 1) (compileFuel fuel).1 (compileFuel fuel).2,
     Role.compileWith (compileFuel fuel).1 (compileFuel fuel).2)

/-- The method `Task.Compile`. -/
def Task.Compile (fuel : Nat) (w : World) (t : Task) : Res Compiled :=
  (compileFuel fuel).1 w t

/-- The method `Role.Compile`. -/
def Role.Compile (fuel : Nat) (w : World) (r : Nat) : Res CompiledRole :=
  (compileFuel fuel).2 w r

/-- The method `Tasks.Compile`. -/
def Tasks.Compile (fuel : Nat) (w : World) (ts : Tasks) : Res CompiledTasks :=
  compileEach (Task.Compile fuel) ts w

/-! ## The expanded tree (specification of compilation)

The specification describes the result of compilation as the leaves of the
task tree in which every block, task include and role include is replaced by
what it expands to.  The definitions below build that tree explicitly, with
the same loader calls as the code; they are compared with `Task.Compile` in
the theorems. -/

/-- A fully expanded task tree: a leaf task, or the expansion of a block, of
an included file or of an included role. -/
inductive Expansion where
  | leaf (t : Task)
  | node (children : List Expansion)

mutual
/-- The leaves of an expanded tree, read left to right. -/
def Expansion.leaves : Expansion → List Task
  | .leaf t => [t]
  | .node children => leavesOfAll children
/-- The leaves of a list of expanded trees, read left to right. -/
def leavesOfAll : List Expansion → List Task
  | [] => []
  | e :: es => e.leaves ++ leavesOfAll es
end

mutual
/-- Applies `f` to every leaf of an expanded tree. -/
def Expansion.mapLeaves (f : Task → Task) : Expansion → Expansion
  | .leaf t => .leaf (f t)
  | .node children => .node (mapLeavesOfAll f children)
/-- Applies `f` to every leaf of a list of expanded trees. -/
def mapLeavesOfAll (f : Task → Task) : List Expansion → List Expansion
  | [] => []
  | e :: es => e.mapLeaves f :: mapLeavesOfAll f es
end

/-- What expanding a task gives. -/
structure Expanded where
  tree : Expansion
  task : Task
  world : World

/-- What expanding a list of tasks gives. -/
structure ExpandedTasks where
  trees : List Expansion
  tasks : List Task
  world : World

/-- What expanding a role gives. -/
structure ExpandedRole where
  trees : List Expansion
  world : World

/-- A recursive expansion of a task. -/
abbrev TaskExpander := World → Task → Res Expanded

/-- A recursive expansion of a role. -/
abbrev RoleExpander := World → Nat → Res ExpandedRole

/-- The expansions of the tasks of a list, in declared order. -/
def expandEach (x : TaskExpander) : List Task → World → Res ExpandedTasks
  | [], w => .ok { trees := [], tasks := [], world := w }
  | task :: rest, w =>
    match x w task with
    | .error e => .error e
    | .ok r1 =>
      match expandEach x rest r1.world with
      | .error e => .error e
      | .ok r2 =>
        .ok { trees := r1.tree :: r2.trees, tasks := r1.task :: r2.tasks, world := r2.world }

/-- The expansion of a task: the four forms in their priority order. A block
expands to the expansions of its children; a task include to those of the
tasks loaded from its target file, each with this task as parent; a role
include to the expansion of the role, every leaf with this task as parent; any
other task is a leaf. -/
def Task.expandWith (fuel : Nat) (x : TaskExpander) (rx : RoleExpander) (w : World) (t : Task) :
    Res Expanded :=
  if t.block.length > 0 then
    match expandEach x t.block w with
    | .error e => .error e
    | .ok r => .ok { tree := .node r.trees, task := .mk t.data r.tasks, world := r.world }
  else if t.isTaskInclude then
    match t.tasksFile fuel w with
    | .error e => .error e
    | .ok (tasksFile, t1, w1) =>
      if !t1.data.dataloader then .error (.panic "invalid memory address or nil pointer dereference")
      else
        match LoadTasks w1 (some (.task t1.data.addr)) t1.data.role tasksFile with
        | .error e => .error e
        | .ok (.error e, _) => .error (.panic e)
        | .ok (.ok loadedTasks, w2) =>
          match expandEach x (loadedTasks.map fun task => task.updateParent t1) w2 with
          | .error e => .error e
          | .ok r => .ok { tree := .node r.trees, task := t1, world := r.world }
  else if t.isRoleInclude then
    match t.roleIncludeModule fuel w with
    | .error e => .error e
    | .ok (module, t1, w1) =>
      match t1.data.role with
      | none => .error (.panic "invalid memory address or nil pointer dereference")
      | some rolePtr =>
        match w1.role rolePtr with
        | .error e => .error e
        | .ok role =>
          if !t1.data.dataloader then
            .error (.panic "invalid memory address or nil pointer dereference")
          else
            match LoadRoleWithOptions w1 (some (.task t1.data.addr)) role.play module.Name
                (roleIncludeOptions module) with
            | .error e => .error e
            | .ok (.error e, _) => .error (.panic e)
            | .ok (.ok r, w2) =>
              match rx w2 r with
              | .error e => .error e
              | .ok er =>
                .ok { tree := .node (mapLeavesOfAll (fun task => task.updateParent t1) er.trees)
                      task := t1, world := er.world }
  else .ok { tree := .leaf t, task := t, world := w }

/-- The expansions of the direct dependencies of a role, in declared order. -/
def expandDeps (rx : RoleExpander) : List Nat → World → Res ExpandedRole
  | [], w => .ok { trees := [], world := w }
  | dep :: rest, w =>
    match rx w dep with
    | .error e => .error e
    | .ok r1 =>
      match expandDeps rx rest r1.world with
      | .error e => .error e
      | .ok r2 => .ok { trees := r1.trees ++ r2.trees, world := r2.world }

/-- The expansion of a role: its dependencies first, then its own tasks. -/
def Role.expandWith (x : TaskExpander) (rx : RoleExpander) (w : World) (r : Nat) :
    Res ExpandedRole := do
  let role ← w.role r
  let w1 ← loadDeps r role.meta.Dependencies w
  let role1 ← w1.role r
  let deps ← expandDeps rx role1.getDirectDeps w1
  let role2 ← deps.world.role r
  let own ← expandEach x role2.tasks deps.world
  pure { trees := deps.trees ++ own.trees
         world := own.world.modifyRole r fun cell => { cell with tasks := own.tasks } }

/-- The expanders with `fuel` levels of recursion left. -/
def expandFuel : Nat → TaskExpander × RoleExpander
  | 0 => (fun _ _ => .error .outOfFuel, fun _ _ => .error .outOfFuel)
  | fuel + 1 =>
    (Task.expandWith (fuel + 1) (expandFuel fuel).1 (expandFuel fuel).2,
     Role.expandWith (expandFuel fuel).1 (expandFuel fuel).2)

/-- The fully expanded tree of a task. -/
def Task.expand (fuel : Nat) (w : World) (t : Task) : Res Expanded :=
  (expandFuel fuel).1 w t

/-- The fully expanded trees of a list of tasks. -/
def Tasks.expand (fuel : Nat) (w : World) (ts : Tasks) : Res ExpandedTasks :=
  expandEach (Task.expand fuel) ts w

/-- The view of an expansion that compilation returns: its leaves. -/
def Expanded.flatten (e : Expanded) : Compiled :=
  { out := e.tree.leaves, task := e.task, world := e.world }

/-- The view of the expansions of a list that compilation returns. -/
def ExpandedTasks.flatten (e : ExpandedTasks) : CompiledTasks :=
  { out := leavesOfAll e.trees, tasks := e.tasks, world := e.world }

/-- The view of the expansion of a role that compilation returns. -/
def ExpandedRole.flatten (e : ExpandedRole) : CompiledRole :=
  { out := leavesOfAll e.trees, world := e.world }

/-! ## Trees of blocks and leaf tasks -/

/-- A task that takes the leaf form: no block and no include action. -/
def Task.isLeaf (t : Task) : Bool :=
  t.block.isEmpty && !t.isTaskInclude && !t.isRoleInclude

mutual
/-- A tree built only from blocks and leaf tasks: every task without block is a leaf. -/
def Task.blocksOnly : Task → Bool
  | .mk d [] => Task.isLeaf (.mk d [])
  | .mk _ (b :: bs) => Task.blocksOnly b && allBlocksOnly bs
/-- All trees of the list are built only from blocks and leaf tasks. -/
def allBlocksOnly : List Task → Bool
  | [] => true
  | t :: ts => Task.blocksOnly t && allBlocksOnly ts
end

mutual
/-- The leaves of a tree of blocks, read left to right. -/
def Task.leaves : Task → List Task
  | .mk d [] => [.mk d []]
  | .mk _ (b :: bs) => Task.leaves b ++ leavesOfTasks bs
/-- The leaves of a list of trees, read left to right. -/
def leavesOfTasks : List Task → List Task
  | [] => []
  | t :: ts => Task.leaves t ++ leavesOfTasks ts
end

mutual
/-- The number of leaves of a tree of blocks. -/
def Task.numLeaves : Task → Nat
  | .mk _ [] => 1
  | .mk _ (b :: bs) => Task.numLeaves b + numLeavesOfTasks bs
/-- The number of leaves of a list of trees. -/
def numLeavesOfTasks : List Task → Nat
  | [] => 0
  | t :: ts => Task.numLeaves t + numLeavesOfTasks ts
end

mutual
/-- The height of a tree of blocks; a leaf has height one. -/
def Task.height : Task → Nat
  | .mk _ [] => 1
  | .mk _ (b :: bs) => max (Task.height b) (heightOfTasks bs) + 1
/-- The largest height in a list of trees. -/
def heightOfTasks : List Task → Nat
  | [] => 0
  | t :: ts => max (Task.height t) (heightOfTasks ts)
end

/-! ## Plays and playbooks (`types.go`, `LoadPlaybook`) -/

/-- The method `Play.GetMetadata`. -/
def Play.GetMetadata (p : Play) : Metadata := p.metadata

/-- The method `Play.GetRoleDefinitions`. -/
def Play.GetRoleDefinitions (p : Play) : List RoleDefinition := p.roleDefinitions

/-- The method `Play.listTasks`. -/
def Play.listTasks (p : Play) : Tasks := p.preTasks ++ p.tasks ++ p.postTasks

/-- The loop of `Play.isIncludePlaybook`: the first key present decides, and
its value is the path when it is a string. -/
def includePlaybookPath (raw : List (String × Value)) : List String → Option String
  | [] => none
  | k :: rest =>
    match mapGet raw k with
    | none => includePlaybookPath raw rest
    | some (.str playbookPath) => some playbookPath
    | some _ => none

/-- The method `Play.isIncludePlaybook`: the path when the second result is true. -/
def Play.isIncludePlaybook (p : Play) : Option String :=
  includePlaybookPath p.raw (applyBuiltinPrefixAll ["import_playbook", "include_playbook"])

/-- A `Play` as the decoder fills it, before `LoadPlaybook` links it: a null
item of a list is a nil pointer. -/
structure PlayDoc where
  metadata : Metadata
  raw : List (String × Value)
  name : String
  importPlaybook : String
  hosts : String
  roleDefinitions : List (Option RoleDefinition)
  preTasks : List (Option Task)
  tasks : List (Option Task)
  postTasks : List (Option Task)
  vars : Variables
  varFiles : List String

/-- Decoding the items of a `[]string`. -/
def decodeStrings : List Node → Except String (List String)
  | [] => .ok []
  | n :: ns => consDecoded n.toStringField (decodeStrings ns)

/-- Decoding a node into a `[]string` field. -/
def Node.toStrings : Node → Except String (List String)
  | .seq _ items => decodeStrings items
  | .scalar _ .null _ => .ok []
  | _ => .error "cannot unmarshal into []string"

/-- Decoding the entry `key` of a mapping into a `[]*Task` field. -/
def decodeTasksField (entries : List (String × Node)) (key : String) (addr : Nat) :
    Res (Except String (List (Option Task)) × Nat) :=
  match mapGet entries key with
  | none => .ok (.ok [], addr)
  | some n => decodeTasks n addr

/-- The method `Play.UnmarshalYAML` on a node, allocating task objects from `addr` on. -/
def decodePlay (node : Node) (addr : Nat) : Res (Except String PlayDoc × Nat) :=
  match node with
  | .map _ entries =>
    if hasDupKeys entries then .ok (.error "mapping key already defined", addr)
    else
      match entriesToValues entries with
      | .error e => .ok (.error e, addr)
      | .ok raw =>
        match decodeTasksField entries "pre_tasks" addr with
        | .error e => .error e
        | .ok (pre, a1) =>
          match decodeTasksField entries "tasks" a1 with
          | .error e => .error e
          | .ok (tasks, a2) =>
            match decodeTasksField entries "post_tasks" a2 with
            | .error e => .error e
            | .ok (post, a3) =>
              match fieldOf entries "name" "" Node.toStringField,
                    fieldOf entries "import_playbook" "" Node.toStringField,
                    fieldOf entries "hosts" "" Node.toStringField,
                    fieldOf entries "roles" [] Node.toRoleDefinitions,
                    fieldOf entries "vars" [] Node.toStringMap,
                    fieldOf entries "var_files" [] Node.toStrings,
                    pre, tasks, post with
              | .ok name, .ok imp, .ok hosts, .ok roles, .ok vars, .ok files,
                .ok pre, .ok tasks, .ok post =>
                .ok (.ok { metadata := { path := "", rng := RangeFromNode node, parent := none }
                           raw := raw, name := name, importPlaybook := imp, hosts := hosts
                           roleDefinitions := roles, preTasks := pre, tasks := tasks
                           postTasks := post, vars := vars, varFiles := files }, a3)
              | _, _, _, _, _, _, _, _, _ => .ok (.error "cannot unmarshal into playInner", a3)
  | _ => .ok (.error "cannot unmarshal into map[string]interface {}", addr)

/-- Decoding the items of a `Playbook`: a null item gives the nil pointer. -/
def decodePlays : List Node → Nat → Res (Except String (List (Option PlayDoc)) × Nat)
  | [], addr => .ok (.ok [], addr)
  | n :: ns, addr =>
    if n.isNull then
      match decodePlays ns addr with
      | .error e => .error e
      | .ok (rest, next) => .ok (consDecoded (.ok none) rest, next)
    else
      match decodePlay n addr with
      | .error e => .error e
      | .ok (p, mid) =>
        match decodePlays ns mid with
        | .error e => .error e
        | .ok (rest, next) => .ok (consDecoded (p.map some) rest, next)

/-- Decoding a document into a `Playbook`; `none` is the nil playbook of a null document. -/
def decodePlaybook (node : Node) (addr : Nat) :
    Res (Except String (Option (List (Option PlayDoc))) × Nat) :=
  match node with
  | .seq _ items =>
    match decodePlays items addr with
    | .error e => .error e
    | .ok (plays, next) => .ok (plays.map some, next)
  | .scalar _ .null _ => .ok (.ok none, addr)
  | _ => .ok (.error "cannot unmarshal into Playbook", addr)

/-- The pointers of a list when none is nil. -/
def allSome {α : Type} : List (Option α) → Option (List α)
  | [] => some []
  | none :: _ => none
  | some a :: rest => (allSome rest).map fun as => a :: as

/-- The method `Play.UpdateMetadata` together with `play.dataloader = l`, on a
decoded play: parent and path of the play, of its role definitions and of the
tasks of its lists. `ptr` is the address of the play; `none` when a nil
pointer is dereferenced. -/
def PlayDoc.UpdateMetadata (d : PlayDoc) (ptr : Nat) (parent : Option MetaRef) (path : String) :
    Option Play :=
  match allSome d.roleDefinitions, allSome d.preTasks, allSome d.tasks, allSome d.postTasks with
  | some roleDefs, some pre, some tasks, some post =>
    let stamp : Task → Task := fun task =>
      .mk { task.data with
            metadata := { task.data.metadata with path := path, parent := some (.play ptr) } }
        task.block
    some { metadata := { d.metadata with parent := parent, path := path }
           raw := d.raw, roles := [], dataloader := true
           name := d.name, importPlaybook := d.importPlaybook, hosts := d.hosts
           roleDefinitions := roleDefs.map fun roleDef =>
             { roleDef with
               metadata := { roleDef.metadata with path := path, parent := some (.play ptr) } }
           preTasks := pre.map stamp, tasks := tasks.map stamp, postTasks := post.map stamp
           vars := d.vars, varFiles := d.varFiles }
  | _, _, _, _ => none

/-- The inner loop of `LoadPlaybook`: the roles a play declares are loaded in
order; the first that fails ends the load with its error. -/
def loadPlayRoles (ptr : Nat) : List RoleDefinition → List Nat → World →
    Res (Except String (List Nat) × World)
  | [], roles, w => .ok (.ok roles, w)
  | roleDef :: rest, roles, w =>
    match LoadRole w (some (.play ptr)) (some ptr) roleDef.GetName with
    | .error e => .error e
    | .ok (.error e, w1) => .ok (.error ("failed to load role: " ++ e), w1)
    | .ok (.ok role, w1) => loadPlayRoles ptr rest (roles ++ [role]) w1

/-- The outer loop of `LoadPlaybook` over the decoded plays; a play object
enters the heap when the loop reaches it. -/
def loadPlays (sourceMetadata : Option MetaRef) (path : String) :
    List (Option PlayDoc) → List Nat → World → Res (Except String (List Nat) × World)
  | [], plays, w => .ok (.ok plays, w)
  | none :: _, _, _ => .error (.panic "invalid memory address or nil pointer dereference")
  | some d :: rest, plays, w =>
    let ptr := w.plays.length
    match d.UpdateMetadata ptr sourceMetadata path with
    | none => .error (.panic "invalid memory address or nil pointer dereference")
    | some play =>
      match loadPlayRoles ptr play.GetRoleDefinitions [] { w with plays := w.plays ++ [play] } with
      | .error e => .error e
      | .ok (.error e, w1) => .ok (.error e, w1)
      | .ok (.ok roles, w1) =>
        loadPlays sourceMetadata path rest (plays ++ [ptr])
          (w1.modifyPlay ptr fun p => { p with roles := roles })

/-- The method `DataLoader.LoadPlaybook`. The result `none` is the nil playbook:
the document is not a playbook (or is null). -/
def LoadPlaybook (w : World) (sourceMetadata : Option MetaRef) (path : String) :
    Res (Except String (Option Playbook) × World) :=
  if !w.loader.fsys.stat path then .ok (.error "open: file does not exist", w)
  else
    match w.loader.fsys.readYaml path with
    | .error _ => .ok (.ok none, w)
    | .ok node =>
      match decodePlaybook node w.nextAddr with
      | .error e => .error e
      | .ok (.error _, _) => .ok (.ok none, w)
      | .ok (.ok none, _) => .ok (.ok none, w)
      | .ok (.ok (some docs), next) =>
        match loadPlays sourceMetadata path docs [] { w with nextAddr := next } with
        | .error e => .error e
        | .ok (.error e, w1) => .ok (.error e, w1)
        | .ok (.ok plays, w1) => .ok (.ok (some plays), w1)

/-- A recursive call of `Play.Compile`. -/
abbrev PlayCompiler := World → Nat → Res CompiledRole

/-- The method `Playbook.Compile`, with the compilation of a play as parameter. -/
def Playbook.compileWith (pc : PlayCompiler) : List Nat → World → Res CompiledRole
  | [], w => .ok { out := [], world := w }
  | play :: rest, w =>
    match pc w play with
    | .error e => .error e
    | .ok r1 =>
      match Playbook.compileWith pc rest r1.world with
      | .error e => .error e
      | .ok r2 => .ok { out := r1.out ++ r2.out, world := r2.world }

/-- The method `Play.Compile`, with its recursive call as parameter; tasks and
roles are compiled with `fuel`. The tasks of the play are the objects that
were compiled, so the play holds them as they are after the call. -/
def Play.compileWith (fuel : Nat) (pc : PlayCompiler) (w : World) (p : Nat) : Res CompiledRole :=
  match w.play p with
  | .error e => .error e
  | .ok play =>
    match play.isIncludePlaybook with
    | some playbookPath =>
      if !play.dataloader then .error (.panic "invalid memory address or nil pointer dereference")
      else
        match LoadPlaybook w (some (.play p)) playbookPath with
        | .error e => .error e
        | .ok (.error e, _) => .error (.panic e)
        | .ok (.ok none, w1) => .ok { out := [], world := w1 }
        | .ok (.ok (some included), w1) => Playbook.compileWith pc included w1
    | none =>
      match compileEach (Task.Compile fuel) play.listTasks w with
      | .error e => .error e
      | .ok own =>
        let w1 := own.world.modifyPlay p fun cell =>
          { cell with
            preTasks := own.tasks.take play.preTasks.length
            tasks := (own.tasks.drop play.preTasks.length).take play.tasks.length
            postTasks := own.tasks.drop (play.preTasks.length + play.tasks.length) }
        match w1.play p with
        | .error e => .error e
        | .ok play1 =>
          match compileDeps (Role.Compile fuel) play1.roles w1 with
          | .error e => .error e
          | .ok roles => .ok { out := own.out ++ roles.out, world := roles.world }

/-- The method `Play.Compile`. -/
def Play.Compile : Nat → World → Nat → Res CompiledRole
  | 0, _, _ => .error .outOfFuel
  | fuel + 1, w, p => Play.compileWith fuel (Play.Compile fuel) w p

/-- The method `Playbook.Compile`. -/
def Playbook.Compile (fuel : Nat) (w : World) (plays : Playbook) : Res CompiledRole :=
  Playbook.compileWith (Play.Compile fuel) plays w

/-! ## The project (`types.go`) -/

/-- The struct `AnsibleConfig`. -/
structure AnsibleConfig where
  Inventory : List String
  RolesPath : List String

/-- The struct `AnsibleProject`; its loader is the one of the world, and
`mainPlaybook` is `none` for the nil playbook. -/
structure AnsibleProject where
  path : String
  cfg : AnsibleConfig
  mainPlaybook : Option Playbook
  playbooks : List Playbook

/-- The loop of `ListTasks` over the playbooks of the project. -/
def compilePlaybooks (fuel : Nat) : List Playbook → World → Res CompiledRole
  | [], w => .ok { out := [], world := w }
  | playbook :: rest, w =>
    match Playbook.Compile fuel w playbook with
    | .error e => .error e
    | .ok r1 =>
      match compilePlaybooks fuel rest r1.world with
      | .error e => .error e
      | .ok r2 => .ok { out := r1.out ++ r2.out, world := r2.world }

/-- The method `AnsibleProject.ListTasks`. -/
def AnsibleProject.ListTasks (fuel : Nat) (w : World) (p : AnsibleProject) : Res CompiledRole :=
  match p.mainPlaybook with
  | some mainPlaybook => Playbook.Compile fuel w mainPlaybook
  | none => compilePlaybooks fuel p.playbooks w

/-! ## Parent links of a tree of tasks -/

mutual
/-- Every task in a block has the task of that block as parent, in both links
(`parent` and the parent of the metadata), at every depth of the tree. -/
def Task.linked : Task → Bool
  | .mk d block => childrenLinked d.addr block
/-- Every task of the list has the task at address `a` as parent, and is linked itself. -/
def childrenLinked (a : Nat) : List Task → Bool
  | [] => true
  | c :: cs =>
    decide (c.data.parent = some a) && decide (c.data.metadata.parent = some (.task a)) &&
      Task.linked c && childrenLinked a cs
end

mutual
/-- For each leaf of a tree, left to right, the address of the block task that
immediately encloses it; `outer` for a tree that is a single leaf. -/
def Task.enclosing (outer : Option Nat) : Task → List (Option Nat)
  | .mk _ [] => [outer]
  | .mk d (b :: bs) => Task.enclosing (some d.addr) b ++ enclosingOfTasks (some d.addr) bs
/-- The enclosing blocks of the leaves of a list of trees that lie in the block `outer`. -/
def enclosingOfTasks (outer : Option Nat) : List Task → List (Option Nat)
  | [] => []
  | t :: ts => Task.enclosing outer t ++ enclosingOfTasks outer ts
end

/-! ## Frame conditions on the heap of roles -/

/-- A role without its memoised transitive dependencies. -/
def Role.core (r : Role) : Role := { r with allDeps := [] }

/-- A world without the memoised transitive dependencies of its roles. -/
def World.core (w : World) : World := { w with roles := w.roles.map Role.core }

/-- The role at `p` has no direct dependency yet: `loadDeps` never ran on it. -/
def World.freshRole (w : World) (p : Nat) : Prop :=
  ∃ role, w.roles[p]? = some role ∧ role.directDeps = []

/-- The world `w1` has the plays of `w`, and every role of `w` whose address is
not in `xs` is in `w1` at the same address, the same up to its memoised
dependencies. -/
structure Kept (xs : List Nat) (w w1 : World) : Prop where
  plays : w1.plays = w.plays
  len : w.roles.length ≤ w1.roles.length
  cells : ∀ q, q ∉ xs → ∀ role, w.roles[q]? = some role →
    ∃ role1, w1.roles[q]? = some role1 ∧ role1.core = role.core

/-- The fields of a role that the walk of its directory does not fill. -/
def Role.walkKept (r r1 : Role) : Prop :=
  r1.name = r.name ∧ r1.directDeps = r.directDeps ∧ r1.allDeps = r.allDeps ∧ r1.play = r.play ∧
    r1.dataloader = r.dataloader

/-- Runs `f` on each item in turn, the world of one call given to the next:
the results in order and the last world. -/
def threadEach {α β : Type} (f : World → α → Res (β × World)) :
    List α → World → Res (List β × World)
  | [], w => .ok ([], w)
  | x :: xs, w =>
    match f w x with
    | .error e => .error e
    | .ok (b, w1) =>
      match threadEach f xs w1 with
      | .error e => .error e
      | .ok (bs, w2) => .ok (b :: bs, w2)

/-- The right-biased merge of layers of variables: a later layer wins on a key. -/
def mergeLayers (layers : List Variables) : Variables :=
  layers.foldl loAssign []

/-- The output and the world of the result of a compilation. -/
def outAndWorld (r : Res CompiledRole) : Res (Tasks × World) :=
  match r with
  | .error e => .error e
  | .ok c => .ok (c.out, c.world)

/-- The concatenation of the outputs of compilations run one after the other. -/
def concatOuts (r : Res (List Tasks × World)) : Res CompiledRole :=
  match r with
  | .error e => .error e
  | .ok (outs, w) => .ok { out := outs.flatten, world := w }

/-- The own variables of the roles at the addresses `rs`, in order. -/
def roleVarsOf (w : World) (rs : List Nat) : List Variables :=
  rs.filterMap fun r => (w.roles.get? r).map Role.Vars

/-- The own variables of the role that owns the task, when it has one. -/
def ownerVarsOf (w : World) (t : Task) : List Variables :=
  match t.Role with
  | none => []
  | some r => roleVarsOf w [r]

/-! ## Dependencies and default variables of a role, as functions of the heap -/

/-- The direct dependencies of the role at `r`. -/
def directDepsOf (w : World) (r : Nat) : List Nat :=
  match w.roles.get? r with
  | some role => role.directDeps
  | none => []

/-- The own default variables of the role at `r`. -/
def defaultsOf (w : World) (r : Nat) : Variables :=
  match w.roles.get? r with
  | some role => role.defaults
  | none => []

/-- The transitive dependencies of the role at `r` in depth-first order: for
each direct dependency in order, its own transitive dependencies and then the
dependency itself. The first argument bounds the depth. -/
def depthFirstDeps : Nat → World → Nat → List Nat
  | 0, _, _ => []
  | n + 1, w, r => ((directDepsOf w r).map fun d => depthFirstDeps n w d ++ [d]).flatten

/-- The default variables of the role at `r`: the merge of the default
variables of its transitive dependencies, in depth-first order, and then of
its own defaults. The first argument bounds the depth. -/
def defaultVarsOf : Nat → World → Nat → Variables
  | 0, _, _ => []
  | n + 1, w, r =>
    mergeLayers ((depthFirstDeps (n + 1) w r).map (defaultVarsOf n w) ++ [defaultsOf w r])

/-- Every direct dependency of a role is a role allocated after it: the
dependency graph has no cycle. -/
def forwardDeps (w : World) : Prop :=
  ∀ q role, w.roles[q]? = some role → ∀ d ∈ role.directDeps, q < d ∧ d < w.roles.length

/-- From address `b` on, a memoised list of transitive dependencies in `w` is
either empty or the depth-first list of the role in `w0`. -/
def memoFrom (w0 : World) (b : Nat) (w : World) : Prop :=
  ∀ q role, b ≤ q → w.roles[q]? = some role →
    role.allDeps = [] ∨ role.allDeps = depthFirstDeps (w0.roles.length - q) w0 q

/-- Checks `forwardDeps` on the roles from address `q` on, in a heap of `n` roles. -/
def forwardFrom (n : Nat) : Nat → List Role → Bool
  | _, [] => true
  | q, role :: rest =>
    role.directDeps.all (fun d => decide (q < d) && decide (d < n)) && forwardFrom n (q + 1) rest

/-- Checks `forwardDeps`. -/
def forwardDepsCheck (w : World) : Bool := forwardFrom w.roles.length 0 w.roles

/-- No role has memoised transitive dependencies. -/
def noMemo (w : World) : Bool := w.roles.all fun role => role.allDeps.isEmpty

/-! ## The shape of a rendered value -/

mutual
/-- The strings that the recursion of `renderVariable` reaches in a value, in order. -/
def Value.strings : Value → List String
  | .str s => [s]
  | .list xs => stringsOfList xs
  | .map kvs => stringsOfMap kvs
  | .null => []
  | .bool _ => []
  | .int _ => []
  | .float _ => []
/-- The strings reached in the elements of a sequence. -/
def stringsOfList : List Value → List String
  | [] => []
  | v :: vs => Value.strings v ++ stringsOfList vs
/-- The strings reached in the values of a mapping. -/
def stringsOfMap : List (String × Value) → List String
  | [] => []
  | (_, v) :: rest => Value.strings v ++ stringsOfMap rest
end

mutual
/-- The value with every string it holds (not the keys) replaced by its image
under `f`: sequences keep their elements in place, mappings their keys, other
values are as they are. -/
def Value.mapStrings (f : String → String) : Value → Value
  | .str s => .str (f s)
  | .list xs => .list (mapStringsList f xs)
  | .map kvs => .map (mapStringsMap f kvs)
  | .null => .null
  | .bool b => .bool b
  | .int i => .int i
  | .float r => .float r
/-- The elements of a sequence with their strings replaced. -/
def mapStringsList (f : String → String) : List Value → List Value
  | [] => []
  | v :: vs => Value.mapStrings f v :: mapStringsList f vs
/-- The values of a mapping with their strings replaced. -/
def mapStringsMap (f : String → String) : List (String × Value) → List (String × Value)
  | [] => []
  | (k, v) :: rest => (k, Value.mapStrings f v) :: mapStringsMap f rest
end

/-- What the templater renders a string to; the string itself where it fails. -/
def rendering (ev : String → Variables → Except String String) (vars : Variables)
    (s : String) : String :=
  match ev s vars with
  | .ok r => r
  | .error _ => s

/-! ## The directory of a role, as the specification words it -/

/-- The directory of the role `name` on disk: `<root>/roles/<name>` when it
exists, else the configured default path when it exists. -/
def roleDirectoryOnDisk (w : World) (name : String) : Option String :=
  if isPathExists w (filepathJoin [w.loader.root, "roles", name]) then
    some (filepathJoin [w.loader.root, "roles", name])
  else
    match w.defaultRolesPath with
    | some dflt => if isPathExists w dflt then some dflt else none
    | none => none

/-- The directory of the role `name`: the cached path when the cache has one
for the name, else the directory on disk. -/
def roleDirectorySpec (w : World) (name : String) : Option String :=
  match mapGet w.loader.roleCache name with
  | some cached => some cached
  | none => roleDirectoryOnDisk w name


/-! ## Plays whose tasks were never loaded -/

mutual
/-- No task of the tree has a loader, a role or a play. -/
def Task.unloaded : Task → Bool
  | .mk d block => !d.dataloader && d.role.isNone && d.play.isNone && unloadedAll block
/-- No task of the trees has a loader, a role or a play. -/
def unloadedAll : List Task → Bool
  | [] => true
  | t :: ts => Task.unloaded t && unloadedAll ts
end

/-! ## The parser (`parse.go`) -/

/-- The function `isMainPlaybook`. -/
def isMainPlaybook (name : String) : Bool := cutExtension name = "site"

/-- The method `Parser.parsePlaybooks`: the project after the loop, and the
error it returns, if any. -/
def parsePlaybooks (project : AnsibleProject) : List String → World →
    Res (Except String Unit × AnsibleProject × World)
  | [], w => .ok (.ok (), project, w)
  | path :: rest, w =>
    match LoadPlaybook w none path with
    | .error e => .error e
    | .ok (.error e, w1) => .ok (.error e, project, w1)
    | .ok (.ok none, w1) => .ok (.ok (), project, w1)
    | .ok (.ok (some playbook), w1) =>
      if isMainPlaybook path then
        parsePlaybooks { project with mainPlaybook := some playbook } rest w1
      else
        parsePlaybooks { project with playbooks := project.playbooks ++ [playbook] } rest w1

/-- The playbooks at the paths, loaded one after the other; `none` unless every
path holds a playbook that loads. -/
def loadPlaybooks : List String → World → Option (List Playbook × World)
  | [], w => some ([], w)
  | path :: rest, w =>
    match LoadPlaybook w none path with
    | .ok (.ok (some playbook), w1) =>
      match loadPlaybooks rest w1 with
      | some (playbooks, w2) => some (playbook :: playbooks, w2)
      | none => none
    | _ => none

/-- The project after the playbooks were stored, each under its path: the one of
a main path as main playbook, the others appended to the playbooks. -/
def storePlaybooks (project : AnsibleProject) : List (String × Playbook) → AnsibleProject
  | [] => project
  | (path, playbook) :: rest =>
    if isMainPlaybook path then
      storePlaybooks { project with mainPlaybook := some playbook } rest
    else
      storePlaybooks { project with playbooks := project.playbooks ++ [playbook] } rest
/-! ## Example projects (the fixtures of `loader_test.go`) -/

/-- A template engine for the examples: a string without braces renders to
itself, and `{{ name }}` renders to the string value of the variable `name`. -/
def simpleEvaluate (s : String) (vars : Variables) : Except String String :=
  match s.data with
  | '{' :: '{' :: ' ' :: rest =>
    let name := rest.takeWhile fun c => c ≠ ' '
    if rest.drop name.length = [' ', '}', '}'] then
      match mapGet vars ⟨name⟩ with
      | some (.str v) => .ok v
      | _ => .ok ""
    else .error "unsupported template"
  | _ => if s.data.contains '{' then .error "unsupported template" else .ok s

/-- The document of a task `name` with a `debug` action, starting at `line`. -/
def debugTaskNode (line : Nat) (name : String) : Node :=
  .map line [("name", .scalar line .str name),
    ("debug", .map (line + 2) [("msg", .seq (line + 3) [.scalar (line + 3) .str name])])]

/-- The document of a task `name` with the action `include_tasks: {file: file}`. -/
def includeTasksNode (line : Nat) (name file : String) : Node :=
  .map line [("name", .scalar line .str name),
    ("include_tasks", .map (line + 2) [("file", .scalar (line + 2) .str file)])]

/-- A world with the given files, loader root `.` and nothing loaded. -/
def newWorld (files : List (String × Option Node)) : World :=
  { loader := NewDataloader { files := files, dirs := [] } "."
    defaultRolesPath := none, hostPaths := []
    evaluate := simpleEvaluate, roles := [], plays := [], nextAddr := 0 }

/-- The files of `TestLoadTaskWithIncludeTasks`. -/
def includeTasksWorld : World :=
  newWorld
    [("roles/test/tasks/included.yaml", some (.seq 2 [debugTaskNode 2 "Test task 2"])),
     ("roles/test/tasks/main.yaml", some (.seq 2
        [debugTaskNode 2 "Test task",
         includeTasksNode 7 "Include tasks from current role" "included.yaml",
         includeTasksNode 11 "Include tasks from other role" "../../test2/tasks/main.yaml"])),
     ("roles/test2/tasks/main.yaml", some (.seq 2 [debugTaskNode 2 "Test task 3"]))]

/-- The files of `TestLoadTaskWithTplIncludeTasks`. -/
def tplIncludeWorld : World :=
  newWorld
    [("roles/test/tasks/included.yaml", some (.seq 2 [debugTaskNode 2 "Test task 2"])),
     ("roles/test/tasks/main.yaml", some (.seq 2
        [debugTaskNode 2 "Test task",
         .map 7 [("name", .scalar 7 .str "Include tasks from current role"),
           ("include_tasks", .map 9 [("file", .scalar 9 .str "\x7b\x7b includedfile \x7d\x7d")]),
           ("vars", .map 11 [("includedfile", .scalar 11 .str "included.yaml")])]]))]

/-- The files of `TestLoadTaskWithIncludeRole`. -/
def includeRoleWorld : World :=
  newWorld
    [("roles/included/tasks/main.yaml", some (.seq 2 [debugTaskNode 2 "Test task 2"])),
     ("roles/test/tasks/main.yaml", some (.seq 2
        [debugTaskNode 2 "Test task",
         .map 7 [("name", .scalar 7 .str "Include role"),
           ("include_role", .map 9 [("name", .scalar 9 .str "included")])]]))]

/-- A tasks file that includes a file holding a block: `main.yaml` includes
`nested.yaml`, whose only task is a block with one task. -/
def includeBlockWorld : World :=
  newWorld
    [("main.yaml", some (.seq 2 [includeTasksNode 2 "Include a block" "nested.yaml"])),
     ("nested.yaml", some (.seq 2
        [.map 2 [("name", .scalar 2 .str "Block"),
           ("block", .seq 4 [debugTaskNode 4 "In block"])]]))]

/-- Loads a tasks file and compiles it; the name, address and parent of each resulting task. -/
def loadAndCompile (fuel : Nat) (w : World) (path : String) :
    Res (List (String × Nat × Option Nat)) :=
  match LoadTasks w none none path with
  | .error e => .error e
  | .ok (.error e, _) => .error (.panic e)
  | .ok (.ok tasks, w1) =>
    match Tasks.Compile fuel w1 tasks with
    | .error e => .error e
    | .ok r => .ok (r.out.map fun t => (t.Name, t.data.addr, t.data.parent))

/-- Loads a role and compiles it; the name, address and parent of each resulting task. -/
def loadAndCompileRole (fuel : Nat) (w : World) (name : String) :
    Res (List (String × Nat × Option Nat)) :=
  match LoadRole w none none name with
  | .error e => .error e
  | .ok (.error e, _) => .error (.panic e)
  | .ok (.ok r, w1) =>
    match Role.Compile fuel w1 r with
    | .error e => .error e
    | .ok c => .ok (c.out.map fun t => (t.Name, t.data.addr, t.data.parent))

/-- Loads a tasks file; the path each task include among its tasks gives to `LoadTasks`. -/
def includeTargets (fuel : Nat) (w : World) (path : String) : Res (List String) :=
  match LoadTasks w none none path with
  | .error e => .error e
  | .ok (.error e, _) => .error (.panic e)
  | .ok (.ok tasks, w1) =>
    (tasks.filter Task.isTaskInclude).mapM fun t => (t.tasksFile fuel w1).map Prod.fst

/-- A task of `roles/test/tasks/main.yaml` that includes the tasks of the role
`test2`, written in free form. -/
def otherRoleInclude : Task :=
  .mk { addr := 2, name := "Include tasks from other role", vars := []
        metadata := { path := "roles/test/tasks/main.yaml", rng := { startLine := 11, endLine := 13 }
                      parent := none }
        role := none, play := none, parent := none
        raw := [("name", .str "Include tasks from other role"),
                ("include_tasks", .str "../../test2/tasks/main.yaml")]
        dataloader := true, cachedVars := none } []

/-- The world after `LoadTasks` has loaded `main.yaml` of `includeBlockWorld`. -/
def includeBlockLoaded : World := { includeBlockWorld with nextAddr := 1 }

/-- The include task of `main.yaml` in `includeBlockWorld`, as `LoadTasks` returns it. -/
def blockInclude : Task :=
  .mk { addr := 0, name := "Include a block", vars := []
        metadata := { path := "main.yaml", rng := { startLine := 2, endLine := 4 }, parent := none }
        role := none, play := none, parent := none
        raw := [("name", .str "Include a block"),
                ("include_tasks", .map [("file", .str "nested.yaml")])]
        dataloader := true, cachedVars := none } []

/-- The world after `LoadRole` has loaded the role `test` of `includeRoleWorld`,
or that world itself should the load fail. -/
def includeRoleLoaded : World :=
  match LoadRole includeRoleWorld none none "test" with
  | .ok (.ok _, w) => w
  | _ => includeRoleWorld

/-- The role-include task of the role `test`, as `LoadRole` returns it in the
role at address 0. -/
def roleInclude : Task :=
  .mk { addr := 1, name := "Include role", vars := []
        metadata := { path := "roles/test/tasks/main.yaml", rng := { startLine := 7, endLine := 9 }
                      parent := some (.role 0) }
        role := some 0, play := none, parent := none
        raw := [("name", .str "Include role"),
                ("include_role", .map [("name", .str "included")])]
        dataloader := true, cachedVars := none } []

/-- A role `web` with three defaults files, and a role `site` to own the including task. -/
def defaultsFromWorld : World :=
  newWorld
    [("roles/site/tasks/main.yaml", some (.seq 2
        [.map 2 [("name", .scalar 2 .str "Include web"),
           ("include_role", .map 4
             [("name", .scalar 4 .str "web"),
              ("tasks_from", .scalar 5 .str "main"),
              ("defaults_from", .scalar 6 .str "custom"),
              ("vars_from", .scalar 7 .str "main")])]])),
     ("roles/web/defaults/custom.yaml",
        some (.map 1 [("greeting", .scalar 1 .str "from custom")])),
     ("roles/web/defaults/main.yaml",
        some (.map 1 [("greeting", .scalar 1 .str "from main")])),
     ("roles/web/defaults/web.yaml",
        some (.map 1 [("greeting", .scalar 1 .str "from web")])),
     ("roles/web/tasks/main.yaml", some (.seq 2 [debugTaskNode 2 "Web task"]))]

/-- The world after `LoadRole` has loaded the role `site` of `defaultsFromWorld`,
or that world itself should the load fail. -/
def defaultsFromLoaded : World :=
  match LoadRole defaultsFromWorld none none "site" with
  | .ok (.ok _, w) => w
  | _ => defaultsFromWorld

/-- The role-include task of the role `site`: `include_role` with `name: web`,
`tasks_from: main`, `defaults_from: custom` and `vars_from: main`. -/
def defaultsFromInclude : Task :=
  .mk { addr := 0, name := "Include web", vars := []
        metadata := { path := "roles/site/tasks/main.yaml", rng := { startLine := 2, endLine := 7 }
                      parent := some (.role 0) }
        role := some 0, play := none, parent := none
        raw := [("name", .str "Include web"),
                ("include_role", .map [("name", .str "web"), ("tasks_from", .str "main"),
                  ("defaults_from", .str "custom"), ("vars_from", .str "main")])]
        dataloader := true, cachedVars := none } []

/-- The default variables of the roles of a world, in heap order. -/
def roleDefaults (w : World) : List (String × List (String × Option String)) :=
  w.roles.map fun r => (r.name, r.defaults.map fun kv =>
    (kv.1, match kv.2 with
           | .str s => some s
           | _ => none))

/-- The task `blockInclude` after its parameters were rendered: the (empty) variables are cached. -/
def blockIncludeCached : Task :=
  .mk { blockInclude.data with cachedVars := some [] } blockInclude.block

/-- The tasks `LoadTasks` returns for `nested.yaml` when `blockInclude` loads
it, and the world after that call. -/
def nestedLoaded : Tasks × World :=
  match LoadTasks includeBlockLoaded (some (.task 0)) none "nested.yaml" with
  | .ok (.ok tasks, w) => (tasks, w)
  | _ => ([], includeBlockLoaded)

/-- The task `roleInclude` after its parameters were rendered: the (empty) variables are cached. -/
def roleIncludeCached : Task :=
  .mk { roleInclude.data with cachedVars := some [] } roleInclude.block

/-- The role `test` of `includeRoleLoaded` (address 0). -/
def testRole : Role :=
  match includeRoleLoaded.roles with
  | r :: _ => r
  | [] =>
    { name := "", path := "", pubic := false, metadata := Metadata.zero, play := none
      tasks := [], defaults := [], vars := []
      meta := { metadata := Metadata.zero, dependencies := [] }
      directDeps := [], allDeps := [], dataloader := false }

/-- The world after `roleInclude` has loaded the role `included` (at address 1). -/
def includedLoaded : World :=
  match LoadRoleWithOptions includeRoleLoaded (some (.task 1)) none "included"
      { TasksFile := "", DefaultsFile := "included", VarsFile := "" } with
  | .ok (.ok _, w) => w
  | _ => includeRoleLoaded

/-- What `Role.Compile` returns for the role `included`. -/
def includedCompiled : CompiledRole :=
  match Role.Compile 2 includedLoaded 1 with
  | .ok cr => cr
  | .error _ => { out := [], world := includedLoaded }

/-- A tasks file of nested blocks: a block holding task `A` and a block around
`B`, then the task `C`. -/
def blockWorld : World :=
  newWorld
    [("main.yaml", some (.seq 2
        [.map 2 [("name", .scalar 2 .str "Outer block"),
           ("block", .seq 4
             [debugTaskNode 4 "A",
              .map 8 [("name", .scalar 8 .str "Inner block"),
                ("block", .seq 10 [debugTaskNode 10 "B"])]])],
         debugTaskNode 14 "C"]))]

/-- The tasks `LoadTasks` returns for `main.yaml` of `blockWorld`. -/
def blockTasks : Tasks :=
  match LoadTasks blockWorld none none "main.yaml" with
  | .ok (.ok tasks, _) => tasks
  | _ => []

/-- A leaf task: its only action is `debug`. -/
def debugLeaf : Task :=
  .mk { addr := 0, name := "Test task", vars := []
        metadata := { path := "roles/test/tasks/main.yaml", rng := { startLine := 2, endLine := 5 }
                      parent := none }
        role := none, play := none, parent := none
        raw := [("name", .str "Test task"), ("debug", .map [("msg", .list [.str "Test task"])])]
        dataloader := true, cachedVars := none } []

/-- A block whose raw map also holds a task-include key. -/
def blockWithInclude : Task :=
  .mk { debugLeaf.data with
        addr := 1, name := "Block"
        raw := [("name", .str "Block"), ("include_tasks", .str "included.yaml")] }
    [debugLeaf]

/-- A task without block whose raw map holds a task-include and a role-include key. -/
def bothIncludes : Task :=
  .mk { debugLeaf.data with
        addr := 1, name := "Both"
        raw := [("name", .str "Both"), ("include_role", .map [("name", .str "included")]),
                ("include_tasks", .str "included.yaml")] } []

/-- What `Task.Compile` returns for `blockInclude`. -/
def blockIncludeCompiled : Compiled :=
  match Task.Compile 3 includeBlockLoaded blockInclude with
  | .ok r => r
  | .error _ => { out := [], task := blockInclude, world := includeBlockLoaded }

/-- The second task of `roles/test/tasks/main.yaml` in `includeTasksWorld`, as
`LoadTasks` returns it: an include written as a mapping with the key `file`. -/
def currentRoleInclude : Task :=
  .mk { addr := 1, name := "Include tasks from current role", vars := []
        metadata := { path := "roles/test/tasks/main.yaml", rng := { startLine := 7, endLine := 9 }
                      parent := none }
        role := none, play := none, parent := none
        raw := [("name", .str "Include tasks from current role"),
                ("include_tasks", .map [("file", .str "included.yaml")])]
        dataloader := true, cachedVars := none } []

/-- The tasks `LoadTasks` returns for `roles/test/tasks/main.yaml` of
`includeTasksWorld`, and the world after the call. -/
def includeTasksLoaded : Tasks × World :=
  match LoadTasks includeTasksWorld none none "roles/test/tasks/main.yaml" with
  | .ok (.ok tasks, w) => (tasks, w)
  | _ => ([], includeTasksWorld)

/-- The expanded trees of the tasks of `includeTasksLoaded`. -/
def includeTasksExpanded : ExpandedTasks :=
  match Tasks.expand 2 includeTasksLoaded.2 includeTasksLoaded.1 with
  | .ok e => e
  | .error _ => { trees := [], tasks := [], world := includeTasksLoaded.2 }

/-- The files of `TestLoadRoleDependencies`: the role `role1` depends on `role2`. -/
def depWorld : World :=
  newWorld
    [("roles/role1/meta/main.yaml", some (.map 2
        [("dependencies", .seq 3 [.map 3 [("role", .scalar 3 .str "role2")]])])),
     ("roles/role2/tasks/main.yaml", some (.seq 2 [debugTaskNode 2 "Test task"]))]

/-- The world after `LoadRole` has loaded `role1` of `depWorld` (at address 0),
or that world itself should the load fail. -/
def depLoaded : World :=
  match LoadRole depWorld none none "role1" with
  | .ok (.ok _, w) => w
  | _ => depWorld

/-- The names of the tasks of a compiled role and the world after the call. -/
def compiledNames (r : Res CompiledRole) : Option (List String) :=
  match r with
  | .ok c => some (c.out.map Task.Name)
  | .error _ => none

/-- Compiles the role at address `r` twice in a row: the task names of the
first and of the second call, and the direct dependencies of every role of
the heap after the second call. -/
def compileTwice (fuel : Nat) (w : World) (r : Nat) :
    Option (List String × List String × List (String × List Nat)) :=
  match Role.Compile fuel w r with
  | .error _ => none
  | .ok c1 =>
    match Role.Compile fuel c1.world r with
    | .error _ => none
    | .ok c2 =>
      some (c1.out.map Task.Name, c2.out.map Task.Name,
        c2.world.roles.map fun role => (role.name, role.directDeps))

/-- A role `deep` whose tasks file holds a block inside a block: the task
`Deep` is at depth 2. -/
def nestedBlockWorld : World :=
  newWorld
    [("roles/deep/tasks/main.yaml", some (.seq 2
        [.map 2 [("name", .scalar 2 .str "Outer block"),
           ("block", .seq 4
             [.map 4 [("name", .scalar 4 .str "Inner block"),
                ("block", .seq 6 [debugTaskNode 6 "Deep"])]])]]))]

/-- For a task and every task nested in its block at any depth: the name, the
path of the metadata, whether the loader is set, and the role. -/
def Task.stamps : Task → List (String × String × Bool × Option Nat)
  | .mk d block => (d.name, d.metadata.path, d.dataloader, d.role) :: stampsOfTasks block
where
  /-- The stamps of the tasks of a list. -/
  stampsOfTasks : List Task → List (String × String × Bool × Option Nat)
    | [] => []
    | t :: ts => t.stamps ++ stampsOfTasks ts

/-- Loads the role `name`, whose tasks `LoadTasks` loads with that role as
owner: the address of the role and the stamps of its tasks. -/
def loadedStamps (w : World) (name : String) :
    Option (Nat × List (String × String × Bool × Option Nat)) :=
  match LoadRole w none none name with
  | .ok (.ok r, w1) =>
    match w1.role r with
    | .ok role => some (r, Task.stamps.stampsOfTasks role.tasks)
    | .error _ => none
  | _ => none

/-- The document of a task `name` with the action `include_role`, the
parameters given as `params`. -/
def includeRoleNode (line : Nat) (name : String) (params : Node) : Node :=
  .map line [("name", .scalar line .str name), ("include_role", params)]

/-- A project with the roles `other` and `web`, and a role `site` whose tasks
file `entry.yaml` includes the role `web` with the parameters `params`. -/
def siteWorld (params : Node) : World :=
  newWorld
    [("roles/other/tasks/main.yaml", some (.seq 2 [debugTaskNode 2 "Other task"])),
     ("roles/site/tasks/entry.yaml", some (.seq 2 [includeRoleNode 2 "Include web" params])),
     ("roles/web/tasks/main.yaml", some (.seq 2 [debugTaskNode 2 "Web task"]))]

/-- Loads the role `site` of `siteWorld params` with the tasks file `entry`
and compiles it: the names of the resulting tasks. -/
def siteCompiled (fuel : Nat) (params : Node) : Option (List String) :=
  match LoadRoleWithOptions (siteWorld params) none none "site"
      { TasksFile := "entry", DefaultsFile := "", VarsFile := "" } with
  | .ok (.ok r, w) => compiledNames (Role.Compile fuel w r)
  | _ => none

/-- The files of `TestLoadPlaysWithTasks`. -/
def playsWithTasksWorld : World :=
  newWorld
    [("playbook.yaml", some (.seq 2
        [.map 2 [("name", .scalar 2 .str "Include a play after another play"),
           ("pre_tasks", .seq 4
             [.map 4 [("name", .scalar 4 .str "Pre task"), ("debug", .scalar 5 .null ""),
                ("msg", .scalar 6 .str "Pre task")]]),
           ("tasks", .seq 8
             [.map 8 [("name", .scalar 8 .str "Task"), ("debug", .scalar 9 .null ""),
                ("msg", .scalar 10 .str "Task")]]),
           ("post_tasks", .seq 12
             [.map 12 [("name", .scalar 12 .str "Post task"), ("debug", .scalar 13 .null ""),
                ("msg", .scalar 14 .str "Post task")]])]]))]

/-- The files of `TestIncludePlaybooks`. -/
def includePlaybooksWorld : World :=
  newWorld
    [("otherplays.yaml", some (.seq 2
        [.map 2 [("hosts", .scalar 2 .str "localhost"),
           ("tasks", .seq 4
             [.map 4 [("name", .scalar 4 .str "Task"),
                ("ansible.builtin.debug", .scalar 5 .null ""),
                ("msg", .scalar 6 .str "play2")]])]])),
     ("playbook.yaml", some (.seq 2
        [.map 2 [("name", .scalar 2 .str "Include a play after another play"),
           ("ansible.builtin.import_playbook", .scalar 3 .str "otherplays.yaml")]]))]

/-- Loads a playbook and compiles it: the names of the resulting tasks. -/
def loadAndCompilePlaybook (fuel : Nat) (w : World) (path : String) : Option (List String) :=
  match LoadPlaybook w none path with
  | .ok (.ok (some playbook), w1) => compiledNames (Playbook.Compile fuel w1 playbook)
  | _ => none

/-- The task of `TestLoadTaskWithBlock`: a block with the one task `Test task`. -/
def taskWithBlockNode : Node :=
  .map 2 [("name", .scalar 2 .str "Task with block"),
    ("block", .seq 4 [debugTaskNode 4 "Test task"])]

/-- The task decoded from `taskWithBlockNode` at address 0 and the next free address. -/
def taskWithBlock : Task × Nat :=
  match decodeTask taskWithBlockNode 0 with
  | .ok (.ok t, next) => (t, next)
  | _ => (.mk (newTask 0 taskWithBlockNode [] "" []) [], 0)

/-- The role `role1` of `depLoaded` (address 0), as `LoadRole` returns it. -/
def depRole : Role :=
  match depLoaded.roles with
  | r :: _ => r
  | [] => testRole

/-- The world after `loadDeps` has loaded the dependencies of `role1`. -/
def depDepsLoaded : World :=
  match loadDeps 0 depRole.meta.Dependencies depLoaded with
  | .ok w => w
  | .error _ => depLoaded

/-- The playbook of `TestLoadPlaysWithTasks` as `LoadPlaybook` returns it, and
the world after the call. -/
def playsWithTasksLoaded : Playbook × World :=
  match LoadPlaybook playsWithTasksWorld none "playbook.yaml" with
  | .ok (.ok (some playbook), w) => (playbook, w)
  | _ => ([], playsWithTasksWorld)

/-- A play without tasks, roles or directives. -/
def emptyPlay : Play :=
  { metadata := Metadata.zero, raw := [], roles := [], dataloader := true, name := ""
    importPlaybook := "", hosts := "", roleDefinitions := [], preTasks := [], tasks := []
    postTasks := [], vars := [], varFiles := [] }

/-- The play of `TestLoadPlaysWithTasks` (address 0). -/
def playWithTasks : Play :=
  match playsWithTasksLoaded.2.plays with
  | p :: _ => p
  | [] => emptyPlay

/-- The playbook of `TestIncludePlaybooks` as `LoadPlaybook` returns it, and
the world after the call. -/
def includePlaybooksLoaded : Playbook × World :=
  match LoadPlaybook includePlaybooksWorld none "playbook.yaml" with
  | .ok (.ok (some playbook), w) => (playbook, w)
  | _ => ([], includePlaybooksWorld)

/-- The play of `playbook.yaml` in `TestIncludePlaybooks` (address 0). -/
def importingPlay : Play :=
  match includePlaybooksLoaded.2.plays with
  | p :: _ => p
  | [] => emptyPlay

/-- The playbook `otherplays.yaml` as the importing play loads it, and the
world after the call. -/
def otherPlaysLoaded : Playbook × World :=
  match LoadPlaybook includePlaybooksLoaded.2 (some (.play 0)) "otherplays.yaml" with
  | .ok (.ok (some playbook), w) => (playbook, w)
  | _ => ([], includePlaybooksLoaded.2)

/-- A playbook whose play holds two import directives, `import_playbook:
first.yaml` and `include_playbook: second.yaml`. -/
def twoDirectivesWorld : World :=
  newWorld
    [("first.yaml", some (.seq 2
        [.map 2 [("hosts", .scalar 2 .str "localhost"),
           ("tasks", .seq 4 [debugTaskNode 4 "First task"])]])),
     ("playbook.yaml", some (.seq 2
        [.map 2 [("import_playbook", .scalar 2 .str "first.yaml"),
           ("include_playbook", .scalar 3 .str "second.yaml")]])),
     ("second.yaml", some (.seq 2
        [.map 2 [("hosts", .scalar 2 .str "localhost"),
           ("tasks", .seq 4 [debugTaskNode 4 "Second task"])]]))]

/-- The raw map of the play at address `p`, shown as keys with their string values. -/
def rawDirectives (w : World) (p : Nat) : List (String × Option String) :=
  match w.plays.get? p with
  | some play => play.raw.map fun kv =>
    (kv.1, match kv.2 with
           | .str s => some s
           | _ => none)
  | none => []

/-- Loads `playbook.yaml` and compiles its first play; next to the names of the
resulting tasks, the raw directives of that play and the names of the tasks
that the playbook at `path`, loaded by that play, compiles to. -/
def importedVersus (fuel : Nat) (w : World) (path : String) :
    Option (List (String × Option String) × List String × List String) :=
  match LoadPlaybook w none "playbook.yaml" with
  | .ok (.ok (some _), w1) =>
    match compiledNames (Play.Compile fuel w1 0), LoadPlaybook w1 (some (.play 0)) path with
    | some names, .ok (.ok (some included), w2) =>
      match compiledNames (Playbook.Compile fuel w2 included) with
      | some other => some (rawDirectives w1 0, names, other)
      | none => none
    | _, _ => none
  | _ => none

/-- The files of `TestResolveTaskVariableFromPlay`. -/
def playVarsWorld : World :=
  newWorld
    [("playbook.yaml", some (.seq 2
        [.map 2 [("hosts", .scalar 2 .str "localhost"),
           ("vars", .map 4 [("somevar", .scalar 4 .str "some_value")]),
           ("roles", .seq 6 [.scalar 6 .str "test"])]])),
     ("roles/test/tasks/main.yaml", some (.seq 2 [debugTaskNode 2 "Test task"]))]

/-- The world after `LoadPlaybook` has loaded `playbook.yaml` of `playVarsWorld`. -/
def playVarsLoaded : World :=
  match LoadPlaybook playVarsWorld none "playbook.yaml" with
  | .ok (.ok _, w) => w
  | _ => playVarsWorld

/-- The play of `playVarsLoaded` (address 0). -/
def varsPlay : Play :=
  match playVarsLoaded.plays with
  | p :: _ => p
  | [] => emptyPlay

/-- The task of the role `test` in `playVarsLoaded`. -/
def varsTask : Task :=
  match playVarsLoaded.roles with
  | r :: _ => r.tasks.headD debugLeaf
  | [] => debugLeaf

/-- The string value of a variable. -/
def stringVar (vars : Variables) (k : String) : Option String :=
  match mapGet vars k with
  | some (.str s) => some s
  | _ => none

/-- A role `app` that depends on the role `base`; both have default variables,
and both define `port`. -/
def defaultsDepWorld : World :=
  newWorld
    [("roles/app/defaults/main.yaml", some (.map 1 [("port", .scalar 1 .str "8080")])),
     ("roles/app/meta/main.yaml", some (.map 2
        [("dependencies", .seq 3 [.map 3 [("role", .scalar 3 .str "base")]])])),
     ("roles/base/defaults/main.yaml", some (.map 1
        [("port", .scalar 1 .str "80"), ("user", .scalar 2 .str "www")]))]

/-- The world after `LoadRole` has loaded `app` (address 0) and `loadDeps` its
dependency `base` (address 1), or the initial world should that fail. -/
def defaultsDepLoaded : World :=
  match LoadRole defaultsDepWorld none none "app" with
  | .ok (.ok r, w) =>
    match w.role r with
    | .ok role =>
      match loadDeps r role.meta.Dependencies w with
      | .ok w1 => w1
      | .error _ => defaultsDepWorld
    | .error _ => defaultsDepWorld
  | _ => defaultsDepWorld

/-- The role `app` of `defaultsDepLoaded`. -/
def appRole : Role :=
  match defaultsDepLoaded.roles with
  | r :: _ => r
  | [] => testRole

/-- A parameter value with strings at several depths: a mapping holding a
template, a sequence with a template and a number, and a boolean. -/
def nestedParam : Value :=
  .map [("path", .str "\x7b\x7b dir \x7d\x7d"),
        ("items", .list [.str "\x7b\x7b dir \x7d\x7d", .int 3]),
        ("force", .bool true)]

/-- The document of the task of `TestUnmarshallTask`. -/
def bucketTaskNode : Node :=
  .map 1 [("name", .scalar 1 .str "Create an empty bucket"),
    ("amazon.aws.s3_bucket", .map 3
      [("name", .scalar 3 .str "mys3bucket"),
       ("state", .scalar 4 .str "present"),
       ("endpoint_url", .scalar 5 .str "http://localhost:4566")])]

/-- The task decoded from `bucketTaskNode` at address 0. -/
def bucketTask : Task :=
  match decodeTask bucketTaskNode 0 with
  | .ok (.ok t, _) => t
  | _ => debugLeaf

/-- The files of `TestOverrideTaskVariable`. -/
def overrideWorld : World :=
  newWorld
    [("playbook.yaml", some (.seq 2
        [.map 2 [("hosts", .scalar 2 .str "localhost"),
           ("vars", .map 4 [("somevar", .scalar 4 .str "some_value")]),
           ("roles", .seq 6 [.scalar 6 .str "test"])]])),
     ("roles/test/tasks/main.yaml", some (.seq 2
        [.map 2 [("name", .scalar 2 .str "Test task"),
           ("debug", .map 4 [("msg", .scalar 4 .str "Test task")]),
           ("vars", .map 6 [("somevar", .scalar 6 .str "overrided")])]]))]

/-- The world after `LoadPlaybook` has loaded `playbook.yaml` of `overrideWorld`. -/
def overrideLoaded : World :=
  match LoadPlaybook overrideWorld none "playbook.yaml" with
  | .ok (.ok _, w) => w
  | _ => overrideWorld

/-- The task of the role `test` in `overrideLoaded`. -/
def overrideTask : Task :=
  match overrideLoaded.roles with
  | r :: _ => r.tasks.headD debugLeaf
  | [] => debugLeaf

/-- A playbook whose play declares `somevar` and one task of its own. -/
def inlineTaskWorld : World :=
  newWorld
    [("playbook.yaml", some (.seq 2
        [.map 2 [("hosts", .scalar 2 .str "localhost"),
           ("vars", .map 4 [("somevar", .scalar 4 .str "some_value")]),
           ("tasks", .seq 6 [debugTaskNode 6 "Inline task"])]]))]

/-- The world after `LoadPlaybook` has loaded `playbook.yaml` of `inlineTaskWorld`. -/
def inlineTaskLoaded : World :=
  match LoadPlaybook inlineTaskWorld none "playbook.yaml" with
  | .ok (.ok _, w) => w
  | _ => inlineTaskWorld

/-- The task of the play of `inlineTaskLoaded`. -/
def inlineTask : Task :=
  match inlineTaskLoaded.plays with
  | p :: _ => p.listTasks.headD debugLeaf
  | [] => debugLeaf

/-- The play of `overrideLoaded` (address 0). -/
def overridePlay : Play :=
  match overrideLoaded.plays with
  | p :: _ => p
  | [] => emptyPlay

/-- The role `test` of `overrideLoaded` (address 0). -/
def overrideRole : Role :=
  match overrideLoaded.roles with
  | r :: _ => r
  | [] => testRole

/-- The role `test` of `playVarsLoaded` (address 0). -/
def varsRole : Role :=
  match playVarsLoaded.roles with
  | r :: _ => r
  | [] => testRole

/-- A playbook whose play includes a tasks file directly in its `tasks`. -/
def playIncludeWorld : World :=
  newWorld
    [("included.yaml", some (.seq 2 [debugTaskNode 2 "Included task"])),
     ("playbook.yaml", some (.seq 2
        [.map 2 [("hosts", .scalar 2 .str "localhost"),
           ("tasks", .seq 4
             [debugTaskNode 4 "First task",
              includeTasksNode 9 "Include tasks in a play" "included.yaml"])]]))]

/-- The world after `LoadPlaybook` has loaded `playbook.yaml` of `playIncludeWorld`. -/
def playIncludeLoaded : World :=
  match LoadPlaybook playIncludeWorld none "playbook.yaml" with
  | .ok (.ok _, w) => w
  | _ => playIncludeWorld

/-- The play of `playIncludeLoaded` (address 0). -/
def playIncludePlay : Play :=
  match playIncludeLoaded.plays with
  | p :: _ => p
  | [] => emptyPlay

/-- The include task of `playIncludePlay`. -/
def playIncludeTask : Task :=
  match playIncludePlay.listTasks with
  | _ :: t :: _ => t
  | _ => debugLeaf

/-- A playbook whose play imports another playbook and also includes a tasks
file in its own `tasks`. -/
def importWithTasksWorld : World :=
  newWorld
    [("included.yaml", some (.seq 2 [debugTaskNode 2 "Included task"])),
     ("other.yaml", some (.seq 2
        [.map 2 [("hosts", .scalar 2 .str "localhost"),
           ("tasks", .seq 4 [debugTaskNode 4 "Imported task"])]])),
     ("playbook.yaml", some (.seq 2
        [.map 2 [("import_playbook", .scalar 2 .str "other.yaml"),
           ("tasks", .seq 4
             [includeTasksNode 4 "Include tasks in a play" "included.yaml"])]]))]

/-- The world after `LoadPlaybook` has loaded `playbook.yaml` of `importWithTasksWorld`. -/
def importWithTasksLoaded : World :=
  match LoadPlaybook importWithTasksWorld none "playbook.yaml" with
  | .ok (.ok _, w) => w
  | _ => importWithTasksWorld

/-- The play of `importWithTasksLoaded` (address 0). -/
def importWithTasksPlay : Play :=
  match importWithTasksLoaded.plays with
  | p :: _ => p
  | [] => emptyPlay

/-- A playbook with one play that has the one task `name`. -/
def onePlayNode (name : String) : Node :=
  .seq 2 [.map 2 [("hosts", .scalar 2 .str "localhost"),
    ("tasks", .seq 4 [debugTaskNode 4 name])]]

/-- Two playbooks `first.yaml` and `last.yaml`, a file of variables
`settings.yaml`, and the playbooks `site.yml` and `proj/site.yml`. -/
def parserWorld : World :=
  newWorld
    [("first.yaml", some (onePlayNode "First task")),
     ("last.yaml", some (onePlayNode "Last task")),
     ("proj/site.yml", some (onePlayNode "Nested site task")),
     ("settings.yaml", some (.map 1 [("port", .scalar 1 .str "8080")])),
     ("site.yml", some (onePlayNode "Site task"))]

/-- A project without playbooks. -/
def emptyProject : AnsibleProject :=
  { path := ".", cfg := { Inventory := [], RolesPath := [] }, mainPlaybook := none, playbooks := [] }

/-- Parses the playbooks at the paths into `emptyProject` and lists its tasks:
the main playbook, the playbooks, and the names of the tasks. -/
def parseAndList (fuel : Nat) (w : World) (paths : List String) :
    Option (Option Playbook × List Playbook × List String) :=
  match parsePlaybooks emptyProject paths w with
  | .ok (.ok _, project, w1) =>
    match compiledNames (project.ListTasks fuel w1) with
    | some names => some (project.mainPlaybook, project.playbooks, names)
    | none => none
  | _ => none

/-- The world after `LoadPlaybook` has loaded `first.yaml` of `parserWorld`. -/
def firstLoaded : World :=
  match LoadPlaybook parserWorld none "first.yaml" with
  | .ok (.ok _, w) => w
  | _ => parserWorld

/-! ## Theorems -/

/-! ### More fuel gives the same result -/

theorem getAllDepsLoop_mono (g1 g2 : World → Nat → Res (List Nat × World))
    (hg : ∀ w r x, g1 w r = .ok x → g2 w r = .ok x) (p : Nat) :
    ∀ (ds : List Nat) (w w1 : World),
      getAllDepsLoop g1 p ds w = .ok w1 → getAllDepsLoop g2 p ds w = .ok w1 := by
  intro ds
  induction ds with
  | nil => intro w w1 h; exact h
  | cons d ds ih =>
    intro w w1 h
    simp only [getAllDepsLoop] at h ⊢
    split at h
    · simp at h
    · rename_i hd
      rw [hg _ _ _ hd]
      exact ih _ _ h

theorem getAllDeps_succ : ∀ (fuel : Nat) (w : World) (r : Nat) (x : List Nat × World),
    getAllDeps fuel w r = .ok x → getAllDeps (fuel + 1) w r = .ok x := by
  intro fuel
  induction fuel with
  | zero => intro w r x h; simp [getAllDeps] at h
  | succ n ih =>
    intro w r x h
    rw [getAllDeps] at h ⊢
    split at h
    · simp at h
    · rename_i role hrole
      split at h
      · rename_i hlen
        simp only [hlen, if_true]
        exact h
      · rename_i hlen
        simp only [hlen, if_false]
        split at h
        · simp at h
        · rename_i w1 hloop
          rw [getAllDepsLoop_mono _ _ ih r _ _ _ hloop]
          exact h

theorem loadDefaultVarsLoop_mono (l1 l2 : World → Nat → Res (Variables × World))
    (hl : ∀ w r x, l1 w r = .ok x → l2 w r = .ok x) :
    ∀ (ds : List Nat) (vars : Variables) (w : World) (x : Variables × World),
      loadDefaultVarsLoop l1 ds vars w = .ok x → loadDefaultVarsLoop l2 ds vars w = .ok x := by
  intro ds
  induction ds with
  | nil => intro vars w x h; exact h
  | cons d ds ih =>
    intro vars w x h
    simp only [loadDefaultVarsLoop] at h ⊢
    split at h
    · simp at h
    · rename_i hd
      rw [hl _ _ _ hd]
      exact ih _ _ _ h

theorem LoadDefaultVars_succ : ∀ (fuel : Nat) (w : World) (r : Nat) (x : Variables × World),
    LoadDefaultVars fuel w r = .ok x → LoadDefaultVars (fuel + 1) w r = .ok x := by
  intro fuel
  induction fuel with
  | zero => intro w r x h; simp [LoadDefaultVars] at h
  | succ n ih =>
    intro w r x h
    rw [LoadDefaultVars] at h ⊢
    split at h
    · simp at h
    · rename_i deps w1 hdeps
      rw [getAllDeps_succ _ _ _ _ hdeps]
      simp only
      split at h
      · simp at h
      · rename_i vars w2 hloop
        rw [loadDefaultVarsLoop_mono _ _ ih _ _ _ _ hloop]
        exact h

theorem roleDefaultsLoop_succ (fuel : Nat) :
    ∀ (rs : List Nat) (res : Variables) (w : World) (x : Variables × World),
      roleDefaultsLoop fuel rs res w = .ok x → roleDefaultsLoop (fuel + 1) rs res w = .ok x := by
  intro rs
  induction rs with
  | nil => intro res w x h; exact h
  | cons r rs ih =>
    intro res w x h
    simp only [roleDefaultsLoop] at h ⊢
    split at h
    · simp at h
    · rename_i hd
      rw [LoadDefaultVars_succ _ _ _ _ hd]
      exact ih _ _ _ h

theorem playVars_succ (fuel : Nat) (w : World) (p : Nat) (x : Variables × World)
    (h : playVars fuel w p = .ok x) : playVars (fuel + 1) w p = .ok x := by
  unfold playVars at h ⊢
  split at h
  · simp at h
  · split at h
    · simp at h
    · rename_i hloop
      rw [roleDefaultsLoop_succ _ _ _ _ _ hloop]
      exact h

theorem GetVars_succ (fuel : Nat) (w : World) (play : Option Nat) (task : Option Task)
    (x : Variables × World) (h : GetVars fuel w play task = .ok x) :
    GetVars (fuel + 1) w play task = .ok x := by
  unfold GetVars at h ⊢
  cases play with
  | none => exact h
  | some p =>
    simp only at h ⊢
    cases hp : playVars fuel w p with
    | error e => rw [hp] at h; simp at h
    | ok y =>
      rw [hp] at h
      rw [playVars_succ _ _ _ _ hp]
      exact h

theorem resolveVars_succ (fuel : Nat) (w : World) (t : Task) (x : Variables × World)
    (h : t.resolveVars fuel w = .ok x) : t.resolveVars (fuel + 1) w = .ok x := by
  unfold Task.resolveVars at h ⊢
  split at h
  · simp at h
  · exact GetVars_succ _ _ _ _ _ h

theorem isModuleFreeForm_succ (fuel : Nat) (w : World) (t : Task) (a : String)
    (x : Option String × World) (h : t.isModuleFreeForm fuel w a = .ok x) :
    t.isModuleFreeForm (fuel + 1) w a = .ok x := by
  unfold Task.isModuleFreeForm at h ⊢
  split at h
  · split at h
    · simp at h
    · rename_i hv
      rw [resolveVars_succ _ _ _ _ hv]
      exact h
  · exact h

theorem moduleVars_succ (fuel : Nat) (w : World) (t : Task) (x : Variables × Task × World)
    (h : t.moduleVars fuel w = .ok x) : t.moduleVars (fuel + 1) w = .ok x := by
  unfold Task.moduleVars at h ⊢
  split at h
  · rename_i vars hc
    exact h
  · rename_i hc
    split at h
    · simp at h
    · rename_i hv
      rw [resolveVars_succ _ _ _ _ hv]
      exact h

theorem Module_succ (fuel : Nat) (w : World) (t : Task) (a : String)
    (x : Option Module × Task × World) (h : t.Module fuel w a = .ok x) :
    t.Module (fuel + 1) w a = .ok x := by
  unfold Task.Module at h ⊢
  split at h
  · split at h
    · simp at h
    · rename_i hv
      rw [moduleVars_succ _ _ _ _ hv]
      exact h
  · exact h

theorem moduleParams_succ (fuel : Nat) :
    ∀ (actions : List String) (rawModule : List (String × String)) (t : Task) (w : World)
      (x : List (String × String) × Task × World),
      moduleParams fuel actions rawModule t w = .ok x →
      moduleParams (fuel + 1) actions rawModule t w = .ok x := by
  intro actions
  induction actions with
  | nil => intro rm t w x h; exact h
  | cons a rest ih =>
    intro rm t w x h
    simp only [moduleParams] at h ⊢
    split at h
    · simp at h
    · rename_i hf
      rw [isModuleFreeForm_succ _ _ _ _ _ hf]
      exact ih _ _ _ _ h
    · rename_i hf
      rw [isModuleFreeForm_succ _ _ _ _ _ hf]
      simp only
      split at h
      · simp at h
      · rename_i hm
        rw [Module_succ _ _ _ _ _ hm]
        exact ih _ _ _ _ h
      · rename_i hm
        rw [Module_succ _ _ _ _ _ hm]
        exact ih _ _ _ _ h

theorem tasksFile_succ (fuel : Nat) (w : World) (t : Task) (x : String × Task × World)
    (h : t.tasksFile fuel w = .ok x) : t.tasksFile (fuel + 1) w = .ok x := by
  unfold Task.tasksFile at h ⊢
  split at h
  · simp at h
  · rename_i hm
    rw [moduleParams_succ _ _ _ _ _ _ hm]
    exact h

theorem roleIncludeModule_succ (fuel : Nat) (w : World) (t : Task)
    (x : RoleIncludeModule × Task × World)
    (h : t.roleIncludeModule fuel w = .ok x) : t.roleIncludeModule (fuel + 1) w = .ok x := by
  unfold Task.roleIncludeModule at h ⊢
  split at h
  · simp at h
  · rename_i hm
    rw [moduleParams_succ _ _ _ _ _ _ hm]
    exact h

theorem compileEach_mono (c1 c2 : TaskCompiler)
    (hc : ∀ w t r, c1 w t = .ok r → c2 w t = .ok r) :
    ∀ (ts : List Task) (w : World) (r : CompiledTasks),
      compileEach c1 ts w = .ok r → compileEach c2 ts w = .ok r := by
  intro ts
  induction ts with
  | nil => intro w r h; exact h
  | cons t ts ih =>
    intro w r h
    simp only [compileEach] at h ⊢
    split at h
    · simp at h
    · rename_i r1 h1
      rw [hc _ _ _ h1]
      simp only
      split at h
      · simp at h
      · rename_i r2 h2
        rw [ih _ _ h2]
        exact h

theorem compileDeps_mono (rc1 rc2 : RoleCompiler)
    (hrc : ∀ w p r, rc1 w p = .ok r → rc2 w p = .ok r) :
    ∀ (ds : List Nat) (w : World) (r : CompiledRole),
      compileDeps rc1 ds w = .ok r → compileDeps rc2 ds w = .ok r := by
  intro ds
  induction ds with
  | nil => intro w r h; exact h
  | cons d ds ih =>
    intro w r h
    simp only [compileDeps] at h ⊢
    split at h
    · simp at h
    · rename_i r1 h1
      rw [hrc _ _ _ h1]
      split at h
      · simp at h
      · rename_i r2 h2
        rw [ih _ _ h2]
        exact h

theorem compileWith_mono (fuel : Nat) (c1 c2 : TaskCompiler) (rc1 rc2 : RoleCompiler)
    (hc : ∀ w t r, c1 w t = .ok r → c2 w t = .ok r)
    (hrc : ∀ w p r, rc1 w p = .ok r → rc2 w p = .ok r)
    (w : World) (t : Task) (r : Compiled)
    (h : Task.compileWith fuel c1 rc1 w t = .ok r) :
    Task.compileWith (fuel + 1) c2 rc2 w t = .ok r := by
  unfold Task.compileWith at h ⊢
  split at h
  · rename_i hb
    simp only [hb, if_true]
    unfold Task.compileBlockTasks at h ⊢
    split at h
    · simp at h
    · rename_i r0 h0
      rw [compileEach_mono c1 c2 hc _ _ _ h0]
      exact h
  · rename_i hb
    simp only [hb, if_false]
    split at h
    · rename_i hti
      simp only [hti, if_true]
      unfold Task.compileTaskInclude at h ⊢
      split at h
      · simp at h
      · rename_i tasksFile t1 w1 hf
        rw [tasksFile_succ _ _ _ _ hf]
        split at h
        · simp at h
        · rename_i hdl
          simp only [hdl, if_false]
          split at h
          · simp at h
          · simp at h
          · rename_i loaded w2 hload
            split at h
            · simp at h
            · rename_i r0 h0
              rw [compileEach_mono c1 c2 hc _ _ _ h0]
              exact h
    · rename_i hti
      simp only [hti, if_false]
      split at h
      · rename_i hri
        simp only [hri, if_true]
        unfold Task.compileRoleInclude at h ⊢
        split at h
        · simp at h
        · rename_i module t1 w1 hm
          rw [roleIncludeModule_succ _ _ _ _ hm]
          simp only
          split at h
          · simp at h
          · rename_i rolePtr hrole
            split at h
            · simp at h
            · rename_i role hderef
              split at h
              · simp at h
              · rename_i hdl
                simp only [hdl, if_false]
                split at h
                · simp at h
                · simp at h
                · rename_i p w2 hload
                  split at h
                  · simp at h
                  · rename_i cr hcr
                    rw [hrc _ _ _ hcr]
                    exact h
      · rename_i hri
        simp only [hri, if_false]
        exact h

theorem roleCompileWith_mono (c1 c2 : TaskCompiler) (rc1 rc2 : RoleCompiler)
    (hc : ∀ w t r, c1 w t = .ok r → c2 w t = .ok r)
    (hrc : ∀ w p r, rc1 w p = .ok r → rc2 w p = .ok r)
    (w : World) (p : Nat) (r : CompiledRole)
    (h : Role.compileWith c1 rc1 w p = .ok r) : Role.compileWith c2 rc2 w p = .ok r := by
  unfold Role.compileWith at h ⊢
  simp only [bind, Except.bind, pure, Except.pure] at h ⊢
  split at h
  · simp at h
  · split at h
    · simp at h
    · split at h
      · simp at h
      · split at h
        · simp at h
        · rename_i deps hdeps
          rw [compileDeps_mono rc1 rc2 hrc _ _ _ hdeps]
          simp only
          split at h
          · simp at h
          · split at h
            · simp at h
            · rename_i own hown
              rw [compileEach_mono c1 c2 hc _ _ _ hown]
              exact h

theorem compileFuel_succ : ∀ fuel : Nat,
    (∀ w t r, (compileFuel fuel).1 w t = .ok r → (compileFuel (fuel + 1)).1 w t = .ok r) ∧
    (∀ w p r, (compileFuel fuel).2 w p = .ok r → (compileFuel (fuel + 1)).2 w p = .ok r) := by
  intro fuel
  induction fuel with
  | zero =>
    constructor
    · intro w t r h; simp [compileFuel] at h
    · intro w p r h; simp [compileFuel] at h
  | succ n ih =>
    constructor
    · intro w t r h
      exact compileWith_mono (n + 1) _ _ _ _ ih.1 ih.2 w t r h
    · intro w p r h
      exact roleCompileWith_mono _ _ _ _ ih.1 ih.2 w p r h

theorem compileFuel_mono (m n : Nat) (hmn : m ≤ n) :
    (∀ w t r, (compileFuel m).1 w t = .ok r → (compileFuel n).1 w t = .ok r) ∧
    (∀ w p r, (compileFuel m).2 w p = .ok r → (compileFuel n).2 w p = .ok r) := by
  induction hmn with
  | refl => exact ⟨fun _ _ _ h => h, fun _ _ _ h => h⟩
  | step _ ih =>
    exact ⟨fun w t r h => (compileFuel_succ _).1 w t r (ih.1 w t r h),
      fun w p r h => (compileFuel_succ _).2 w p r (ih.2 w p r h)⟩

/-- A result of `Task.Compile` is the result for every larger fuel. -/
theorem taskCompile_mono (m n : Nat) (hmn : m ≤ n) (w : World) (t : Task) (r : Compiled)
    (h : Task.Compile m w t = .ok r) : Task.Compile n w t = .ok r :=
  (compileFuel_mono m n hmn).1 w t r h

/-- A result of `Role.Compile` is the result for every larger fuel. -/
theorem roleCompile_mono (m n : Nat) (hmn : m ≤ n) (w : World) (p : Nat) (r : CompiledRole)
    (h : Role.Compile m w p = .ok r) : Role.Compile n w p = .ok r :=
  (compileFuel_mono m n hmn).2 w p r h

/-- A result of `Tasks.Compile` is the result for every larger fuel. -/
theorem tasksCompile_mono (m n : Nat) (hmn : m ≤ n) (w : World) (ts : Tasks)
    (r : CompiledTasks) (h : Tasks.Compile m w ts = .ok r) : Tasks.Compile n w ts = .ok r :=
  compileEach_mono _ _ (compileFuel_mono m n hmn).1 ts w r h

theorem taskCompile_succ (fuel : Nat) (w : World) (t : Task) :
    Task.Compile (fuel + 1) w t
      = Task.compileWith (fuel + 1) (Task.Compile fuel) (Role.Compile fuel) w t := rfl

theorem roleCompile_succ (fuel : Nat) (w : World) (r : Nat) :
    Role.Compile (fuel + 1) w r
      = Role.compileWith (Task.Compile fuel) (Role.Compile fuel) w r := rfl

theorem actionOneOf_eq_false (t : Task) (actions : List String)
    (h : ∀ a ∈ actions, mapGet t.data.raw a = none) : t.actionOneOf actions = false := by
  unfold Task.actionOneOf
  rw [List.any_eq_false]
  intro a ha
  simp [h a ha]

theorem actionOneOf_eq_true (t : Task) (actions : List String) (a : String)
    (ha : a ∈ actions) (h : (mapGet t.data.raw a).isSome) : t.actionOneOf actions = true := by
  unfold Task.actionOneOf
  rw [List.any_eq_true]
  exact ⟨a, ha, h⟩

theorem taskIncludeActions_eq :
    applyBuiltinPrefixAll [importTasksAction, includeTasksAction]
      = ["import_tasks", "include_tasks", "ansible.builtin.import_tasks",
         "ansible.builtin.include_tasks"] := by decide

theorem roleIncludeActions_eq :
    applyBuiltinPrefixAll [importRoleAction, includeRoleAction]
      = ["import_role", "include_role", "ansible.builtin.import_role",
         "ansible.builtin.include_role"] := by decide

theorem isTaskInclude_eq_false (t : Task)
    (h : ∀ d ∈ [includeTasksAction, importTasksAction],
      mapGet t.data.raw d = none ∧ mapGet t.data.raw (ansibleBuiltinPrefix ++ d) = none) :
    t.isTaskInclude = false := by
  apply actionOneOf_eq_false
  intro a ha
  rw [taskIncludeActions_eq] at ha
  simp only [List.mem_cons, List.mem_singleton, List.not_mem_nil, or_false] at ha
  rcases ha with rfl | rfl | rfl | rfl
  · exact (h importTasksAction (by decide)).1
  · exact (h includeTasksAction (by decide)).1
  · exact (h importTasksAction (by decide)).2
  · exact (h includeTasksAction (by decide)).2

theorem isRoleInclude_eq_false (t : Task)
    (h : ∀ d ∈ [includeRoleAction, importRoleAction],
      mapGet t.data.raw d = none ∧ mapGet t.data.raw (ansibleBuiltinPrefix ++ d) = none) :
    t.isRoleInclude = false := by
  apply actionOneOf_eq_false
  intro a ha
  rw [roleIncludeActions_eq] at ha
  simp only [List.mem_cons, List.mem_singleton, List.not_mem_nil, or_false] at ha
  rcases ha with rfl | rfl | rfl | rfl
  · exact (h importRoleAction (by decide)).1
  · exact (h includeRoleAction (by decide)).1
  · exact (h importRoleAction (by decide)).2
  · exact (h includeRoleAction (by decide)).2

theorem compileWith_leaf (fuel : Nat) (c : TaskCompiler) (rc : RoleCompiler) (w : World)
    (t : Task) (h : t.isLeaf = true) :
    Task.compileWith fuel c rc w t = .ok { out := [t], task := t, world := w } := by
  simp only [Task.isLeaf, Bool.and_eq_true, Bool.not_eq_true', List.isEmpty_iff] at h
  obtain ⟨⟨hb, hti⟩, hri⟩ := h
  simp [Task.compileWith, hb, hti, hri]

/-- C2. A task without block and without any of the eight include keys compiles
(with any positive fuel) to the one-element list holding the task itself; the
task and the world are unchanged. -/
theorem compile_leaf (fuel : Nat) (w : World) (t : Task)
    (hblock : t.block = [])
    (hkeys : ∀ d ∈ [includeTasksAction, importTasksAction, includeRoleAction, importRoleAction],
      mapGet t.data.raw d = none ∧ mapGet t.data.raw (ansibleBuiltinPrefix ++ d) = none) :
    Task.Compile (fuel + 1) w t = .ok { out := [t], task := t, world := w } := by
  rw [taskCompile_succ]
  apply compileWith_leaf
  have h1 : t.isTaskInclude = false :=
    isTaskInclude_eq_false t fun d hd => hkeys d (by
      simp only [List.mem_cons, List.mem_singleton, List.not_mem_nil, or_false] at hd ⊢
      rcases hd with rfl | rfl <;> simp)
  have h2 : t.isRoleInclude = false :=
    isRoleInclude_eq_false t fun d hd => hkeys d (by
      simp only [List.mem_cons, List.mem_singleton, List.not_mem_nil, or_false] at hd ⊢
      rcases hd with rfl | rfl <;> simp)
  simp [Task.isLeaf, hblock, h1, h2]

/-- C3. The forms are tried in the order block, task include, role include,
leaf. A task with a non-empty block compiles to the compilation of its
children in declared order (the outputs concatenated), whatever its raw map
holds; a task with an empty block that is both a task include and a role
include compiles as the task include; the role include is taken only by a
task without block that is no task include, and the leaf form only by a task
that is none of the three. -/
theorem compile_priority (fuel : Nat) (w : World) (t : Task) :
    (t.block ≠ [] →
      Task.Compile (fuel + 1) w t
        = (Tasks.Compile fuel w t.block).map fun r =>
            { out := r.out, task := .mk t.data r.tasks, world := r.world }) ∧
    (∀ (c : Task) (cs : List Task) (w1 : World), Tasks.Compile fuel w1 (c :: cs)
        = (Task.Compile fuel w1 c).bind fun r1 =>
            (Tasks.Compile fuel r1.world cs).map fun r2 =>
              { out := r1.out ++ r2.out, tasks := r1.task :: r2.tasks, world := r2.world }) ∧
    (t.block = [] → t.isTaskInclude = true → t.isRoleInclude = true →
      Task.Compile (fuel + 1) w t = t.compileTaskInclude (fuel + 1) (Task.Compile fuel) w) ∧
    (t.block = [] → t.isTaskInclude = false → t.isRoleInclude = true →
      Task.Compile (fuel + 1) w t = t.compileRoleInclude (fuel + 1) (Role.Compile fuel) w) ∧
    (t.block = [] → t.isTaskInclude = false → t.isRoleInclude = false →
      Task.Compile (fuel + 1) w t = .ok { out := [t], task := t, world := w }) := by
  refine ⟨?_, ?_, ?_, ?_, ?_⟩
  · intro hb
    have hlen : t.block.length > 0 := List.length_pos.mpr hb
    rw [taskCompile_succ]
    simp only [Task.compileWith, hlen, if_true, Task.compileBlockTasks, Tasks.Compile]
    cases compileEach (Task.Compile fuel) t.block w <;> rfl
  · intro c cs w1
    simp only [Tasks.Compile, compileEach]
    cases Task.Compile fuel w1 c with
    | error e => rfl
    | ok r1 =>
      simp only [Except.bind]
      cases compileEach (Task.Compile fuel) cs r1.world <;> rfl
  · intro hb hti _
    rw [taskCompile_succ]
    simp [Task.compileWith, hb, hti]
  · intro hb hti hri
    rw [taskCompile_succ]
    simp [Task.compileWith, hb, hti, hri]
  · intro hb hti hri
    rw [taskCompile_succ]
    simp [Task.compileWith, hb, hti, hri]

/-- C5. A task whose raw map has one of the keys `include_tasks`,
`import_tasks`, bare or with the prefix `ansible.builtin.`, is a task include;
one with `include_role` or `import_role`, bare or prefixed, is a role include;
a task with none of the eight keys is neither; and `applyBuiltinPrefixAll xs`
is `xs` followed by its elements prefixed. -/
theorem include_classification (t : Task) :
    (∀ d ∈ [includeTasksAction, importTasksAction],
        ((mapGet t.data.raw d).isSome → t.isTaskInclude = true) ∧
        ((mapGet t.data.raw (ansibleBuiltinPrefix ++ d)).isSome → t.isTaskInclude = true)) ∧
    (∀ d ∈ [includeRoleAction, importRoleAction],
        ((mapGet t.data.raw d).isSome → t.isRoleInclude = true) ∧
        ((mapGet t.data.raw (ansibleBuiltinPrefix ++ d)).isSome → t.isRoleInclude = true)) ∧
    ((∀ d ∈ [includeTasksAction, importTasksAction, includeRoleAction, importRoleAction],
        mapGet t.data.raw d = none ∧ mapGet t.data.raw (ansibleBuiltinPrefix ++ d) = none) →
      t.isTaskInclude = false ∧ t.isRoleInclude = false) ∧
    (∀ xs : List String,
      applyBuiltinPrefixAll xs = xs ++ xs.map fun x => "ansible.builtin." ++ x) := by
  refine ⟨?_, ?_, ?_, ?_⟩
  · intro d hd
    simp only [List.mem_cons, List.mem_singleton, List.not_mem_nil, or_false] at hd
    constructor
    · intro h
      refine actionOneOf_eq_true t _ d ?_ h
      rcases hd with rfl | rfl <;> decide
    · intro h
      refine actionOneOf_eq_true t _ (ansibleBuiltinPrefix ++ d) ?_ h
      rcases hd with rfl | rfl <;> decide
  · intro d hd
    simp only [List.mem_cons, List.mem_singleton, List.not_mem_nil, or_false] at hd
    constructor
    · intro h
      refine actionOneOf_eq_true t _ d ?_ h
      rcases hd with rfl | rfl <;> decide
    · intro h
      refine actionOneOf_eq_true t _ (ansibleBuiltinPrefix ++ d) ?_ h
      rcases hd with rfl | rfl <;> decide
  · intro h
    constructor
    · exact isTaskInclude_eq_false t fun d hd => h d (by
        simp only [List.mem_cons, List.mem_singleton, List.not_mem_nil, or_false] at hd ⊢
        rcases hd with rfl | rfl <;> simp)
    · exact isRoleInclude_eq_false t fun d hd => h d (by
        simp only [List.mem_cons, List.mem_singleton, List.not_mem_nil, or_false] at hd ⊢
        rcases hd with rfl | rfl <;> simp)
  · intro xs
    rfl

theorem updateParent_isLeaf (x t : Task) : (x.updateParent t).isLeaf = x.isLeaf := by
  cases x; rfl

theorem isLeaf_of_not (t : Task) (hb : ¬ t.block.length > 0) (h1 : ¬ t.isTaskInclude = true)
    (h2 : ¬ t.isRoleInclude = true) : t.isLeaf = true := by
  have hnil : t.block = [] := by
    cases hbl : t.block with
    | nil => rfl
    | cons a as => rw [hbl] at hb; simp at hb
  simp only [Bool.not_eq_true] at h1 h2
  simp [Task.isLeaf, hnil, h1, h2]

theorem compileEach_leaves (c : TaskCompiler)
    (hc : ∀ w t r, c w t = .ok r → ∀ x ∈ r.out, x.isLeaf = true) :
    ∀ (ts : List Task) (w : World) (r : CompiledTasks),
      compileEach c ts w = .ok r → ∀ x ∈ r.out, x.isLeaf = true := by
  intro ts
  induction ts with
  | nil =>
    intro w r h x hx
    simp only [compileEach, Except.ok.injEq] at h
    subst h
    simp at hx
  | cons t ts ih =>
    intro w r h x hx
    simp only [compileEach] at h
    cases h1 : c w t with
    | error e => rw [h1] at h; simp at h
    | ok r1 =>
      rw [h1] at h
      simp only at h
      cases h2 : compileEach c ts r1.world with
      | error e => rw [h2] at h; simp at h
      | ok r2 =>
        rw [h2] at h
        simp only [Except.ok.injEq] at h
        subst h
        simp only [List.mem_append] at hx
        rcases hx with hx | hx
        · exact hc w t r1 h1 x hx
        · exact ih r1.world r2 h2 x hx

theorem compileDeps_leaves (rc : RoleCompiler)
    (hrc : ∀ w p r, rc w p = .ok r → ∀ x ∈ r.out, x.isLeaf = true) :
    ∀ (ds : List Nat) (w : World) (r : CompiledRole),
      compileDeps rc ds w = .ok r → ∀ x ∈ r.out, x.isLeaf = true := by
  intro ds
  induction ds with
  | nil =>
    intro w r h x hx
    simp only [compileDeps, Except.ok.injEq] at h
    subst h
    simp at hx
  | cons d ds ih =>
    intro w r h x hx
    simp only [compileDeps] at h
    cases h1 : rc w d with
    | error e => rw [h1] at h; simp at h
    | ok r1 =>
      rw [h1] at h
      simp only at h
      cases h2 : compileDeps rc ds r1.world with
      | error e => rw [h2] at h; simp at h
      | ok r2 =>
        rw [h2] at h
        simp only [Except.ok.injEq] at h
        subst h
        simp only [List.mem_append] at hx
        rcases hx with hx | hx
        · exact hrc w d r1 h1 x hx
        · exact ih r1.world r2 h2 x hx

theorem compileWith_leaves (fuel : Nat) (c : TaskCompiler) (rc : RoleCompiler)
    (hc : ∀ w t r, c w t = .ok r → ∀ x ∈ r.out, x.isLeaf = true)
    (hrc : ∀ w p r, rc w p = .ok r → ∀ x ∈ r.out, x.isLeaf = true)
    (w : World) (t : Task) (r : Compiled) (h : Task.compileWith fuel c rc w t = .ok r) :
    ∀ x ∈ r.out, x.isLeaf = true := by
  unfold Task.compileWith at h
  split at h
  · -- block
    unfold Task.compileBlockTasks at h
    split at h
    · simp at h
    · rename_i r0 h0
      simp only [Except.ok.injEq] at h
      subst h
      exact compileEach_leaves c hc _ _ _ h0
  · split at h
    · -- task include
      unfold Task.compileTaskInclude at h
      split at h
      · simp at h
      · split at h
        · simp at h
        · split at h
          · simp at h
          · simp at h
          · split at h
            · simp at h
            · rename_i r0 h0
              simp only [Except.ok.injEq] at h
              subst h
              exact compileEach_leaves c hc _ _ _ h0
    · split at h
      · -- role include
        unfold Task.compileRoleInclude at h
        split at h
        · simp at h
        · split at h
          · simp at h
          · split at h
            · simp at h
            · split at h
              · simp at h
              · split at h
                · simp at h
                · simp at h
                · split at h
                  · simp at h
                  · rename_i cr hcr
                    simp only [Except.ok.injEq] at h
                    subst h
                    intro x hx
                    simp only [List.mem_map] at hx
                    obtain ⟨y, hy, rfl⟩ := hx
                    rw [updateParent_isLeaf]
                    exact hrc _ _ _ hcr y hy
      · -- leaf
        rename_i hb h1 h2
        simp only [Except.ok.injEq] at h
        subst h
        intro x hx
        simp only [List.mem_singleton] at hx
        subst hx
        exact isLeaf_of_not x hb h1 h2

theorem roleCompileWith_leaves (c : TaskCompiler) (rc : RoleCompiler)
    (hc : ∀ w t r, c w t = .ok r → ∀ x ∈ r.out, x.isLeaf = true)
    (hrc : ∀ w p r, rc w p = .ok r → ∀ x ∈ r.out, x.isLeaf = true)
    (w : World) (p : Nat) (r : CompiledRole) (h : Role.compileWith c rc w p = .ok r) :
    ∀ x ∈ r.out, x.isLeaf = true := by
  unfold Role.compileWith at h
  simp only [bind, Except.bind, pure, Except.pure] at h
  split at h
  · simp at h
  · split at h
    · simp at h
    · split at h
      · simp at h
      · split at h
        · simp at h
        · rename_i deps hdeps
          split at h
          · simp at h
          · split at h
            · simp at h
            · rename_i own hown
              simp only [Except.ok.injEq] at h
              subst h
              intro x hx
              simp only [List.mem_append] at hx
              rcases hx with hx | hx
              · exact compileDeps_leaves rc hrc _ _ _ hdeps x hx
              · exact compileEach_leaves c hc _ _ _ hown x hx

theorem compileFuel_leaves : ∀ fuel : Nat,
    (∀ w t r, (compileFuel fuel).1 w t = .ok r → ∀ x ∈ r.out, x.isLeaf = true) ∧
    (∀ w p r, (compileFuel fuel).2 w p = .ok r → ∀ x ∈ r.out, x.isLeaf = true) := by
  intro fuel
  induction fuel with
  | zero =>
    constructor
    · intro w t r h; simp [compileFuel] at h
    · intro w p r h; simp [compileFuel] at h
  | succ n ih =>
    constructor
    · intro w t r h
      exact compileWith_leaves (n + 1) _ _ ih.1 ih.2 w t r h
    · intro w p r h
      exact roleCompileWith_leaves _ _ ih.1 ih.2 w p r h

theorem compileEach_of_leaves (fuel : Nat) :
    ∀ (ts : List Task) (w : World), (∀ x ∈ ts, x.isLeaf = true) →
      compileEach (Task.Compile (fuel + 1)) ts w = .ok { out := ts, tasks := ts, world := w } := by
  intro ts
  induction ts with
  | nil => intro w _; rfl
  | cons t ts ih =>
    intro w h
    have ht : t.isLeaf = true := h t (List.mem_cons_self _ _)
    have hts : ∀ x ∈ ts, x.isLeaf = true := fun x hx => h x (List.mem_cons_of_mem _ hx)
    simp only [compileEach]
    rw [taskCompile_succ, compileWith_leaf _ _ _ _ _ ht]
    simp only
    rw [ih w hts]
    rfl

/-- C4. Every task in the output of `Task.Compile`, of `Tasks.Compile` and of
`Role.Compile` is a leaf (no block, no task-include key and no role-include
key), and compiling such an output again, with any positive fuel and in any
world, returns it unchanged. -/
theorem compile_output_leaves (fuel : Nat) (w : World) :
    (∀ (t : Task) (r : Compiled), Task.Compile fuel w t = .ok r →
      (∀ x ∈ r.out, x.block = [] ∧ x.isTaskInclude = false ∧ x.isRoleInclude = false) ∧
      ∀ (fuel1 : Nat) (w1 : World),
        Tasks.Compile (fuel1 + 1) w1 r.out = .ok { out := r.out, tasks := r.out, world := w1 }) ∧
    (∀ (ts : Tasks) (r : CompiledTasks), Tasks.Compile fuel w ts = .ok r →
      (∀ x ∈ r.out, x.block = [] ∧ x.isTaskInclude = false ∧ x.isRoleInclude = false) ∧
      ∀ (fuel1 : Nat) (w1 : World),
        Tasks.Compile (fuel1 + 1) w1 r.out = .ok { out := r.out, tasks := r.out, world := w1 }) ∧
    (∀ (p : Nat) (r : CompiledRole), Role.Compile fuel w p = .ok r →
      (∀ x ∈ r.out, x.block = [] ∧ x.isTaskInclude = false ∧ x.isRoleInclude = false) ∧
      ∀ (fuel1 : Nat) (w1 : World),
        Tasks.Compile (fuel1 + 1) w1 r.out = .ok { out := r.out, tasks := r.out, world := w1 }) := by
  have key : ∀ out : List Task, (∀ x ∈ out, x.isLeaf = true) →
      (∀ x ∈ out, x.block = [] ∧ x.isTaskInclude = false ∧ x.isRoleInclude = false) ∧
      ∀ (fuel1 : Nat) (w1 : World),
        Tasks.Compile (fuel1 + 1) w1 out = .ok { out := out, tasks := out, world := w1 } := by
    intro out h
    constructor
    · intro x hx
      have := h x hx
      simp only [Task.isLeaf, Bool.and_eq_true, Bool.not_eq_true', List.isEmpty_iff] at this
      exact ⟨this.1.1, this.1.2, this.2⟩
    · intro fuel1 w1
      exact compileEach_of_leaves fuel1 out w1 h
  refine ⟨?_, ?_, ?_⟩
  · intro t r h
    exact key _ ((compileFuel_leaves fuel).1 w t r h)
  · intro ts r h
    exact key _ (compileEach_leaves _ (compileFuel_leaves fuel).1 ts w r h)
  · intro p r h
    exact key _ ((compileFuel_leaves fuel).2 w p r h)

theorem leavesOfAll_append (a b : List Expansion) :
    leavesOfAll (a ++ b) = leavesOfAll a ++ leavesOfAll b := by
  induction a with
  | nil => rfl
  | cons e es ih =>
    show e.leaves ++ leavesOfAll (es ++ b) = (e.leaves ++ leavesOfAll es) ++ leavesOfAll b
    rw [ih, List.append_assoc]

mutual
theorem leaves_mapLeaves (f : Task → Task) :
    ∀ e : Expansion, (e.mapLeaves f).leaves = e.leaves.map f
  | .leaf t => rfl
  | .node cs => by
    simp only [Expansion.mapLeaves, Expansion.leaves]
    exact leavesOfAll_mapLeaves f cs
theorem leavesOfAll_mapLeaves (f : Task → Task) :
    ∀ es : List Expansion, leavesOfAll (mapLeavesOfAll f es) = (leavesOfAll es).map f
  | [] => rfl
  | e :: es => by
    simp only [mapLeavesOfAll, leavesOfAll, List.map_append]
    rw [leaves_mapLeaves f e, leavesOfAll_mapLeaves f es]
end

theorem compileEach_expandEach (c : TaskCompiler) (x : TaskExpander)
    (hc : ∀ w t, c w t = (x w t).map Expanded.flatten) :
    ∀ (ts : List Task) (w : World),
      compileEach c ts w = (expandEach x ts w).map ExpandedTasks.flatten := by
  intro ts
  induction ts with
  | nil => intro w; rfl
  | cons t ts ih =>
    intro w
    simp only [compileEach, expandEach, hc w t]
    cases x w t with
    | error e => rfl
    | ok r1 =>
      simp only [Except.map, Expanded.flatten]
      rw [ih r1.world]
      cases expandEach x ts r1.world with
      | error e => rfl
      | ok r2 => rfl

theorem compileDeps_expandDeps (rc : RoleCompiler) (rx : RoleExpander)
    (hrc : ∀ w p, rc w p = (rx w p).map ExpandedRole.flatten) :
    ∀ (ds : List Nat) (w : World),
      compileDeps rc ds w = (expandDeps rx ds w).map ExpandedRole.flatten := by
  intro ds
  induction ds with
  | nil => intro w; rfl
  | cons d ds ih =>
    intro w
    simp only [compileDeps, expandDeps, hrc w d]
    cases rx w d with
    | error e => rfl
    | ok r1 =>
      simp only [Except.map, ExpandedRole.flatten]
      rw [ih r1.world]
      cases expandDeps rx ds r1.world with
      | error e => rfl
      | ok r2 => simp only [Except.map, ExpandedRole.flatten, leavesOfAll_append]

theorem compileWith_expandWith (fuel : Nat) (c : TaskCompiler) (rc : RoleCompiler)
    (x : TaskExpander) (rx : RoleExpander)
    (hc : ∀ w t, c w t = (x w t).map Expanded.flatten)
    (hrc : ∀ w p, rc w p = (rx w p).map ExpandedRole.flatten) (w : World) (t : Task) :
    Task.compileWith fuel c rc w t = (Task.expandWith fuel x rx w t).map Expanded.flatten := by
  unfold Task.compileWith Task.expandWith
  split
  · unfold Task.compileBlockTasks
    rw [compileEach_expandEach c x hc]
    cases expandEach x t.block w <;> rfl
  · split
    · unfold Task.compileTaskInclude
      cases t.tasksFile fuel w with
      | error e => rfl
      | ok r =>
        obtain ⟨tasksFile, t1, w1⟩ := r
        simp only
        split
        · rfl
        · cases LoadTasks w1 (some (.task t1.data.addr)) t1.data.role tasksFile with
          | error e => rfl
          | ok lr =>
            obtain ⟨l, w2⟩ := lr
            cases l with
            | error e => rfl
            | ok loaded =>
              simp only
              rw [compileEach_expandEach c x hc]
              cases expandEach x (loaded.map fun task => task.updateParent t1) w2 <;> rfl
    · split
      · unfold Task.compileRoleInclude
        cases t.roleIncludeModule fuel w with
        | error e => rfl
        | ok r =>
          obtain ⟨module, t1, w1⟩ := r
          simp only
          cases t1.data.role with
          | none => rfl
          | some rolePtr =>
            simp only
            cases w1.role rolePtr with
            | error e => rfl
            | ok role =>
              simp only
              split
              · rfl
              · cases LoadRoleWithOptions w1 (some (.task t1.data.addr)) role.play module.Name
                    (roleIncludeOptions module) with
                | error e => rfl
                | ok lr =>
                  obtain ⟨l, w2⟩ := lr
                  cases l with
                  | error e => rfl
                  | ok r =>
                    simp only
                    rw [hrc w2 r]
                    cases rx w2 r with
                    | error e => rfl
                    | ok er =>
                      simp only [Except.map, Expanded.flatten, ExpandedRole.flatten,
                        Expansion.leaves, leavesOfAll_mapLeaves]
      · rfl

theorem roleCompileWith_expandWith (c : TaskCompiler) (rc : RoleCompiler)
    (x : TaskExpander) (rx : RoleExpander)
    (hc : ∀ w t, c w t = (x w t).map Expanded.flatten)
    (hrc : ∀ w p, rc w p = (rx w p).map ExpandedRole.flatten) (w : World) (p : Nat) :
    Role.compileWith c rc w p = (Role.expandWith x rx w p).map ExpandedRole.flatten := by
  unfold Role.compileWith Role.expandWith
  simp only [bind, Except.bind, pure, Except.pure]
  cases w.role p with
  | error e => rfl
  | ok role =>
    simp only
    cases loadDeps p role.meta.Dependencies w with
    | error e => rfl
    | ok w1 =>
      simp only
      cases w1.role p with
      | error e => rfl
      | ok role1 =>
        simp only
        rw [compileDeps_expandDeps rc rx hrc]
        cases expandDeps rx role1.getDirectDeps w1 with
        | error e => rfl
        | ok deps =>
          simp only [Except.map, ExpandedRole.flatten]
          cases deps.world.role p with
          | error e => rfl
          | ok role2 =>
            simp only
            rw [compileEach_expandEach c x hc]
            cases expandEach x role2.tasks deps.world with
            | error e => rfl
            | ok own =>
              simp only [Except.map, ExpandedTasks.flatten, leavesOfAll_append]

theorem compileFuel_expandFuel : ∀ fuel : Nat,
    (∀ w t, (compileFuel fuel).1 w t = ((expandFuel fuel).1 w t).map Expanded.flatten) ∧
    (∀ w p, (compileFuel fuel).2 w p = ((expandFuel fuel).2 w p).map ExpandedRole.flatten) := by
  intro fuel
  induction fuel with
  | zero => exact ⟨fun _ _ => rfl, fun _ _ => rfl⟩
  | succ n ih =>
    exact ⟨fun w t => compileWith_expandWith (n + 1) _ _ _ _ ih.1 ih.2 w t,
      fun w p => roleCompileWith_expandWith _ _ _ _ ih.1 ih.2 w p⟩

mutual
theorem compile_blocksOnly (w : World) :
    ∀ t : Task, t.blocksOnly = true → ∀ fuel : Nat, t.height ≤ fuel →
      Task.Compile fuel w t = .ok { out := t.leaves, task := t, world := w }
  | .mk d [], h, fuel, hf => by
    simp only [Task.blocksOnly] at h
    simp only [Task.height] at hf
    obtain ⟨n, rfl⟩ : ∃ n, fuel = n + 1 := ⟨fuel - 1, by omega⟩
    rw [taskCompile_succ, compileWith_leaf _ _ _ _ _ h]
    rfl
  | .mk d (b :: bs), h, fuel, hf => by
    simp only [Task.height] at hf
    obtain ⟨n, rfl⟩ : ∃ n, fuel = n + 1 := ⟨fuel - 1, by omega⟩
    have hall : allBlocksOnly (b :: bs) = true := by
      simpa only [Task.blocksOnly, allBlocksOnly] using h
    have hh : heightOfTasks (b :: bs) ≤ n := by
      simp only [heightOfTasks]; omega
    have := compileEach_blocksOnly w (b :: bs) hall n hh
    rw [taskCompile_succ]
    simp only [Task.compileWith, Task.block, List.length_cons, gt_iff_lt, Nat.zero_lt_succ,
      if_true, Task.compileBlockTasks, this, Task.leaves, leavesOfTasks, Task.data]
theorem compileEach_blocksOnly (w : World) :
    ∀ ts : List Task, allBlocksOnly ts = true → ∀ fuel : Nat, heightOfTasks ts ≤ fuel →
      compileEach (Task.Compile fuel) ts w
        = .ok { out := leavesOfTasks ts, tasks := ts, world := w }
  | [], _, _, _ => rfl
  | t :: ts, h, fuel, hf => by
    simp only [allBlocksOnly, Bool.and_eq_true] at h
    simp only [heightOfTasks] at hf
    have h1 := compile_blocksOnly w t h.1 fuel (by omega)
    have h2 := compileEach_blocksOnly w ts h.2 fuel (by omega)
    simp only [compileEach, h1, h2, leavesOfTasks]
end

mutual
theorem length_leaves : ∀ t : Task, t.leaves.length = t.numLeaves
  | .mk _ [] => rfl
  | .mk _ (b :: bs) => by
    simp only [Task.leaves, Task.numLeaves, List.length_append]
    rw [length_leaves b, length_leavesOfTasks bs]
theorem length_leavesOfTasks : ∀ ts : List Task, (leavesOfTasks ts).length = numLeavesOfTasks ts
  | [] => rfl
  | t :: ts => by
    simp only [leavesOfTasks, numLeavesOfTasks, List.length_append]
    rw [length_leaves t, length_leavesOfTasks ts]
end

/-- C1. `Tasks.Compile` returns the leaves, read left to right, of the fully
expanded trees of its tasks: with the same fuel it equals the flattening of
`Tasks.expand`, which resolves every include against the world, and once the
expansion is finite (some fuel gives the trees) every larger fuel returns their
leaves. For trees built only from blocks and leaf tasks, any fuel from the
height of the trees on gives the leaves of the trees in declaration order, as
many as the trees have leaves, and leaves tasks and world unchanged. -/
theorem compile_eq_leaves (w : World) (ts : Tasks) :
    (∀ fuel : Nat,
      Tasks.Compile fuel w ts = (Tasks.expand fuel w ts).map ExpandedTasks.flatten) ∧
    (∀ (fuel : Nat) (e : ExpandedTasks), Tasks.expand fuel w ts = .ok e →
      ∀ n : Nat, fuel ≤ n →
        Tasks.Compile n w ts
          = .ok { out := leavesOfAll e.trees, tasks := e.tasks, world := e.world }) ∧
    (allBlocksOnly ts = true → ∀ fuel : Nat, heightOfTasks ts ≤ fuel →
      Tasks.Compile fuel w ts = .ok { out := leavesOfTasks ts, tasks := ts, world := w } ∧
      (leavesOfTasks ts).length = numLeavesOfTasks ts) := by
  have h1 : ∀ fuel : Nat,
      Tasks.Compile fuel w ts = (Tasks.expand fuel w ts).map ExpandedTasks.flatten :=
    fun fuel => compileEach_expandEach _ _ (compileFuel_expandFuel fuel).1 ts w
  refine ⟨h1, ?_, ?_⟩
  · intro fuel e he n hn
    apply tasksCompile_mono fuel n hn
    rw [h1 fuel, he]
    rfl
  · intro h fuel hf
    exact ⟨compileEach_blocksOnly w ts h fuel hf, length_leavesOfTasks ts⟩

theorem mapGet_mapSet_self {α : Type} (m : List (String × α)) (k : String) (v : α) :
    mapGet (mapSet m k v) k = some v := by
  induction m with
  | nil => simp [mapSet, mapGet]
  | cons e rest ih =>
    obtain ⟨k', v'⟩ := e
    by_cases h : k' = k
    · simp [mapSet, mapGet, h]
    · simp [mapSet, mapGet, h, ih]

theorem mapGet_mapSet_of_ne {α : Type} (m : List (String × α)) (k a : String) (v : α)
    (h : a ≠ k) : mapGet (mapSet m k v) a = mapGet m a := by
  induction m with
  | nil =>
    have : ¬ k = a := fun e => h e.symm
    simp [mapSet, mapGet, this]
  | cons e rest ih =>
    obtain ⟨k', v'⟩ := e
    by_cases h1 : k' = k
    · subst h1
      have : ¬ k' = a := fun e => h e.symm
      simp [mapSet, mapGet, this]
    · by_cases h2 : k' = a
      · subst h2
        simp [mapSet, mapGet, h1]
      · simp [mapSet, mapGet, h1, h2, ih]

theorem isModuleFreeForm_of_not_str (fuel : Nat) (w : World) (t : Task) (a : String)
    (h : ∀ s, mapGet t.data.raw a ≠ some (.str s)) :
    t.isModuleFreeForm fuel w a = .ok (none, w) := by
  unfold Task.isModuleFreeForm
  split
  · rename_i s hs
    exact absurd hs (h s)
  · rfl

theorem Module_of_not_map (fuel : Nat) (w : World) (t : Task) (a : String)
    (h : ∀ ps, mapGet t.data.raw a ≠ some (.map ps)) :
    t.Module fuel w a = .ok (none, t, w) := by
  unfold Task.Module
  split
  · rename_i ps hps
    exact absurd hps (h ps)
  · rfl

theorem moduleVars_raw (fuel : Nat) (w : World) (t : Task) (vars : Variables)
    (t1 : Task) (w1 : World) (h : t.moduleVars fuel w = .ok (vars, t1, w1)) :
    t1.data.raw = t.data.raw := by
  unfold Task.moduleVars at h
  split at h
  · simp only [Except.ok.injEq, Prod.mk.injEq] at h
    rw [← h.2.1]
  · split at h
    · simp at h
    · simp only [Except.ok.injEq, Prod.mk.injEq] at h
      rw [← h.2.1]
      rfl

theorem Module_raw (fuel : Nat) (w : World) (t : Task) (a : String) (m : Option Module)
    (t1 : Task) (w1 : World) (h : t.Module fuel w a = .ok (m, t1, w1)) :
    t1.data.raw = t.data.raw := by
  unfold Task.Module at h
  split at h
  · split at h
    · simp at h
    · rename_i hv
      split at h <;>
        (simp only [Except.ok.injEq, Prod.mk.injEq] at h
         rw [← h.2.1]
         exact moduleVars_raw _ _ _ _ _ _ hv)
  · simp only [Except.ok.injEq, Prod.mk.injEq] at h
    rw [← h.2.1]

theorem moduleParams_skip (fuel : Nat) (a : String) (rest : List String)
    (rawModule : List (String × String)) (t : Task) (w : World)
    (h : mapGet t.data.raw a = none) :
    moduleParams fuel (a :: rest) rawModule t w = moduleParams fuel rest rawModule t w := by
  have h1 := isModuleFreeForm_of_not_str fuel w t a (by simp [h])
  have h2 := Module_of_not_map fuel w t a (by simp [h])
  simp only [moduleParams, h1, h2]

theorem moduleParams_absent (fuel : Nat) :
    ∀ (actions : List String) (rawModule : List (String × String)) (t : Task) (w : World),
      (∀ a ∈ actions, mapGet t.data.raw a = none) →
      moduleParams fuel actions rawModule t w = .ok (rawModule, t, w) := by
  intro actions
  induction actions with
  | nil => intro rm t w _; rfl
  | cons a rest ih =>
    intro rm t w h
    rw [moduleParams_skip fuel a rest rm t w (h a (List.mem_cons_self _ _))]
    exact ih rm t w fun b hb => h b (List.mem_cons_of_mem _ hb)

theorem moduleParams_cons (fuel : Nat) (a : String) (rest : List String)
    (rawModule : List (String × String)) (t : Task) (w : World) :
    moduleParams fuel (a :: rest) rawModule t w
      = (moduleParams fuel [a] rawModule t w).bind fun r =>
          moduleParams fuel rest r.1 r.2.1 r.2.2 := by
  simp only [moduleParams]
  cases t.isModuleFreeForm fuel w a with
  | error e => rfl
  | ok r =>
    obtain ⟨o, w1⟩ := r
    cases o with
    | some val => rfl
    | none =>
      simp only
      cases t.Module fuel w1 a with
      | error e => rfl
      | ok r2 =>
        obtain ⟨o2, t1, w2⟩ := r2
        cases o2 <;> rfl

theorem moduleParams_one_raw (fuel : Nat) (a : String) (rawModule : List (String × String))
    (t : Task) (w : World) (r : List (String × String) × Task × World)
    (h : moduleParams fuel [a] rawModule t w = .ok r) : r.2.1.data.raw = t.data.raw := by
  simp only [moduleParams] at h
  split at h
  · simp at h
  · simp only [Except.ok.injEq] at h
    subst h
    rfl
  · split at h
    · simp at h
    · rename_i hm
      simp only [Except.ok.injEq] at h
      subst h
      exact Module_raw _ _ _ _ _ _ _ hm
    · rename_i hm
      simp only [Except.ok.injEq] at h
      subst h
      exact Module_raw _ _ _ _ _ _ _ hm

/-- When `d` is the only action of the list present in the raw map, the loop
over the list does what it does on `d` alone. -/
theorem moduleParams_single (fuel : Nat) (d : String) :
    ∀ (actions : List String), actions.Nodup → d ∈ actions →
      ∀ (rawModule : List (String × String)) (t : Task) (w : World),
      (∀ a ∈ actions, a ≠ d → mapGet t.data.raw a = none) →
      moduleParams fuel actions rawModule t w = moduleParams fuel [d] rawModule t w := by
  intro actions
  induction actions with
  | nil => intro _ hd; simp at hd
  | cons a rest ih =>
    intro hnd hd rm t w habs
    rw [List.nodup_cons] at hnd
    by_cases hda : a = d
    · subst hda
      rw [moduleParams_cons]
      cases h1 : moduleParams fuel [a] rm t w with
      | error e => rfl
      | ok r =>
        simp only [Except.bind]
        have hraw := moduleParams_one_raw fuel a rm t w r h1
        apply moduleParams_absent
        intro b hb
        rw [hraw]
        exact habs b (List.mem_cons_of_mem _ hb) (fun e => hnd.1 (e ▸ hb))
    · have hd' : d ∈ rest := by
        rcases List.mem_cons.mp hd with h | h
        · exact absurd h.symm hda
        · exact h
      rw [moduleParams_skip fuel a rest rm t w (habs a (List.mem_cons_self _ _) hda)]
      exact ih hnd.2 hd' rm t w fun b hb hne => habs b (List.mem_cons_of_mem _ hb) hne

theorem taskIncludeActions_nodup :
    (applyBuiltinPrefixAll [includeTasksAction, importTasksAction]).Nodup := by decide

theorem roleIncludeActions_nodup :
    (applyBuiltinPrefixAll [includeRoleAction, importRoleAction]).Nodup := by decide

theorem fileField_key : TaskInclude.fileField.key = "File" := by decide

example : equalFold "file" "File" = true := by decide
example : equalFold "tasks_from" "TasksFrom" = false := by decide

theorem fieldValue_file_singleton (p : String) :
    fieldValue [("file", p)] TaskInclude.fileField = some p := by
  have h1 : TaskInclude.fileField.key = "File" := by decide
  have h2 : ¬ ("file" = "File") := by decide
  have h3 : equalFold "file" "File" = true := by decide
  simp [fieldValue, h1, mapGet, h2, List.find?, h3]

theorem renderMap_get (ev : String → Variables → Except String String) (vars : Variables) :
    ∀ (params m : List (String × Value)) (k s p : String),
      renderMap ev vars params = .ok m → mapGet params k = some (.str s) → ev s vars = .ok p →
      mapGet m k = some (.str p) := by
  intro params
  induction params with
  | nil => intro m k s p _ h; simp [mapGet] at h
  | cons e rest ih =>
    intro m k s p hm hk hev
    obtain ⟨k', v'⟩ := e
    simp only [renderMap] at hm
    split at hm
    · simp at hm
    · rename_i rendered hr
      split at hm
      · simp at hm
      · rename_i res hres
        simp only [Except.ok.injEq] at hm
        subst hm
        simp only [mapGet] at hk ⊢
        by_cases hkk : k' = k
        · simp only [hkk, if_true, Option.some.injEq] at hk ⊢
          subst hk
          simp only [renderVariable, hev, Except.ok.injEq] at hr
          exact hr.symm
        · simp only [hkk, if_false] at hk ⊢
          exact ih res k s p hres hk hev

theorem renderMap_keys (ev : String → Variables → Except String String) (vars : Variables) :
    ∀ (params m : List (String × Value)),
      renderMap ev vars params = .ok m → m.map Prod.fst = params.map Prod.fst := by
  intro params
  induction params with
  | nil =>
    intro m hm
    simp only [renderMap, Except.ok.injEq] at hm
    subst hm
    rfl
  | cons e rest ih =>
    intro m hm
    obtain ⟨k', v'⟩ := e
    simp only [renderMap] at hm
    split at hm
    · simp at hm
    · split at hm
      · simp at hm
      · rename_i res hres
        simp only [Except.ok.injEq] at hm
        subst hm
        simp only [List.map_cons, ih res hres]

theorem mapGet_toStringMap_File :
    ∀ (m : Module), (∀ k ∈ m.map Prod.fst, equalFold k "File" = true → k = "file") →
      mapGet m.ToStringMap "File" = none := by
  have hself : equalFold "File" "File" = true := by decide
  have hne : ¬ ("File" = "file") := by decide
  intro m
  induction m with
  | nil => intro _; rfl
  | cons e rest ih =>
    intro hkeys
    obtain ⟨k, v⟩ := e
    have hkF : ¬ (k = "File") := by
      intro h
      subst h
      exact hne (hkeys "File" (by simp) hself)
    have hrest : ∀ k ∈ rest.map Prod.fst, equalFold k "File" = true → k = "file" :=
      fun k' hk' => hkeys k' (by simp only [List.map_cons, List.mem_cons]; exact Or.inr hk')
    have ihp := ih hrest
    cases v <;>
      simp only [Module.ToStringMap, List.filterMap_cons, mapGet, hkF, if_false] at ihp ⊢ <;>
      exact ihp

/-- In the string entries of a module whose only key matching `File` without
regard to case is `file`, the decoder finds the value of `file`. -/
theorem fieldValue_file_of_module :
    ∀ (m : Module) (p : String), mapGet m "file" = some (.str p) →
      (∀ k ∈ m.map Prod.fst, equalFold k "File" = true → k = "file") →
      fieldValue m.ToStringMap TaskInclude.fileField = some p := by
  have hkey : TaskInclude.fileField.key = "File" := by decide
  have hfold : equalFold "file" "File" = true := by decide
  intro m p hget hkeys
  simp only [fieldValue, hkey, mapGet_toStringMap_File m hkeys]
  clear hkey
  induction m with
  | nil => simp [mapGet] at hget
  | cons e rest ih =>
    obtain ⟨k, v⟩ := e
    have hk : equalFold k "File" = true → k = "file" :=
      hkeys k (by simp)
    have hrest : ∀ k ∈ rest.map Prod.fst, equalFold k "File" = true → k = "file" :=
      fun k' hk' => hkeys k' (by simp only [List.map_cons, List.mem_cons]; exact Or.inr hk')
    by_cases hkf : k = "file"
    · subst hkf
      simp only [mapGet, if_true, Option.some.injEq] at hget
      subst hget
      simp [Module.ToStringMap, List.filterMap_cons, List.find?, hfold]
    · simp only [mapGet, hkf, if_false] at hget
      have hnf : equalFold k "File" = false := by
        cases h : equalFold k "File" with
        | false => rfl
        | true => exact absurd (hk h) hkf
      have ihp := ih hget hrest
      cases v <;>
        simp only [Module.ToStringMap, List.filterMap_cons, List.find?, hnf] at ihp ⊢ <;>
        exact ihp

theorem moduleParams_freeForm (fuel : Nat) (w w1 : World) (t : Task) (d s p : String)
    (vars : Variables) (rawModule : List (String × String))
    (hraw : mapGet t.data.raw d = some (.str s))
    (hvars : t.resolveVars fuel w = .ok (vars, w1))
    (hrender : w.evaluate s vars = .ok p) :
    moduleParams fuel [d] rawModule t w = .ok (mapSet rawModule "file" p, t, w1) := by
  simp only [moduleParams, Task.isModuleFreeForm, hraw, hvars, hrender]

theorem moduleParams_structured (fuel : Nat) (w w1 : World) (t : Task) (d : String)
    (vars : Variables) (rawModule : List (String × String)) (params : List (String × Value))
    (m : Module)
    (hraw : mapGet t.data.raw d = some (.map params))
    (hcache : t.data.cachedVars = none)
    (hvars : t.resolveVars fuel w = .ok (vars, w1))
    (hrender : renderMap w.evaluate vars params = .ok m) :
    moduleParams fuel [d] rawModule t w
      = .ok (m.ToStringMap, .mk { t.data with cachedVars := some vars } t.block, w1) := by
  simp only [moduleParams, Task.isModuleFreeForm, hraw, Task.Module, Task.moduleVars, hcache,
    hvars, hrender]

/-- C6. The path a task include gives to `LoadTasks` is the cleaned join of the
directory of the file the task comes from with the rendered file parameter,
whatever the loader root and the role are. Here `d` is the one task-include
key of the task, `vars` the variables resolved for the task and `p` the
rendering of the parameter `s`; the parameter is either the free-form string
or the entry `file` of the mapping (whose other keys do not match `File`
without regard to case, and whose values all render). The fixtures of the
test suite evaluate accordingly. -/
theorem tasksFile_relative (fuel : Nat) (w w1 : World) (t : Task) (d s p : String)
    (vars : Variables)
    (hd : d ∈ applyBuiltinPrefixAll [includeTasksAction, importTasksAction])
    (hone : ∀ a ∈ applyBuiltinPrefixAll [includeTasksAction, importTasksAction],
      a ≠ d → mapGet t.data.raw a = none)
    (hvars : t.resolveVars fuel w = .ok (vars, w1))
    (hrender : w.evaluate s vars = .ok p) :
    (mapGet t.data.raw d = some (.str s) →
      t.tasksFile fuel w
        = .ok (filepathJoin [filepathDir t.data.metadata.path, p], t, w1)) ∧
    (∀ (params : List (String × Value)) (m : Module),
      mapGet t.data.raw d = some (.map params) → t.data.cachedVars = none →
      mapGet params "file" = some (.str s) →
      (∀ k ∈ params.map Prod.fst, equalFold k "File" = true → k = "file") →
      renderMap w.evaluate vars params = .ok m →
      t.tasksFile fuel w
        = .ok (filepathJoin [filepathDir t.data.metadata.path, p],
            .mk { t.data with cachedVars := some vars } t.block, w1)) ∧
    loadAndCompile 2 includeTasksWorld "roles/test/tasks/main.yaml"
      = .ok [("Test task", 0, none), ("Test task 2", 3, some 1), ("Test task 3", 4, some 2)] ∧
    includeTargets 1 includeTasksWorld "roles/test/tasks/main.yaml"
      = .ok ["roles/test/tasks/included.yaml", "roles/test2/tasks/main.yaml"] ∧
    includeTargets 1 tplIncludeWorld "roles/test/tasks/main.yaml"
      = .ok ["roles/test/tasks/included.yaml"] := by
  refine ⟨?_, ?_, rfl, rfl, rfl⟩
  · intro hraw
    unfold Task.tasksFile
    rw [moduleParams_single fuel d _ taskIncludeActions_nodup hd [] t w hone,
      moduleParams_freeForm fuel w w1 t d s p vars [] hraw hvars hrender]
    simp only [decodeTaskInclude, mapSet, fieldValue_file_singleton, Option.getD_some]
  · intro params m hraw hcache hfile hkeys hm
    unfold Task.tasksFile
    rw [moduleParams_single fuel d _ taskIncludeActions_nodup hd [] t w hone,
      moduleParams_structured fuel w w1 t d vars [] params m hraw hcache hvars hm]
    have hmget := renderMap_get w.evaluate vars params m "file" s p hm hfile hrender
    have hmkeys : ∀ k ∈ m.map Prod.fst, equalFold k "File" = true → k = "file" := by
      rw [renderMap_keys w.evaluate vars params m hm]
      exact hkeys
    simp only [decodeTaskInclude, fieldValue_file_of_module m p hmget hmkeys, Option.getD_some]
    rfl

/-- Witness of `tasksFile_relative`: the free-form include of the role `test2`
and the structured include of `included.yaml`, both in
`roles/test/tasks/main.yaml`. -/
theorem tasksFile_relative_witness :
    (filepathJoin [filepathDir "roles/test/tasks/main.yaml", "../../test2/tasks/main.yaml"]
        = "roles/test2/tasks/main.yaml") ∧
    otherRoleInclude.tasksFile 1 includeTasksWorld
      = .ok (filepathJoin [filepathDir otherRoleInclude.data.metadata.path,
          "../../test2/tasks/main.yaml"], otherRoleInclude, includeTasksWorld) ∧
    (filepathJoin [filepathDir "roles/test/tasks/main.yaml", "included.yaml"]
        = "roles/test/tasks/included.yaml") ∧
    currentRoleInclude.tasksFile 1 includeTasksWorld
      = .ok (filepathJoin [filepathDir currentRoleInclude.data.metadata.path, "included.yaml"],
          .mk { currentRoleInclude.data with cachedVars := some [] } currentRoleInclude.block,
          includeTasksWorld) :=
  ⟨by decide,
   (tasksFile_relative 1 includeTasksWorld includeTasksWorld otherRoleInclude
      "include_tasks" "../../test2/tasks/main.yaml" "../../test2/tasks/main.yaml" []
      (by decide)
      (by
        intro a ha hne
        simp only [applyBuiltinPrefixAll, List.map_cons, List.map_nil, List.cons_append,
          List.nil_append, List.mem_cons, List.mem_singleton, List.not_mem_nil, or_false] at ha
        rcases ha with rfl | rfl | rfl | rfl
        · exact absurd rfl hne
        · rfl
        · rfl
        · rfl)
      rfl rfl).1 rfl,
   by decide,
   (tasksFile_relative 1 includeTasksWorld includeTasksWorld currentRoleInclude
      "include_tasks" "included.yaml" "included.yaml" []
      (by decide)
      (by
        intro a ha hne
        simp only [applyBuiltinPrefixAll, List.map_cons, List.map_nil, List.cons_append,
          List.nil_append, List.mem_cons, List.mem_singleton, List.not_mem_nil, or_false] at ha
        rcases ha with rfl | rfl | rfl | rfl
        · exact absurd rfl hne
        · rfl
        · rfl
        · rfl)
      rfl rfl).2.1 [("file", .str "included.yaml")] [("file", .str "included.yaml")] rfl rfl rfl
      (by
        intro k hk _
        simp only [List.map_cons, List.map_nil, List.mem_singleton] at hk
        exact hk)
      rfl⟩

/-- The rendered path of an include parameter, empty when it does not render. -/
theorem renderMap_file (ev : String → Variables → Except String String) (vars : Variables)
    (s : String) :
    renderMap ev vars [("file", .str s)]
      = match ev s vars with
        | .ok p => .ok [("file", .str p)]
        | .error e => .error e := by
  simp only [renderMap, renderVariable]
  cases ev s vars <;> rfl

theorem tasksFile_freeForm_eq (fuel : Nat) (w : World) (t : Task) (d s : String)
    (hd : d ∈ applyBuiltinPrefixAll [includeTasksAction, importTasksAction])
    (hone : ∀ a ∈ applyBuiltinPrefixAll [includeTasksAction, importTasksAction],
      a ≠ d → mapGet t.data.raw a = none)
    (hraw : mapGet t.data.raw d = some (.str s)) :
    t.tasksFile fuel w
      = (t.resolveVars fuel w).map fun r =>
          (filepathJoin [filepathDir t.data.metadata.path,
            match w.evaluate s r.1 with
            | .ok p => p
            | .error _ => ""], t, r.2) := by
  unfold Task.tasksFile
  rw [moduleParams_single fuel d _ taskIncludeActions_nodup hd [] t w hone]
  cases hv : t.resolveVars fuel w with
  | error e => simp only [moduleParams, Task.isModuleFreeForm, hraw, hv]; rfl
  | ok r =>
    obtain ⟨vars, w1⟩ := r
    cases hr : w.evaluate s vars with
    | ok p =>
      rw [moduleParams_freeForm fuel w w1 t d s p vars [] hraw hv hr]
      simp only [decodeTaskInclude, mapSet, fieldValue_file_singleton, Option.getD_some,
        Except.map, hr]
    | error e =>
      have hm : t.Module fuel w1 d = .ok (none, t, w1) :=
        Module_of_not_map fuel w1 t d (by simp [hraw])
      simp only [moduleParams, Task.isModuleFreeForm, hraw, hv, hr, hm, decodeTaskInclude,
        fieldValue, mapGet, List.find?, Option.map_none', Option.getD_none, Except.map]

theorem tasksFile_structured_eq (fuel : Nat) (w : World) (t : Task) (d s : String)
    (hd : d ∈ applyBuiltinPrefixAll [includeTasksAction, importTasksAction])
    (hone : ∀ a ∈ applyBuiltinPrefixAll [includeTasksAction, importTasksAction],
      a ≠ d → mapGet t.data.raw a = none)
    (hraw : mapGet t.data.raw d = some (.map [("file", .str s)]))
    (hcache : t.data.cachedVars = none) :
    t.tasksFile fuel w
      = (t.resolveVars fuel w).map fun r =>
          (filepathJoin [filepathDir t.data.metadata.path,
            match w.evaluate s r.1 with
            | .ok p => p
            | .error _ => ""], .mk { t.data with cachedVars := some r.1 } t.block, r.2) := by
  unfold Task.tasksFile
  rw [moduleParams_single fuel d _ taskIncludeActions_nodup hd [] t w hone]
  cases hv : t.resolveVars fuel w with
  | error e =>
    simp only [moduleParams, Task.isModuleFreeForm, hraw, Task.Module, Task.moduleVars, hcache,
      hv]
    rfl
  | ok r =>
    obtain ⟨vars, w1⟩ := r
    cases hr : w.evaluate s vars with
    | ok p =>
      have hm : renderMap w.evaluate vars [("file", .str s)] = .ok [("file", .str p)] := by
        rw [renderMap_file, hr]
      rw [moduleParams_structured fuel w w1 t d vars [] _ _ hraw hcache hv hm]
      have h1 : Module.ToStringMap [("file", Value.str p)] = [("file", p)] := rfl
      simp only [h1, decodeTaskInclude, fieldValue_file_singleton, Option.getD_some,
        Except.map, hr]
      rfl
    | error e =>
      have hm : renderMap w.evaluate vars [("file", .str s)] = .error e := by
        rw [renderMap_file, hr]
      simp only [moduleParams, Task.isModuleFreeForm, hraw, Task.Module, Task.moduleVars,
        hcache, hv, hm, decodeTaskInclude, fieldValue, mapGet, List.find?, Option.map_none',
        Option.getD_none, Except.map, hr]
      rfl

theorem updateParent_congr (x t1 t2 : Task) (h : t1.data.addr = t2.data.addr) :
    x.updateParent t1 = x.updateParent t2 := by
  simp only [Task.updateParent, h]

theorem compileTaskInclude_congr (fuel : Nat) (c : TaskCompiler) (w : World) (a b : Task)
    (f : Variables → String) (ta tb : Variables → Task)
    (ha : a.tasksFile fuel w = (a.resolveVars fuel w).map fun r => (f r.1, ta r.1, r.2))
    (hb : b.tasksFile fuel w = (a.resolveVars fuel w).map fun r => (f r.1, tb r.1, r.2))
    (haddr : ∀ v, (ta v).data.addr = (tb v).data.addr)
    (hrole : ∀ v, (ta v).data.role = (tb v).data.role)
    (hdl : ∀ v, (ta v).data.dataloader = (tb v).data.dataloader) :
    (a.compileTaskInclude fuel c w).map (fun r => (r.out, r.world))
      = (b.compileTaskInclude fuel c w).map (fun r => (r.out, r.world)) := by
  unfold Task.compileTaskInclude
  rw [ha, hb]
  cases a.resolveVars fuel w with
  | error e => rfl
  | ok r =>
    obtain ⟨vars, w1⟩ := r
    simp only [Except.map]
    rw [haddr vars, hrole vars, hdl vars]
    have hup : (fun task : Task => task.updateParent (ta vars))
        = fun task : Task => task.updateParent (tb vars) := by
      funext x
      exact updateParent_congr x _ _ (haddr vars)
    rw [hup]
    cases (tb vars).data.dataloader with
    | false => rfl
    | true =>
      simp only [Bool.not_true, Bool.false_eq_true, if_false]
      cases LoadTasks w1 (some (.task (tb vars).data.addr)) (tb vars).data.role (f vars) with
      | error e => rfl
      | ok lr =>
        obtain ⟨l, w2⟩ := lr
        cases l with
        | error e => rfl
        | ok loaded =>
          simp only
          cases compileEach c (loaded.map fun task => task.updateParent (tb vars)) w2 <;> rfl

/-- C7. A task whose one task-include directive `d` is written in free form
(`d: s`) and the same task with the directive written as `d: {file: s}`, both
with no cached variables, resolve to the same target path (the world after
the resolution being the same too) and compile to the same task sequence in
the same resulting world, for every fuel and whether compilation ends in a
result or not. -/
theorem include_freeForm_eq_structured (fuel : Nat) (w : World) (t : Task) (d s : String)
    (hd : d ∈ applyBuiltinPrefixAll [includeTasksAction, importTasksAction])
    (hone : ∀ a ∈ applyBuiltinPrefixAll [includeTasksAction, importTasksAction],
      a ≠ d → mapGet t.data.raw a = none)
    (hcache : t.data.cachedVars = none) :
    let free := Task.mk { t.data with raw := mapSet t.data.raw d (.str s) } t.block
    let structured :=
      Task.mk { t.data with raw := mapSet t.data.raw d (.map [("file", .str s)]) } t.block
    (free.tasksFile fuel w).map (fun r => (r.1, r.2.2))
      = (structured.tasksFile fuel w).map (fun r => (r.1, r.2.2)) ∧
    (Task.Compile fuel w free).map (fun r => (r.out, r.world))
      = (Task.Compile fuel w structured).map (fun r => (r.out, r.world)) := by
  intro free structured
  have hfree_one : ∀ a ∈ applyBuiltinPrefixAll [includeTasksAction, importTasksAction],
      a ≠ d → mapGet free.data.raw a = none := by
    intro a ha hne
    show mapGet (mapSet t.data.raw d (.str s)) a = none
    rw [mapGet_mapSet_of_ne _ _ _ _ hne]
    exact hone a ha hne
  have hstr_one : ∀ a ∈ applyBuiltinPrefixAll [includeTasksAction, importTasksAction],
      a ≠ d → mapGet structured.data.raw a = none := by
    intro a ha hne
    show mapGet (mapSet t.data.raw d (.map [("file", .str s)])) a = none
    rw [mapGet_mapSet_of_ne _ _ _ _ hne]
    exact hone a ha hne
  have hfree_raw : mapGet free.data.raw d = some (.str s) := mapGet_mapSet_self _ _ _
  have hstr_raw : mapGet structured.data.raw d = some (.map [("file", .str s)]) :=
    mapGet_mapSet_self _ _ _
  have hvars : structured.resolveVars fuel w = free.resolveVars fuel w := rfl
  have h1 := tasksFile_freeForm_eq fuel w free d s hd hfree_one hfree_raw
  have h2 := tasksFile_structured_eq fuel w structured d s hd hstr_one hstr_raw hcache
  rw [hvars] at h2
  constructor
  · rw [h1, h2]
    cases free.resolveVars fuel w <;> rfl
  · cases fuel with
    | zero => rfl
    | succ n =>
      rw [taskCompile_succ, taskCompile_succ]
      unfold Task.compileWith
      have hblock : structured.block = free.block := rfl
      rw [hblock]
      split
      · unfold Task.compileBlockTasks
        rw [hblock]
        cases compileEach (Task.Compile n) free.block w <;> rfl
      · have hmem : d ∈ applyBuiltinPrefixAll [importTasksAction, includeTasksAction] := by
          simp only [applyBuiltinPrefixAll, List.map_cons, List.map_nil, List.cons_append,
            List.nil_append, List.mem_cons, List.mem_singleton, List.not_mem_nil,
            or_false] at hd ⊢
          tauto
        have hf : free.isTaskInclude = true :=
          actionOneOf_eq_true free _ d hmem (by rw [hfree_raw]; rfl)
        have hs : structured.isTaskInclude = true :=
          actionOneOf_eq_true structured _ d hmem (by rw [hstr_raw]; rfl)
        simp only [hf, hs, if_true]
        exact compileTaskInclude_congr (n + 1) (Task.Compile n) w free structured
          (fun v => filepathJoin [filepathDir t.data.metadata.path,
            match w.evaluate s v with
            | .ok p => p
            | .error _ => ""])
          (fun _ => free)
          (fun v => .mk { structured.data with cachedVars := some v } structured.block)
          h1 h2 (fun _ => rfl) (fun _ => rfl) (fun _ => rfl)

/-- What the calls of `Module` and `isModuleFreeForm` may change in a task: its cached variables. -/
theorem moduleVars_task (fuel : Nat) (w : World) (t : Task) (vars : Variables)
    (t1 : Task) (w1 : World) (h : t.moduleVars fuel w = .ok (vars, t1, w1)) :
    ∃ cv, t1 = .mk { t.data with cachedVars := cv } t.block := by
  unfold Task.moduleVars at h
  split at h
  · simp only [Except.ok.injEq, Prod.mk.injEq] at h
    refine ⟨t.data.cachedVars, ?_⟩
    rw [← h.2.1]
    cases t; rfl
  · split at h
    · simp at h
    · rename_i vars1 w2 _
      simp only [Except.ok.injEq, Prod.mk.injEq] at h
      exact ⟨some vars1, h.2.1.symm⟩

theorem Module_task (fuel : Nat) (w : World) (t : Task) (a : String) (m : Option Module)
    (t1 : Task) (w1 : World) (h : t.Module fuel w a = .ok (m, t1, w1)) :
    ∃ cv, t1 = .mk { t.data with cachedVars := cv } t.block := by
  unfold Task.Module at h
  split at h
  · split at h
    · simp at h
    · rename_i hv
      obtain ⟨cv, hcv⟩ := moduleVars_task _ _ _ _ _ _ hv
      split at h <;>
        (simp only [Except.ok.injEq, Prod.mk.injEq] at h
         exact ⟨cv, by rw [← h.2.1]; exact hcv⟩)
  · simp only [Except.ok.injEq, Prod.mk.injEq] at h
    refine ⟨t.data.cachedVars, ?_⟩
    rw [← h.2.1]
    cases t; rfl

theorem moduleParams_task (fuel : Nat) :
    ∀ (actions : List String) (rawModule : List (String × String)) (t : Task) (w : World)
      (r : List (String × String) × Task × World),
      moduleParams fuel actions rawModule t w = .ok r →
      ∃ cv, r.2.1 = .mk { t.data with cachedVars := cv } t.block := by
  intro actions
  induction actions with
  | nil =>
    intro rm t w r h
    simp only [moduleParams, Except.ok.injEq] at h
    subst h
    exact ⟨t.data.cachedVars, by cases t; rfl⟩
  | cons a rest ih =>
    intro rm t w r h
    simp only [moduleParams] at h
    split at h
    · simp at h
    · exact ih _ _ _ _ h
    · split at h
      · simp at h
      · rename_i hm
        obtain ⟨cv, hcv⟩ := Module_task _ _ _ _ _ _ _ hm
        obtain ⟨cv2, hcv2⟩ := ih _ _ _ _ h
        exact ⟨cv2, by rw [hcv2, hcv]; rfl⟩
      · rename_i hm
        obtain ⟨cv, hcv⟩ := Module_task _ _ _ _ _ _ _ hm
        obtain ⟨cv2, hcv2⟩ := ih _ _ _ _ h
        exact ⟨cv2, by rw [hcv2, hcv]; rfl⟩

theorem tasksFile_task (fuel : Nat) (w : World) (t : Task) (r : String × Task × World)
    (h : t.tasksFile fuel w = .ok r) :
    ∃ cv, r.2.1 = .mk { t.data with cachedVars := cv } t.block := by
  unfold Task.tasksFile at h
  split at h
  · simp at h
  · rename_i hm
    split at h
    · simp at h
    · simp only [Except.ok.injEq] at h
      subst h
      exact moduleParams_task _ _ _ _ _ _ hm

theorem roleIncludeModule_task (fuel : Nat) (w : World) (t : Task)
    (r : RoleIncludeModule × Task × World) (h : t.roleIncludeModule fuel w = .ok r) :
    ∃ cv, r.2.1 = .mk { t.data with cachedVars := cv } t.block := by
  unfold Task.roleIncludeModule at h
  split at h
  · simp at h
  · rename_i hm
    split at h
    · simp at h
    · simp only [Except.ok.injEq] at h
      subst h
      exact moduleParams_task _ _ _ _ _ _ hm

theorem compileEach_mem_of_leaf (fuel : Nat) :
    ∀ (ts : List Task) (w : World) (r : CompiledTasks),
      compileEach (Task.Compile fuel) ts w = .ok r →
      ∀ x ∈ ts, x.isLeaf = true → x ∈ r.out := by
  intro ts
  induction ts with
  | nil => intro w r _ x hx; simp at hx
  | cons t ts ih =>
    intro w r h x hx hleaf
    simp only [compileEach] at h
    cases h1 : Task.Compile fuel w t with
    | error e => rw [h1] at h; simp at h
    | ok r1 =>
      rw [h1] at h
      simp only at h
      cases h2 : compileEach (Task.Compile fuel) ts r1.world with
      | error e => rw [h2] at h; simp at h
      | ok r2 =>
        rw [h2] at h
        simp only [Except.ok.injEq] at h
        subst h
        simp only [List.mem_append]
        rcases List.mem_cons.mp hx with hxt | hxts
        · subst hxt
          left
          cases fuel with
          | zero => simp [Task.Compile, compileFuel] at h1
          | succ n =>
            rw [taskCompile_succ, compileWith_leaf _ _ _ _ _ hleaf] at h1
            simp only [Except.ok.injEq] at h1
            subst h1
            simp
        · right
          exact ih r1.world r2 h2 x hxts hleaf

theorem updateParent_parent (x t : Task) :
    (x.updateParent t).data.parent = some t.data.addr ∧
    (x.updateParent t).data.metadata.parent = some (.task t.data.addr) := ⟨rfl, rfl⟩

/-- C8 (counterexample). In `includeBlockWorld` the task at address 0 includes
`nested.yaml`, whose one task is a block (address 1) around one leaf; the file
loads, and the one task of the result has the block as parent, not the
including task. -/
theorem include_parent_counterexample :
    LoadTasks includeBlockWorld none none "main.yaml"
      = .ok (.ok [blockInclude], includeBlockLoaded) ∧
    blockInclude.isTaskInclude = true ∧
    blockInclude.data.addr = 0 ∧
    (Task.Compile 3 includeBlockLoaded blockInclude).map
        (fun r => r.out.map fun x => (x.Name, x.data.parent, x.data.metadata.parent))
      = .ok [("In block", some 1, some (.task 1))] :=
  ⟨rfl, rfl, rfl, rfl⟩

/-- C8 (amended). A task include stamps the tasks it loads: every task loaded
from the target file gets the including task as parent task and as metadata
parent before it is compiled, and the result is the compilation of the loaded
tasks so stamped. Hence every loaded task that is a leaf is in the result,
with the including task as parent; and when all the loaded tasks are leaves
the result is exactly these tasks, every one with the including task as
parent. -/
theorem include_parent_of_loaded (fuel : Nat) (w w1 w2 : World) (t t1 : Task)
    (tasksFile : String) (loaded : Tasks)
    (hblock : t.block = []) (hinc : t.isTaskInclude = true)
    (hfile : t.tasksFile (fuel + 1) w = .ok (tasksFile, t1, w1))
    (hdl : t1.data.dataloader = true)
    (hload : LoadTasks w1 (some (.task t1.data.addr)) t1.data.role tasksFile
      = .ok (.ok loaded, w2)) :
    (∀ x ∈ loaded.map (fun task => task.updateParent t),
      x.data.parent = some t.data.addr ∧ x.data.metadata.parent = some (.task t.data.addr)) ∧
    Task.Compile (fuel + 1) w t
      = (Tasks.Compile fuel w2 (loaded.map fun task => task.updateParent t)).map
          (fun r => { out := r.out, task := t1, world := r.world }) ∧
    (∀ r : Compiled, Task.Compile (fuel + 1) w t = .ok r →
      ∀ x ∈ loaded, x.isLeaf = true →
        x.updateParent t ∈ r.out ∧ (x.updateParent t).data.parent = some t.data.addr) ∧
    (∀ r : Compiled, Task.Compile (fuel + 1) w t = .ok r →
      (∀ x ∈ loaded, x.isLeaf = true) →
        r.out = loaded.map (fun task => task.updateParent t) ∧
        ∀ x ∈ r.out, x.data.parent = some t.data.addr ∧
          x.data.metadata.parent = some (.task t.data.addr)) := by
  obtain ⟨cv, hcv⟩ := tasksFile_task _ _ _ _ hfile
  simp only at hcv
  have haddr : t1.data.addr = t.data.addr := by rw [hcv]; rfl
  have hup : (fun task : Task => task.updateParent t1) = fun task : Task => task.updateParent t := by
    funext x
    exact updateParent_congr x _ _ haddr
  have hcomp : Task.Compile (fuel + 1) w t
      = (Tasks.Compile fuel w2 (loaded.map fun task => task.updateParent t)).map
          (fun r => { out := r.out, task := t1, world := r.world }) := by
    rw [taskCompile_succ]
    simp only [Task.compileWith, hblock, List.length_nil, gt_iff_lt, Nat.lt_irrefl, if_false,
      hinc, if_true, Task.compileTaskInclude, hfile, hdl, Bool.not_true, Bool.false_eq_true,
      hload, hup, Tasks.Compile]
    cases compileEach (Task.Compile fuel) (loaded.map fun task => task.updateParent t) w2 <;> rfl
  have hstamped : ∀ x ∈ loaded.map (fun task => task.updateParent t),
      x.data.parent = some t.data.addr ∧ x.data.metadata.parent = some (.task t.data.addr) := by
    intro x hx
    simp only [List.mem_map] at hx
    obtain ⟨y, _, rfl⟩ := hx
    exact updateParent_parent y t
  refine ⟨hstamped, hcomp, ?_, ?_⟩
  · intro r hr x hx hleaf
    rw [hcomp] at hr
    cases h2 : Tasks.Compile fuel w2 (loaded.map fun task => task.updateParent t) with
    | error e => rw [h2] at hr; simp [Except.map] at hr
    | ok r2 =>
      rw [h2] at hr
      simp only [Except.map, Except.ok.injEq] at hr
      subst hr
      refine ⟨?_, rfl⟩
      exact compileEach_mem_of_leaf fuel _ w2 r2 h2 (x.updateParent t)
        (List.mem_map.mpr ⟨x, hx, rfl⟩) (by rw [updateParent_isLeaf]; exact hleaf)
  · intro r hr hleaves
    rw [hcomp] at hr
    have hall : ∀ x ∈ loaded.map (fun task => task.updateParent t), x.isLeaf = true := by
      intro x hx
      simp only [List.mem_map] at hx
      obtain ⟨y, hy, rfl⟩ := hx
      rw [updateParent_isLeaf]
      exact hleaves y hy
    have hout : r.out = loaded.map (fun task => task.updateParent t) := by
      cases fuel with
      | zero =>
        cases hl : loaded with
        | nil =>
          rw [hl] at hr
          simp only [Tasks.Compile, List.map_nil, compileEach, Except.map, Except.ok.injEq] at hr
          subst hr
          rfl
        | cons y ys =>
          rw [hl] at hr
          simp [Tasks.Compile, compileEach, Task.Compile, compileFuel, Except.map] at hr
      | succ n =>
        have h2 : Tasks.Compile (n + 1) w2 (loaded.map fun task => task.updateParent t)
            = .ok { out := loaded.map fun task => task.updateParent t
                    tasks := loaded.map fun task => task.updateParent t, world := w2 } :=
          compileEach_of_leaves n _ w2 hall
        rw [h2] at hr
        simp only [Except.map, Except.ok.injEq] at hr
        subst hr
        rfl
    refine ⟨hout, ?_⟩
    rw [hout]
    exact hstamped

/-- Witness of `include_parent_of_loaded`: the include of `nested.yaml` in `includeBlockWorld`. -/
theorem include_parent_of_loaded_witness :
    blockInclude.block = [] ∧ blockInclude.isTaskInclude = true ∧
    (Task.Compile 3 includeBlockLoaded blockInclude
      = (Tasks.Compile 2 (nestedLoaded.2)
          (nestedLoaded.1.map fun task => task.updateParent blockInclude)).map
          (fun r => { out := r.out, task := blockIncludeCached, world := r.world })) :=
  ⟨rfl, rfl,
   (include_parent_of_loaded 2 includeBlockLoaded includeBlockLoaded nestedLoaded.2 blockInclude
      blockIncludeCached "nested.yaml" nestedLoaded.1 rfl rfl rfl rfl rfl).2.1⟩

/-- C9. A role-include task `t` owned by a role, whose module names a role that
`LoadRoleWithOptions` loads (at address `r`) and whose compilation returns,
compiles (with every fuel above that of the role) to the tasks of
`r.Compile()` in the same order (the same task objects by address, with the
same names), each with `t` as parent task and as metadata parent. -/
theorem roleInclude_compile (fuel : Nat) (w w1 w2 : World) (t t1 : Task)
    (module : RoleIncludeModule) (rolePtr : Nat) (role : Role) (r : Nat) (cr : CompiledRole)
    (hblock : t.block = []) (hnot : t.isTaskInclude = false) (hinc : t.isRoleInclude = true)
    (hmod : t.roleIncludeModule (fuel + 1) w = .ok (module, t1, w1))
    (hrole : t1.data.role = some rolePtr) (hderef : w1.role rolePtr = .ok role)
    (hdl : t1.data.dataloader = true)
    (hload : LoadRoleWithOptions w1 (some (.task t1.data.addr)) role.play module.Name
      (roleIncludeOptions module) = .ok (.ok r, w2))
    (hcomp : Role.Compile fuel w2 r = .ok cr) :
    ∃ res : Compiled, (∀ n : Nat, fuel + 1 ≤ n → Task.Compile n w t = .ok res) ∧
      res.out = cr.out.map (fun task => task.updateParent t) ∧
      res.out.length = cr.out.length ∧
      res.out.map (fun x => x.data.addr) = cr.out.map (fun x => x.data.addr) ∧
      res.out.map Task.Name = cr.out.map Task.Name ∧
      (∀ x ∈ res.out,
        x.data.parent = some t.data.addr ∧ x.data.metadata.parent = some (.task t.data.addr)) := by
  obtain ⟨cv, hcv⟩ := roleIncludeModule_task _ _ _ _ hmod
  simp only at hcv
  have haddr : t1.data.addr = t.data.addr := by rw [hcv]; rfl
  have hup : (fun task : Task => task.updateParent t1) = fun task : Task => task.updateParent t := by
    funext x
    exact updateParent_congr x _ _ haddr
  refine ⟨{ out := cr.out.map (fun task => task.updateParent t), task := t1, world := cr.world },
    ?_, rfl, ?_, ?_, ?_, ?_⟩
  · intro n hn
    apply taskCompile_mono (fuel + 1) n hn
    rw [taskCompile_succ]
    have hcomp' : (compileFuel fuel).2 w2 r = .ok cr := hcomp
    simp only [Task.compileWith, hblock, List.length_nil, gt_iff_lt, Nat.lt_irrefl, if_false,
      hnot, hinc, if_true, Task.compileRoleInclude, hmod, hrole, hderef, hdl, Bool.not_true,
      Bool.false_eq_true, hload, Role.Compile, hcomp', hup]
  · simp
  · simp only [List.map_map]
    apply List.map_congr_left
    intro x _
    rfl
  · simp only [List.map_map]
    apply List.map_congr_left
    intro x _
    rfl
  · intro x hx
    simp only [List.mem_map] at hx
    obtain ⟨y, _, rfl⟩ := hx
    exact updateParent_parent y t

/-- Witness of `roleInclude_compile`: the task `include_role: {name: included}`
of `TestLoadTaskWithIncludeRole`, which compiles to `Test task 2` with the
including task (address 1) as parent. -/
theorem roleInclude_compile_witness :
    roleInclude.block = [] ∧ roleInclude.isTaskInclude = false ∧
    roleInclude.isRoleInclude = true ∧
    (Task.Compile 3 includeRoleLoaded roleInclude).map
        (fun res => res.out.map fun x => (x.Name, x.data.addr, x.data.parent))
      = .ok [("Test task 2", 2, some 1)] ∧
    ∃ res : Compiled,
      (∀ n : Nat, 2 + 1 ≤ n → Task.Compile n includeRoleLoaded roleInclude = .ok res) ∧
      res.out = includedCompiled.out.map (fun task => task.updateParent roleInclude) ∧
      res.out.length = includedCompiled.out.length ∧
      res.out.map (fun x => x.data.addr) = includedCompiled.out.map (fun x => x.data.addr) ∧
      res.out.map Task.Name = includedCompiled.out.map Task.Name ∧
      (∀ x ∈ res.out,
        x.data.parent = some roleInclude.data.addr ∧
        x.data.metadata.parent = some (.task roleInclude.data.addr)) :=
  ⟨rfl, rfl, rfl, rfl,
   roleInclude_compile 2 includeRoleLoaded includeRoleLoaded includedLoaded roleInclude
     roleIncludeCached
     { Name := "included", TasksFrom := "", DefaultsFrom := "", VarsFrom := "", Public := false }
     0 testRole 1 includedCompiled rfl rfl rfl rfl rfl rfl rfl rfl rfl⟩

/-- C10 (the code at the failing input). Whatever the decoded module is, the
defaults file given to `LoadRoleWithOptions` is the one named after the role,
never `defaults_from`. For the task `include_role: {name: web, tasks_from:
main, defaults_from: custom, vars_from: main}` the options in force are
`main`, `web`, `main`, and the default variables of the loaded role `web`
come from `defaults/web.yaml`, not from `defaults/custom.yaml`. -/
theorem roleInclude_defaultsFile_is_name :
    (∀ module : RoleIncludeModule,
      (roleIncludeOptions module).DefaultsFile = module.Name ∧
      (roleIncludeOptions module).WithDefaults.DefaultsFile
        = if module.Name ≠ "" then module.Name else "main") ∧
    (defaultsFromLoaded.role 0).map (fun r => r.tasks) = .ok [defaultsFromInclude] ∧
    (defaultsFromInclude.roleIncludeModule 1 defaultsFromLoaded).map
        (fun r => (r.1.Name, (roleIncludeOptions r.1).WithDefaults))
      = .ok ("web", { TasksFile := "main", DefaultsFile := "web", VarsFile := "main" }) ∧
    (Task.Compile 3 defaultsFromLoaded defaultsFromInclude).map
        (fun r => (roleDefaults r.world, r.out.map Task.Name))
      = .ok ([("site", []), ("web", [("greeting", some "from web")])], ["Web task"]) :=
  ⟨fun _ => ⟨rfl, rfl⟩, rfl, rfl, rfl⟩

/-- Witness of `compile_eq_leaves`: the nested blocks of `blockWorld` compile to
`A`, `B`, `C`, and the tasks of `TestLoadTaskWithIncludeTasks` to the leaves
of their expansion. -/
theorem compile_eq_leaves_witness :
    allBlocksOnly blockTasks = true ∧ heightOfTasks blockTasks ≤ 3 ∧
    (leavesOfTasks blockTasks).map Task.Name = ["A", "B", "C"] ∧
    (Tasks.Compile 3 blockWorld blockTasks
      = .ok { out := leavesOfTasks blockTasks, tasks := blockTasks, world := blockWorld } ∧
     (leavesOfTasks blockTasks).length = numLeavesOfTasks blockTasks) ∧
    Tasks.expand 2 includeTasksLoaded.2 includeTasksLoaded.1 = .ok includeTasksExpanded ∧
    (leavesOfAll includeTasksExpanded.trees).map Task.Name
      = ["Test task", "Test task 2", "Test task 3"] ∧
    Tasks.Compile 5 includeTasksLoaded.2 includeTasksLoaded.1
      = .ok { out := leavesOfAll includeTasksExpanded.trees, tasks := includeTasksExpanded.tasks
              world := includeTasksExpanded.world } :=
  ⟨rfl, by decide, rfl, (compile_eq_leaves blockWorld blockTasks).2.2 rfl 3 (by decide),
   rfl, rfl,
   (compile_eq_leaves includeTasksLoaded.2 includeTasksLoaded.1).2.1 2 includeTasksExpanded rfl 5
     (by decide)⟩

/-- Witness of `compile_leaf`: the task `debugLeaf`. -/
theorem compile_leaf_witness :
    debugLeaf.block = [] ∧
    Task.Compile 1 includeTasksWorld debugLeaf
      = .ok { out := [debugLeaf], task := debugLeaf, world := includeTasksWorld } :=
  ⟨rfl, compile_leaf 0 includeTasksWorld debugLeaf rfl (by
    intro d hd
    simp only [List.mem_cons, List.mem_singleton, List.not_mem_nil, or_false] at hd
    rcases hd with rfl | rfl | rfl | rfl <;> exact ⟨rfl, rfl⟩)⟩

/-- Witness of `compile_priority`: a block that also holds an include key, and a task with both kinds of include key. -/
theorem compile_priority_witness :
    blockWithInclude.block ≠ [] ∧ blockWithInclude.isTaskInclude = true ∧
    Task.Compile 2 includeTasksWorld blockWithInclude
      = (Tasks.Compile 1 includeTasksWorld blockWithInclude.block).map (fun r =>
          { out := r.out, task := .mk blockWithInclude.data r.tasks, world := r.world }) ∧
    bothIncludes.block = [] ∧ bothIncludes.isTaskInclude = true ∧
    bothIncludes.isRoleInclude = true ∧
    Task.Compile 2 includeTasksWorld bothIncludes
      = bothIncludes.compileTaskInclude 2 (Task.Compile 1) includeTasksWorld :=
  ⟨List.cons_ne_nil debugLeaf [], rfl,
   (compile_priority 1 includeTasksWorld blockWithInclude).1 (List.cons_ne_nil debugLeaf []),
   rfl, rfl, rfl,
   (compile_priority 1 includeTasksWorld bothIncludes).2.2.1 rfl rfl rfl⟩

/-- Witness of `compile_output_leaves`: the result of compiling `blockInclude`. -/
theorem compile_output_leaves_witness :
    Task.Compile 3 includeBlockLoaded blockInclude = .ok blockIncludeCompiled ∧
    blockIncludeCompiled.out.map Task.Name = ["In block"] ∧
    (∀ x ∈ blockIncludeCompiled.out,
      x.block = [] ∧ x.isTaskInclude = false ∧ x.isRoleInclude = false) ∧
    ∀ (fuel1 : Nat) (w1 : World),
      Tasks.Compile (fuel1 + 1) w1 blockIncludeCompiled.out
        = .ok { out := blockIncludeCompiled.out, tasks := blockIncludeCompiled.out, world := w1 } :=
  ⟨rfl, rfl, (compile_output_leaves 3 includeBlockLoaded).1 blockInclude blockIncludeCompiled rfl⟩

/-- Witness of `include_classification`: a task include, a role include and a leaf. -/
theorem include_classification_witness :
    (mapGet blockInclude.data.raw includeTasksAction).isSome ∧
    blockInclude.isTaskInclude = true ∧
    (mapGet roleInclude.data.raw includeRoleAction).isSome ∧
    roleInclude.isRoleInclude = true ∧
    debugLeaf.isTaskInclude = false ∧ debugLeaf.isRoleInclude = false :=
  ⟨rfl, ((include_classification blockInclude).1 includeTasksAction (by decide)).1 rfl,
   rfl, ((include_classification roleInclude).2.1 includeRoleAction (by decide)).1 rfl,
   (include_classification debugLeaf).2.2.1 (by
    intro d hd
    simp only [List.mem_cons, List.mem_singleton, List.not_mem_nil, or_false] at hd
    rcases hd with rfl | rfl | rfl | rfl <;> exact ⟨rfl, rfl⟩)⟩

/-- Witness of `include_freeForm_eq_structured`: the include of `nested.yaml` written both ways. -/
theorem include_freeForm_eq_structured_witness :
    blockInclude.data.cachedVars = none ∧
    (Task.Compile 3 includeBlockLoaded
        (.mk { blockInclude.data with
               raw := mapSet blockInclude.data.raw "include_tasks" (.str "nested.yaml") }
          blockInclude.block)).map (fun r => (r.out, r.world))
      = (Task.Compile 3 includeBlockLoaded
        (.mk { blockInclude.data with
               raw := mapSet blockInclude.data.raw "include_tasks"
                 (.map [("file", .str "nested.yaml")]) }
          blockInclude.block)).map (fun r => (r.out, r.world)) :=
  ⟨rfl,
   (include_freeForm_eq_structured 3 includeBlockLoaded blockInclude "include_tasks" "nested.yaml"
      (by decide)
      (by
        intro a ha hne
        simp only [applyBuiltinPrefixAll, List.map_cons, List.map_nil, List.cons_append,
          List.nil_append, List.mem_cons, List.mem_singleton, List.not_mem_nil, or_false] at ha
        rcases ha with rfl | rfl | rfl | rfl
        · exact absurd rfl hne
        · rfl
        · rfl
        · rfl)
      rfl).2⟩

/-! ### Role includes written as a bare string -/

/-- C11 (divergence): the bare form of a role include stores its value under
the key `file`, which no field of `RoleIncludeModule` reads, so whatever the
role name `n` the decoded module has the empty name. In the project
`siteWorld`, `include_role: web` then loads the directory `roles` itself and
compiles the tasks of every role in it, while `include_role: {name: web}`
compiles the tasks of `web` alone. -/
theorem roleInclude_bare_name_empty :
    (∀ n : String, decodeRoleIncludeModule (mapSet [] "file" n) =
      .ok { Name := "", TasksFrom := "", DefaultsFrom := "", VarsFrom := "", Public := false }) ∧
    (∀ n : String, decodeRoleIncludeModule [("name", n)] =
      .ok { Name := n, TasksFrom := "", DefaultsFrom := "", VarsFrom := "", Public := false }) ∧
    siteCompiled 4 (.scalar 4 .str "web") = some ["Other task", "Web task"] ∧
    siteCompiled 4 (.map 4 [("name", .scalar 4 .str "web")]) = some ["Web task"] :=
  ⟨fun _ => rfl, fun _ => rfl, rfl, rfl⟩

/-! ### Stamping of nested tasks by `LoadTasks` -/

/-- C12 (divergence): `LoadTasks` stamps a returned task and the tasks of its
block, but not the tasks nested deeper: in the role `deep` the task `Deep`, at
depth 2, keeps the empty path, the nil loader and the nil role. -/
theorem loadTasks_stamps_depth_one :
    loadedStamps nestedBlockWorld "deep" =
      some (0, [("Outer block", "roles/deep/tasks/main.yaml", true, some 0),
                ("Inner block", "roles/deep/tasks/main.yaml", true, some 0),
                ("Deep", "", false, none)]) :=
  rfl

/-! ### Compiling a role twice -/

/-- C15 (divergence): every call of `Role.Compile` loads the declared
dependencies again and appends them to the direct dependencies. For `role1` of
`TestLoadRoleDependencies`, which declares the one dependency `role2`, the
second call returns `Test task` twice and leaves two direct dependencies. -/
theorem role_compile_twice_appends :
    compileTwice 3 depLoaded 0 =
      some (["Test task"], ["Test task", "Test task"],
        [("role1", [1, 2]), ("role2", []), ("role2", [])]) :=
  rfl

/-! ### Parent links: set by the decoder, kept by `Compile` -/

theorem updateParent_linked (b t : Task) : (b.updateParent t).linked = b.linked := by
  cases b with
  | mk d block => simp only [Task.updateParent, Task.linked, Task.data, Task.block]

theorem childrenLinked_updateParent (t : Task) :
    ∀ bs : List Task, (∀ b ∈ bs, b.linked = true) →
      childrenLinked t.data.addr (bs.map fun b => b.updateParent t) = true
  | [], _ => by simp [childrenLinked]
  | b :: bs, h => by
    have h1 := h b (List.mem_cons_self _ _)
    have h2 := childrenLinked_updateParent t bs fun x hx => h x (List.mem_cons_of_mem _ hx)
    simp only [List.map_cons, childrenLinked, updateParent_linked, h1, h2, Bool.and_true]
    cases b with
    | mk d block => simp [Task.updateParent, Task.data]

theorem consDecoded_ok {α : Type} (x : Except String α) (xs : Except String (List α))
    (l : List α) (h : consDecoded x xs = .ok l) :
    ∃ a as, x = .ok a ∧ xs = .ok as ∧ l = a :: as := by
  cases x with
  | error e => simp [consDecoded] at h
  | ok a =>
    cases xs with
    | error e => simp [consDecoded] at h
    | ok as =>
      simp only [consDecoded, Except.ok.injEq] at h
      exact ⟨a, as, rfl, rfl, h.symm⟩

theorem decodeTask_scalar_ok (l : Nat) (k : ScalarKind) (tx : String) (addr next : Nat)
    (t : Task) (h : decodeTask (.scalar l k tx) addr = .ok (.ok t, next)) :
    t = .mk (newTask addr (.scalar l .null tx) [] "" []) [] := by
  cases k <;> simp only [decodeTask, Except.ok.injEq, Prod.mk.injEq, reduceCtorEq, false_and] at h
  exact h.1.symm

theorem decodeTask_seq_ok (l : Nat) (items : List Node) (addr next : Nat) (t : Task) :
    decodeTask (.seq l items) addr ≠ .ok (.ok t, next) := by
  simp [decodeTask]

theorem decodeTask_map_ok (l : Nat) (entries : List (String × Node)) (addr next : Nat)
    (t : Task) (h : decodeTask (.map l entries) addr = .ok (.ok t, next)) :
    ∃ (raw : List (String × Value)) (name : String) (vars : Variables)
      (children : List (Option Task)),
      decodeBlockField entries (addr + 1) = .ok (.ok children, next) ∧
      t = .mk (newTask addr (.map l entries) raw name vars)
        ((children.filterMap id).map fun b =>
          b.updateParent (.mk (newTask addr (.map l entries) raw name vars) [])) := by
  simp only [decodeTask] at h
  split at h
  · simp at h
  · split at h
    · simp at h
    · rename_i raw _
      split at h
      · simp at h
      · rename_i blk nx hb
        split at h
        · rename_i _ _ _ name vars children _ _
          split at h
          · simp at h
          · simp only [Except.ok.injEq, Prod.mk.injEq] at h
            obtain ⟨h1, h2⟩ := h
            subst h1 h2
            exact ⟨raw, name, vars, children, hb, rfl⟩
        all_goals simp at h

theorem decodeBlockField_nil_ok (addr next : Nat) (ts : List (Option Task))
    (h : decodeBlockField [] addr = .ok (.ok ts, next)) : ts = [] ∧ next = addr := by
  simp only [decodeBlockField, Except.ok.injEq, Prod.mk.injEq] at h
  exact ⟨h.1.symm, h.2.symm⟩

theorem decodeBlockField_cons_ok (k : String) (n : Node) (rest : List (String × Node))
    (addr next : Nat) (ts : List (Option Task))
    (h : decodeBlockField ((k, n) :: rest) addr = .ok (.ok ts, next)) :
    (∃ l items, n = .seq l items ∧ decodeTaskItems items addr = .ok (.ok ts, next)) ∨
    (ts = [] ∧ next = addr) ∨
    decodeBlockField rest addr = .ok (.ok ts, next) := by
  cases n with
  | seq l items =>
    by_cases hk : k = "block"
    · simp only [decodeBlockField, hk, if_true] at h
      exact .inl ⟨l, items, rfl, h⟩
    · simp only [decodeBlockField, hk, if_false] at h
      exact .inr (.inr h)
  | scalar l kind tx =>
    by_cases hk : k = "block"
    · cases kind <;>
        simp only [decodeBlockField, hk, if_true, Except.ok.injEq, Prod.mk.injEq, reduceCtorEq,
          false_and] at h
      exact .inr (.inl ⟨h.1.symm, h.2.symm⟩)
    · cases kind <;>
        (simp only [decodeBlockField, hk, if_false] at h
         exact .inr (.inr h))
  | map l es =>
    by_cases hk : k = "block"
    · simp [decodeBlockField, hk] at h
    · simp only [decodeBlockField, hk, if_false] at h
      exact .inr (.inr h)

theorem decodeTaskItems_nil_ok (addr next : Nat) (ts : List (Option Task))
    (h : decodeTaskItems [] addr = .ok (.ok ts, next)) : ts = [] ∧ next = addr := by
  simp only [decodeTaskItems, Except.ok.injEq, Prod.mk.injEq] at h
  exact ⟨h.1.symm, h.2.symm⟩

theorem decodeTaskItems_cons_ok (n : Node) (ns : List Node) (addr next : Nat)
    (ts : List (Option Task)) (h : decodeTaskItems (n :: ns) addr = .ok (.ok ts, next)) :
    (∃ as, decodeTaskItems ns addr = .ok (.ok as, next) ∧ ts = none :: as) ∨
    (∃ t mid as, decodeTask n addr = .ok (.ok t, mid) ∧
      decodeTaskItems ns mid = .ok (.ok as, next) ∧ ts = some t :: as) := by
  simp only [decodeTaskItems] at h
  split at h
  · split at h
    · simp at h
    · rename_i rest nx hr
      simp only [Except.ok.injEq, Prod.mk.injEq] at h
      obtain ⟨a, as, ha, has, hl⟩ := consDecoded_ok _ _ _ h.1
      simp only [Except.ok.injEq] at ha
      subst ha has
      rw [h.2] at hr
      exact .inl ⟨as, hr, hl⟩
  · split at h
    · simp at h
    · rename_i t0 mid ht
      split at h
      · simp at h
      · rename_i rest nx hr
        simp only [Except.ok.injEq, Prod.mk.injEq] at h
        obtain ⟨a, as, ha, has, hl⟩ := consDecoded_ok _ _ _ h.1
        subst has
        rw [h.2] at hr
        cases t0 with
        | error e => simp [Except.map] at ha
        | ok t1 =>
          simp only [Except.map, Except.ok.injEq] at ha
          subst ha
          exact .inr ⟨t1, mid, as, ht, hr, hl⟩

mutual
theorem decodeTask_linked :
    ∀ (node : Node) (addr next : Nat) (t : Task),
      decodeTask node addr = .ok (.ok t, next) → t.linked = true ∧ t.data.addr = addr
  | .scalar l k tx, addr, next, t, h => by
    rw [decodeTask_scalar_ok l k tx addr next t h]
    exact ⟨rfl, rfl⟩
  | .seq l items, addr, next, t, h => absurd h (decodeTask_seq_ok l items addr next t)
  | .map l entries, addr, next, t, h => by
    obtain ⟨raw, name, vars, children, hb, rfl⟩ := decodeTask_map_ok l entries addr next t h
    have hc := decodeBlockField_linked entries (addr + 1) next children hb
    exact ⟨childrenLinked_updateParent (.mk (newTask addr (.map l entries) raw name vars) [])
      _ hc, rfl⟩
theorem decodeBlockField_linked :
    ∀ (entries : List (String × Node)) (addr next : Nat) (ts : List (Option Task)),
      decodeBlockField entries addr = .ok (.ok ts, next) →
        ∀ t ∈ ts.filterMap id, t.linked = true
  | [], addr, next, ts, h => by
    rw [(decodeBlockField_nil_ok addr next ts h).1]
    simp
  | (k, n) :: rest, addr, next, ts, h => by
    rcases decodeBlockField_cons_ok k n rest addr next ts h with ⟨l, items, rfl, hi⟩ | ⟨rfl, _⟩ | hr
    · exact decodeTaskItems_linked items addr next ts hi
    · simp
    · exact decodeBlockField_linked rest addr next ts hr
theorem decodeTaskItems_linked :
    ∀ (items : List Node) (addr next : Nat) (ts : List (Option Task)),
      decodeTaskItems items addr = .ok (.ok ts, next) →
        ∀ t ∈ ts.filterMap id, t.linked = true
  | [], addr, next, ts, h => by
    rw [(decodeTaskItems_nil_ok addr next ts h).1]
    simp
  | n :: ns, addr, next, ts, h => by
    rcases decodeTaskItems_cons_ok n ns addr next ts h with
      ⟨as, hr, rfl⟩ | ⟨t1, mid, as, ht, hr, rfl⟩
    · simpa using decodeTaskItems_linked ns addr next as hr
    · have h1 := (decodeTask_linked n addr mid t1 ht).1
      have ih := decodeTaskItems_linked ns mid next as hr
      intro t hm
      simp only [List.filterMap_cons, id_eq, List.mem_cons] at hm
      rcases hm with rfl | hm
      · exact h1
      · exact ih t hm
end

theorem decodeTask_parent (node : Node) (addr next : Nat) (t : Task)
    (h : decodeTask node addr = .ok (.ok t, next)) : t.data.parent = none := by
  cases node with
  | scalar l k tx =>
    rw [decodeTask_scalar_ok l k tx addr next t h]
    rfl
  | seq l items => exact absurd h (decodeTask_seq_ok l items addr next t)
  | map l entries =>
    obtain ⟨raw, name, vars, children, _, rfl⟩ := decodeTask_map_ok l entries addr next t h
    rfl

mutual
theorem leaves_parent_enclosing :
    ∀ t : Task, t.linked = true →
      t.leaves.map (fun x => x.data.parent) = t.enclosing t.data.parent
  | .mk d [], _ => by simp [Task.leaves, Task.enclosing, Task.data]
  | .mk d (b :: bs), h => by
    simp only [Task.linked, childrenLinked, Bool.and_eq_true, decide_eq_true_eq] at h
    obtain ⟨⟨⟨hp, _⟩, hb⟩, hbs⟩ := h
    have h1 := leaves_parent_enclosing b hb
    have h2 := leavesOfTasks_parent_enclosing d.addr bs hbs
    rw [hp] at h1
    simp only [Task.leaves, Task.enclosing, List.map_append, h1, h2]
theorem leavesOfTasks_parent_enclosing :
    ∀ (a : Nat) (ts : List Task), childrenLinked a ts = true →
      (leavesOfTasks ts).map (fun x => x.data.parent) = enclosingOfTasks (some a) ts
  | _, [], _ => by simp [leavesOfTasks, enclosingOfTasks]
  | a, t :: ts, h => by
    simp only [childrenLinked, Bool.and_eq_true, decide_eq_true_eq] at h
    obtain ⟨⟨⟨hp, _⟩, hb⟩, hbs⟩ := h
    have h1 := leaves_parent_enclosing t hb
    have h2 := leavesOfTasks_parent_enclosing a ts hbs
    rw [hp] at h1
    simp only [leavesOfTasks, enclosingOfTasks, List.map_append, h1, h2]
end

/-- C13: in a task produced by `Task.UnmarshalYAML` every task of a block has
the task of that block as parent, at every depth. When the tree holds only
blocks and leaf tasks, `Compile` (with fuel for its height) returns its leaves
as they are and leaves the tree as it is, so each leaf of the output has the
block that immediately encloses it as parent. -/
theorem decoded_parents_kept (node : Node) (addr next : Nat) (t : Task)
    (hd : decodeTask node addr = .ok (.ok t, next)) :
    t.linked = true ∧
    (t.blocksOnly = true → ∀ (fuel : Nat) (w : World), t.height ≤ fuel →
      ∃ r, Task.Compile fuel w t = .ok r ∧ r.out = t.leaves ∧ r.task = t ∧
        r.out.map (fun x => x.data.parent) = t.enclosing none) := by
  have hl := (decodeTask_linked node addr next t hd).1
  refine ⟨hl, fun hb fuel w hf => ⟨_, compile_blocksOnly w t hb fuel hf, rfl, rfl, ?_⟩⟩
  have h := leaves_parent_enclosing t hl
  rw [decodeTask_parent node addr next t hd] at h
  exact h

theorem decoded_parents_kept_witness :
    decodeTask taskWithBlockNode 0 = .ok (.ok taskWithBlock.1, taskWithBlock.2) ∧
    taskWithBlock.1.blocksOnly = true ∧ taskWithBlock.1.height ≤ 2 ∧
    taskWithBlock.1.enclosing none = [some 0] ∧
    taskWithBlock.1.linked = true ∧
    ∃ r, Task.Compile 2 (newWorld []) taskWithBlock.1 = .ok r ∧ r.out = taskWithBlock.1.leaves ∧
      r.task = taskWithBlock.1 ∧ r.out.map (fun x => x.data.parent) = taskWithBlock.1.enclosing none :=
  ⟨rfl, rfl, by decide, rfl,
    (decoded_parents_kept taskWithBlockNode 0 taskWithBlock.2 taskWithBlock.1 rfl).1,
    (decoded_parents_kept taskWithBlockNode 0 taskWithBlock.2 taskWithBlock.1 rfl).2 rfl 2
      (newWorld []) (by decide)⟩

/-! ### Frame: what resolving variables leaves unchanged -/

theorem role_eq_ok (w : World) (p : Nat) (role : Role) :
    w.role p = .ok role ↔ w.roles[p]? = some role := by
  unfold World.role
  rw [List.get?_eq_getElem?]
  cases w.roles[p]? <;> simp

theorem play_eq_ok (w : World) (p : Nat) (play : Play) :
    w.play p = .ok play ↔ w.plays[p]? = some play := by
  unfold World.play
  rw [List.get?_eq_getElem?]
  cases w.plays[p]? <;> simp

theorem map_modify_of_comp {α β : Type} (g : α → β) (f : α → α) (hf : ∀ a, g (f a) = g a) :
    ∀ (l : List α) (n : Nat), (l.modify f n).map g = l.map g
  | [], n => by simp
  | a :: l, 0 => by simp [hf]
  | a :: l, n + 1 => by simp [map_modify_of_comp g f hf l n]

theorem modifyRole_core (w : World) (p : Nat) (f : Role → Role)
    (hf : ∀ c, (f c).core = c.core) : (w.modifyRole p f).core = w.core := by
  simp only [World.modifyRole, World.core, map_modify_of_comp Role.core f hf]

theorem core_plays (w w1 : World) (h : w1.core = w.core) : w1.plays = w.plays := by
  have h1 := congrArg (fun x : World => x.plays) h
  exact h1

theorem core_loader (w w1 : World) (h : w1.core = w.core) : w1.loader = w.loader := by
  have h1 := congrArg (fun x : World => x.loader) h
  exact h1

theorem core_evaluate (w w1 : World) (h : w1.core = w.core) : w1.evaluate = w.evaluate := by
  have h1 := congrArg (fun x : World => x.evaluate) h
  exact h1

theorem core_roles (w w1 : World) (h : w1.core = w.core) :
    w1.roles.map Role.core = w.roles.map Role.core :=
  congrArg (fun x : World => x.roles) h

theorem core_length (w w1 : World) (h : w1.core = w.core) :
    w1.roles.length = w.roles.length := by
  have := congrArg List.length (core_roles w w1 h)
  simpa using this

theorem core_cell (w w1 : World) (h : w1.core = w.core) (q : Nat) (role : Role)
    (hq : w.roles[q]? = some role) :
    ∃ role1, w1.roles[q]? = some role1 ∧ role1.core = role.core := by
  have h1 : (w1.roles.map Role.core)[q]? = (w.roles.map Role.core)[q]? := by
    rw [core_roles w w1 h]
  simp only [List.getElem?_map, hq, Option.map_some'] at h1
  cases h2 : w1.roles[q]? with
  | none => simp [h2] at h1
  | some role1 =>
    simp only [h2, Option.map_some', Option.some.injEq] at h1
    exact ⟨role1, rfl, h1⟩

theorem getAllDepsLoop_core (g : World → Nat → Res (List Nat × World))
    (hg : ∀ w r x, g w r = .ok x → x.2.core = w.core) (p : Nat) :
    ∀ (ds : List Nat) (w w1 : World), getAllDepsLoop g p ds w = .ok w1 → w1.core = w.core := by
  intro ds
  induction ds with
  | nil =>
    intro w w1 h
    simp only [getAllDepsLoop, Except.ok.injEq] at h
    rw [h]
  | cons d ds ih =>
    intro w w1 h
    simp only [getAllDepsLoop] at h
    split at h
    · simp at h
    · rename_i ds1 w2 hd
      exact ((ih _ _ h).trans (modifyRole_core _ _ _ (fun c => rfl))).trans (hg _ _ _ hd)

theorem getAllDeps_core : ∀ (fuel : Nat) (w : World) (r : Nat) (x : List Nat × World),
    getAllDeps fuel w r = .ok x → x.2.core = w.core := by
  intro fuel
  induction fuel with
  | zero => intro w r x h; simp [getAllDeps] at h
  | succ n ih =>
    intro w r x h
    rw [getAllDeps] at h
    split at h
    · simp at h
    · split at h
      · simp only [Except.ok.injEq] at h
        rw [← h]
      · split at h
        · simp at h
        · rename_i w1 hloop
          split at h
          · simp at h
          · simp only [Except.ok.injEq] at h
            rw [← h]
            exact getAllDepsLoop_core _ ih r _ _ _ hloop

theorem loadDefaultVarsLoop_core (l : World → Nat → Res (Variables × World))
    (hl : ∀ w r x, l w r = .ok x → x.2.core = w.core) :
    ∀ (ds : List Nat) (vars : Variables) (w : World) (x : Variables × World),
      loadDefaultVarsLoop l ds vars w = .ok x → x.2.core = w.core := by
  intro ds
  induction ds with
  | nil =>
    intro vars w x h
    simp only [loadDefaultVarsLoop, Except.ok.injEq] at h
    rw [← h]
  | cons d ds ih =>
    intro vars w x h
    simp only [loadDefaultVarsLoop] at h
    split at h
    · simp at h
    · rename_i dv w1 hd
      rw [ih _ _ _ h]
      exact hl _ _ _ hd

theorem LoadDefaultVars_core : ∀ (fuel : Nat) (w : World) (r : Nat) (x : Variables × World),
    LoadDefaultVars fuel w r = .ok x → x.2.core = w.core := by
  intro fuel
  induction fuel with
  | zero => intro w r x h; simp [LoadDefaultVars] at h
  | succ n ih =>
    intro w r x h
    rw [LoadDefaultVars] at h
    split at h
    · simp at h
    · rename_i deps w1 hdeps
      split at h
      · simp at h
      · rename_i vars w2 hloop
        split at h
        · simp at h
        · simp only [Except.ok.injEq] at h
          rw [← h]
          exact (loadDefaultVarsLoop_core _ ih _ _ _ _ hloop).trans
            (getAllDeps_core _ _ _ _ hdeps)

theorem roleDefaultsLoop_core (fuel : Nat) :
    ∀ (rs : List Nat) (res : Variables) (w : World) (x : Variables × World),
      roleDefaultsLoop fuel rs res w = .ok x → x.2.core = w.core := by
  intro rs
  induction rs with
  | nil =>
    intro res w x h
    simp only [roleDefaultsLoop, Except.ok.injEq] at h
    rw [← h]
  | cons r rs ih =>
    intro res w x h
    simp only [roleDefaultsLoop] at h
    split at h
    · simp at h
    · rename_i dv w1 hd
      rw [ih _ _ _ h]
      exact LoadDefaultVars_core _ _ _ _ hd

theorem playVars_core (fuel : Nat) (w : World) (p : Nat) (x : Variables × World)
    (h : playVars fuel w p = .ok x) : x.2.core = w.core := by
  unfold playVars at h
  split at h
  · simp at h
  · split at h
    · simp at h
    · rename_i res w1 hloop
      split at h
      · simp at h
      · split at h
        · simp at h
        · simp only [Except.ok.injEq] at h
          rw [← h]
          exact roleDefaultsLoop_core _ _ _ _ (res, w1) hloop

theorem GetVars_core (fuel : Nat) (w : World) (play : Option Nat) (task : Option Task)
    (x : Variables × World) (h : GetVars fuel w play task = .ok x) : x.2.core = w.core := by
  unfold GetVars at h
  cases play with
  | none =>
    cases task with
    | none =>
      simp only [Except.ok.injEq] at h
      rw [← h]
    | some t =>
      simp only at h
      split at h
      · simp at h
      · simp only [Except.ok.injEq] at h
        rw [← h]
  | some p =>
    simp only at h
    cases hp : playVars fuel w p with
    | error e => rw [hp] at h; simp at h
    | ok y =>
      rw [hp] at h
      have hy := playVars_core _ _ _ _ hp
      cases task with
      | none =>
        simp only [Except.ok.injEq] at h
        rw [← h]
        exact hy
      | some t =>
        simp only at h
        split at h
        · simp at h
        · simp only [Except.ok.injEq] at h
          rw [← h]
          exact hy

theorem resolveVars_core (fuel : Nat) (w : World) (t : Task) (x : Variables × World)
    (h : t.resolveVars fuel w = .ok x) : x.2.core = w.core := by
  unfold Task.resolveVars at h
  split at h
  · simp at h
  · exact GetVars_core _ _ _ _ _ h

theorem isModuleFreeForm_core (fuel : Nat) (w : World) (t : Task) (a : String)
    (x : Option String × World) (h : t.isModuleFreeForm fuel w a = .ok x) :
    x.2.core = w.core := by
  unfold Task.isModuleFreeForm at h
  split at h
  · split at h
    · simp at h
    · rename_i vars w1 hv
      have := resolveVars_core _ _ _ _ hv
      split at h <;>
        (simp only [Except.ok.injEq] at h
         rw [← h]
         exact this)
  · simp only [Except.ok.injEq] at h
    rw [← h]

theorem moduleVars_core (fuel : Nat) (w : World) (t : Task) (x : Variables × Task × World)
    (h : t.moduleVars fuel w = .ok x) : x.2.2.core = w.core := by
  unfold Task.moduleVars at h
  split at h
  · simp only [Except.ok.injEq] at h
    rw [← h]
  · split at h
    · simp at h
    · rename_i vars w1 hv
      simp only [Except.ok.injEq] at h
      rw [← h]
      exact resolveVars_core _ _ _ _ hv

theorem Module_core (fuel : Nat) (w : World) (t : Task) (a : String)
    (x : Option Module × Task × World) (h : t.Module fuel w a = .ok x) :
    x.2.2.core = w.core := by
  unfold Task.Module at h
  split at h
  · split at h
    · simp at h
    · rename_i vars t1 w1 hv
      have := moduleVars_core _ _ _ _ hv
      split at h <;>
        (simp only [Except.ok.injEq] at h
         rw [← h]
         exact this)
  · simp only [Except.ok.injEq] at h
    rw [← h]

theorem moduleParams_core (fuel : Nat) :
    ∀ (actions : List String) (rawModule : List (String × String)) (t : Task) (w : World)
      (x : List (String × String) × Task × World),
      moduleParams fuel actions rawModule t w = .ok x → x.2.2.core = w.core := by
  intro actions
  induction actions with
  | nil =>
    intro rm t w x h
    simp only [moduleParams, Except.ok.injEq] at h
    rw [← h]
  | cons a rest ih =>
    intro rm t w x h
    simp only [moduleParams] at h
    split at h
    · simp at h
    · rename_i val w1 hf
      exact (ih _ _ _ _ h).trans (isModuleFreeForm_core _ _ _ _ _ hf)
    · rename_i w1 hf
      have h1 := isModuleFreeForm_core _ _ _ _ _ hf
      split at h
      · simp at h
      · rename_i val t1 w2 hm
        exact ((ih _ _ _ _ h).trans (Module_core _ _ _ _ _ hm)).trans h1
      · rename_i t1 w2 hm
        exact ((ih _ _ _ _ h).trans (Module_core _ _ _ _ _ hm)).trans h1

theorem tasksFile_core (fuel : Nat) (w : World) (t : Task) (x : String × Task × World)
    (h : t.tasksFile fuel w = .ok x) : x.2.2.core = w.core := by
  unfold Task.tasksFile at h
  split at h
  · simp at h
  · rename_i rm t1 w1 hm
    have := moduleParams_core _ _ _ _ _ _ hm
    split at h
    · simp at h
    · simp only [Except.ok.injEq] at h
      rw [← h]
      exact this

theorem roleIncludeModule_core (fuel : Nat) (w : World) (t : Task)
    (x : RoleIncludeModule × Task × World)
    (h : t.roleIncludeModule fuel w = .ok x) : x.2.2.core = w.core := by
  unfold Task.roleIncludeModule at h
  split at h
  · simp at h
  · rename_i rm t1 w1 hm
    have := moduleParams_core _ _ _ _ _ _ hm
    split at h
    · simp at h
    · simp only [Except.ok.injEq] at h
      rw [← h]
      exact this

/-! ### Frame: what loading and compiling leave unchanged -/

theorem kept_refl (xs : List Nat) (w : World) : Kept xs w w :=
  ⟨rfl, Nat.le_refl _, fun _ _ role h => ⟨role, h, rfl⟩⟩

theorem kept_of_core (xs : List Nat) (w w1 : World) (h : w1.core = w.core) : Kept xs w w1 :=
  ⟨core_plays w w1 h, Nat.le_of_eq (core_length w w1 h).symm,
    fun q _ role hq => core_cell w w1 h q role hq⟩

theorem kept_trans (xs : List Nat) (w w1 w2 : World) (h1 : Kept xs w w1) (h2 : Kept xs w1 w2) :
    Kept xs w w2 := by
  refine ⟨h2.plays.trans h1.plays, Nat.le_trans h1.len h2.len, fun q hq role hr => ?_⟩
  obtain ⟨r1, hr1, hc1⟩ := h1.cells q hq role hr
  obtain ⟨r2, hr2, hc2⟩ := h2.cells q hq r1 hr1
  exact ⟨r2, hr2, hc2.trans hc1⟩

theorem kept_mono (xs ys : List Nat) (w w1 : World) (hsub : ∀ q, q ∈ xs → q ∈ ys)
    (h : Kept xs w w1) : Kept ys w w1 :=
  ⟨h.plays, h.len, fun q hq role hr => h.cells q (fun hx => hq (hsub q hx)) role hr⟩

/-- What happens to addresses that did not exist in `w` does not matter to the roles of `w`. -/
theorem kept_trans_new (xs ys : List Nat) (w w1 w2 : World) (h1 : Kept ys w w1)
    (h2 : Kept xs w1 w2) (hnew : ∀ x ∈ xs, w.roles.length ≤ x) : Kept ys w w2 := by
  refine ⟨h2.plays.trans h1.plays, Nat.le_trans h1.len h2.len, fun q hq role hr => ?_⟩
  obtain ⟨r1, hr1, hc1⟩ := h1.cells q hq role hr
  have hlt : q < w.roles.length := by
    rcases Nat.lt_or_ge q w.roles.length with h | h
    · exact h
    · rw [List.getElem?_eq_none h] at hr
      simp at hr
  have hqx : q ∉ xs := fun hx => Nat.lt_irrefl _ (Nat.lt_of_lt_of_le hlt (hnew q hx))
  obtain ⟨r2, hr2, hc2⟩ := h2.cells q hqx r1 hr1
  exact ⟨r2, hr2, hc2.trans hc1⟩

theorem kept_fresh (xs : List Nat) (w w1 : World) (h : Kept xs w w1) (p : Nat) (hp : p ∉ xs)
    (hf : w.freshRole p) : w1.freshRole p := by
  obtain ⟨role, hr, hd⟩ := hf
  obtain ⟨r1, hr1, hc⟩ := h.cells p hp role hr
  refine ⟨r1, hr1, ?_⟩
  have := congrArg Role.directDeps hc
  exact this.trans hd

theorem LoadTasks_frame (w w1 : World) (src : Option MetaRef) (role : Option Nat) (path : String)
    (x : Except String Tasks) (h : LoadTasks w src role path = .ok (x, w1)) :
    w1.roles = w.roles ∧ w1.plays = w.plays ∧ w1.loader = w.loader := by
  unfold LoadTasks at h
  split at h
  · simp only [Except.ok.injEq, Prod.mk.injEq] at h
    rw [← h.2]
    exact ⟨rfl, rfl, rfl⟩
  · split at h
    · simp at h
    · simp only [Except.ok.injEq, Prod.mk.injEq] at h
      rw [← h.2]
      exact ⟨rfl, rfl, rfl⟩
    · split at h
      · simp at h
      · simp only [Except.ok.injEq, Prod.mk.injEq] at h
        rw [← h.2]
        exact ⟨rfl, rfl, rfl⟩

theorem walkFn_frame (opt : LoadRoleOptions) (ptr : Nat) (path : String) (r r1 : Role)
    (w w1 : World) (h : walkFn opt ptr path r w = .ok (.ok r1, w1)) :
    (w1.roles = w.roles ∧ w1.plays = w.plays ∧ w1.loader = w.loader) ∧ r.walkKept r1 := by
  unfold walkFn at h
  simp only at h
  split at h
  · simp only [Except.ok.injEq, Prod.mk.injEq] at h
    obtain ⟨h1, h2⟩ := h
    subst h1 h2
    exact ⟨⟨rfl, rfl, rfl⟩, rfl, rfl, rfl, rfl, rfl⟩
  · split at h
    · simp at h
    · split at h
      · split at h
        · simp only [Except.ok.injEq, Prod.mk.injEq] at h
          obtain ⟨h1, h2⟩ := h
          subst h1 h2
          exact ⟨⟨rfl, rfl, rfl⟩, rfl, rfl, rfl, rfl, rfl⟩
        · split at h
          · simp at h
          · simp at h
          · rename_i tasks w2 hl
            simp only [Except.ok.injEq, Prod.mk.injEq] at h
            obtain ⟨h1, h2⟩ := h
            subst h1 h2
            exact ⟨LoadTasks_frame _ _ _ _ _ _ hl, rfl, rfl, rfl, rfl, rfl⟩
      · split at h
        · split at h
          · simp only [Except.ok.injEq, Prod.mk.injEq] at h
            obtain ⟨h1, h2⟩ := h
            subst h1 h2
            exact ⟨⟨rfl, rfl, rfl⟩, rfl, rfl, rfl, rfl, rfl⟩
          · split at h <;>
              (simp only [Except.ok.injEq, Prod.mk.injEq] at h
               obtain ⟨h1, h2⟩ := h
               subst h1 h2
               exact ⟨⟨rfl, rfl, rfl⟩, rfl, rfl, rfl, rfl, rfl⟩)
        · split at h
          · split at h
            · simp only [Except.ok.injEq, Prod.mk.injEq] at h
              obtain ⟨h1, h2⟩ := h
              subst h1 h2
              exact ⟨⟨rfl, rfl, rfl⟩, rfl, rfl, rfl, rfl, rfl⟩
            · split at h <;>
                (simp only [Except.ok.injEq, Prod.mk.injEq] at h
                 obtain ⟨h1, h2⟩ := h
                 subst h1 h2
                 exact ⟨⟨rfl, rfl, rfl⟩, rfl, rfl, rfl, rfl, rfl⟩)
          · split at h
            · split at h
              · simp only [Except.ok.injEq, Prod.mk.injEq] at h
                obtain ⟨h1, h2⟩ := h
                subst h1 h2
                exact ⟨⟨rfl, rfl, rfl⟩, rfl, rfl, rfl, rfl, rfl⟩
              · split at h <;>
                  (simp only [Except.ok.injEq, Prod.mk.injEq] at h
                   obtain ⟨h1, h2⟩ := h
                   subst h1 h2
                   exact ⟨⟨rfl, rfl, rfl⟩, rfl, rfl, rfl, rfl, rfl⟩)
            · simp only [Except.ok.injEq, Prod.mk.injEq] at h
              obtain ⟨h1, h2⟩ := h
              subst h1 h2
              exact ⟨⟨rfl, rfl, rfl⟩, rfl, rfl, rfl, rfl, rfl⟩

theorem walkRole_frame (opt : LoadRoleOptions) (ptr : Nat) :
    ∀ (files : List String) (r r1 : Role) (w w1 : World),
      walkRole opt ptr files r w = .ok (.ok r1, w1) →
      (w1.roles = w.roles ∧ w1.plays = w.plays ∧ w1.loader = w.loader) ∧ r.walkKept r1 := by
  intro files
  induction files with
  | nil =>
    intro r r1 w w1 h
    simp only [walkRole, Except.ok.injEq, Prod.mk.injEq] at h
    obtain ⟨h1, h2⟩ := h
    subst h1 h2
    exact ⟨⟨rfl, rfl, rfl⟩, rfl, rfl, rfl, rfl, rfl⟩
  | cons f files ih =>
    intro r r1 w w1 h
    simp only [walkRole] at h
    split at h
    · simp at h
    · simp at h
    · rename_i r2 w2 hf
      obtain ⟨⟨a1, a2, a3⟩, b1, b2, b3, b4, b5⟩ := walkFn_frame _ _ _ _ _ _ _ hf
      obtain ⟨⟨c1, c2, c3⟩, d1, d2, d3, d4, d5⟩ := ih _ _ _ _ h
      exact ⟨⟨c1.trans a1, c2.trans a2, c3.trans a3⟩, d1.trans b1, d2.trans b2, d3.trans b3,
        d4.trans b4, d5.trans b5⟩

/-- A role that `LoadRoleWithOptions` returns is a new object at the end of
the heap, with the name and the play asked for and no dependency yet; the
roles and plays already there are as they were. -/
theorem LoadRoleWithOptions_ok (w w1 : World) (src : Option MetaRef) (play : Option Nat)
    (name : String) (opt : LoadRoleOptions) (ptr : Nat)
    (h : LoadRoleWithOptions w src play name opt = .ok (.ok ptr, w1)) :
    ptr = w.roles.length ∧ w1.plays = w.plays ∧
    ∃ r1, w1.roles = w.roles ++ [r1] ∧ r1.name = name ∧ r1.directDeps = [] ∧
      r1.allDeps = [] ∧ r1.play = play ∧ r1.dataloader = true := by
  unfold LoadRoleWithOptions at h
  simp only at h
  split at h
  · simp at h
  · split at h
    · simp at h
    · split at h
      · simp at h
      · simp at h
      · rename_i r1 w2 hw
        simp only [Except.ok.injEq, Prod.mk.injEq] at h
        obtain ⟨h1, h2⟩ := h
        subst h1 h2
        obtain ⟨⟨a1, a2, _⟩, b1, b2, b3, b4, b5⟩ := walkRole_frame _ _ _ _ _ _ _ hw
        refine ⟨rfl, a2, r1, ?_, b1, b2, b3, b4, b5⟩
        simp only [a1]

/-- What `loadDeps` does to the heap: one new role per declared dependency, in
order, each with the declared name and no dependency of its own yet; their
addresses are appended to the direct dependencies of the role; nothing else
changes. -/
theorem loadDeps_ok (p : Nat) :
    ∀ (deps : List (Option RoleDefinition)) (w w1 : World), loadDeps p deps w = .ok w1 →
      w1.plays = w.plays ∧
      w1.roles.length = w.roles.length + deps.length ∧
      (∀ q role, q ≠ p → w.roles[q]? = some role → w1.roles[q]? = some role) ∧
      (∀ role, w.roles[p]? = some role → w1.roles[p]? = some
        { role with directDeps := role.directDeps ++ List.range' w.roles.length deps.length }) ∧
      (∀ i, i < deps.length → ∃ d dr, deps[i]? = some (some d) ∧
        w1.roles[w.roles.length + i]? = some dr ∧ dr.name = d.GetName ∧ dr.directDeps = []) := by
  intro deps
  induction deps with
  | nil =>
    intro w w1 h
    simp only [loadDeps, Except.ok.injEq] at h
    subst h
    refine ⟨rfl, rfl, fun _ _ _ h => h, fun role h => ?_, fun i hi => ?_⟩
    · simpa using h
    · simp at hi
  | cons d deps ih =>
    intro w w1 h
    cases d with
    | none => simp [loadDeps] at h
    | some dep =>
      simp only [loadDeps] at h
      split at h
      · simp at h
      · rename_i role hrole
        split at h
        · simp at h
        · split at h
          · simp at h
          · simp at h
          · rename_i ptr w2 hload
            obtain ⟨hptr, hplays, r1, hroles, hname, hdd, _, _, _⟩ :=
              LoadRoleWithOptions_ok _ _ _ _ _ _ _ hload
            subst hptr
            have hp : p < w.roles.length := by
              rw [role_eq_ok] at hrole
              rcases Nat.lt_or_ge p w.roles.length with h | h
              · exact h
              · rw [List.getElem?_eq_none h] at hrole
                simp at hrole
            obtain ⟨i1, i2, i3, i4, i5⟩ := ih _ _ h
            have hlen2 : w2.roles.length = w.roles.length + 1 := by simp [hroles]
            simp only [World.modifyRole, List.length_modify, hlen2] at i1 i2 i3 i4 i5
            refine ⟨i1.trans hplays, ?_, ?_, ?_, ?_⟩
            · simp only [List.length_cons, i2]
              omega
            · intro q cell hq hcell
              apply i3 q cell hq
              rw [List.getElem?_modify_ne _ _ (Ne.symm hq), hroles]
              rw [List.getElem?_append_left (by
                rcases Nat.lt_or_ge q w.roles.length with h | h
                · exact h
                · rw [List.getElem?_eq_none h] at hcell
                  simp at hcell)]
              exact hcell
            · intro cell hcell
              have := i4 { cell with directDeps := cell.directDeps ++ [w.roles.length] } (by
                rw [List.getElem?_modify_eq, hroles, List.getElem?_append_left hp, hcell]
                rfl)
              rw [this]
              simp only [List.append_assoc, List.singleton_append, List.length_cons,
                List.range'_succ]
            · intro i hi
              cases i with
              | zero =>
                refine ⟨dep, r1, by simp, ?_, hname, hdd⟩
                have hne : w.roles.length ≠ p := fun h => Nat.lt_irrefl _ (h ▸ hp)
                apply i3 _ r1 hne
                rw [List.getElem?_modify_ne _ _ (Ne.symm hne), hroles]
                simp
              | succ j =>
                obtain ⟨d, dr, e1, e2, e3, e4⟩ := i5 j (by simpa using hi)
                refine ⟨d, dr, by simpa using e1, ?_, e3, e4⟩
                rw [← e2]
                congr 1
                omega

theorem compileEach_kept (c : TaskCompiler)
    (hc : ∀ w t r, c w t = .ok r → Kept [] w r.world) :
    ∀ (ts : List Task) (w : World) (r : CompiledTasks),
      compileEach c ts w = .ok r → Kept [] w r.world := by
  intro ts
  induction ts with
  | nil =>
    intro w r h
    simp only [compileEach, Except.ok.injEq] at h
    rw [← h]
    exact kept_refl _ _
  | cons t ts ih =>
    intro w r h
    simp only [compileEach] at h
    split at h
    · simp at h
    · rename_i r1 h1
      split at h
      · simp at h
      · rename_i r2 h2
        simp only [Except.ok.injEq] at h
        rw [← h]
        exact kept_trans _ _ _ _ (hc _ _ _ h1) (ih _ r2 h2)

theorem compileDeps_kept (rc : RoleCompiler)
    (hrc : ∀ w p r, rc w p = .ok r → w.freshRole p → Kept [p] w r.world) :
    ∀ (ds : List Nat) (w : World) (r : CompiledRole), ds.Nodup → (∀ d ∈ ds, w.freshRole d) →
      compileDeps rc ds w = .ok r → Kept ds w r.world := by
  intro ds
  induction ds with
  | nil =>
    intro w r _ _ h
    simp only [compileDeps, Except.ok.injEq] at h
    rw [← h]
    exact kept_refl _ _
  | cons d ds ih =>
    intro w r hnd hfresh h
    simp only [compileDeps] at h
    split at h
    · simp at h
    · rename_i r1 h1
      split at h
      · simp at h
      · rename_i r2 h2
        simp only [Except.ok.injEq] at h
        rw [← h]
        have k1 := hrc _ _ _ h1 (hfresh d (List.mem_cons_self _ _))
        have hnd1 := List.nodup_cons.mp hnd
        have k2 := ih r1.world r2 hnd1.2 (fun x hx => kept_fresh _ _ _ k1 x
          (by
            intro hmem
            simp only [List.mem_singleton] at hmem
            exact hnd1.1 (hmem ▸ hx))
          (hfresh x (List.mem_cons_of_mem _ hx))) h2
        exact kept_trans _ _ _ _
          (kept_mono [d] (d :: ds) _ _ (fun q hq => by
            simp only [List.mem_singleton] at hq
            exact hq ▸ List.mem_cons_self _ _) k1)
          (kept_mono ds (d :: ds) _ _ (fun q hq => List.mem_cons_of_mem _ hq) k2)

theorem kept_of_roles_eq (xs : List Nat) (w w1 : World) (hr : w1.roles = w.roles)
    (hp : w1.plays = w.plays) : Kept xs w w1 :=
  ⟨hp, Nat.le_of_eq (by rw [hr]), fun _ _ role h => ⟨role, by rw [hr]; exact h, rfl⟩⟩

theorem kept_append (xs : List Nat) (w w1 : World) (r1 : Role) (hr : w1.roles = w.roles ++ [r1])
    (hp : w1.plays = w.plays) : Kept xs w w1 := by
  refine ⟨hp, by simp [hr], fun q _ role h => ⟨role, ?_, rfl⟩⟩
  have hlt : q < w.roles.length := by
    rcases Nat.lt_or_ge q w.roles.length with h1 | h1
    · exact h1
    · rw [List.getElem?_eq_none h1] at h
      simp at h
  rw [hr, List.getElem?_append_left hlt]
  exact h

theorem kept_modifyRole (w : World) (p : Nat) (f : Role → Role) :
    Kept [p] w (w.modifyRole p f) := by
  refine ⟨rfl, by simp [World.modifyRole], fun q hq role h => ⟨role, ?_, rfl⟩⟩
  simp only [List.mem_singleton] at hq
  simp only [World.modifyRole]
  rw [List.getElem?_modify_ne _ _ (Ne.symm hq)]
  exact h

theorem compileWith_kept (fuel : Nat) (c : TaskCompiler) (rc : RoleCompiler)
    (hc : ∀ w t r, c w t = .ok r → Kept [] w r.world)
    (hrc : ∀ w p r, rc w p = .ok r → w.freshRole p → Kept [p] w r.world)
    (w : World) (t : Task) (r : Compiled)
    (h : Task.compileWith fuel c rc w t = .ok r) : Kept [] w r.world := by
  unfold Task.compileWith at h
  split at h
  · unfold Task.compileBlockTasks at h
    split at h
    · simp at h
    · rename_i r0 h0
      simp only [Except.ok.injEq] at h
      rw [← h]
      exact compileEach_kept c hc _ _ _ h0
  · split at h
    · unfold Task.compileTaskInclude at h
      split at h
      · simp at h
      · rename_i tasksFile t1 w1 hf
        have k1 := kept_of_core [] _ _ (tasksFile_core _ _ _ _ hf)
        split at h
        · simp at h
        · split at h
          · simp at h
          · simp at h
          · rename_i loaded w2 hload
            obtain ⟨a1, a2, _⟩ := LoadTasks_frame _ _ _ _ _ _ hload
            have k2 := kept_of_roles_eq [] _ _ a1 a2
            split at h
            · simp at h
            · rename_i r0 h0
              simp only [Except.ok.injEq] at h
              rw [← h]
              exact kept_trans _ _ _ _ (kept_trans _ _ _ _ k1 k2) (compileEach_kept c hc _ _ _ h0)
    · split at h
      · unfold Task.compileRoleInclude at h
        split at h
        · simp at h
        · rename_i module t1 w1 hm
          have k1 := kept_of_core [] _ _ (roleIncludeModule_core _ _ _ _ hm)
          split at h
          · simp at h
          · split at h
            · simp at h
            · split at h
              · simp at h
              · split at h
                · simp at h
                · simp at h
                · rename_i p w2 hload
                  obtain ⟨hptr, hplays, r1, hroles, _, hdd, _, _, _⟩ :=
                    LoadRoleWithOptions_ok _ _ _ _ _ _ _ hload
                  have k2 := kept_append [] _ _ r1 hroles hplays
                  split at h
                  · simp at h
                  · rename_i cr hcr
                    simp only [Except.ok.injEq] at h
                    rw [← h]
                    have hfresh : w2.freshRole p := ⟨r1, by rw [hroles, hptr]; simp, hdd⟩
                    have k3 := hrc _ _ _ hcr hfresh
                    exact kept_trans _ _ _ _ k1 (kept_trans_new [p] [] _ _ _ k2 k3 (fun x hx => by
                      simp only [List.mem_singleton] at hx
                      rw [hx, hptr]))
      · simp only [Except.ok.injEq] at h
        rw [← h]
        exact kept_refl _ _

theorem roleCompileWith_kept (c : TaskCompiler) (rc : RoleCompiler)
    (hc : ∀ w t r, c w t = .ok r → Kept [] w r.world)
    (hrc : ∀ w p r, rc w p = .ok r → w.freshRole p → Kept [p] w r.world)
    (w : World) (p : Nat) (r : CompiledRole)
    (h : Role.compileWith c rc w p = .ok r) (hf : w.freshRole p) : Kept [p] w r.world := by
  unfold Role.compileWith at h
  simp only [bind, Except.bind, pure, Except.pure] at h
  split at h
  · simp at h
  · rename_i role hrole
    split at h
    · simp at h
    · rename_i w1 hload
      obtain ⟨l1, l2, l3, l4, l5⟩ := loadDeps_ok _ _ _ _ hload
      have k1 : Kept [p] w w1 :=
        ⟨l1, by omega, fun q hq cell hcell =>
          ⟨cell, l3 q cell (by simpa using hq) hcell, rfl⟩⟩
      obtain ⟨role0, hrole0, hdd0⟩ := hf
      have hcell1 := l4 role0 hrole0
      split at h
      · simp at h
      · rename_i role1 hrole1
        rw [role_eq_ok, hcell1] at hrole1
        simp only [Option.some.injEq] at hrole1
        subst hrole1
        simp only [Role.getDirectDeps, hdd0, List.nil_append] at h
        split at h
        · simp at h
        · rename_i deps hdeps
          have k2 := compileDeps_kept rc hrc _ _ _ (List.nodup_range' _ _) (fun d hd => by
            rw [List.mem_range'_1] at hd
            obtain ⟨d0, dr, _, e2, _, e4⟩ := l5 (d - w.roles.length) (by omega)
            refine ⟨dr, ?_, e4⟩
            rw [← e2]
            congr 1
            omega) hdeps
          have k3 : Kept [p] w deps.world := kept_trans_new _ _ _ _ _ k1 k2 (fun x hx => by
            rw [List.mem_range'_1] at hx
            exact hx.1)
          split at h
          · simp at h
          · split at h
            · simp at h
            · rename_i own hown
              simp only [Except.ok.injEq] at h
              rw [← h]
              have k4 := kept_mono [] [p] _ _ (fun _ hq => by simp at hq)
                (compileEach_kept c hc _ _ _ hown)
              exact kept_trans _ _ _ _ (kept_trans _ _ _ _ k3 k4) (kept_modifyRole _ _ _)

theorem compileFuel_kept : ∀ fuel : Nat,
    (∀ w t r, (compileFuel fuel).1 w t = .ok r → Kept [] w r.world) ∧
    (∀ w p r, (compileFuel fuel).2 w p = .ok r → w.freshRole p → Kept [p] w r.world) := by
  intro fuel
  induction fuel with
  | zero =>
    constructor
    · intro w t r h; simp [compileFuel] at h
    · intro w p r h; simp [compileFuel] at h
  | succ n ih =>
    constructor
    · intro w t r h
      exact compileWith_kept (n + 1) _ _ ih.1 ih.2 w t r h
    · intro w p r h hf
      exact roleCompileWith_kept _ _ ih.1 ih.2 w p r h hf

/-- Compiling a task changes no play and, up to the memoised dependencies, no
role that exists when the call starts. -/
theorem taskCompile_kept (fuel : Nat) (w : World) (t : Task) (r : Compiled)
    (h : Task.Compile fuel w t = .ok r) : Kept [] w r.world :=
  (compileFuel_kept fuel).1 w t r h

/-- Compiling a role that has no direct dependency yet changes no play and, up
to the memoised dependencies, no other role that exists when the call starts. -/
theorem roleCompile_kept (fuel : Nat) (w : World) (p : Nat) (r : CompiledRole)
    (h : Role.Compile fuel w p = .ok r) (hf : w.freshRole p) : Kept [p] w r.world :=
  (compileFuel_kept fuel).2 w p r h hf

theorem tasksCompile_kept (fuel : Nat) (w : World) (ts : Tasks) (r : CompiledTasks)
    (h : Tasks.Compile fuel w ts = .ok r) : Kept [] w r.world :=
  compileEach_kept _ (compileFuel_kept fuel).1 ts w r h

/-! ### Order of compilation: dependencies before the tasks of the role -/

theorem compileDeps_concat (rc : RoleCompiler) :
    ∀ (ds : List Nat) (w : World),
      compileDeps rc ds w = concatOuts (threadEach (fun w p => outAndWorld (rc w p)) ds w) := by
  intro ds
  induction ds with
  | nil => intro w; rfl
  | cons d ds ih =>
    intro w
    simp only [compileDeps, threadEach]
    cases h1 : rc w d with
    | error e => rfl
    | ok r1 =>
      have e1 : outAndWorld (Except.ok r1) = .ok (r1.out, r1.world) := rfl
      simp only [e1, ih r1.world]
      cases h2 : threadEach (fun w p => outAndWorld (rc w p)) ds r1.world with
      | error e => rfl
      | ok x => rfl

/-- C14: a freshly loaded role (no direct dependency yet) whose declared
dependencies load: `loadDeps` creates one role object per declaration, in
declared order, each with the declared name and itself fresh. `Compile` then
returns the outputs of the `Compile` of these roles, one after the other in
declared order, followed by the output of `Tasks.Compile` on the task list the
role had when it was loaded. Each dependency being fresh, the same holds for
it: its own dependencies come first. -/
theorem role_compile_deps_first (fuel : Nat) (w w1 : World) (r : Nat) (role : Role)
    (hrole : w.role r = .ok role) (hfresh : role.directDeps = [])
    (hload : loadDeps r role.meta.Dependencies w = .ok w1) :
    (∀ i, i < role.meta.Dependencies.length → ∃ d dr,
      role.meta.Dependencies[i]? = some (some d) ∧ w1.role (w.roles.length + i) = .ok dr ∧
        dr.name = d.GetName ∧ dr.directDeps = []) ∧
    Role.Compile (fuel + 1) w r =
      match threadEach (fun w p => outAndWorld (Role.Compile fuel w p))
          (List.range' w.roles.length role.meta.Dependencies.length) w1 with
      | .error e => .error e
      | .ok (outs, w2) =>
        match Tasks.Compile fuel w2 role.tasks with
        | .error e => .error e
        | .ok own =>
          .ok { out := outs.flatten ++ own.out
                world := own.world.modifyRole r fun cell => { cell with tasks := own.tasks } } := by
  obtain ⟨l1, l2, l3, l4, l5⟩ := loadDeps_ok _ _ _ _ hload
  have hcell := (role_eq_ok _ _ _).mp hrole
  have hcell1 := l4 role hcell
  constructor
  · intro i hi
    obtain ⟨d, dr, e1, e2, e3, e4⟩ := l5 i hi
    exact ⟨d, dr, e1, (role_eq_ok _ _ _).mpr e2, e3, e4⟩
  · rw [roleCompile_succ]
    unfold Role.compileWith
    simp only [bind, Except.bind, pure, Except.pure, hrole, hload,
      (role_eq_ok _ _ _).mpr hcell1, Role.getDirectDeps, hfresh, List.nil_append]
    rw [compileDeps_concat]
    cases hth : threadEach (fun w p => outAndWorld (Role.Compile fuel w p))
        (List.range' w.roles.length role.meta.Dependencies.length) w1 with
    | error e => rfl
    | ok x =>
      obtain ⟨outs, w2⟩ := x
      have hdeps : compileDeps (Role.Compile fuel)
          (List.range' w.roles.length role.meta.Dependencies.length) w1 =
          .ok { out := outs.flatten, world := w2 } := by
        rw [compileDeps_concat, hth]
        rfl
      have k := compileDeps_kept (Role.Compile fuel) (fun w p r h hf => roleCompile_kept fuel w p r h hf)
        _ _ _ (List.nodup_range' _ _) (fun d hd => by
          rw [List.mem_range'_1] at hd
          obtain ⟨d0, dr, _, e2, _, e4⟩ := l5 (d - w.roles.length) (by omega)
          refine ⟨dr, ?_, e4⟩
          rw [← e2]
          congr 1
          omega) hdeps
      have hr : r < w.roles.length := by
        rcases Nat.lt_or_ge r w.roles.length with h | h
        · exact h
        · rw [List.getElem?_eq_none h] at hcell
          simp at hcell
      obtain ⟨role2, hrole2, hcore⟩ := k.cells r (by
        rw [List.mem_range'_1]
        omega) _ hcell1
      have htasks : role2.tasks = role.tasks := by
        have h1 := congrArg (fun x : Role => x.tasks) hcore
        exact h1
      simp only [concatOuts, (role_eq_ok _ _ _).mpr hrole2, htasks]
      cases hown : compileEach (Task.Compile fuel) role.tasks w2 with
      | error e => simp only [Tasks.Compile, hown]
      | ok own => simp only [Tasks.Compile, hown]

theorem role_compile_deps_first_witness :
    depLoaded.role 0 = .ok depRole ∧ depRole.directDeps = [] ∧
    loadDeps 0 depRole.meta.Dependencies depLoaded = .ok depDepsLoaded ∧
    depRole.meta.Dependencies.length = 1 ∧
    compiledNames (Role.Compile 3 depLoaded 0) = some ["Test task"] ∧
    (∀ i, i < depRole.meta.Dependencies.length → ∃ d dr,
      depRole.meta.Dependencies[i]? = some (some d) ∧
        depDepsLoaded.role (depLoaded.roles.length + i) = .ok dr ∧
        dr.name = d.GetName ∧ dr.directDeps = []) ∧
    Role.Compile (2 + 1) depLoaded 0 =
      match threadEach (fun w p => outAndWorld (Role.Compile 2 w p))
          (List.range' depLoaded.roles.length depRole.meta.Dependencies.length)
          depDepsLoaded with
      | .error e => .error e
      | .ok (outs, w2) =>
        match Tasks.Compile 2 w2 depRole.tasks with
        | .error e => .error e
        | .ok own =>
          .ok { out := outs.flatten ++ own.out
                world := own.world.modifyRole 0 fun cell => { cell with tasks := own.tasks } } :=
  ⟨rfl, rfl, rfl, rfl, rfl, role_compile_deps_first 2 depLoaded depDepsLoaded 0 depRole rfl rfl rfl⟩

/-! ### Plays, playbooks and the project -/

theorem compileEach_append (c : TaskCompiler) :
    ∀ (xs ys : List Task) (w : World),
      compileEach c (xs ++ ys) w =
        match compileEach c xs w with
        | .error e => .error e
        | .ok r1 =>
          match compileEach c ys r1.world with
          | .error e => .error e
          | .ok r2 =>
            .ok { out := r1.out ++ r2.out, tasks := r1.tasks ++ r2.tasks, world := r2.world } := by
  intro xs
  induction xs with
  | nil =>
    intro ys w
    simp only [List.nil_append, compileEach]
    cases compileEach c ys w with
    | error e => rfl
    | ok r => simp
  | cons x xs ih =>
    intro ys w
    simp only [List.cons_append, compileEach, List.append_eq]
    cases c w x with
    | error e => rfl
    | ok r1 =>
      simp only [ih ys r1.world]
      cases compileEach c xs r1.world with
      | error e => rfl
      | ok r2 =>
        simp only
        cases compileEach c ys r2.world with
        | error e => rfl
        | ok r3 => simp

theorem compileEach_length (c : TaskCompiler) :
    ∀ (ts : List Task) (w : World) (r : CompiledTasks),
      compileEach c ts w = .ok r → r.tasks.length = ts.length := by
  intro ts
  induction ts with
  | nil =>
    intro w r h
    simp only [compileEach, Except.ok.injEq] at h
    rw [← h]
  | cons t ts ih =>
    intro w r h
    simp only [compileEach] at h
    split at h
    · simp at h
    · split at h
      · simp at h
      · rename_i r2 h2
        simp only [Except.ok.injEq] at h
        rw [← h]
        simp [ih _ r2 h2]

theorem playbookCompileWith_concat (pc : PlayCompiler) :
    ∀ (plays : List Nat) (w : World),
      Playbook.compileWith pc plays w =
        concatOuts (threadEach (fun w p => outAndWorld (pc w p)) plays w) := by
  intro plays
  induction plays with
  | nil => intro w; rfl
  | cons d ds ih =>
    intro w
    simp only [Playbook.compileWith, threadEach]
    cases h1 : pc w d with
    | error e => rfl
    | ok r1 =>
      have e1 : outAndWorld (Except.ok r1) = .ok (r1.out, r1.world) := rfl
      simp only [e1, ih r1.world]
      cases h2 : threadEach (fun w p => outAndWorld (pc w p)) ds r1.world with
      | error e => rfl
      | ok x => rfl

theorem compilePlaybooks_concat (fuel : Nat) :
    ∀ (playbooks : List Playbook) (w : World),
      compilePlaybooks fuel playbooks w =
        concatOuts (threadEach (fun w pb => outAndWorld (Playbook.Compile fuel w pb)) playbooks w) := by
  intro playbooks
  induction playbooks with
  | nil => intro w; rfl
  | cons d ds ih =>
    intro w
    simp only [compilePlaybooks, threadEach]
    cases h1 : Playbook.Compile fuel w d with
    | error e => rfl
    | ok r1 =>
      have e1 : outAndWorld (Except.ok r1) = .ok (r1.out, r1.world) := rfl
      simp only [e1, ih r1.world]
      cases h2 : threadEach (fun w pb => outAndWorld (Playbook.Compile fuel w pb)) ds r1.world with
      | error e => rfl
      | ok x => rfl

theorem modifyPlay_play (w : World) (p : Nat) (f : Play → Play) (play : Play)
    (h : w.plays[p]? = some play) : (w.modifyPlay p f).play p = .ok (f play) := by
  rw [play_eq_ok]
  simp [World.modifyPlay, h]

/-- C17: a play without import directive compiles its `pre_tasks`, then its
`tasks`, then its `post_tasks`, then its roles in declaration order, each
compilation in the world the one before left; the result is the concatenation
of the outputs in that order, so the tasks of the roles come last. -/
theorem play_compile_order (fuel : Nat) (w : World) (p : Nat) (play : Play)
    (hplay : w.play p = .ok play) (hinc : play.isIncludePlaybook = none) :
    Play.Compile (fuel + 1) w p =
      match Tasks.Compile fuel w play.preTasks with
      | .error e => .error e
      | .ok pre =>
        match Tasks.Compile fuel pre.world play.tasks with
        | .error e => .error e
        | .ok tasks =>
          match Tasks.Compile fuel tasks.world play.postTasks with
          | .error e => .error e
          | .ok post =>
            match threadEach (fun w r => outAndWorld (Role.Compile fuel w r)) play.roles
                (post.world.modifyPlay p fun cell =>
                  { cell with
                    preTasks := pre.tasks, tasks := tasks.tasks, postTasks := post.tasks }) with
            | .error e => .error e
            | .ok (outs, w1) =>
              .ok { out := pre.out ++ tasks.out ++ post.out ++ outs.flatten, world := w1 } := by
  show Play.compileWith fuel (Play.Compile fuel) w p = _
  unfold Play.compileWith
  simp only [hplay, hinc, Play.listTasks, Tasks.Compile]
  rw [compileEach_append, compileEach_append]
  cases hpre : compileEach (Task.Compile fuel) play.preTasks w with
  | error e => rfl
  | ok pre =>
    simp only
    cases htasks : compileEach (Task.Compile fuel) play.tasks pre.world with
    | error e => rfl
    | ok tasks =>
      simp only
      cases hpost : compileEach (Task.Compile fuel) play.postTasks tasks.world with
      | error e => rfl
      | ok post =>
        simp only
        have l1 := compileEach_length _ _ _ _ hpre
        have l2 := compileEach_length _ _ _ _ htasks
        have k1 := tasksCompile_kept fuel _ _ _ hpre
        have k2 := tasksCompile_kept fuel _ _ _ htasks
        have k3 := tasksCompile_kept fuel _ _ _ hpost
        have hplays : post.world.plays[p]? = some play := by
          rw [k3.plays, k2.plays, k1.plays]
          exact (play_eq_ok _ _ _).mp hplay
        have e1 : List.take play.preTasks.length (pre.tasks ++ tasks.tasks ++ post.tasks) =
            pre.tasks := by
          rw [List.append_assoc]
          exact List.take_left' l1
        have e2 : List.take play.tasks.length (List.drop play.preTasks.length
            (pre.tasks ++ tasks.tasks ++ post.tasks)) = tasks.tasks := by
          rw [List.append_assoc, List.drop_left' l1]
          exact List.take_left' l2
        have e3 : List.drop (play.preTasks.length + play.tasks.length)
            (pre.tasks ++ tasks.tasks ++ post.tasks) = post.tasks :=
          List.drop_left' (by rw [List.length_append, l1, l2])
        rw [modifyPlay_play _ _ _ play hplays]
        simp only [e1, e2, e3, compileDeps_concat]
        cases threadEach (fun w r => outAndWorld (Role.Compile fuel w r)) play.roles
            (post.world.modifyPlay p fun cell =>
              { cell with
                preTasks := pre.tasks, tasks := tasks.tasks, postTasks := post.tasks }) with
        | error e => rfl
        | ok x => rfl

theorem play_compile_order_witness :
    playsWithTasksLoaded.2.play 0 = .ok playWithTasks ∧
    playWithTasks.isIncludePlaybook = none ∧
    compiledNames (Play.Compile (1 + 1) playsWithTasksLoaded.2 0) =
      some ["Pre task", "Task", "Post task"] ∧
    Play.Compile (1 + 1) playsWithTasksLoaded.2 0 =
      match Tasks.Compile 1 playsWithTasksLoaded.2 playWithTasks.preTasks with
      | .error e => .error e
      | .ok pre =>
        match Tasks.Compile 1 pre.world playWithTasks.tasks with
        | .error e => .error e
        | .ok tasks =>
          match Tasks.Compile 1 tasks.world playWithTasks.postTasks with
          | .error e => .error e
          | .ok post =>
            match threadEach (fun w r => outAndWorld (Role.Compile 1 w r)) playWithTasks.roles
                (post.world.modifyPlay 0 fun cell =>
                  { cell with
                    preTasks := pre.tasks, tasks := tasks.tasks, postTasks := post.tasks }) with
            | .error e => .error e
            | .ok (outs, w1) =>
              .ok { out := pre.out ++ tasks.out ++ post.out ++ outs.flatten, world := w1 } :=
  ⟨rfl, rfl, rfl, play_compile_order 1 playsWithTasksLoaded.2 0 playWithTasks rfl rfl⟩

/-! ### Import directives of a play -/

theorem includePlaybookPath_first (raw : List (String × Value)) (k path : String) :
    ∀ keys : List String, k ∈ keys →
      (∀ x ∈ keys.takeWhile (fun x => decide (x ≠ k)), mapGet raw x = none) →
      mapGet raw k = some (.str path) → includePlaybookPath raw keys = some path := by
  intro keys
  induction keys with
  | nil => intro hk; simp at hk
  | cons a rest ih =>
    intro hk hfirst hpath
    by_cases ha : a = k
    · subst ha
      simp only [includePlaybookPath, hpath]
    · have hmem : k ∈ rest := by
        rcases List.mem_cons.mp hk with h | h
        · exact absurd h.symm ha
        · exact h
      have htw : (a :: rest).takeWhile (fun x => decide (x ≠ k)) =
          a :: rest.takeWhile (fun x => decide (x ≠ k)) := by
        simp [List.takeWhile_cons, ha]
      rw [htw] at hfirst
      simp only [includePlaybookPath, hfirst a (List.mem_cons_self _ _)]
      exact ih hmem (fun x hx => hfirst x (List.mem_cons_of_mem _ hx)) hpath

/-- C18 (as stated, refuted): the play of `twoDirectivesWorld` holds
`import_playbook: first.yaml` and `include_playbook: second.yaml`, both paths
load, and the play compiles to the tasks of `first.yaml`, not to the compiled
output of the playbook loaded from `second.yaml`. -/
theorem import_directive_counterexample :
    importedVersus 3 twoDirectivesWorld "second.yaml" =
      some ([("import_playbook", some "first.yaml"), ("include_playbook", some "second.yaml")],
        ["First task"], ["Second task"]) :=
  rfl

/-- C18 (amended): when the first key of `import_playbook`, `include_playbook`,
`ansible.builtin.import_playbook`, `ansible.builtin.include_playbook` (in this
order) that the raw map of a play holds has a string value, and the playbook at
that path loads, `Play.Compile` is the `Compile` of the loaded playbook,
whatever tasks and roles the play itself has. -/
theorem play_import_replaces (fuel : Nat) (w w1 : World) (p : Nat) (play : Play)
    (k path : String) (included : Playbook)
    (hplay : w.play p = .ok play) (hl : play.dataloader = true)
    (hk : k ∈ applyBuiltinPrefixAll ["import_playbook", "include_playbook"])
    (hfirst : ∀ x ∈ (applyBuiltinPrefixAll ["import_playbook", "include_playbook"]).takeWhile
      (fun x => decide (x ≠ k)), mapGet play.raw x = none)
    (hpath : mapGet play.raw k = some (.str path))
    (hload : LoadPlaybook w (some (.play p)) path = .ok (.ok (some included), w1)) :
    Play.Compile (fuel + 1) w p = Playbook.Compile fuel w1 included := by
  show Play.compileWith fuel (Play.Compile fuel) w p = _
  unfold Play.compileWith
  have hinc : play.isIncludePlaybook = some path :=
    includePlaybookPath_first play.raw k path _ hk hfirst hpath
  simp only [hplay, hinc, hl, hload, Bool.not_true, Bool.false_eq_true, if_false]
  rfl

theorem play_import_replaces_witness :
    includePlaybooksLoaded.2.play 0 = .ok importingPlay ∧
    importingPlay.dataloader = true ∧
    mapGet importingPlay.raw "ansible.builtin.import_playbook" = some (.str "otherplays.yaml") ∧
    LoadPlaybook includePlaybooksLoaded.2 (some (.play 0)) "otherplays.yaml" =
      .ok (.ok (some otherPlaysLoaded.1), otherPlaysLoaded.2) ∧
    compiledNames (Play.Compile (2 + 1) includePlaybooksLoaded.2 0) = some ["Task"] ∧
    Play.Compile (2 + 1) includePlaybooksLoaded.2 0 =
      Playbook.Compile 2 otherPlaysLoaded.2 otherPlaysLoaded.1 :=
  ⟨rfl, rfl, rfl, rfl, rfl,
    play_import_replaces 2 includePlaybooksLoaded.2 otherPlaysLoaded.2 0 importingPlay
      "ansible.builtin.import_playbook" "otherplays.yaml" otherPlaysLoaded.1 rfl rfl
      (by decide)
      (by
        intro x hx
        have hx1 : x = "import_playbook" ∨ x = "include_playbook" := by
          have e : (applyBuiltinPrefixAll ["import_playbook", "include_playbook"]).takeWhile
              (fun x => decide (x ≠ "ansible.builtin.import_playbook")) =
              ["import_playbook", "include_playbook"] := by decide
          rw [e] at hx
          simpa using hx
        rcases hx1 with rfl | rfl <;> rfl)
      rfl rfl⟩

/-! ### The tasks of the project -/

/-- C19: with a main playbook, `ListTasks` is the `Compile` of that playbook
and the other playbooks are not compiled; without one, it is the one-by-one
`Compile` of the playbooks in their order, outputs concatenated; and
`Playbook.Compile` is the one-by-one `Compile` of its plays in their order,
outputs concatenated. -/
theorem listTasks_concat (fuel : Nat) (w : World) (path : String) (cfg : AnsibleConfig)
    (main : Playbook) (playbooks : List Playbook) :
    AnsibleProject.ListTasks fuel w
        { path := path, cfg := cfg, mainPlaybook := some main, playbooks := playbooks } =
      Playbook.Compile fuel w main ∧
    AnsibleProject.ListTasks fuel w
        { path := path, cfg := cfg, mainPlaybook := none, playbooks := playbooks } =
      concatOuts (threadEach (fun w pb => outAndWorld (Playbook.Compile fuel w pb)) playbooks w) ∧
    Playbook.Compile fuel w main =
      concatOuts (threadEach (fun w p => outAndWorld (Play.Compile fuel w p)) main w) :=
  ⟨rfl, compilePlaybooks_concat fuel playbooks w, playbookCompileWith_concat _ main w⟩

/-! ### The layers of `GetVars` -/

theorem roleDefaultsLoop_thread (fuel : Nat) :
    ∀ (rs : List Nat) (res : Variables) (w : World),
      roleDefaultsLoop fuel rs res w =
        match threadEach (LoadDefaultVars fuel) rs w with
        | .error e => .error e
        | .ok (dvs, w1) => .ok (dvs.foldl loAssign res, w1) := by
  intro rs
  induction rs with
  | nil => intro res w; rfl
  | cons r rs ih =>
    intro res w
    simp only [roleDefaultsLoop, threadEach]
    cases LoadDefaultVars fuel w r with
    | error e => rfl
    | ok x =>
      obtain ⟨dv, w1⟩ := x
      simp only [ih]
      cases threadEach (LoadDefaultVars fuel) rs w1 with
      | error e => rfl
      | ok y => rfl

theorem LoadDefaultVars_role (fuel : Nat) (w : World) (r : Nat) (x : Variables × World)
    (h : LoadDefaultVars fuel w r = .ok x) : ∃ role, w.roles[r]? = some role := by
  cases fuel with
  | zero => simp [LoadDefaultVars] at h
  | succ n =>
    rw [LoadDefaultVars, getAllDeps] at h
    cases hr : w.role r with
    | error e => simp [hr] at h
    | ok role => exact ⟨role, (role_eq_ok _ _ _).mp hr⟩

theorem threadEach_defaults (fuel : Nat) :
    ∀ (rs : List Nat) (w w1 : World) (dvs : List Variables),
      threadEach (LoadDefaultVars fuel) rs w = .ok (dvs, w1) →
      w1.core = w.core ∧ ∀ r ∈ rs, ∃ role, w.roles[r]? = some role := by
  intro rs
  induction rs with
  | nil =>
    intro w w1 dvs h
    simp only [threadEach, Except.ok.injEq, Prod.mk.injEq] at h
    rw [← h.2]
    exact ⟨rfl, fun r hr => by simp at hr⟩
  | cons r rs ih =>
    intro w w1 dvs h
    simp only [threadEach] at h
    split at h
    · simp at h
    · rename_i dv w2 h1
      split at h
      · simp at h
      · rename_i bs w3 h2
        simp only [Except.ok.injEq, Prod.mk.injEq] at h
        obtain ⟨_, h3⟩ := h
        subst h3
        have c1 := LoadDefaultVars_core _ _ _ _ h1
        obtain ⟨c2, hex⟩ := ih _ _ _ h2
        refine ⟨c2.trans c1, fun q hq => ?_⟩
        rcases List.mem_cons.mp hq with rfl | hq
        · exact LoadDefaultVars_role _ _ _ _ h1
        · obtain ⟨role, hrole⟩ := hex q hq
          have hlen := core_length _ _ c1
          have hlt : q < w2.roles.length := by
            rcases Nat.lt_or_ge q w2.roles.length with h | h
            · exact h
            · rw [List.getElem?_eq_none h] at hrole
              simp at hrole
          rw [hlen] at hlt
          exact ⟨w.roles[q], by simp [hlt]⟩

theorem core_vars (w w1 : World) (h : w1.core = w.core) (q : Nat) :
    (w1.roles.get? q).map Role.Vars = (w.roles.get? q).map Role.Vars := by
  have h1 : (w1.roles.map Role.core)[q]? = (w.roles.map Role.core)[q]? := by
    rw [core_roles w w1 h]
  simp only [List.getElem?_map] at h1
  simp only [List.get?_eq_getElem?]
  cases h2 : w1.roles[q]? with
  | none =>
    cases h3 : w.roles[q]? with
    | none => rfl
    | some b => simp [h2, h3] at h1
  | some a =>
    cases h3 : w.roles[q]? with
    | none => simp [h2, h3] at h1
    | some b =>
      simp only [h2, h3, Option.map_some', Option.some.injEq] at h1
      have := congrArg (fun x : Role => x.vars) h1
      simpa [Role.Vars] using this

theorem roleVarsLoop_layers (w w1 : World) (hc : w1.core = w.core) :
    ∀ (rs : List Nat) (res : Variables), (∀ r ∈ rs, ∃ role, w.roles[r]? = some role) →
      roleVarsLoop w1 rs res = .ok ((roleVarsOf w rs).foldl loAssign res) := by
  intro rs
  induction rs with
  | nil => intro res _; rfl
  | cons r rs ih =>
    intro res hex
    obtain ⟨role, hrole⟩ := hex r (List.mem_cons_self _ _)
    have hv := core_vars w w1 hc r
    simp only [List.get?_eq_getElem?, hrole, Option.map_some'] at hv
    cases h1 : w1.roles[r]? with
    | none => simp [h1] at hv
    | some role1 =>
      simp only [h1, Option.map_some', Option.some.injEq] at hv
      simp only [roleVarsLoop, (role_eq_ok _ _ _).mpr h1, roleVarsOf, List.filterMap_cons,
        List.get?_eq_getElem?, hrole, Option.map_some', List.foldl_cons, hv]
      have h2 := ih (loAssign res role.Vars) fun q hq => hex q (List.mem_cons_of_mem _ hq)
      simpa only [roleVarsOf, List.get?_eq_getElem?] using h2

theorem varsFilesLoop_layers (w w1 : World) (hc : w1.core = w.core) (play : Play)
    (hl : play.dataloader = true) :
    ∀ (fs : List String) (files : List Variables) (res : Variables),
      List.Forall₂ (fun f vars => LoadPlayVarsFile w play.GetPath f = .ok vars) fs files →
      varsFilesLoop w1 play fs res = .ok (files.foldl loAssign res) := by
  intro fs files res h
  induction h generalizing res with
  | nil => rfl
  | cons h1 _ ih =>
    have e : ∀ f, LoadPlayVarsFile w1 play.GetPath f = LoadPlayVarsFile w play.GetPath f := by
      intro f
      simp only [LoadPlayVarsFile, core_loader w w1 hc]
    simp only [varsFilesLoop, hl, Bool.not_true, Bool.false_eq_true, if_false, e, h1,
      List.foldl_cons]
    exact ih _

theorem taskVars_layers (w w1 : World) (hc : w1.core = w.core) (res : Variables) (t : Task)
    (howner : ∀ r, t.Role = some r → r < w.roles.length) :
    taskVars w1 res t = .ok ((ownerVarsOf w t ++ [t.Vars]).foldl loAssign res) := by
  unfold taskVars ownerVarsOf
  cases hr : t.Role with
  | none => rfl
  | some r =>
    have hlt := howner r hr
    have hv := core_vars w w1 hc r
    have hrole : w.roles[r]? = some w.roles[r] := by simp [hlt]
    simp only [List.get?_eq_getElem?, hrole, Option.map_some'] at hv
    cases h1 : w1.roles[r]? with
    | none => simp [h1] at hv
    | some role1 =>
      simp only [h1, Option.map_some', Option.some.injEq] at hv
      simp only [(role_eq_ok _ _ _).mpr h1, roleVarsOf, List.filterMap_cons,
        List.get?_eq_getElem?, hrole, Option.map_some', List.filterMap_nil, List.singleton_append,
        List.foldl_cons, List.foldl_nil, hv]

/-- C20: the variables of a task in a play are the right-biased merge of, in
this order: the `LoadDefaultVars` of each role of the play, the inline vars of
the play, its vars files in declared order, the own vars of each role of the
play, the own vars of the role that owns the task, the vars of the task. For a
nil task the last two layers are absent, for a nil play the first four, and
for both nil the result is empty. -/
theorem getVars_layers (fuel : Nat) (w w1 : World) (p : Nat) (play : Play) (task : Task)
    (dvs files : List Variables)
    (hplay : w.play p = .ok play) (hl : play.dataloader = true)
    (hdefaults : threadEach (LoadDefaultVars fuel) play.GetRoles w = .ok (dvs, w1))
    (hfiles : List.Forall₂ (fun f vars => LoadPlayVarsFile w play.GetPath f = .ok vars)
      play.GetVarsFiles files)
    (howner : ∀ r, task.Role = some r → r < w.roles.length) :
    GetVars fuel w (some p) (some task) =
      .ok (mergeLayers (dvs ++ [play.GetVars] ++ files ++ roleVarsOf w play.GetRoles ++
        ownerVarsOf w task ++ [task.Vars]), w1) ∧
    GetVars fuel w (some p) none =
      .ok (mergeLayers (dvs ++ [play.GetVars] ++ files ++ roleVarsOf w play.GetRoles), w1) ∧
    GetVars fuel w none (some task) = .ok (mergeLayers (ownerVarsOf w task ++ [task.Vars]), w) ∧
    GetVars fuel w none none = .ok ([], w) := by
  obtain ⟨hc, hex⟩ := threadEach_defaults _ _ _ _ _ hdefaults
  have hpv : playVars fuel w p =
      .ok (mergeLayers (dvs ++ [play.GetVars] ++ files ++ roleVarsOf w play.GetRoles), w1) := by
    unfold playVars
    simp only [hplay, roleDefaultsLoop_thread, hdefaults,
      varsFilesLoop_layers w w1 hc play hl _ _ _ hfiles,
      roleVarsLoop_layers w w1 hc _ _ hex, mergeLayers, List.foldl_append, List.foldl_cons,
      List.foldl_nil]
  refine ⟨?_, ?_, ?_, rfl⟩
  · unfold GetVars
    simp only [hpv, taskVars_layers w w1 hc _ task howner]
    simp only [mergeLayers, List.foldl_append, List.append_assoc]
  · unfold GetVars
    simp only [hpv]
  · unfold GetVars
    simp only [taskVars_layers w w rfl _ task howner]
    rfl

theorem getVars_layers_witness :
    playVarsLoaded.play 0 = .ok varsPlay ∧ varsPlay.dataloader = true ∧
    threadEach (LoadDefaultVars 2) varsPlay.GetRoles playVarsLoaded = .ok ([[]], playVarsLoaded) ∧
    stringVar (mergeLayers ([[]] ++ [varsPlay.GetVars] ++ [] ++
      roleVarsOf playVarsLoaded varsPlay.GetRoles ++ ownerVarsOf playVarsLoaded varsTask ++
      [varsTask.Vars])) "somevar" = some "some_value" ∧
    (GetVars 2 playVarsLoaded (some 0) (some varsTask) =
      .ok (mergeLayers ([[]] ++ [varsPlay.GetVars] ++ [] ++
        roleVarsOf playVarsLoaded varsPlay.GetRoles ++ ownerVarsOf playVarsLoaded varsTask ++
        [varsTask.Vars]), playVarsLoaded) ∧
    GetVars 2 playVarsLoaded (some 0) none =
      .ok (mergeLayers ([[]] ++ [varsPlay.GetVars] ++ [] ++
        roleVarsOf playVarsLoaded varsPlay.GetRoles), playVarsLoaded) ∧
    GetVars 2 playVarsLoaded none (some varsTask) =
      .ok (mergeLayers (ownerVarsOf playVarsLoaded varsTask ++ [varsTask.Vars]),
        playVarsLoaded) ∧
    GetVars 2 playVarsLoaded none none = .ok ([], playVarsLoaded)) :=
  ⟨rfl, rfl, rfl, rfl,
    getVars_layers 2 playVarsLoaded playVarsLoaded 0 varsPlay varsTask [[]] [] rfl rfl rfl
      List.Forall₂.nil (by
        intro r hr
        have h0 : r = 0 := by
          have e : varsTask.Role = some 0 := rfl
          rw [e] at hr
          exact (Option.some.inj hr).symm
        subst h0
        decide)⟩

/-! ### Default variables: `LoadDefaultVars` against the depth-first merge -/

theorem directDepsOf_mem (w : World) (hf : forwardDeps w) (r d : Nat)
    (hd : d ∈ directDepsOf w r) : r < d ∧ d < w.roles.length := by
  unfold directDepsOf at hd
  rw [List.get?_eq_getElem?] at hd
  cases h : w.roles[r]? with
  | none => simp [h] at hd
  | some role =>
    simp only [h] at hd
    exact hf r role h d hd

theorem depthFirstDeps_stable (w : World) (hf : forwardDeps w) :
    ∀ (n m r : Nat), w.roles.length - r ≤ n → w.roles.length - r ≤ m →
      depthFirstDeps n w r = depthFirstDeps m w r := by
  intro n
  induction n with
  | zero =>
    intro m r hn _
    have hr : w.roles.length ≤ r := by omega
    have hd : directDepsOf w r = [] := by
      unfold directDepsOf
      rw [List.get?_eq_getElem?, List.getElem?_eq_none hr]
    cases m with
    | zero => rfl
    | succ m => simp [depthFirstDeps, hd]
  | succ n ih =>
    intro m r hn hm
    cases m with
    | zero =>
      have hr : w.roles.length ≤ r := by omega
      have hd : directDepsOf w r = [] := by
        unfold directDepsOf
        rw [List.get?_eq_getElem?, List.getElem?_eq_none hr]
      simp [depthFirstDeps, hd]
    | succ m =>
      simp only [depthFirstDeps]
      congr 1
      apply List.map_congr_left
      intro d hd
      obtain ⟨h1, h2⟩ := directDepsOf_mem w hf r d hd
      rw [ih m d (by omega) (by omega)]

theorem depthFirstDeps_mem (w : World) (hf : forwardDeps w) :
    ∀ (n r x : Nat), x ∈ depthFirstDeps n w r → r < x ∧ x < w.roles.length := by
  intro n
  induction n with
  | zero => intro r x hx; simp [depthFirstDeps] at hx
  | succ n ih =>
    intro r x hx
    simp only [depthFirstDeps, List.mem_flatten, List.mem_map] at hx
    obtain ⟨l, ⟨d, hd, rfl⟩, hxl⟩ := hx
    obtain ⟨h1, h2⟩ := directDepsOf_mem w hf r d hd
    rcases List.mem_append.mp hxl with h | h
    · obtain ⟨h3, h4⟩ := ih d x h
      exact ⟨by omega, h4⟩
    · simp only [List.mem_singleton] at h
      subst h
      exact ⟨h1, h2⟩

theorem defaultVarsOf_stable (w : World) (hf : forwardDeps w) :
    ∀ (n m r : Nat), r < w.roles.length → w.roles.length - r ≤ n → w.roles.length - r ≤ m →
      defaultVarsOf n w r = defaultVarsOf m w r := by
  intro n
  induction n with
  | zero => intro m r hr hn _; omega
  | succ n ih =>
    intro m r hr hn hm
    cases m with
    | zero => omega
    | succ m =>
      simp only [defaultVarsOf]
      rw [depthFirstDeps_stable w hf (n + 1) (m + 1) r hn hm]
      congr 2
      apply List.map_congr_left
      intro d hd
      obtain ⟨h1, h2⟩ := depthFirstDeps_mem w hf _ r d hd
      exact ih m d h2 (by omega) (by omega)

theorem core_directDeps (w0 w : World) (hc : w.core = w0.core) (r : Nat) (role : Role)
    (h : w.roles[r]? = some role) : role.directDeps = directDepsOf w0 r := by
  obtain ⟨role0, h0, hcore⟩ := core_cell w w0 hc.symm r role h
  unfold directDepsOf
  rw [List.get?_eq_getElem?, h0]
  have := congrArg (fun x : Role => x.directDeps) hcore
  exact this.symm

theorem core_defaults (w0 w : World) (hc : w.core = w0.core) (r : Nat) (role : Role)
    (h : w.roles[r]? = some role) : role.defaults = defaultsOf w0 r := by
  obtain ⟨role0, h0, hcore⟩ := core_cell w w0 hc.symm r role h
  unfold defaultsOf
  rw [List.get?_eq_getElem?, h0]
  have := congrArg (fun x : Role => x.defaults) hcore
  exact this.symm

theorem memoFrom_mono (w0 w : World) (b c : Nat) (hbc : b ≤ c) (h : memoFrom w0 b w) :
    memoFrom w0 c w :=
  fun q role hq hr => h q role (Nat.le_trans hbc hq) hr

/-- The memo invariant from `b` on survives a call that keeps it from `d` on
and leaves the roles before `d` as they are. -/
theorem memoFrom_glue (w0 w w1 : World) (b d : Nat) (h : memoFrom w0 b w)
    (h1 : memoFrom w0 d w1) (hsame : ∀ q, q < d → w1.roles[q]? = w.roles[q]?) :
    memoFrom w0 b w1 := by
  intro q role hq hr
  rcases Nat.lt_or_ge q d with hlt | hge
  · rw [hsame q hlt] at hr
    exact h q role hq hr
  · exact h1 q role hge hr

theorem depthFirstDeps_unfold (w : World) (hf : forwardDeps w) (r : Nat)
    (hr : r < w.roles.length) :
    depthFirstDeps (w.roles.length - r) w r =
      ((directDepsOf w r).map fun d => depthFirstDeps (w.roles.length - d) w d ++ [d]).flatten := by
  obtain ⟨k, hk⟩ : ∃ k, w.roles.length - r = k + 1 := ⟨w.roles.length - r - 1, by omega⟩
  rw [hk]
  simp only [depthFirstDeps]
  congr 1
  apply List.map_congr_left
  intro d hd
  obtain ⟨h1, h2⟩ := directDepsOf_mem w hf r d hd
  rw [depthFirstDeps_stable w hf k (w.roles.length - d) d (by omega) (Nat.le_refl _)]

theorem getAllDepsLoop_spec (w0 : World) (n : Nat)
    (ih : ∀ (w : World) (d : Nat), w.core = w0.core → memoFrom w0 d w → d < w0.roles.length →
      w0.roles.length - d ≤ n →
      ∃ w1, getAllDeps n w d = .ok (depthFirstDeps (w0.roles.length - d) w0 d, w1) ∧
        w1.core = w0.core ∧ (∀ q, q < d → w1.roles[q]? = w.roles[q]?) ∧ memoFrom w0 d w1)
    (r : Nat) (hn : w0.roles.length - r ≤ n + 1) :
    ∀ (ds : List Nat) (w : World) (acc : List Nat), w.core = w0.core → memoFrom w0 (r + 1) w →
      (∀ d ∈ ds, r < d ∧ d < w0.roles.length) →
      (∃ role, w.roles[r]? = some role ∧ role.allDeps = acc) →
      ∃ w1, getAllDepsLoop (getAllDeps n) r ds w = .ok w1 ∧ w1.core = w0.core ∧
        (∀ q, q < r → w1.roles[q]? = w.roles[q]?) ∧ memoFrom w0 (r + 1) w1 ∧
        ∃ role1, w1.roles[r]? = some role1 ∧
          role1.allDeps = acc ++
            (ds.map fun d => depthFirstDeps (w0.roles.length - d) w0 d ++ [d]).flatten := by
  intro ds
  induction ds with
  | nil =>
    intro w acc hc hm _ hcell
    obtain ⟨role, h1, h2⟩ := hcell
    exact ⟨w, rfl, hc, fun _ _ => rfl, hm, role, h1, by simp [h2]⟩
  | cons d ds ihds =>
    intro w acc hc hm hds hcell
    obtain ⟨role, hrole, hacc⟩ := hcell
    obtain ⟨hd1, hd2⟩ := hds d (List.mem_cons_self _ _)
    obtain ⟨w2, hget, hc2, hsame2, hm2⟩ :=
      ih w d hc (memoFrom_mono w0 w (r + 1) d (by omega) hm) hd2 (by omega)
    have hm2r : memoFrom w0 (r + 1) w2 := memoFrom_glue w0 w w2 (r + 1) d hm hm2 hsame2
    have hrole2 : w2.roles[r]? = some role := by rw [hsame2 r hd1]; exact hrole
    obtain ⟨w1, hloop, hc1, hsame1, hm1, role1, hrole1, hall1⟩ :=
      ihds (w2.modifyRole r fun c =>
          { c with allDeps := c.allDeps ++ depthFirstDeps (w0.roles.length - d) w0 d ++ [d] })
        (acc ++ depthFirstDeps (w0.roles.length - d) w0 d ++ [d])
        (by
          have h := modifyRole_core w2 r (fun c =>
            { c with allDeps := c.allDeps ++ depthFirstDeps (w0.roles.length - d) w0 d ++ [d] })
            (fun c => rfl)
          exact h.trans hc2)
        (by
          intro q cell hq hcellq
          simp only [World.modifyRole] at hcellq
          rw [List.getElem?_modify_ne _ _ (by omega)] at hcellq
          exact hm2r q cell hq hcellq)
        (fun x hx => hds x (List.mem_cons_of_mem _ hx))
        ⟨_, by simp only [World.modifyRole, List.getElem?_modify_eq, hrole2]; rfl, by simp [hacc]⟩
    refine ⟨w1, ?_, hc1, ?_, hm1, role1, hrole1, ?_⟩
    · simp only [getAllDepsLoop, hget]
      exact hloop
    · intro q hq
      rw [hsame1 q hq]
      simp only [World.modifyRole]
      rw [List.getElem?_modify_ne _ _ (by omega)]
      exact hsame2 q (by omega)
    · rw [hall1]
      simp [List.append_assoc]

theorem getAllDeps_spec (w0 : World) (hf : forwardDeps w0) :
    ∀ (n : Nat) (w : World) (r : Nat), w.core = w0.core → memoFrom w0 r w →
      r < w0.roles.length → w0.roles.length - r ≤ n →
      ∃ w1, getAllDeps n w r = .ok (depthFirstDeps (w0.roles.length - r) w0 r, w1) ∧
        w1.core = w0.core ∧ (∀ q, q < r → w1.roles[q]? = w.roles[q]?) ∧ memoFrom w0 r w1 := by
  intro n
  induction n with
  | zero => intro w r _ _ hr hn; omega
  | succ n ih =>
    intro w r hc hm hr hn
    have hlen := core_length w0 w hc
    have hcell : w.roles[r]? = some w.roles[r] := by simp [hlen, hr]
    rw [getAllDeps]
    simp only [(role_eq_ok _ _ _).mpr hcell]
    by_cases hlenpos : (w.roles[r]).allDeps.length > 0
    · simp only [hlenpos, if_true]
      rcases hm r _ (Nat.le_refl _) hcell with h | h
      · rw [h] at hlenpos
        simp at hlenpos
      · exact ⟨w, by rw [h], hc, fun _ _ => rfl, hm⟩
    · simp only [hlenpos, if_false]
      have hnil : (w.roles[r]).allDeps = [] := by
        cases hx : (w.roles[r]).allDeps with
        | nil => rfl
        | cons a l => rw [hx] at hlenpos; simp at hlenpos
      obtain ⟨w1, hloop, hc1, hsame1, hm1, role1, hrole1, hall1⟩ :=
        getAllDepsLoop_spec w0 n ih r hn (w.roles[r]).getDirectDeps w [] hc
          (memoFrom_mono w0 w r (r + 1) (by omega) hm)
          (fun d hd => by
            have e := core_directDeps w0 w hc r _ hcell
            simp only [Role.getDirectDeps, e] at hd
            exact directDepsOf_mem w0 hf r d hd)
          ⟨_, hcell, hnil⟩
      have e := core_directDeps w0 w hc r _ hcell
      simp only [Role.getDirectDeps, e, List.nil_append] at hall1 hloop
      rw [← depthFirstDeps_unfold w0 hf r hr] at hall1
      simp only [Role.getDirectDeps, e, hloop, (role_eq_ok _ _ _).mpr hrole1]
      refine ⟨w1, by rw [hall1], hc1, hsame1, ?_⟩
      intro q cell hq hcellq
      rcases Nat.eq_or_lt_of_le hq with heq | hlt
      · subst heq
        rw [hrole1] at hcellq
        simp only [Option.some.injEq] at hcellq
        subst hcellq
        exact .inr hall1
      · exact hm1 q cell (by omega) hcellq

theorem defaultVarsOf_unfold (w : World) (hf : forwardDeps w) (r : Nat)
    (hr : r < w.roles.length) :
    defaultVarsOf (w.roles.length - r) w r =
      mergeLayers ((depthFirstDeps (w.roles.length - r) w r).map
        (fun d => defaultVarsOf (w.roles.length - d) w d) ++ [defaultsOf w r]) := by
  obtain ⟨k, hk⟩ : ∃ k, w.roles.length - r = k + 1 := ⟨w.roles.length - r - 1, by omega⟩
  rw [hk]
  simp only [defaultVarsOf]
  congr 2
  apply List.map_congr_left
  intro d hd
  obtain ⟨h1, h2⟩ := depthFirstDeps_mem w hf _ r d hd
  exact defaultVarsOf_stable w hf k (w.roles.length - d) d h2 (by omega) (Nat.le_refl _)

theorem loadDefaultVarsLoop_spec (w0 : World) (n : Nat)
    (ih : ∀ (w : World) (d : Nat), w.core = w0.core → memoFrom w0 d w → d < w0.roles.length →
      w0.roles.length - d ≤ n →
      ∃ w1, LoadDefaultVars n w d = .ok (defaultVarsOf (w0.roles.length - d) w0 d, w1) ∧
        w1.core = w0.core ∧ (∀ q, q < d → w1.roles[q]? = w.roles[q]?) ∧ memoFrom w0 d w1)
    (b : Nat) :
    ∀ (ds : List Nat) (w : World) (vars : Variables), w.core = w0.core → memoFrom w0 b w →
      (∀ d ∈ ds, b ≤ d ∧ d < w0.roles.length ∧ w0.roles.length - d ≤ n) →
      ∃ w1, loadDefaultVarsLoop (LoadDefaultVars n) ds vars w =
          .ok ((ds.map fun d => defaultVarsOf (w0.roles.length - d) w0 d).foldl loAssign vars, w1) ∧
        w1.core = w0.core ∧ (∀ q, q < b → w1.roles[q]? = w.roles[q]?) ∧ memoFrom w0 b w1 := by
  intro ds
  induction ds with
  | nil =>
    intro w vars hc hm _
    exact ⟨w, rfl, hc, fun _ _ => rfl, hm⟩
  | cons d ds ihds =>
    intro w vars hc hm hds
    obtain ⟨hd1, hd2, hd3⟩ := hds d (List.mem_cons_self _ _)
    obtain ⟨w2, hget, hc2, hsame2, hm2⟩ := ih w d hc (memoFrom_mono w0 w b d hd1 hm) hd2 hd3
    have hm2b : memoFrom w0 b w2 := memoFrom_glue w0 w w2 b d hm hm2 hsame2
    obtain ⟨w1, hloop, hc1, hsame1, hm1⟩ :=
      ihds w2 (loAssign vars (defaultVarsOf (w0.roles.length - d) w0 d)) hc2 hm2b
        (fun x hx => hds x (List.mem_cons_of_mem _ hx))
    refine ⟨w1, ?_, hc1, fun q hq => ?_, hm1⟩
    · simp only [loadDefaultVarsLoop, hget, List.map_cons, List.foldl_cons]
      exact hloop
    · rw [hsame1 q hq]
      exact hsame2 q (by omega)

theorem LoadDefaultVars_spec (w0 : World) (hf : forwardDeps w0) :
    ∀ (n : Nat) (w : World) (r : Nat), w.core = w0.core → memoFrom w0 r w →
      r < w0.roles.length → w0.roles.length - r ≤ n →
      ∃ w1, LoadDefaultVars n w r = .ok (defaultVarsOf (w0.roles.length - r) w0 r, w1) ∧
        w1.core = w0.core ∧ (∀ q, q < r → w1.roles[q]? = w.roles[q]?) ∧ memoFrom w0 r w1 := by
  intro n
  induction n with
  | zero => intro w r _ _ hr hn; omega
  | succ n ih =>
    intro w r hc hm hr hn
    obtain ⟨w1, hdeps, hc1, hsame1, hm1⟩ := getAllDeps_spec w0 hf (n + 1) w r hc hm hr hn
    obtain ⟨w2, hloop, hc2, hsame2, hm2⟩ :=
      loadDefaultVarsLoop_spec w0 n ih (r + 1) (depthFirstDeps (w0.roles.length - r) w0 r) w1 []
        hc1 (memoFrom_mono w0 w1 r (r + 1) (by omega) hm1)
        (fun d hd => by
          obtain ⟨h1, h2⟩ := depthFirstDeps_mem w0 hf _ r d hd
          exact ⟨h1, h2, by omega⟩)
    have hlen := core_length w0 w2 hc2
    have hcell : w2.roles[r]? = some w2.roles[r] := by simp [hlen, hr]
    have hdef := core_defaults w0 w2 hc2 r _ hcell
    refine ⟨w2, ?_, hc2, fun q hq => ?_, ?_⟩
    · rw [LoadDefaultVars]
      simp only [hdeps, hloop, (role_eq_ok _ _ _).mpr hcell, hdef]
      rw [defaultVarsOf_unfold w0 hf r hr]
      simp only [mergeLayers, List.foldl_append, List.foldl_cons, List.foldl_nil]
    · rw [hsame2 q (by omega)]
      exact hsame1 q hq
    · exact memoFrom_glue w0 w1 w2 r (r + 1) hm1 hm2 hsame2

theorem mapGet_loAssign_of_not_mem {α : Type} (k : String) :
    ∀ (b a : List (String × α)), k ∉ b.map Prod.fst → mapGet (loAssign a b) k = mapGet a k := by
  intro b
  induction b with
  | nil => intro a _; rfl
  | cons e rest ih =>
    intro a hk
    obtain ⟨k1, v1⟩ := e
    simp only [List.map_cons, List.mem_cons, not_or] at hk
    have h1 : mapGet (loAssign (mapSet a k1 v1) rest) k = mapGet (mapSet a k1 v1) k :=
      ih (mapSet a k1 v1) hk.2
    have h2 : loAssign a ((k1, v1) :: rest) = loAssign (mapSet a k1 v1) rest := rfl
    rw [h2, h1, mapGet_mapSet_of_ne a k1 k v1 hk.1]

/-- The merge `lo.Assign(a, b)` maps every key of `b` to its value in `b`. -/
theorem mapGet_loAssign_right {α : Type} (k : String) (v : α) :
    ∀ (b a : List (String × α)), (b.map Prod.fst).Nodup → mapGet b k = some v →
      mapGet (loAssign a b) k = some v := by
  intro b
  induction b with
  | nil => intro a _ h; simp [mapGet] at h
  | cons e rest ih =>
    intro a hnd h
    obtain ⟨k1, v1⟩ := e
    simp only [List.map_cons, List.nodup_cons] at hnd
    have h2 : loAssign a ((k1, v1) :: rest) = loAssign (mapSet a k1 v1) rest := rfl
    rw [h2]
    by_cases hk : k1 = k
    · subst hk
      simp only [mapGet, if_true, Option.some.injEq] at h
      subst h
      rw [mapGet_loAssign_of_not_mem k1 rest _ hnd.1, mapGet_mapSet_self]
    · simp only [mapGet, hk, if_false] at h
      exact ih _ hnd.2 h

/-- The heaps the loader builds have forward dependencies: `loadDeps` keeps the property. -/
theorem loadDeps_forward (p : Nat) (deps : List (Option RoleDefinition)) (w w1 : World)
    (hf : forwardDeps w) (h : loadDeps p deps w = .ok w1) : forwardDeps w1 := by
  obtain ⟨_, l2, l3, l4, l5⟩ := loadDeps_ok p deps w w1 h
  intro q role hq d hd
  have hq1 : q < w1.roles.length := by
    rcases Nat.lt_or_ge q w1.roles.length with h | h
    · exact h
    · rw [List.getElem?_eq_none h] at hq
      simp at hq
  rcases Nat.lt_or_ge q w.roles.length with hlt | hge
  · have hcell : w.roles[q]? = some w.roles[q] := by simp [hlt]
    by_cases hqp : q = p
    · subst hqp
      rw [l4 _ hcell] at hq
      simp only [Option.some.injEq] at hq
      subst hq
      simp only [List.mem_append, List.mem_range'_1] at hd
      rcases hd with hd | hd
      · obtain ⟨h1, h2⟩ := hf q _ hcell d hd
        exact ⟨h1, by omega⟩
      · exact ⟨by omega, by omega⟩
    · rw [l3 q _ hqp hcell] at hq
      simp only [Option.some.injEq] at hq
      subst hq
      obtain ⟨h1, h2⟩ := hf q _ hcell d hd
      exact ⟨h1, by omega⟩
  · obtain ⟨_, dr, _, e2, _, e4⟩ := l5 (q - w.roles.length) (by omega)
    have e : w.roles.length + (q - w.roles.length) = q := by omega
    rw [e, hq] at e2
    simp only [Option.some.injEq] at e2
    subst e2
    rw [e4] at hd
    simp at hd

theorem forwardFrom_sound (n : Nat) :
    ∀ (l : List Role) (q : Nat), forwardFrom n q l = true →
      ∀ i role, l[i]? = some role → ∀ d ∈ role.directDeps, q + i < d ∧ d < n := by
  intro l
  induction l with
  | nil => intro q _ i role h; simp at h
  | cons a rest ih =>
    intro q h i role hi d hd
    simp only [forwardFrom, Bool.and_eq_true, List.all_eq_true, decide_eq_true_eq] at h
    cases i with
    | zero =>
      simp only [List.getElem?_cons_zero, Option.some.injEq] at hi
      subst hi
      exact h.1 d hd
    | succ j =>
      simp only [List.getElem?_cons_succ] at hi
      have := ih (q + 1) h.2 j role hi d hd
      exact ⟨by omega, this.2⟩

theorem forwardDeps_of_check (w : World) (h : forwardDepsCheck w = true) : forwardDeps w := by
  intro q role hq d hd
  have := forwardFrom_sound _ _ 0 h q role hq d hd
  exact ⟨by omega, this.2⟩

theorem memoFrom_of_noMemo (w0 w : World) (b : Nat) (h : noMemo w = true) : memoFrom w0 b w := by
  intro q role _ hq
  simp only [noMemo, List.all_eq_true, List.isEmpty_iff] at h
  exact .inl (h role (List.getElem?_mem hq))

/-- C16: in a heap where every dependency was allocated after its dependent (no
cycle) and every memoised list is up to date, with fuel for the depth of the
role: `LoadDefaultVars` returns, for the role and for each of its transitive
dependencies, the value `defaultVarsOf`, which is the right-biased merge of the
`defaultVarsOf` of the transitive dependencies, taken in depth-first order
(each direct dependency after its own dependencies), and last of the own
defaults of the role; so a key of the own defaults maps to the own value. -/
theorem loadDefaultVars_merge (fuel : Nat) (w : World) (r : Nat) (role : Role)
    (hf : forwardDeps w) (hm : memoFrom w 0 w) (hrole : w.role r = .ok role)
    (hfuel : w.roles.length - r ≤ fuel) :
    (∀ d, d = r ∨ d ∈ depthFirstDeps fuel w r →
      ∃ w1, LoadDefaultVars fuel w d = .ok (defaultVarsOf fuel w d, w1) ∧ w1.core = w.core) ∧
    defaultVarsOf fuel w r =
      mergeLayers ((depthFirstDeps fuel w r).map (defaultVarsOf fuel w) ++ [role.defaults]) ∧
    depthFirstDeps fuel w r =
      (role.directDeps.map fun d => depthFirstDeps fuel w d ++ [d]).flatten ∧
    ((role.defaults.map Prod.fst).Nodup → ∀ k v, mapGet role.defaults k = some v →
      mapGet (defaultVarsOf fuel w r) k = some v) := by
  have hcell := (role_eq_ok _ _ _).mp hrole
  have hr : r < w.roles.length := by
    rcases Nat.lt_or_ge r w.roles.length with h | h
    · exact h
    · rw [List.getElem?_eq_none h] at hcell
      simp at hcell
  have hdd : directDepsOf w r = role.directDeps := by
    unfold directDepsOf
    rw [List.get?_eq_getElem?, hcell]
  have hdf : defaultsOf w r = role.defaults := by
    unfold defaultsOf
    rw [List.get?_eq_getElem?, hcell]
  have hstab : ∀ d, d ∈ depthFirstDeps fuel w r →
      d < w.roles.length ∧ w.roles.length - d ≤ fuel := by
    intro d hd
    obtain ⟨h1, h2⟩ := depthFirstDeps_mem w hf _ r d hd
    exact ⟨h2, by omega⟩
  have hdfs : depthFirstDeps fuel w r =
      (role.directDeps.map fun d => depthFirstDeps fuel w d ++ [d]).flatten := by
    rw [depthFirstDeps_stable w hf fuel (w.roles.length - r) r hfuel (Nat.le_refl _),
      depthFirstDeps_unfold w hf r hr, hdd]
    congr 1
    apply List.map_congr_left
    intro d hd
    obtain ⟨h1, h2⟩ := hf r role hcell d hd
    rw [depthFirstDeps_stable w hf (w.roles.length - d) fuel d (Nat.le_refl _) (by omega)]
  have hmerge : defaultVarsOf fuel w r =
      mergeLayers ((depthFirstDeps fuel w r).map (defaultVarsOf fuel w) ++ [role.defaults]) := by
    rw [defaultVarsOf_stable w hf fuel (w.roles.length - r) r hr hfuel (Nat.le_refl _),
      defaultVarsOf_unfold w hf r hr, hdf,
      depthFirstDeps_stable w hf (w.roles.length - r) fuel r (Nat.le_refl _) hfuel]
    congr 2
    apply List.map_congr_left
    intro d hd
    obtain ⟨h1, h2⟩ := hstab d hd
    exact defaultVarsOf_stable w hf _ fuel d h1 (Nat.le_refl _) h2
  refine ⟨?_, hmerge, hdfs, ?_⟩
  · intro d hd
    have hd' : d < w.roles.length ∧ w.roles.length - d ≤ fuel := by
      rcases hd with rfl | hd
      · exact ⟨hr, hfuel⟩
      · exact hstab d hd
    obtain ⟨w1, h1, h2, _, _⟩ := LoadDefaultVars_spec w hf fuel w d rfl
      (memoFrom_mono w w 0 d (Nat.zero_le _) hm) hd'.1 hd'.2
    refine ⟨w1, ?_, h2⟩
    rw [h1, defaultVarsOf_stable w hf _ fuel d hd'.1 (Nat.le_refl _) hd'.2]
  · intro hnd k v hk
    rw [hmerge]
    simp only [mergeLayers, List.foldl_append, List.foldl_cons, List.foldl_nil]
    exact mapGet_loAssign_right k v role.defaults _ hnd hk

theorem loadDefaultVars_merge_witness :
    forwardDeps defaultsDepLoaded ∧ memoFrom defaultsDepLoaded 0 defaultsDepLoaded ∧
    defaultsDepLoaded.role 0 = .ok appRole ∧ defaultsDepLoaded.roles.length - 0 ≤ 2 ∧
    depthFirstDeps 2 defaultsDepLoaded 0 = [1] ∧
    stringVar (defaultVarsOf 2 defaultsDepLoaded 0) "port" = some "8080" ∧
    stringVar (defaultVarsOf 2 defaultsDepLoaded 0) "user" = some "www" ∧
    ((∀ d, d = 0 ∨ d ∈ depthFirstDeps 2 defaultsDepLoaded 0 →
      ∃ w1, LoadDefaultVars 2 defaultsDepLoaded d =
          .ok (defaultVarsOf 2 defaultsDepLoaded d, w1) ∧ w1.core = defaultsDepLoaded.core) ∧
    defaultVarsOf 2 defaultsDepLoaded 0 =
      mergeLayers ((depthFirstDeps 2 defaultsDepLoaded 0).map (defaultVarsOf 2 defaultsDepLoaded) ++
        [appRole.defaults]) ∧
    depthFirstDeps 2 defaultsDepLoaded 0 =
      (appRole.directDeps.map fun d => depthFirstDeps 2 defaultsDepLoaded d ++ [d]).flatten ∧
    ((appRole.defaults.map Prod.fst).Nodup → ∀ k v, mapGet appRole.defaults k = some v →
      mapGet (defaultVarsOf 2 defaultsDepLoaded 0) k = some v)) :=
  ⟨forwardDeps_of_check _ rfl, memoFrom_of_noMemo _ _ 0 rfl, rfl, by decide, rfl, rfl, rfl,
    loadDefaultVars_merge 2 defaultsDepLoaded 0 appRole (forwardDeps_of_check _ rfl)
      (memoFrom_of_noMemo _ _ 0 rfl) rfl (by decide)⟩

/-! ### The narrowing view of a module -/

theorem mapGet_mem_keys {α : Type} :
    ∀ (m : List (String × α)) (k : String) (v : α), mapGet m k = some v → k ∈ m.map Prod.fst := by
  intro m
  induction m with
  | nil => intro k v h; simp [mapGet] at h
  | cons e rest ih =>
    intro k v h
    obtain ⟨k1, v1⟩ := e
    by_cases hk : k1 = k
    · simp [hk]
    · simp only [mapGet, hk, if_false] at h
      exact List.mem_cons_of_mem _ (ih k v h)

theorem toStringMap_keys :
    ∀ (m : Module) (k : String), k ∈ m.ToStringMap.map Prod.fst → k ∈ m.map Prod.fst := by
  intro m
  induction m with
  | nil => intro k h; simp [Module.ToStringMap] at h
  | cons e rest ih =>
    intro k h
    obtain ⟨k1, v1⟩ := e
    cases v1 with
    | str s =>
      simp only [Module.ToStringMap, List.filterMap_cons, List.map_cons, List.mem_cons] at h
      rcases h with h | h
      · simp [h]
      · exact List.mem_cons_of_mem _ (ih k h)
    | _ =>
      simp only [Module.ToStringMap, List.filterMap_cons] at h
      exact List.mem_cons_of_mem _ (ih k h)

/-- C25: for a module (a map: its keys are distinct), `ToStringMap` has the
key `k` exactly when the module maps `k` to a string, and then maps `k` to
that string; every key of the result is a key of the module. -/
theorem toStringMap_get (m : Module) (hnd : (m.map Prod.fst).Nodup) (k : String) :
    (∀ s, mapGet m.ToStringMap k = some s ↔ mapGet m k = some (.str s)) ∧
    (∀ x, x ∈ m.ToStringMap.map Prod.fst → x ∈ m.map Prod.fst) := by
  refine ⟨?_, toStringMap_keys m⟩
  induction m with
  | nil => intro s; simp [Module.ToStringMap, mapGet]
  | cons e rest ih =>
    intro s
    obtain ⟨k1, v1⟩ := e
    simp only [List.map_cons, List.nodup_cons] at hnd
    have ih1 := ih hnd.2 s
    have hrest : k1 = k → ∀ x, mapGet (Module.ToStringMap rest) k ≠ some x := by
      intro hk x hx
      exact hnd.1 (hk ▸ toStringMap_keys rest k (mapGet_mem_keys _ k x hx))
    cases v1 with
    | str s1 =>
      have e1 : Module.ToStringMap ((k1, Value.str s1) :: rest) =
          (k1, s1) :: Module.ToStringMap rest := rfl
      rw [e1]
      by_cases hk : k1 = k
      · simp [mapGet, hk]
      · simp only [mapGet, hk, if_false]
        exact ih1
    | null =>
      have e1 : Module.ToStringMap ((k1, Value.null) :: rest) = Module.ToStringMap rest := rfl
      rw [e1]
      by_cases hk : k1 = k
      · simp only [mapGet, hk, if_true, Option.some.injEq, reduceCtorEq, iff_false]
        exact hrest hk s
      · simp only [mapGet, hk, if_false]
        exact ih1
    | bool b =>
      have e1 : Module.ToStringMap ((k1, Value.bool b) :: rest) = Module.ToStringMap rest := rfl
      rw [e1]
      by_cases hk : k1 = k
      · simp only [mapGet, hk, if_true, Option.some.injEq, reduceCtorEq, iff_false]
        exact hrest hk s
      · simp only [mapGet, hk, if_false]
        exact ih1
    | int i =>
      have e1 : Module.ToStringMap ((k1, Value.int i) :: rest) = Module.ToStringMap rest := rfl
      rw [e1]
      by_cases hk : k1 = k
      · simp only [mapGet, hk, if_true, Option.some.injEq, reduceCtorEq, iff_false]
        exact hrest hk s
      · simp only [mapGet, hk, if_false]
        exact ih1
    | float r =>
      have e1 : Module.ToStringMap ((k1, Value.float r) :: rest) = Module.ToStringMap rest := rfl
      rw [e1]
      by_cases hk : k1 = k
      · simp only [mapGet, hk, if_true, Option.some.injEq, reduceCtorEq, iff_false]
        exact hrest hk s
      · simp only [mapGet, hk, if_false]
        exact ih1
    | list xs =>
      have e1 : Module.ToStringMap ((k1, Value.list xs) :: rest) = Module.ToStringMap rest := rfl
      rw [e1]
      by_cases hk : k1 = k
      · simp only [mapGet, hk, if_true, Option.some.injEq, reduceCtorEq, iff_false]
        exact hrest hk s
      · simp only [mapGet, hk, if_false]
        exact ih1
    | map kvs =>
      have e1 : Module.ToStringMap ((k1, Value.map kvs) :: rest) = Module.ToStringMap rest := rfl
      rw [e1]
      by_cases hk : k1 = k
      · simp only [mapGet, hk, if_true, Option.some.injEq, reduceCtorEq, iff_false]
        exact hrest hk s
      · simp only [mapGet, hk, if_false]
        exact ih1

theorem toStringMap_get_witness :
    ([("name", Value.str "web"), ("public", Value.bool true)].map Prod.fst).Nodup ∧
    ((∀ s, mapGet (Module.ToStringMap [("name", .str "web"), ("public", .bool true)]) "public" =
        some s ↔ mapGet [("name", Value.str "web"), ("public", Value.bool true)] "public" =
        some (.str s)) ∧
      (∀ x, x ∈ (Module.ToStringMap [("name", .str "web"), ("public", .bool true)]).map Prod.fst →
        x ∈ [("name", Value.str "web"), ("public", Value.bool true)].map Prod.fst)) ∧
    Module.ToStringMap [("name", .str "web"), ("public", .bool true)] = [("name", "web")] :=
  ⟨by decide, toStringMap_get [("name", .str "web"), ("public", .bool true)] (by decide) "public",
    rfl⟩

/-! ### The options of `LoadRole` -/

/-- C26: `WithDefaults` keeps each of the three names when it is not empty and
puts `main` for an empty one; applying it twice is applying it once; and
`LoadRole` is `LoadRoleWithOptions` with the three names `main`. -/
theorem withDefaults_main (o : LoadRoleOptions) (w : World) (src : Option MetaRef)
    (play : Option Nat) (name : String) :
    o.WithDefaults.TasksFile = (if o.TasksFile = "" then "main" else o.TasksFile) ∧
    o.WithDefaults.DefaultsFile = (if o.DefaultsFile = "" then "main" else o.DefaultsFile) ∧
    o.WithDefaults.VarsFile = (if o.VarsFile = "" then "main" else o.VarsFile) ∧
    o.WithDefaults.WithDefaults = o.WithDefaults ∧
    LoadRole w src play name =
      LoadRoleWithOptions w src play name
        { TasksFile := "main", DefaultsFile := "main", VarsFile := "main" } := by
  refine ⟨?_, ?_, ?_, ?_, ?_⟩
  · by_cases h : o.TasksFile = "" <;> simp [LoadRoleOptions.WithDefaults, h]
  · by_cases h : o.DefaultsFile = "" <;> simp [LoadRoleOptions.WithDefaults, h]
  · by_cases h : o.VarsFile = "" <;> simp [LoadRoleOptions.WithDefaults, h]
  · by_cases h1 : o.TasksFile = "" <;> by_cases h2 : o.DefaultsFile = "" <;>
      by_cases h3 : o.VarsFile = "" <;> simp [LoadRoleOptions.WithDefaults, h1, h2, h3]
  · have e1 : LoadRoleOptions.WithDefaults { TasksFile := "", DefaultsFile := "", VarsFile := "" } =
        { TasksFile := "main", DefaultsFile := "main", VarsFile := "main" } := by decide
    have e2 : LoadRoleOptions.WithDefaults
        { TasksFile := "main", DefaultsFile := "main", VarsFile := "main" } =
        { TasksFile := "main", DefaultsFile := "main", VarsFile := "main" } := by decide
    unfold LoadRole LoadRoleWithOptions
    simp only [e1, e2]

/-! ### The two forms of a role reference -/

/-- C29: a role reference written as the scalar `n` (not the null scalar) and
one written as the mapping `role: n` on the same line decode to the same
`RoleDefinition`: the name `n`, no variables, the range from that line to that line. -/
theorem roleDefinition_forms (line : Nat) (kind : ScalarKind) (n : String)
    (hk : kind ≠ .null) :
    decodeRoleDefinition (.scalar line kind n) =
      .ok { metadata := { path := "", rng := { startLine := line, endLine := line }, parent := none }
            name := n, vars := [] } ∧
    decodeRoleDefinition (.map line [("role", .scalar line kind n)]) =
      decodeRoleDefinition (.scalar line kind n) := by
  cases kind with
  | null => exact absurd rfl hk
  | _ => exact ⟨rfl, rfl⟩

theorem roleDefinition_forms_witness :
    ScalarKind.str ≠ .null ∧
    (decodeRoleDefinition (.scalar 1 .str "test") =
      .ok { metadata := { path := "", rng := { startLine := 1, endLine := 1 }, parent := none }
            name := "test", vars := [] } ∧
    decodeRoleDefinition (.map 1 [("role", .scalar 1 .str "test")]) =
      decodeRoleDefinition (.scalar 1 .str "test")) :=
  ⟨by decide, roleDefinition_forms 1 .str "test" (by decide)⟩

/-! ### Rendering keeps the shape of a value -/

theorem mapStringsList_eq_map (f : String → String) :
    ∀ xs : List Value, mapStringsList f xs = xs.map (Value.mapStrings f)
  | [] => rfl
  | v :: vs => by simp only [mapStringsList, List.map_cons, mapStringsList_eq_map f vs]

theorem mapStringsMap_eq_map (f : String → String) :
    ∀ kvs : List (String × Value),
      mapStringsMap f kvs = kvs.map fun kv => (kv.1, Value.mapStrings f kv.2)
  | [] => rfl
  | (k, v) :: rest => by simp only [mapStringsMap, List.map_cons, mapStringsMap_eq_map f rest]

mutual
theorem renderVariable_ok (ev : String → Variables → Except String String) (vars : Variables) :
    ∀ v : Value, (∀ s ∈ v.strings, ∃ r, ev s vars = .ok r) →
      renderVariable ev vars v = .ok (v.mapStrings (rendering ev vars))
  | .str s, h => by
    obtain ⟨r, hr⟩ := h s (by simp [Value.strings])
    simp only [renderVariable, hr, Value.mapStrings, rendering]
  | .list xs, h => by
    simp only [renderVariable, renderList_ok ev vars xs h, Value.mapStrings]
  | .map kvs, h => by
    simp only [renderVariable, renderMap_ok ev vars kvs h, Value.mapStrings]
  | .null, _ => rfl
  | .bool _, _ => rfl
  | .int _, _ => rfl
  | .float _, _ => rfl
theorem renderList_ok (ev : String → Variables → Except String String) (vars : Variables) :
    ∀ xs : List Value, (∀ s ∈ stringsOfList xs, ∃ r, ev s vars = .ok r) →
      renderList ev vars xs = .ok (mapStringsList (rendering ev vars) xs)
  | [], _ => rfl
  | v :: vs, h => by
    have h1 := renderVariable_ok ev vars v fun s hs =>
      h s (by simp only [stringsOfList, List.mem_append]; exact .inl hs)
    have h2 := renderList_ok ev vars vs fun s hs =>
      h s (by simp only [stringsOfList, List.mem_append]; exact .inr hs)
    simp only [renderList, h1, h2, mapStringsList]
theorem renderMap_ok (ev : String → Variables → Except String String) (vars : Variables) :
    ∀ kvs : List (String × Value), (∀ s ∈ stringsOfMap kvs, ∃ r, ev s vars = .ok r) →
      renderMap ev vars kvs = .ok (mapStringsMap (rendering ev vars) kvs)
  | [], _ => rfl
  | (k, v) :: rest, h => by
    have h1 := renderVariable_ok ev vars v fun s hs =>
      h s (by simp only [stringsOfMap, List.mem_append]; exact .inl hs)
    have h2 := renderMap_ok ev vars rest fun s hs =>
      h s (by simp only [stringsOfMap, List.mem_append]; exact .inr hs)
    simp only [renderMap, h1, h2, mapStringsMap]
end

mutual
theorem renderVariable_error (ev : String → Variables → Except String String)
    (vars : Variables) :
    ∀ v : Value, (∃ s ∈ v.strings, ∃ e, ev s vars = .error e) →
      ∃ e, renderVariable ev vars v = .error e
  | .str s, h => by
    obtain ⟨s1, hs1, e, he⟩ := h
    simp only [Value.strings, List.mem_singleton] at hs1
    subst hs1
    exact ⟨e, by simp only [renderVariable, he]⟩
  | .list xs, h => by
    obtain ⟨e, he⟩ := renderList_error ev vars xs h
    exact ⟨e, by simp only [renderVariable, he]⟩
  | .map kvs, h => by
    obtain ⟨e, he⟩ := renderMap_error ev vars kvs h
    exact ⟨e, by simp only [renderVariable, he]⟩
  | .null, h => by
    obtain ⟨s, hs, _⟩ := h
    simp [Value.strings] at hs
  | .bool _, h => by
    obtain ⟨s, hs, _⟩ := h
    simp [Value.strings] at hs
  | .int _, h => by
    obtain ⟨s, hs, _⟩ := h
    simp [Value.strings] at hs
  | .float _, h => by
    obtain ⟨s, hs, _⟩ := h
    simp [Value.strings] at hs
theorem renderList_error (ev : String → Variables → Except String String) (vars : Variables) :
    ∀ xs : List Value, (∃ s ∈ stringsOfList xs, ∃ e, ev s vars = .error e) →
      ∃ e, renderList ev vars xs = .error e
  | [], h => by
    obtain ⟨s, hs, _⟩ := h
    simp [stringsOfList] at hs
  | v :: vs, h => by
    obtain ⟨s, hs, e, he⟩ := h
    simp only [stringsOfList, List.mem_append] at hs
    cases hv : renderVariable ev vars v with
    | error e1 => exact ⟨e1, by simp only [renderList, hv]⟩
    | ok rendered =>
      rcases hs with hs | hs
      · obtain ⟨e1, he1⟩ := renderVariable_error ev vars v ⟨s, hs, e, he⟩
        rw [hv] at he1
        simp at he1
      · obtain ⟨e1, he1⟩ := renderList_error ev vars vs ⟨s, hs, e, he⟩
        exact ⟨e1, by simp only [renderList, hv, he1]⟩
theorem renderMap_error (ev : String → Variables → Except String String) (vars : Variables) :
    ∀ kvs : List (String × Value), (∃ s ∈ stringsOfMap kvs, ∃ e, ev s vars = .error e) →
      ∃ e, renderMap ev vars kvs = .error e
  | [], h => by
    obtain ⟨s, hs, _⟩ := h
    simp [stringsOfMap] at hs
  | (k, v) :: rest, h => by
    obtain ⟨s, hs, e, he⟩ := h
    simp only [stringsOfMap, List.mem_append] at hs
    cases hv : renderVariable ev vars v with
    | error e1 => exact ⟨e1, by simp only [renderMap, hv]⟩
    | ok rendered =>
      rcases hs with hs | hs
      · obtain ⟨e1, he1⟩ := renderVariable_error ev vars v ⟨s, hs, e, he⟩
        rw [hv] at he1
        simp at he1
      · obtain ⟨e1, he1⟩ := renderMap_error ev vars rest ⟨s, hs, e, he⟩
        exact ⟨e1, by simp only [renderMap, hv, he1]⟩
end

/-- C22: when the templater renders every string that `renderVariable`
reaches in `v`, the result is `v` with each of these strings replaced by its
rendering: a string by its rendering, a sequence by the sequence of its
rendered elements (same length, same order), a mapping by the mapping of its
keys to the rendered values, any other value by itself. When the templater
fails on one of these strings, `renderVariable` fails. -/
theorem renderVariable_shape (ev : String → Variables → Except String String)
    (vars : Variables) (v : Value) :
    ((∀ s ∈ v.strings, ∃ r, ev s vars = .ok r) →
      renderVariable ev vars v = .ok (v.mapStrings (rendering ev vars))) ∧
    ((∃ s ∈ v.strings, ∃ e, ev s vars = .error e) → ∃ e, renderVariable ev vars v = .error e) ∧
    (∀ (f : String → String) (s : String), (Value.str s).mapStrings f = .str (f s)) ∧
    (∀ (f : String → String) (xs : List Value),
      (Value.list xs).mapStrings f = .list (xs.map (Value.mapStrings f))) ∧
    (∀ (f : String → String) (kvs : List (String × Value)),
      (Value.map kvs).mapStrings f = .map (kvs.map fun kv => (kv.1, kv.2.mapStrings f))) ∧
    (∀ (f : String → String) (b : Bool) (i : Int) (r : String),
      Value.null.mapStrings f = .null ∧ (Value.bool b).mapStrings f = .bool b ∧
      (Value.int i).mapStrings f = .int i ∧ (Value.float r).mapStrings f = .float r) :=
  ⟨renderVariable_ok ev vars v, renderVariable_error ev vars v, fun _ _ => rfl,
    fun f xs => by simp only [Value.mapStrings, mapStringsList_eq_map],
    fun f kvs => by simp only [Value.mapStrings, mapStringsMap_eq_map],
    fun _ _ _ _ => ⟨rfl, rfl, rfl, rfl⟩⟩

theorem renderVariable_shape_witness :
    (∀ s ∈ nestedParam.strings, ∃ r, simpleEvaluate s [("dir", .str "/srv")] = .ok r) ∧
    renderVariable simpleEvaluate [("dir", .str "/srv")] nestedParam =
      .ok (.map [("path", .str "/srv"), ("items", .list [.str "/srv", .int 3]),
        ("force", .bool true)]) ∧
    (∃ s ∈ (Value.list [.int 1, .str "\x7b% if %\x7d"]).strings,
      ∃ e, simpleEvaluate s [] = .error e) ∧
    renderVariable simpleEvaluate [("dir", .str "/srv")] nestedParam =
      .ok (nestedParam.mapStrings (rendering simpleEvaluate [("dir", .str "/srv")])) ∧
    (∃ e, renderVariable simpleEvaluate [] (.list [.int 1, .str "\x7b% if %\x7d"]) = .error e) :=
  ⟨by
      intro s hs
      have e : nestedParam.strings = ["\x7b\x7b dir \x7d\x7d", "\x7b\x7b dir \x7d\x7d"] := rfl
      rw [e] at hs
      simp only [List.mem_cons, List.mem_singleton, List.not_mem_nil, or_false, or_self] at hs
      subst hs
      exact ⟨"/srv", rfl⟩,
    rfl,
    ⟨"\x7b% if %\x7d", by simp [Value.strings, stringsOfList], "unsupported template", rfl⟩,
    (renderVariable_shape simpleEvaluate [("dir", .str "/srv")] nestedParam).1 (by
      intro s hs
      have e : nestedParam.strings = ["\x7b\x7b dir \x7d\x7d", "\x7b\x7b dir \x7d\x7d"] := rfl
      rw [e] at hs
      simp only [List.mem_cons, List.mem_singleton, List.not_mem_nil, or_false, or_self] at hs
      subst hs
      exact ⟨"/srv", rfl⟩),
    (renderVariable_shape simpleEvaluate [] (.list [.int 1, .str "\x7b% if %\x7d"])).2.1
      ⟨"\x7b% if %\x7d", by simp [Value.strings, stringsOfList], "unsupported template", rfl⟩⟩

/-! ### `Task.Module`: found or not, and the cached variables -/

/-- C23: `Task.Module` reports not found when the raw map has no key `name`,
when the value of the key is not a mapping, and when the templater fails on a
string of one of the parameters. Otherwise it returns a module with the keys
of the raw parameters, each with its rendered value. The variables are those
of `moduleVars`. -/
theorem module_found (fuel : Nat) (w : World) (t : Task) (name : String) :
    (mapGet t.data.raw name = none → t.Module fuel w name = .ok (none, t, w)) ∧
    (∀ v, mapGet t.data.raw name = some v → (∀ params, v ≠ .map params) →
      t.Module fuel w name = .ok (none, t, w)) ∧
    (∀ params vars t1 w1, mapGet t.data.raw name = some (.map params) →
      t.moduleVars fuel w = .ok (vars, t1, w1) →
      ((∃ s ∈ stringsOfMap params, ∃ e, w.evaluate s vars = .error e) →
        t.Module fuel w name = .ok (none, t1, w1)) ∧
      ((∀ s ∈ stringsOfMap params, ∃ r, w.evaluate s vars = .ok r) →
        t.Module fuel w name =
          .ok (some (params.map fun kv => (kv.1, kv.2.mapStrings (rendering w.evaluate vars))),
            t1, w1))) := by
  refine ⟨?_, ?_, ?_⟩
  · intro h
    simp only [Task.Module, h]
  · intro v h hv
    cases v with
    | map params => exact absurd rfl (hv params)
    | _ => simp only [Task.Module, h]
  · intro params vars t1 w1 h hvars
    constructor
    · intro herr
      obtain ⟨e, he⟩ := renderMap_error w.evaluate vars params herr
      simp only [Task.Module, h, hvars, he]
    · intro hok
      simp only [Task.Module, h, hvars, renderMap_ok w.evaluate vars params hok,
        mapStringsMap_eq_map]

theorem module_found_witness :
    mapGet bucketTask.data.raw "amazon.aws.s3_bucket" =
      some (.map [("name", .str "mys3bucket"), ("state", .str "present"),
        ("endpoint_url", .str "http://localhost:4566")]) ∧
    bucketTask.moduleVars 0 (newWorld []) = .ok ([],
      .mk { bucketTask.data with cachedVars := some [] } bucketTask.block, newWorld []) ∧
    mapGet bucketTask.data.raw "s3_bucket" = none ∧
    bucketTask.Module 0 (newWorld []) "s3_bucket" = .ok (none, bucketTask, newWorld []) ∧
    bucketTask.Module 0 (newWorld []) "amazon.aws.s3_bucket" =
      .ok (some ([("name", Value.str "mys3bucket"), ("state", Value.str "present"),
          ("endpoint_url", Value.str "http://localhost:4566")].map fun kv =>
            (kv.1, kv.2.mapStrings (rendering (newWorld []).evaluate []))),
        .mk { bucketTask.data with cachedVars := some [] } bucketTask.block, newWorld []) :=
  ⟨rfl, rfl, rfl, (module_found 0 (newWorld []) bucketTask "s3_bucket").1 rfl,
    ((module_found 0 (newWorld []) bucketTask "amazon.aws.s3_bucket").2.2 _ [] _ _ rfl rfl).2 (by
      intro s hs
      have e : stringsOfMap [("name", Value.str "mys3bucket"), ("state", Value.str "present"),
          ("endpoint_url", Value.str "http://localhost:4566")] =
          ["mys3bucket", "present", "http://localhost:4566"] := rfl
      rw [e] at hs
      simp only [List.mem_cons, List.mem_singleton, List.not_mem_nil, or_false] at hs
      rcases hs with rfl | rfl | rfl
      · exact ⟨"mys3bucket", rfl⟩
      · exact ⟨"present", rfl⟩
      · exact ⟨"http://localhost:4566", rfl⟩)⟩

/-- C24: the first `Module` call on a key whose value is a mapping, on a task
without cached variables, resolves `GetVars(t.Play(), t)` and leaves the task
with these variables cached. On a task with cached variables `Module` resolves
nothing: for every key, every world and every fuel (also none) it leaves task
and world as they are and renders the parameters against the cached variables. -/
theorem module_vars_once (fuel : Nat) (w : World) (t : Task) (name : String)
    (params : List (String × Value)) (vars : Variables) (w1 : World)
    (hcache : t.data.cachedVars = none)
    (hraw : mapGet t.data.raw name = some (.map params))
    (hvars : t.resolveVars fuel w = .ok (vars, w1)) :
    (∃ m, t.Module fuel w name =
      .ok (m, .mk { t.data with cachedVars := some vars } t.block, w1)) ∧
    (∀ (fuel2 : Nat) (w2 : World) (name2 : String),
      ∃ m, Task.Module fuel2 w2 (.mk { t.data with cachedVars := some vars } t.block) name2 =
          .ok (m, .mk { t.data with cachedVars := some vars } t.block, w2) ∧
        Task.Module fuel2 w2 (.mk { t.data with cachedVars := some vars } t.block) name2 =
          Task.Module 0 w2 (.mk { t.data with cachedVars := some vars } t.block) name2 ∧
        ∀ params2, mapGet t.data.raw name2 = some (.map params2) →
          m = (match renderMap w2.evaluate vars params2 with
               | .ok module => some module
               | .error _ => none)) := by
  cases t with
  | mk d block =>
  simp only [Task.data, Task.block] at hcache hraw ⊢
  constructor
  · simp only [Task.Module, Task.data, Task.block, hraw, Task.moduleVars, hcache, hvars]
    cases renderMap w.evaluate vars params with
    | ok module => exact ⟨some module, rfl⟩
    | error e => exact ⟨none, rfl⟩
  · intro fuel2 w2 name2
    cases hr : mapGet d.raw name2 with
    | none =>
      refine ⟨none, ?_, ?_, fun p hp => by simp at hp⟩
      · simp only [Task.Module, Task.data, hr]
      · simp only [Task.Module, Task.data, hr]
    | some v =>
      cases v with
      | map params2 =>
        cases hm : renderMap w2.evaluate vars params2 with
        | ok module =>
          refine ⟨some module, ?_, ?_, fun p hp => ?_⟩
          · simp only [Task.Module, Task.data, hr, Task.moduleVars, hm, Task.block]
          · simp only [Task.Module, Task.data, hr, Task.moduleVars, hm, Task.block]
          · simp only [Option.some.injEq, Value.map.injEq] at hp
            subst hp
            rw [hm]
        | error e =>
          refine ⟨none, ?_, ?_, fun p hp => ?_⟩
          · simp only [Task.Module, Task.data, hr, Task.moduleVars, hm, Task.block]
          · simp only [Task.Module, Task.data, hr, Task.moduleVars, hm, Task.block]
          · simp only [Option.some.injEq, Value.map.injEq] at hp
            subst hp
            rw [hm]
      | _ =>
        refine ⟨none, ?_, ?_, fun p hp => by simp at hp⟩
        · simp only [Task.Module, Task.data, hr]
        · simp only [Task.Module, Task.data, hr]

theorem module_vars_once_witness :
    bucketTask.data.cachedVars = none ∧
    mapGet bucketTask.data.raw "amazon.aws.s3_bucket" =
      some (.map [("name", .str "mys3bucket"), ("state", .str "present"),
        ("endpoint_url", .str "http://localhost:4566")]) ∧
    bucketTask.resolveVars 0 (newWorld []) = .ok ([], newWorld []) ∧
    ((∃ m, bucketTask.Module 0 (newWorld []) "amazon.aws.s3_bucket" =
      .ok (m, .mk { bucketTask.data with cachedVars := some [] } bucketTask.block, newWorld [])) ∧
    (∀ (fuel2 : Nat) (w2 : World) (name2 : String),
      ∃ m, Task.Module fuel2 w2
            (.mk { bucketTask.data with cachedVars := some [] } bucketTask.block) name2 =
          .ok (m, .mk { bucketTask.data with cachedVars := some [] } bucketTask.block, w2) ∧
        Task.Module fuel2 w2
            (.mk { bucketTask.data with cachedVars := some [] } bucketTask.block) name2 =
          Task.Module 0 w2
            (.mk { bucketTask.data with cachedVars := some [] } bucketTask.block) name2 ∧
        ∀ params2, mapGet bucketTask.data.raw name2 = some (.map params2) →
          m = (match renderMap w2.evaluate [] params2 with
               | .ok module => some module
               | .error _ => none))) :=
  ⟨rfl, rfl, rfl,
    module_vars_once 0 (newWorld []) bucketTask "amazon.aws.s3_bucket" _ [] (newWorld [])
      rfl rfl rfl⟩

/-! ### The directory of a role and the cache of role paths -/

theorem isPathExists_empty (w : World) : isPathExists w "" = false := by
  simp [isPathExists, filepathIsAbs, FS.stat, validPath, splitSlash]

theorem resolveRolePath_eq (w : World) (name : String) :
    resolveRolePath w name = roleDirectoryOnDisk w name := by
  unfold resolveRolePath roleDirectoryOnDisk
  by_cases h1 : isPathExists w (filepathJoin [w.loader.root, "roles", name]) = true
  · simp [List.find?, h1]
  · cases hd : w.defaultRolesPath with
    | none => simp [List.find?, h1]
    | some dflt =>
      by_cases h2 : isPathExists w dflt = true
      · simp [List.find?, h1, h2]
      · simp [List.find?, h1, h2]

theorem resolveRolePath_ne_empty (w : World) (name p : String)
    (h : resolveRolePath w name = some p) : p ≠ "" := by
  intro hp
  subst hp
  have h1 := List.find?_some h
  rw [isPathExists_empty] at h1
  exact Bool.noConfusion h1

theorem roleDirectorySpec_cases (w : World) (name : String) (p : String)
    (h : roleDirectorySpec w name = some p) :
    mapGet w.loader.roleCache name = some p ∨
      (mapGet w.loader.roleCache name = none ∧ resolveRolePath w name = some p) := by
  unfold roleDirectorySpec at h
  cases hc : mapGet w.loader.roleCache name with
  | some val =>
    simp only [hc, Option.some.injEq] at h
    exact .inl (by rw [h])
  | none =>
    simp only [hc] at h
    exact .inr ⟨rfl, by rw [resolveRolePath_eq]; exact h⟩

theorem roleDirectorySpec_ne_empty (w : World) (name p : String)
    (hcache : ∀ n q, mapGet w.loader.roleCache n = some q → q ≠ "")
    (h : roleDirectorySpec w name = some p) : p ≠ "" := by
  rcases roleDirectorySpec_cases w name p h with hc | ⟨_, hr⟩
  · exact hcache name p hc
  · exact resolveRolePath_ne_empty w name p hr

theorem roleDirectorySpec_none (w : World) (name : String)
    (h : roleDirectorySpec w name = none) :
    mapGet w.loader.roleCache name = none ∧ resolveRolePath w name = none := by
  unfold roleDirectorySpec at h
  cases hc : mapGet w.loader.roleCache name with
  | some val => simp [hc] at h
  | none =>
    simp only [hc] at h
    exact ⟨rfl, by rw [resolveRolePath_eq]; exact h⟩

theorem append_ne_of_head (a b c d : String) (x y : Char) (ha : a.data.head? = some x)
    (hc : c.data.head? = some y) (hxy : x ≠ y) : a ++ b ≠ c ++ d := by
  intro h
  have h1 := congrArg (fun s : String => s.data.head?) h
  simp only [String.data_append] at h1
  cases hda : a.data with
  | nil => simp [hda] at ha
  | cons a1 as =>
    cases hdc : c.data with
    | nil => simp [hdc] at hc
    | cons c1 cs =>
      simp only [hda, hdc, List.cons_append, List.head?_cons, Option.some.injEq] at h1 ha hc
      exact hxy (ha ▸ hc ▸ h1)

theorem walkFn_error_msg (opt : LoadRoleOptions) (ptr : Nat) (path : String) (r : Role)
    (w w1 : World) (e : String) (h : walkFn opt ptr path r w = .ok (.error e, w1)) :
    ∃ e1, e = "failed to load tasks: " ++ e1 := by
  unfold walkFn at h
  simp only at h
  split at h
  · simp at h
  · split at h
    · simp at h
    · split at h
      · split at h
        · simp at h
        · split at h
          · simp at h
          · rename_i e1 w2 _
            simp only [Except.ok.injEq, Prod.mk.injEq, Except.error.injEq] at h
            exact ⟨e1, h.1.symm⟩
          · simp at h
      · split at h
        · split at h
          · simp at h
          · split at h <;> simp at h
        · split at h
          · split at h
            · simp at h
            · split at h <;> simp at h
          · split at h
            · split at h
              · simp at h
              · split at h <;> simp at h
            · simp at h

theorem walkRole_error_msg (opt : LoadRoleOptions) (ptr : Nat) :
    ∀ (files : List String) (r : Role) (w w1 : World) (e : String),
      walkRole opt ptr files r w = .ok (.error e, w1) →
      ∃ e1, e = "failed to load tasks: " ++ e1 := by
  intro files
  induction files with
  | nil => intro r w w1 e h; simp [walkRole] at h
  | cons f files ih =>
    intro r w w1 e h
    simp only [walkRole] at h
    split at h
    · simp at h
    · rename_i e1 w2 hf
      simp only [Except.ok.injEq, Prod.mk.injEq, Except.error.injEq] at h
      rw [← h.1]
      exact walkFn_error_msg _ _ _ _ _ _ _ hf
    · exact ih _ _ _ _ h

theorem walkFiles_error_msg (fsys : FS) (root e : String)
    (h : fsys.walkFiles root = .error e) : e = "stat: " ++ "file does not exist" := by
  unfold FS.walkFiles at h
  split at h
  · split at h <;> simp at h
  · simp only [Except.error.injEq] at h
    rw [← h]
    decide

theorem loadRole_none (w : World) (src : Option MetaRef) (play : Option Nat)
    (name : String) (opt : LoadRoleOptions) (h : roleDirectorySpec w name = none) :
    LoadRoleWithOptions w src play name opt = .ok (.error ("role not found: " ++ name), w) := by
  obtain ⟨hc, hr⟩ := roleDirectorySpec_none w name h
  unfold LoadRoleWithOptions
  simp only [hc, hr, if_true]

/-- With a directory: a Go error leaves the world as it was and comes from the
walk; a success puts the directory in the cache. -/
theorem loadRole_some (w : World) (src : Option MetaRef) (play : Option Nat)
    (name : String) (opt : LoadRoleOptions) (p : String)
    (hs : roleDirectorySpec w name = some p) (hp : p ≠ "") :
    (∀ e w1, LoadRoleWithOptions w src play name opt = .ok (.error e, w1) →
      w1 = w ∧ (e = "stat: " ++ "file does not exist" ∨ ∃ e1, e = "failed to load tasks: " ++ e1)) ∧
    (∀ ptr w1, LoadRoleWithOptions w src play name opt = .ok (.ok ptr, w1) →
      w1.loader.roleCache = mapSet w.loader.roleCache name p) := by
  have key : ∀ x, LoadRoleWithOptions w src play name opt = .ok x →
      (∀ e w1, x = (.error e, w1) →
        w1 = w ∧ (e = "stat: " ++ "file does not exist" ∨
          ∃ e1, e = "failed to load tasks: " ++ e1)) ∧
      (∀ ptr w1, x = (.ok ptr, w1) → w1.loader.roleCache = mapSet w.loader.roleCache name p) := by
    intro x h
    unfold LoadRoleWithOptions at h
    rcases roleDirectorySpec_cases w name p hs with hc | ⟨hc, hr⟩
    all_goals
      first
      | simp only [hc, hr, hp, if_false] at h
      | simp only [hc, hp, if_false] at h
    all_goals
      split at h
      · rename_i e0 he
        simp only [Except.ok.injEq] at h
        subst h
        refine ⟨fun e w1 hx => ?_, fun ptr w1 hx => by simp at hx⟩
        simp only [Prod.mk.injEq, Except.error.injEq] at hx
        exact ⟨hx.2.symm, .inl (hx.1 ▸ walkFiles_error_msg _ _ _ he)⟩
      · split at h
        · simp at h
        · rename_i e0 w2 hw
          simp only [Except.ok.injEq] at h
          subst h
          refine ⟨fun e w1 hx => ?_, fun ptr w1 hx => by simp at hx⟩
          simp only [Prod.mk.injEq, Except.error.injEq] at hx
          exact ⟨hx.2.symm, .inr (hx.1 ▸ walkRole_error_msg _ _ _ _ _ _ _ hw)⟩
        · rename_i r1 w2 hw
          simp only [Except.ok.injEq] at h
          subst h
          refine ⟨fun e w1 hx => by simp at hx, fun ptr w1 hx => ?_⟩
          simp only [Prod.mk.injEq] at hx
          obtain ⟨⟨_, _, hl⟩, _⟩ := walkRole_frame _ _ _ _ _ _ _ hw
          rw [← hx.2, hl]
  exact ⟨fun e w1 h => (key _ h).1 e w1 rfl, fun ptr w1 h => (key _ h).2 ptr w1 rfl⟩

/-- C27: with a cache that holds no empty path, `LoadRoleWithOptions` works on
the directory `roleDirectorySpec`: the cached path, else `<root>/roles/<name>`
when it exists, else the default path when it exists. It fails with the
role-not-found error exactly when there is none. A failure leaves the world,
and so the cache, as it was. A success puts the directory in the cache under
the role name and changes no other entry, and the cache still holds no empty
path. -/
theorem loadRole_directory (w : World) (src : Option MetaRef) (play : Option Nat)
    (name : String) (opt : LoadRoleOptions)
    (hcache : ∀ n q, mapGet w.loader.roleCache n = some q → q ≠ "") :
    (roleDirectorySpec w name = none ↔
      LoadRoleWithOptions w src play name opt = .ok (.error ("role not found: " ++ name), w)) ∧
    (∀ e w1, LoadRoleWithOptions w src play name opt = .ok (.error e, w1) → w1 = w) ∧
    (∀ ptr w1, LoadRoleWithOptions w src play name opt = .ok (.ok ptr, w1) →
      ∃ p, roleDirectorySpec w name = some p ∧
        w1.loader.roleCache = mapSet w.loader.roleCache name p ∧
        mapGet w1.loader.roleCache name = some p ∧
        (∀ n, n ≠ name → mapGet w1.loader.roleCache n = mapGet w.loader.roleCache n) ∧
        (∀ n q, mapGet w1.loader.roleCache n = some q → q ≠ "")) := by
  refine ⟨⟨loadRole_none w src play name opt, ?_⟩, ?_, ?_⟩
  · intro h
    cases hs : roleDirectorySpec w name with
    | none => rfl
    | some p =>
      exfalso
      have hp := roleDirectorySpec_ne_empty w name p hcache hs
      rcases ((loadRole_some w src play name opt p hs hp).1 _ _ h).2 with he | ⟨e1, he⟩
      · exact append_ne_of_head "role not found: " _ "stat: " _ 'r' 's' rfl rfl (by decide) he
      · exact append_ne_of_head "role not found: " _ "failed to load tasks: " _ 'r' 'f' rfl rfl
          (by decide) he
  · intro e w1 h
    cases hs : roleDirectorySpec w name with
    | none =>
      rw [loadRole_none w src play name opt hs] at h
      simp only [Except.ok.injEq, Prod.mk.injEq] at h
      exact h.2.symm
    | some p =>
      exact ((loadRole_some w src play name opt p hs
        (roleDirectorySpec_ne_empty w name p hcache hs)).1 e w1 h).1
  · intro ptr w1 h
    cases hs : roleDirectorySpec w name with
    | none =>
      rw [loadRole_none w src play name opt hs] at h
      simp at h
    | some p =>
      have hp := roleDirectorySpec_ne_empty w name p hcache hs
      have hc := (loadRole_some w src play name opt p hs hp).2 ptr w1 h
      refine ⟨p, rfl, hc, ?_, ?_, ?_⟩
      · rw [hc, mapGet_mapSet_self]
      · intro n hn
        rw [hc, mapGet_mapSet_of_ne _ _ _ _ hn]
      · intro n q hq
        rw [hc] at hq
        by_cases hn : n = name
        · subst hn
          rw [mapGet_mapSet_self] at hq
          simp only [Option.some.injEq] at hq
          exact hq ▸ hp
        · rw [mapGet_mapSet_of_ne _ _ _ _ hn] at hq
          exact hcache n q hq

theorem loadRole_directory_witness :
    (∀ n q, mapGet includeRoleWorld.loader.roleCache n = some q → q ≠ "") ∧
    roleDirectorySpec includeRoleWorld "test" = some "roles/test" ∧
    roleDirectorySpec includeRoleWorld "absent" = none ∧
    includeRoleLoaded.loader.roleCache = [("test", "roles/test")] ∧
    LoadRoleWithOptions includeRoleWorld none none "test"
      { TasksFile := "", DefaultsFile := "", VarsFile := "" } = .ok (.ok 0, includeRoleLoaded) ∧
    ((roleDirectorySpec includeRoleWorld "test" = none ↔
      LoadRoleWithOptions includeRoleWorld none none "test"
          { TasksFile := "", DefaultsFile := "", VarsFile := "" } =
        .ok (.error ("role not found: " ++ "test"), includeRoleWorld)) ∧
    (∀ e w1, LoadRoleWithOptions includeRoleWorld none none "test"
        { TasksFile := "", DefaultsFile := "", VarsFile := "" } = .ok (.error e, w1) →
      w1 = includeRoleWorld) ∧
    (∀ ptr w1, LoadRoleWithOptions includeRoleWorld none none "test"
        { TasksFile := "", DefaultsFile := "", VarsFile := "" } = .ok (.ok ptr, w1) →
      ∃ p, roleDirectorySpec includeRoleWorld "test" = some p ∧
        w1.loader.roleCache = mapSet includeRoleWorld.loader.roleCache "test" p ∧
        mapGet w1.loader.roleCache "test" = some p ∧
        (∀ n, n ≠ "test" →
          mapGet w1.loader.roleCache n = mapGet includeRoleWorld.loader.roleCache n) ∧
        (∀ n q, mapGet w1.loader.roleCache n = some q → q ≠ ""))) :=
  ⟨fun n q h => by simp [includeRoleWorld, newWorld, NewDataloader, mapGet] at h, rfl, rfl, rfl,
    rfl,
    loadRole_directory includeRoleWorld none none "test"
      { TasksFile := "", DefaultsFile := "", VarsFile := "" }
      (fun n q h => by simp [includeRoleWorld, newWorld, NewDataloader, mapGet] at h)⟩

/-! ### What `LoadPlaybook` builds -/

theorem loadPlayRoles_ok (ptr : Nat) :
    ∀ (defs : List RoleDefinition) (acc : List Nat) (w : World) (roles : List Nat) (w1 : World),
      loadPlayRoles ptr defs acc w = .ok (.ok roles, w1) →
      w1.plays = w.plays ∧
      ∃ new : List Role, w1.roles = w.roles ++ new ∧
        roles = acc ++ List.range' w.roles.length defs.length ∧
        List.Forall₂ (fun (d : RoleDefinition) (r : Role) =>
          r.name = d.GetName ∧ r.play = some ptr ∧ r.directDeps = [] ∧ r.allDeps = []) defs new := by
  intro defs
  induction defs with
  | nil =>
    intro acc w roles w1 h
    simp only [loadPlayRoles, Except.ok.injEq, Prod.mk.injEq] at h
    obtain ⟨h1, h2⟩ := h
    subst h1 h2
    exact ⟨rfl, [], by simp, by simp, List.Forall₂.nil⟩
  | cons d defs ih =>
    intro acc w roles w1 h
    simp only [loadPlayRoles] at h
    split at h
    · simp at h
    · simp at h
    · rename_i role w2 hload
      obtain ⟨hptr, hplays, r1, hroles, hname, hdd, had, hplay, _⟩ :=
        LoadRoleWithOptions_ok _ _ _ _ _ _ _ hload
      obtain ⟨i1, new, i2, i3, i4⟩ := ih _ _ _ _ h
      refine ⟨i1.trans hplays, r1 :: new, ?_, ?_, ?_⟩
      · rw [i2, hroles, List.append_assoc, List.singleton_append]
      · rw [i3, hroles, hptr]
        simp [List.range'_succ]
      · exact List.Forall₂.cons ⟨hname, hplay, hdd, had⟩ i4

theorem loadPlayRoles_error (ptr : Nat) :
    ∀ (defs : List RoleDefinition) (acc : List Nat) (w : World) (e : String) (w1 : World),
      loadPlayRoles ptr defs acc w = .ok (.error e, w1) →
      ∃ d ∈ defs, ∃ (w2 w3 : World) (e1 : String),
        LoadRole w2 (some (.play ptr)) (some ptr) d.GetName = .ok (.error e1, w3) ∧
          e = "failed to load role: " ++ e1 := by
  intro defs
  induction defs with
  | nil => intro acc w e w1 h; simp [loadPlayRoles] at h
  | cons d defs ih =>
    intro acc w e w1 h
    simp only [loadPlayRoles] at h
    split at h
    · simp at h
    · rename_i e1 w2 hload
      simp only [Except.ok.injEq, Prod.mk.injEq, Except.error.injEq] at h
      exact ⟨d, List.mem_cons_self _ _, w, w2, e1, hload, h.1.symm⟩
    · obtain ⟨d1, hd1, rest⟩ := ih _ _ _ _ h
      exact ⟨d1, List.mem_cons_of_mem _ hd1, rest⟩

theorem modify_length_append {α : Type} (f : α → α) :
    ∀ (l : List α) (a : α), List.modify f l.length (l ++ [a]) = l ++ [f a]
  | [], a => rfl
  | x :: l, a => by
    simp only [List.length_cons, List.cons_append, List.modify_succ_cons,
      modify_length_append f l a]

/-- The roles at consecutive new addresses are the roles the list `new` holds. -/
theorem forall₂_range (ptr : Nat) (heap : List Role) :
    ∀ (defs : List RoleDefinition) (new : List Role) (b : Nat),
      List.Forall₂ (fun (d : RoleDefinition) (r : Role) =>
        r.name = d.GetName ∧ r.play = some ptr ∧ r.directDeps = [] ∧ r.allDeps = []) defs new →
      (∀ j role, new[j]? = some role → heap[b + j]? = some role) →
      List.Forall₂ (fun (d : RoleDefinition) (r : Nat) =>
        ∃ role, heap[r]? = some role ∧ role.name = d.GetName ∧ role.play = some ptr)
        defs (List.range' b defs.length) := by
  intro defs
  induction defs with
  | nil => intro new b _ _; exact List.Forall₂.nil
  | cons d defs ih =>
    intro new b h hheap
    cases h with
    | cons h1 h2 =>
      rename_i r1 rest
      simp only [List.length_cons, List.range'_succ]
      refine List.Forall₂.cons ⟨r1, ?_, h1.1, h1.2.1⟩ ?_
      · simpa using hheap 0 r1 (by simp)
      · apply ih rest (b + 1) h2
        intro j role hj
        have := hheap (j + 1) role (by simpa using hj)
        rw [← this]
        congr 1
        omega

/-- The property of a loaded play: it is the decoded play with its metadata
stamped, and its roles are, in declaration order, roles loaded for it under
the declared names. -/
theorem loadPlays_ok (src : Option MetaRef) (path : String) :
    ∀ (docs : List (Option PlayDoc)) (acc : List Nat) (w : World) (plays : List Nat)
      (w1 : World), loadPlays src path docs acc w = .ok (.ok plays, w1) →
      (∃ newRoles, w1.roles = w.roles ++ newRoles) ∧
      (∃ newPlays, w1.plays = w.plays ++ newPlays) ∧
      w1.plays.length = w.plays.length + docs.length ∧
      plays = acc ++ List.range' w.plays.length docs.length ∧
      ∀ i, i < docs.length → ∃ d play0 play, docs[i]? = some (some d) ∧
        d.UpdateMetadata (w.plays.length + i) src path = some play0 ∧
        w1.plays[w.plays.length + i]? = some play ∧
        play = { play0 with roles := play.roles } ∧
        List.Forall₂ (fun (d : RoleDefinition) (r : Nat) =>
          ∃ role, w1.roles[r]? = some role ∧ role.name = d.GetName ∧
            role.play = some (w.plays.length + i)) play0.roleDefinitions play.roles := by
  intro docs
  induction docs with
  | nil =>
    intro acc w plays w1 h
    simp only [loadPlays, Except.ok.injEq, Prod.mk.injEq] at h
    obtain ⟨h1, h2⟩ := h
    subst h1 h2
    exact ⟨⟨[], by simp⟩, ⟨[], by simp⟩, rfl, by simp, fun i hi => by simp at hi⟩
  | cons doc docs ih =>
    intro acc w plays w1 h
    cases doc with
    | none => simp [loadPlays] at h
    | some d =>
      simp only [loadPlays] at h
      split at h
      · simp at h
      · rename_i play0 hup
        split at h
        · simp at h
        · simp at h
        · rename_i roles w2 hroles
          obtain ⟨r1, new, r2, r3, r4⟩ := loadPlayRoles_ok _ _ _ _ _ _ hroles
          simp only [Play.GetRoleDefinitions, List.nil_append] at r3 r4
          obtain ⟨⟨newRoles, i1⟩, ⟨newPlays, i2⟩, i3, i4, i5⟩ := ih _ _ _ _ h
          simp only [World.modifyPlay, List.length_modify] at i1 i2 i3 i4 i5
          have hcell : (List.modify (fun p => { p with roles := roles }) w.plays.length w2.plays) =
              w.plays ++ [{ play0 with roles := roles }] := by
            rw [r1]
            exact modify_length_append _ _ _
          rw [hcell] at i2
          have hlen2 : w2.plays.length = w.plays.length + 1 := by rw [r1]; simp
          rw [hlen2] at i3 i4 i5
          refine ⟨⟨new ++ newRoles, by rw [i1, r2, List.append_assoc]⟩,
            ⟨{ play0 with roles := roles } :: newPlays, by
              rw [i2, List.append_assoc, List.singleton_append]⟩, ?_, ?_, ?_⟩
          · rw [i3, List.length_cons]; omega
          · rw [i4]
            simp only [List.length_cons, List.range'_succ, List.append_assoc,
              List.singleton_append]
          · intro i hi
            cases i with
            | zero =>
              refine ⟨d, play0, { play0 with roles := roles }, by simp, hup, ?_, rfl, ?_⟩
              · rw [i2, List.append_assoc, Nat.add_zero,
                  List.getElem?_append_right (Nat.le_refl _), Nat.sub_self]
                simp
              · rw [r3]
                apply forall₂_range w.plays.length w1.roles play0.roleDefinitions new
                  w.roles.length r4
                intro j role hj
                rw [i1, r2, List.append_assoc,
                  List.getElem?_append_right (Nat.le_add_right _ _)]
                have hjl : j < new.length := by
                  rcases Nat.lt_or_ge j new.length with h | h
                  · exact h
                  · rw [List.getElem?_eq_none h] at hj
                    simp at hj
                simp only [Nat.add_sub_cancel_left]
                rw [List.getElem?_append_left hjl]
                exact hj
            | succ j =>
              obtain ⟨d1, p0, p1, e1, e2, e3, e4, e5⟩ := i5 j (by simpa using hi)
              have hidx : w.plays.length + 1 + j = w.plays.length + (j + 1) := by omega
              rw [hidx] at e2 e3 e5
              exact ⟨d1, p0, p1, by simpa using e1, e2, e3, e4, e5⟩

theorem loadPlays_error (src : Option MetaRef) (path : String) :
    ∀ (docs : List (Option PlayDoc)) (acc : List Nat) (w : World) (e : String) (w1 : World),
      loadPlays src path docs acc w = .ok (.error e, w1) →
      ∃ d ptr play0, some d ∈ docs ∧ d.UpdateMetadata ptr src path = some play0 ∧
        ∃ roleDef ∈ play0.roleDefinitions, ∃ (w2 w3 : World) (e1 : String),
          LoadRole w2 (some (.play ptr)) (some ptr) roleDef.GetName = .ok (.error e1, w3) ∧
            e = "failed to load role: " ++ e1 := by
  intro docs
  induction docs with
  | nil => intro acc w e w1 h; simp [loadPlays] at h
  | cons doc docs ih =>
    intro acc w e w1 h
    cases doc with
    | none => simp [loadPlays] at h
    | some d =>
      simp only [loadPlays] at h
      split at h
      · simp at h
      · rename_i play0 hup
        split at h
        · simp at h
        · rename_i e0 w2 hroles
          simp only [Except.ok.injEq, Prod.mk.injEq, Except.error.injEq] at h
          obtain ⟨roleDef, hmem, w3, w4, e1, hl, he⟩ := loadPlayRoles_error _ _ _ _ _ _ hroles
          exact ⟨d, w.plays.length, play0, List.mem_cons_self _ _, hup, roleDef, hmem, w3, w4, e1,
            hl, by rw [← h.1]; exact he⟩
        · obtain ⟨d1, ptr, p0, hmem, rest⟩ := ih _ _ _ _ h
          exact ⟨d1, ptr, p0, List.mem_cons_of_mem _ hmem, rest⟩

theorem decodeTask_unowned (node : Node) (addr next : Nat) (t : Task)
    (h : decodeTask node addr = .ok (.ok t, next)) :
    t.data.role = none ∧ t.data.play = none := by
  cases node with
  | scalar l k tx =>
    rw [decodeTask_scalar_ok l k tx addr next t h]
    exact ⟨rfl, rfl⟩
  | seq l items => exact absurd h (decodeTask_seq_ok l items addr next t)
  | map l entries =>
    obtain ⟨raw, name, vars, children, _, rfl⟩ := decodeTask_map_ok l entries addr next t h
    exact ⟨rfl, rfl⟩

theorem decodeTaskItems_unowned :
    ∀ (items : List Node) (addr next : Nat) (ts : List (Option Task)),
      decodeTaskItems items addr = .ok (.ok ts, next) →
      ∀ t, some t ∈ ts → t.data.role = none ∧ t.data.play = none := by
  intro items
  induction items with
  | nil =>
    intro addr next ts h t ht
    rw [(decodeTaskItems_nil_ok addr next ts h).1] at ht
    simp at ht
  | cons n ns ih =>
    intro addr next ts h t ht
    rcases decodeTaskItems_cons_ok n ns addr next ts h with
      ⟨as, hr, rfl⟩ | ⟨t1, mid, as, ht1, hr, rfl⟩
    · simp only [List.mem_cons, reduceCtorEq, false_or] at ht
      exact ih addr next as hr t ht
    · simp only [List.mem_cons, Option.some.injEq] at ht
      rcases ht with rfl | ht
      · exact decodeTask_unowned n addr mid t ht1
      · exact ih mid next as hr t ht

theorem decodeTasksField_unowned (entries : List (String × Node)) (key : String)
    (addr next : Nat) (ts : List (Option Task))
    (h : decodeTasksField entries key addr = .ok (.ok ts, next)) :
    ∀ t, some t ∈ ts → t.data.role = none ∧ t.data.play = none := by
  unfold decodeTasksField at h
  split at h
  · simp only [Except.ok.injEq, Prod.mk.injEq] at h
    intro t ht
    rw [← h.1] at ht
    simp at ht
  · rename_i n _
    unfold decodeTasks at h
    cases n with
    | seq l items => exact decodeTaskItems_unowned items addr next ts h
    | scalar l k tx =>
      cases k <;> simp only [Except.ok.injEq, Prod.mk.injEq, reduceCtorEq, false_and] at h
      intro t ht
      rw [← h.1] at ht
      simp at ht
    | map l es => simp at h

/-- The tasks of a decoded play have no role and no play. -/
theorem decodePlay_unowned (node : Node) (addr next : Nat) (d : PlayDoc)
    (h : decodePlay node addr = .ok (.ok d, next)) :
    ∀ t, some t ∈ d.preTasks ∨ some t ∈ d.tasks ∨ some t ∈ d.postTasks →
      t.data.role = none ∧ t.data.play = none := by
  cases node with
  | scalar l k tx => simp [decodePlay] at h
  | seq l items => simp [decodePlay] at h
  | map l entries =>
    simp only [decodePlay] at h
    split at h
    · simp at h
    · split at h
      · simp at h
      · split at h
        · simp at h
        · rename_i pre a1 hpre
          split at h
          · simp at h
          · rename_i tasks a2 htasks
            split at h
            · simp at h
            · rename_i post a3 hpost
              split at h
              · simp only [Except.ok.injEq, Prod.mk.injEq] at h
                obtain ⟨h1, _⟩ := h
                subst h1
                intro t ht
                rcases ht with ht | ht | ht
                · exact decodeTasksField_unowned _ _ _ _ _ hpre t ht
                · exact decodeTasksField_unowned _ _ _ _ _ htasks t ht
                · exact decodeTasksField_unowned _ _ _ _ _ hpost t ht
              · simp at h

theorem decodePlays_unowned :
    ∀ (items : List Node) (addr next : Nat) (docs : List (Option PlayDoc)),
      decodePlays items addr = .ok (.ok docs, next) →
      ∀ d, some d ∈ docs →
        ∀ t, some t ∈ d.preTasks ∨ some t ∈ d.tasks ∨ some t ∈ d.postTasks →
          t.data.role = none ∧ t.data.play = none := by
  intro items
  induction items with
  | nil =>
    intro addr next docs h d hd
    simp only [decodePlays, Except.ok.injEq, Prod.mk.injEq] at h
    rw [← h.1] at hd
    simp at hd
  | cons n ns ih =>
    intro addr next docs h d hd
    simp only [decodePlays] at h
    split at h
    · split at h
      · simp at h
      · rename_i rest nx hr
        simp only [Except.ok.injEq, Prod.mk.injEq] at h
        obtain ⟨a, as, ha, has, hl⟩ := consDecoded_ok _ _ _ h.1
        simp only [Except.ok.injEq] at ha
        subst ha has hl
        simp only [List.mem_cons, reduceCtorEq, false_or] at hd
        exact ih addr nx as hr d hd
    · split at h
      · simp at h
      · rename_i p mid hp
        split at h
        · simp at h
        · rename_i rest nx hr
          simp only [Except.ok.injEq, Prod.mk.injEq] at h
          obtain ⟨a, as, ha, has, hl⟩ := consDecoded_ok _ _ _ h.1
          subst has hl
          cases p with
          | error e => simp [Except.map] at ha
          | ok d1 =>
            simp only [Except.map, Except.ok.injEq] at ha
            subst ha
            simp only [List.mem_cons, Option.some.injEq] at hd
            rcases hd with rfl | hd
            · exact decodePlay_unowned n addr mid d hp
            · exact ih mid nx as hr d hd

theorem decodePlaybook_unowned (node : Node) (addr next : Nat) (docs : List (Option PlayDoc))
    (h : decodePlaybook node addr = .ok (.ok (some docs), next)) :
    ∀ d, some d ∈ docs →
      ∀ t, some t ∈ d.preTasks ∨ some t ∈ d.tasks ∨ some t ∈ d.postTasks →
        t.data.role = none ∧ t.data.play = none := by
  cases node with
  | seq l items =>
    simp only [decodePlaybook] at h
    split at h
    · simp at h
    · rename_i plays nx hp
      simp only [Except.ok.injEq, Prod.mk.injEq] at h
      cases plays with
      | error e => simp [Except.map] at h
      | ok ds =>
        simp only [Except.map, Except.ok.injEq, Option.some.injEq] at h
        obtain ⟨h1, _⟩ := h
        subst h1
        exact decodePlays_unowned items addr nx ds hp
  | scalar l k tx => cases k <;> simp [decodePlaybook] at h
  | map l es => simp [decodePlaybook] at h

theorem allSome_mem {α : Type} :
    ∀ (l : List (Option α)) (l1 : List α), allSome l = some l1 → ∀ x ∈ l1, some x ∈ l := by
  intro l
  induction l with
  | nil =>
    intro l1 h x hx
    simp only [allSome, Option.some.injEq] at h
    rw [← h] at hx
    simp at hx
  | cons a rest ih =>
    intro l1 h x hx
    cases a with
    | none => simp [allSome] at h
    | some a1 =>
      simp only [allSome, Option.map_eq_some'] at h
      obtain ⟨as, has, rfl⟩ := h
      simp only [List.mem_cons] at hx
      rcases hx with rfl | hx
      · exact List.mem_cons_self _ _
      · exact List.mem_cons_of_mem _ (ih as has x hx)

/-- Stamping the metadata of a play gives its tasks no role and no play. -/
theorem updateMetadata_unowned (d : PlayDoc) (ptr : Nat) (src : Option MetaRef) (path : String)
    (play0 : Play) (h : d.UpdateMetadata ptr src path = some play0)
    (hd : ∀ t, some t ∈ d.preTasks ∨ some t ∈ d.tasks ∨ some t ∈ d.postTasks →
      t.data.role = none ∧ t.data.play = none) :
    ∀ t ∈ play0.listTasks, t.data.role = none ∧ t.data.play = none := by
  unfold PlayDoc.UpdateMetadata at h
  split at h
  · rename_i roleDefs pre tasks post _ h1 h2 h3
    simp only [Option.some.injEq] at h
    subst h
    intro t ht
    simp only [Play.listTasks, List.mem_append, List.mem_map] at ht
    rcases ht with (⟨t0, ht0, rfl⟩ | ⟨t0, ht0, rfl⟩) | ⟨t0, ht0, rfl⟩
    · exact hd t0 (.inl (allSome_mem _ _ h1 t0 ht0))
    · exact hd t0 (.inr (.inl (allSome_mem _ _ h2 t0 ht0)))
    · exact hd t0 (.inr (.inr (allSome_mem _ _ h3 t0 ht0)))
  · simp at h

/-- A playbook that `LoadPlaybook` returns was opened, decoded, and its plays loaded. -/
theorem loadPlaybook_some (w : World) (src : Option MetaRef) (path : String)
    (plays : List Nat) (w1 : World)
    (h : LoadPlaybook w src path = .ok (.ok (some plays), w1)) :
    ∃ node docs next, w.loader.fsys.stat path = true ∧
      w.loader.fsys.readYaml path = .ok node ∧
      decodePlaybook node w.nextAddr = .ok (.ok (some docs), next) ∧
      loadPlays src path docs [] { w with nextAddr := next } = .ok (.ok plays, w1) := by
  cases hs : w.loader.fsys.stat path with
  | false => simp [LoadPlaybook, hs] at h
  | true =>
    simp only [LoadPlaybook, hs, Bool.not_true, Bool.false_eq_true, if_false] at h
    split at h
    · simp at h
    · rename_i node hnode
      split at h
      · simp at h
      · simp at h
      · simp at h
      · rename_i docs next hdec
        split at h
        · simp at h
        · simp at h
        · rename_i plays1 w2 hl
          simp only [Except.ok.injEq, Prod.mk.injEq, Option.some.injEq] at h
          obtain ⟨h1, h2⟩ := h
          subst h1 h2
          exact ⟨node, docs, next, rfl, hnode, hdec, hl⟩

/-- C28: `LoadPlaybook` returns an error when the file cannot be opened, and otherwise
only when the document decodes as a playbook and a role declared in one of its plays
cannot be loaded; a document that does not decode as a playbook (unreadable, of another
shape, or null) gives the nil playbook, no error and an unchanged loader; a success
returns the plays in file order, each holding its roles in declaration order. -/
theorem loadPlaybook_result (w : World) (src : Option MetaRef) (path : String) :
    (w.loader.fsys.stat path = false →
      LoadPlaybook w src path = .ok (.error "open: file does not exist", w)) ∧
    (∀ e w1, LoadPlaybook w src path = .ok (.error e, w1) →
      w.loader.fsys.stat path = false ∨
      ∃ node docs next, w.loader.fsys.readYaml path = .ok node ∧
        decodePlaybook node w.nextAddr = .ok (.ok (some docs), next) ∧
        ∃ d ptr play0, some d ∈ docs ∧ d.UpdateMetadata ptr src path = some play0 ∧
          ∃ roleDef ∈ play0.roleDefinitions, ∃ (w2 w3 : World) (e1 : String),
            LoadRole w2 (some (.play ptr)) (some ptr) roleDef.GetName = .ok (.error e1, w3) ∧
              e = "failed to load role: " ++ e1) ∧
    (w.loader.fsys.stat path = true →
      ((∃ e, w.loader.fsys.readYaml path = .error e) ∨
        ∃ node next, w.loader.fsys.readYaml path = .ok node ∧
          ((∃ e, decodePlaybook node w.nextAddr = .ok (.error e, next)) ∨
            decodePlaybook node w.nextAddr = .ok (.ok none, next))) →
      LoadPlaybook w src path = .ok (.ok none, w)) ∧
    (∀ w1, LoadPlaybook w src path = .ok (.ok none, w1) →
      w1 = w ∧ w.loader.fsys.stat path = true ∧
        ∀ node docs next, w.loader.fsys.readYaml path = .ok node →
          decodePlaybook node w.nextAddr ≠ .ok (.ok (some docs), next)) ∧
    (∀ plays w1, LoadPlaybook w src path = .ok (.ok (some plays), w1) →
      ∃ node docs next, w.loader.fsys.stat path = true ∧
        w.loader.fsys.readYaml path = .ok node ∧
        decodePlaybook node w.nextAddr = .ok (.ok (some docs), next) ∧
        plays = List.range' w.plays.length docs.length ∧
        ∀ i, i < docs.length → ∃ d play0 play, docs[i]? = some (some d) ∧
          d.UpdateMetadata (w.plays.length + i) src path = some play0 ∧
          w1.plays[w.plays.length + i]? = some play ∧
          play = { play0 with roles := play.roles } ∧
          List.Forall₂ (fun (d : RoleDefinition) (r : Nat) =>
            ∃ role, w1.roles[r]? = some role ∧ role.name = d.GetName ∧
              role.play = some (w.plays.length + i)) play0.roleDefinitions play.roles) := by
  refine ⟨?_, ?_, ?_, ?_, ?_⟩
  · intro hs
    simp [LoadPlaybook, hs]
  · intro e w1 h
    cases hs : w.loader.fsys.stat path with
    | false => exact .inl rfl
    | true =>
      right
      simp only [LoadPlaybook, hs, Bool.not_true, Bool.false_eq_true, if_false] at h
      split at h
      · simp at h
      · rename_i node hnode
        split at h
        · simp at h
        · simp at h
        · simp at h
        · rename_i docs next hdec
          split at h
          · simp at h
          · rename_i e2 w2 hl
            simp only [Except.ok.injEq, Prod.mk.injEq, Except.error.injEq] at h
            obtain ⟨h1, h2⟩ := h
            subst h1 h2
            exact ⟨node, docs, next, hnode, hdec, loadPlays_error src path docs [] _ _ _ hl⟩
          · simp at h
  · intro hs hnot
    simp only [LoadPlaybook, hs, Bool.not_true, Bool.false_eq_true, if_false]
    rcases hnot with ⟨e, he⟩ | ⟨node, next, hn, ⟨e, hd⟩ | hd⟩
    · simp only [he]
    · simp only [hn, hd]
    · simp only [hn, hd]
  · intro w1 h
    cases hs : w.loader.fsys.stat path with
    | false => simp [LoadPlaybook, hs] at h
    | true =>
      simp only [LoadPlaybook, hs, Bool.not_true, Bool.false_eq_true, if_false] at h
      split at h
      · simp only [Except.ok.injEq, Prod.mk.injEq, true_and] at h
        rename_i e1 hr
        refine ⟨h.symm, rfl, ?_⟩
        intro node docs next hn
        rw [hr] at hn
        simp at hn
      · rename_i node hnode
        split at h
        · simp at h
        · rename_i e1 n1 hd
          simp only [Except.ok.injEq, Prod.mk.injEq, true_and] at h
          refine ⟨h.symm, rfl, ?_⟩
          intro node1 docs next hn
          rw [hnode] at hn
          simp only [Except.ok.injEq] at hn
          subst hn
          rw [hd]
          simp
        · rename_i n1 hd
          simp only [Except.ok.injEq, Prod.mk.injEq, true_and] at h
          refine ⟨h.symm, rfl, ?_⟩
          intro node1 docs next hn
          rw [hnode] at hn
          simp only [Except.ok.injEq] at hn
          subst hn
          rw [hd]
          simp
        · split at h <;> simp at h
  · intro plays w1 h
    obtain ⟨node, docs, next, hs, hnode, hdec, hl⟩ := loadPlaybook_some w src path plays w1 h
    obtain ⟨_, _, _, i4, i5⟩ := loadPlays_ok src path docs [] _ _ _ hl
    exact ⟨node, docs, next, hs, hnode, hdec, by simpa using i4, i5⟩

/-- C28 on the playbook of `TestResolveTaskVariableFromPlay`: one play at address 0
with its role `test` at address 0, and a missing file gives the open error. -/
theorem loadPlaybook_result_witness :
    (playVarsWorld.loader.fsys.stat "absent.yaml" = false ∧
      LoadPlaybook playVarsWorld none "absent.yaml" =
        .ok (.error "open: file does not exist", playVarsWorld)) ∧
    LoadPlaybook playVarsWorld none "playbook.yaml" = .ok (.ok (some [0]), playVarsLoaded) ∧
    ∃ node docs next, playVarsWorld.loader.fsys.stat "playbook.yaml" = true ∧
      playVarsWorld.loader.fsys.readYaml "playbook.yaml" = .ok node ∧
      decodePlaybook node playVarsWorld.nextAddr = .ok (.ok (some docs), next) ∧
      [0] = List.range' playVarsWorld.plays.length docs.length ∧
      ∀ i, i < docs.length → ∃ d play0 play, docs[i]? = some (some d) ∧
        d.UpdateMetadata (playVarsWorld.plays.length + i) none "playbook.yaml" = some play0 ∧
        playVarsLoaded.plays[playVarsWorld.plays.length + i]? = some play ∧
        play = { play0 with roles := play.roles } ∧
        List.Forall₂ (fun (d : RoleDefinition) (r : Nat) =>
          ∃ role, playVarsLoaded.roles[r]? = some role ∧ role.name = d.GetName ∧
            role.play = some (playVarsWorld.plays.length + i)) play0.roleDefinitions play.roles :=
  ⟨⟨rfl, (loadPlaybook_result playVarsWorld none "absent.yaml").1 rfl⟩, rfl,
    (loadPlaybook_result playVarsWorld none "playbook.yaml").2.2.2.2 [0] playVarsLoaded rfl⟩

/-- C30: a task declared in the `pre_tasks`, `tasks` or `post_tasks` of a play that
`LoadPlaybook` returns has no role and no play link; so `Task.Play` is nil for it, and
its variables are its own vars alone, in every world: a key that the task does not
define is not defined for it, whatever the play, its vars files and its roles hold. -/
theorem play_tasks_unowned (w : World) (src : Option MetaRef) (path : String)
    (plays : List Nat) (w1 : World)
    (h : LoadPlaybook w src path = .ok (.ok (some plays), w1)) :
    ∀ p ∈ plays, ∃ play, w1.play p = .ok play ∧
      ∀ t ∈ play.listTasks, t.data.role = none ∧ t.data.play = none ∧
        (∀ w2, t.Play w2 = .ok none) ∧
        ∀ fuel w2, t.resolveVars fuel w2 = GetVars fuel w2 none (some t) ∧
          t.resolveVars fuel w2 = .ok (loAssign [] t.Vars, w2) ∧
          ∀ k, k ∉ t.Vars.map Prod.fst → mapGet (loAssign [] t.Vars) k = none := by
  obtain ⟨node, docs, next, _, _, hdec, hl⟩ := loadPlaybook_some w src path plays w1 h
  obtain ⟨_, _, _, i4, i5⟩ := loadPlays_ok src path docs [] _ _ _ hl
  simp only [List.nil_append] at i4
  intro p hp
  rw [i4, List.mem_range'_1] at hp
  obtain ⟨hp1, hp2⟩ := hp
  obtain ⟨i, rfl⟩ : ∃ i, p = w.plays.length + i := ⟨p - w.plays.length, by omega⟩
  obtain ⟨d, play0, play, hd, hup, hcell, hplay, _⟩ := i5 i (by omega)
  refine ⟨play, (play_eq_ok _ _ _).mpr hcell, ?_⟩
  have hlist : play.listTasks = play0.listTasks := by
    rw [hplay]
    rfl
  have hown := updateMetadata_unowned d _ src path play0 hup
    (decodePlaybook_unowned node _ next docs hdec d (List.getElem?_mem hd))
  intro t ht
  rw [hlist] at ht
  obtain ⟨h1, h2⟩ := hown t ht
  have hPlay : ∀ w2, t.Play w2 = .ok none := by
    intro w2
    simp only [Task.Play, h1, h2]
  refine ⟨h1, h2, hPlay, ?_⟩
  intro fuel w2
  have hres : t.resolveVars fuel w2 = GetVars fuel w2 none (some t) := by
    simp only [Task.resolveVars, hPlay w2]
  refine ⟨hres, ?_, fun k hk => mapGet_loAssign_of_not_mem k _ _ hk⟩
  rw [hres]
  simp only [GetVars, taskVars, Task.Role, h1]

/-- C30 on a play that declares `somevar` and one task of its own: the task does not
see `somevar`. -/
theorem play_tasks_unowned_witness :
    LoadPlaybook inlineTaskWorld none "playbook.yaml" = .ok (.ok (some [0]), inlineTaskLoaded) ∧
    (∃ play, inlineTaskLoaded.play 0 = .ok play ∧ stringVar play.GetVars "somevar" = some "some_value" ∧
      play.listTasks = [inlineTask]) ∧
    (inlineTask.resolveVars 1 inlineTaskLoaded = .ok ([], inlineTaskLoaded)) ∧
    ∀ p ∈ [0], ∃ play, inlineTaskLoaded.play p = .ok play ∧
      ∀ t ∈ play.listTasks, t.data.role = none ∧ t.data.play = none ∧
        (∀ w2, t.Play w2 = .ok none) ∧
        ∀ fuel w2, t.resolveVars fuel w2 = GetVars fuel w2 none (some t) ∧
          t.resolveVars fuel w2 = .ok (loAssign [] t.Vars, w2) ∧
          ∀ k, k ∉ t.Vars.map Prod.fst → mapGet (loAssign [] t.Vars) k = none :=
  ⟨rfl, ⟨_, rfl, rfl, rfl⟩, rfl,
    play_tasks_unowned inlineTaskWorld none "playbook.yaml" [0] inlineTaskLoaded rfl⟩

/-! ### Precedence of the variables of a task -/

/-- The default variables of a list of roles resolve one after the other, in a heap
without dependency cycle and with up-to-date memos. -/
theorem threadEach_defaults_total (w0 : World) (hf : forwardDeps w0) (fuel : Nat)
    (hfuel : w0.roles.length ≤ fuel) :
    ∀ (rs : List Nat) (w : World), w.core = w0.core → memoFrom w0 0 w →
      (∀ r ∈ rs, r < w0.roles.length) →
      ∃ dvs w1, threadEach (LoadDefaultVars fuel) rs w = .ok (dvs, w1) ∧ w1.core = w0.core ∧
        memoFrom w0 0 w1 := by
  intro rs
  induction rs with
  | nil => intro w hc hm _; exact ⟨[], w, rfl, hc, hm⟩
  | cons r rs ih =>
    intro w hc hm hrs
    have hr := hrs r (List.mem_cons_self _ _)
    obtain ⟨w1, hload, hc1, hsame, hm1⟩ :=
      LoadDefaultVars_spec w0 hf fuel w r hc (memoFrom_mono w0 w 0 r (Nat.zero_le _) hm) hr
        (by omega)
    have hm2 : memoFrom w0 0 w1 := memoFrom_glue w0 w w1 0 r hm hm1 hsame
    obtain ⟨dvs, w2, hrest, hc2, hm3⟩ :=
      ih w1 hc1 hm2 (fun q hq => hrs q (List.mem_cons_of_mem _ hq))
    exact ⟨defaultVarsOf (w0.roles.length - r) w0 r :: dvs, w2,
      by simp only [threadEach, hload, hrest], hc2, hm3⟩

/-- Layers that do not define a key do not change its value in the merge. -/
theorem mapGet_foldl_loAssign_skip (k : String) :
    ∀ (ls : List Variables) (a : Variables), (∀ l ∈ ls, k ∉ l.map Prod.fst) →
      mapGet (ls.foldl loAssign a) k = mapGet a k := by
  intro ls
  induction ls with
  | nil => intro a _; rfl
  | cons l ls ih =>
    intro a h
    rw [List.foldl_cons, ih _ (fun l1 h1 => h l1 (List.mem_cons_of_mem _ h1))]
    exact mapGet_loAssign_of_not_mem k l a (h l (List.mem_cons_self _ _))

theorem mem_roleVarsOf (w : World) (rs : List Nat) (l : Variables) (h : l ∈ roleVarsOf w rs) :
    ∃ q ∈ rs, ∃ rl, w.role q = .ok rl ∧ l = rl.Vars := by
  simp only [roleVarsOf, List.mem_filterMap, Option.map_eq_some', List.get?_eq_getElem?] at h
  obtain ⟨q, hq, rl, hrl, rfl⟩ := h
  exact ⟨q, hq, rl, (role_eq_ok _ _ _).mpr hrl, rfl⟩

/-- C21: for a task of a role that belongs to a play, in a heap without dependency
cycle and with up-to-date memos, with fuel for the heap and vars files that load:
the variables of the task resolve, `Task.Play` being the play of the role; every key
of the own vars of the task maps to the value of the task, whatever the other sources
hold; and a key of the inline vars of the play that no vars file, no role of the
play, the role of the task and the task do not define maps to the value of the play. -/
theorem task_vars_precedence (fuel : Nat) (w : World) (t : Task) (r : Nat) (role : Role)
    (p : Nat) (play : Play) (files : List Variables)
    (hf : forwardDeps w) (hm : memoFrom w 0 w) (hfuel : w.roles.length ≤ fuel)
    (hr : t.data.role = some r) (hrole : w.role r = .ok role) (hp : role.play = some p)
    (hplay : w.play p = .ok play) (hl : play.dataloader = true)
    (hroles : ∀ q ∈ play.GetRoles, q < w.roles.length)
    (hfiles : List.Forall₂ (fun f vars => LoadPlayVarsFile w play.GetPath f = .ok vars)
      play.GetVarsFiles files) :
    ∃ vars w1, t.Play w = .ok (some p) ∧ t.resolveVars fuel w = .ok (vars, w1) ∧
      GetVars fuel w (some p) (some t) = .ok (vars, w1) ∧
      (∀ k v, (t.Vars.map Prod.fst).Nodup → mapGet t.Vars k = some v →
        mapGet vars k = some v) ∧
      (∀ k v, (play.GetVars.map Prod.fst).Nodup → mapGet play.GetVars k = some v →
        (∀ fv ∈ files, k ∉ fv.map Prod.fst) →
        (∀ q ∈ play.GetRoles, ∀ rl, w.role q = .ok rl → k ∉ rl.Vars.map Prod.fst) →
        k ∉ role.Vars.map Prod.fst → k ∉ t.Vars.map Prod.fst →
        mapGet vars k = some v) := by
  obtain ⟨dvs, w1, hdefaults, hc, _⟩ :=
    threadEach_defaults_total w hf fuel hfuel play.GetRoles w rfl hm hroles
  have hcell := (role_eq_ok _ _ _).mp hrole
  have hrlt : r < w.roles.length := by
    rcases Nat.lt_or_ge r w.roles.length with h | h
    · exact h
    · rw [List.getElem?_eq_none h] at hcell
      simp at hcell
  have hex : ∀ q ∈ play.GetRoles, ∃ rl, w.roles[q]? = some rl := by
    intro q hq
    cases hq1 : w.roles[q]? with
    | some rl => exact ⟨rl, rfl⟩
    | none =>
      have := hroles q hq
      rw [List.getElem?_eq_none_iff] at hq1
      omega
  have howner : ∀ q, t.Role = some q → q < w.roles.length := by
    intro q hq
    simp only [Task.Role, hr, Option.some.injEq] at hq
    rw [← hq]
    exact hrlt
  have hpv : playVars fuel w p =
      .ok (mergeLayers (dvs ++ [play.GetVars] ++ files ++ roleVarsOf w play.GetRoles), w1) := by
    unfold playVars
    simp only [hplay, roleDefaultsLoop_thread, hdefaults,
      varsFilesLoop_layers w w1 hc play hl _ _ _ hfiles,
      roleVarsLoop_layers w w1 hc _ _ hex, mergeLayers, List.foldl_append, List.foldl_cons,
      List.foldl_nil]
  have hget : GetVars fuel w (some p) (some t) =
      .ok (mergeLayers (dvs ++ [play.GetVars] ++ files ++ roleVarsOf w play.GetRoles ++
        ownerVarsOf w t ++ [t.Vars]), w1) := by
    unfold GetVars
    simp only [hpv, taskVars_layers w w1 hc _ t howner]
    simp only [mergeLayers, List.foldl_append, List.append_assoc]
  have hPlay : t.Play w = .ok (some p) := by
    simp only [Task.Play, hr, hrole, hp]
  have hown : ownerVarsOf w t = [role.Vars] := by
    simp only [ownerVarsOf, Task.Role, hr, roleVarsOf, List.get?_eq_getElem?, List.filterMap_cons,
      hcell, Option.map_some', List.filterMap_nil]
  refine ⟨_, w1, hPlay, ?_, hget, ?_, ?_⟩
  · simp only [Task.resolveVars, hPlay, hget]
  · intro k v hnd hk
    simp only [mergeLayers, List.foldl_append, List.foldl_cons, List.foldl_nil]
    exact mapGet_loAssign_right k v _ _ hnd hk
  · intro k v hnd hk hfv hrv hov htv
    have e : dvs ++ [play.GetVars] ++ files ++ roleVarsOf w play.GetRoles ++ ownerVarsOf w t ++
        [t.Vars] = (dvs ++ [play.GetVars]) ++
          (files ++ roleVarsOf w play.GetRoles ++ [role.Vars] ++ [t.Vars]) := by
      rw [hown]
      simp only [List.append_assoc]
    rw [e, mergeLayers, List.foldl_append, mapGet_foldl_loAssign_skip]
    · simp only [List.foldl_append, List.foldl_cons, List.foldl_nil]
      exact mapGet_loAssign_right k v _ _ hnd hk
    · intro l hlmem
      simp only [List.mem_append, List.mem_singleton] at hlmem
      rcases hlmem with ((h1 | h1) | h1) | h1
      · exact hfv l h1
      · obtain ⟨q, hq, rl, hrl, rfl⟩ := mem_roleVarsOf w _ l h1
        exact hrv q hq rl hrl
      · rw [h1]
        exact hov
      · rw [h1]
        exact htv

/-- C21 on `TestOverrideTaskVariable` and `TestResolveTaskVariableFromPlay`: the
play declares `somevar: some_value`; the task that overrides it resolves it to
`overrided`, the task that does not to `some_value`. -/
theorem task_vars_precedence_witness :
    (overrideTask.data.role = some 0 ∧ overrideLoaded.role 0 = .ok overrideRole ∧
      overrideRole.play = some 0 ∧ overrideLoaded.play 0 = .ok overridePlay ∧
      mapGet overridePlay.GetVars "somevar" = some (.str "some_value") ∧
      mapGet overrideTask.Vars "somevar" = some (.str "overrided") ∧
      ∃ vars w1, overrideTask.resolveVars 1 overrideLoaded = .ok (vars, w1) ∧
        mapGet vars "somevar" = some (.str "overrided")) ∧
    (varsTask.data.role = some 0 ∧ playVarsLoaded.role 0 = .ok varsRole ∧
      varsRole.play = some 0 ∧ playVarsLoaded.play 0 = .ok varsPlay ∧
      mapGet varsPlay.GetVars "somevar" = some (.str "some_value") ∧
      mapGet varsTask.Vars "somevar" = none ∧
      ∃ vars w1, varsTask.resolveVars 1 playVarsLoaded = .ok (vars, w1) ∧
        mapGet vars "somevar" = some (.str "some_value")) := by
  refine ⟨⟨rfl, rfl, rfl, rfl, rfl, rfl, ?_⟩, ⟨rfl, rfl, rfl, rfl, rfl, rfl, ?_⟩⟩
  · obtain ⟨vars, w1, _, h2, _, h4, _⟩ :=
      task_vars_precedence 1 overrideLoaded overrideTask 0 overrideRole 0 overridePlay []
        (forwardDeps_of_check _ rfl) (memoFrom_of_noMemo _ _ 0 rfl) (Nat.le_of_eq rfl)
        rfl rfl rfl rfl rfl
        (by
          intro q hq
          have e : overridePlay.GetRoles = [0] := rfl
          rw [e, List.mem_singleton] at hq
          rw [hq]
          exact Nat.lt_of_lt_of_eq Nat.zero_lt_one (rfl : 1 = overrideLoaded.roles.length))
        List.Forall₂.nil
    refine ⟨vars, w1, h2, h4 "somevar" _ ?_ rfl⟩
    have e : overrideTask.Vars = [("somevar", .str "overrided")] := rfl
    rw [e]
    decide
  · obtain ⟨vars, w1, _, h2, _, _, h5⟩ :=
      task_vars_precedence 1 playVarsLoaded varsTask 0 varsRole 0 varsPlay []
        (forwardDeps_of_check _ rfl) (memoFrom_of_noMemo _ _ 0 rfl) (Nat.le_of_eq rfl)
        rfl rfl rfl rfl rfl
        (by
          intro q hq
          have e : varsPlay.GetRoles = [0] := rfl
          rw [e, List.mem_singleton] at hq
          rw [hq]
          exact Nat.lt_of_lt_of_eq Nat.zero_lt_one (rfl : 1 = playVarsLoaded.roles.length))
        List.Forall₂.nil
    have e1 : varsPlay.GetVars = [("somevar", .str "some_value")] := rfl
    have e2 : varsRole.Vars = [] := rfl
    have e3 : varsTask.Vars = [] := rfl
    refine ⟨vars, w1, h2, h5 "somevar" _ ?_ rfl ?_ ?_ ?_ ?_⟩
    · rw [e1]
      decide
    · intro fv hfv
      simp at hfv
    · intro q hq rl hrl
      have e : varsPlay.GetRoles = [0] := rfl
      rw [e, List.mem_singleton] at hq
      rw [hq] at hrl
      have e4 : playVarsLoaded.role 0 = .ok varsRole := rfl
      rw [e4] at hrl
      simp only [Except.ok.injEq] at hrl
      rw [← hrl, e2]
      simp
    · rw [e2]
      simp
    · rw [e3]
      simp

/-! ### Includes in tasks that no loader owns -/

theorem resolveVars_unowned (fuel : Nat) (w : World) (t : Task) (hr : t.data.role = none)
    (hp : t.data.play = none) : t.resolveVars fuel w = .ok (loAssign [] t.Vars, w) := by
  simp only [Task.resolveVars, Task.Play, hr, hp, GetVars, taskVars, Task.Role]

theorem isModuleFreeForm_unowned (fuel : Nat) (w : World) (t : Task) (a : String)
    (hr : t.data.role = none) (hp : t.data.play = none) :
    ∃ v, t.isModuleFreeForm fuel w a = .ok (v, w) := by
  unfold Task.isModuleFreeForm
  split
  · rw [resolveVars_unowned fuel w t hr hp]
    simp only
    split
    · exact ⟨_, rfl⟩
    · exact ⟨_, rfl⟩
  · exact ⟨_, rfl⟩

theorem Module_unowned (fuel : Nat) (w : World) (t : Task) (a : String)
    (hr : t.data.role = none) (hp : t.data.play = none) :
    ∃ m cv, t.Module fuel w a = .ok (m, .mk { t.data with cachedVars := cv } t.block, w) := by
  have hv : ∃ vars cv, t.moduleVars fuel w =
      .ok (vars, .mk { t.data with cachedVars := cv } t.block, w) := by
    unfold Task.moduleVars
    split
    · rename_i vars hc
      refine ⟨vars, some vars, ?_⟩
      cases t with
      | mk d block =>
        simp only [Task.data] at hc
        simp only [Task.data, Task.block, ← hc]
    · rw [resolveVars_unowned fuel w t hr hp]
      exact ⟨_, _, rfl⟩
  obtain ⟨vars, cv, hv⟩ := hv
  unfold Task.Module
  split
  · rw [hv]
    simp only
    split
    · exact ⟨_, cv, rfl⟩
    · exact ⟨_, cv, rfl⟩
  · refine ⟨none, t.data.cachedVars, ?_⟩
    cases t with
    | mk d block => rfl

theorem moduleParams_unowned (fuel : Nat) :
    ∀ (actions : List String) (rm : List (String × String)) (t : Task) (w : World),
      t.data.role = none → t.data.play = none →
      ∃ rm1 cv, moduleParams fuel actions rm t w =
        .ok (rm1, .mk { t.data with cachedVars := cv } t.block, w) := by
  intro actions
  induction actions with
  | nil =>
    intro rm t w _ _
    refine ⟨rm, t.data.cachedVars, ?_⟩
    cases t with
    | mk d block => rfl
  | cons a rest ih =>
    intro rm t w hr hp
    obtain ⟨v, hv⟩ := isModuleFreeForm_unowned fuel w t a hr hp
    simp only [moduleParams, hv]
    cases v with
    | some val => exact ih _ t w hr hp
    | none =>
      obtain ⟨m, cv, hm⟩ := Module_unowned fuel w t a hr hp
      simp only [hm]
      cases m with
      | some val =>
        obtain ⟨rm1, cv1, h1⟩ := ih val.ToStringMap (.mk { t.data with cachedVars := cv } t.block) w hr hp
        exact ⟨rm1, cv1, h1⟩
      | none =>
        obtain ⟨rm1, cv1, h1⟩ := ih rm (.mk { t.data with cachedVars := cv } t.block) w hr hp
        exact ⟨rm1, cv1, h1⟩

/-- A task include without loader panics when it reaches `LoadTasks`. -/
theorem compileTaskInclude_unloaded (fuel : Nat) (c : TaskCompiler) (w : World) (t : Task)
    (hr : t.data.role = none) (hp : t.data.play = none) (hd : t.data.dataloader = false) :
    t.compileTaskInclude fuel c w =
      .error (.panic "invalid memory address or nil pointer dereference") := by
  obtain ⟨rm1, cv, h1⟩ := moduleParams_unowned fuel
    (applyBuiltinPrefixAll [includeTasksAction, importTasksAction]) [] t w hr hp
  cases t with
  | mk d block =>
    simp only [Task.data, Task.block] at hr hp hd h1
    simp only [Task.compileTaskInclude, Task.tasksFile, h1, decodeTaskInclude, Task.data, hd,
      Bool.not_false, if_true]

/-- A role include without role panics. -/
theorem compileRoleInclude_unloaded (fuel : Nat) (rc : RoleCompiler) (w : World) (t : Task)
    (hr : t.data.role = none) (hp : t.data.play = none) :
    ∃ msg, t.compileRoleInclude fuel rc w = .error (.panic msg) := by
  obtain ⟨rm1, cv, h1⟩ := moduleParams_unowned fuel
    (applyBuiltinPrefixAll [includeRoleAction, importRoleAction]) [] t w hr hp
  cases t with
  | mk d block =>
    simp only [Task.data, Task.block] at hr hp h1
    simp only [Task.compileRoleInclude, Task.roleIncludeModule, h1]
    cases hdec : decodeRoleIncludeModule rm1 with
    | error e => exact ⟨e, rfl⟩
    | ok module =>
      simp only [Task.data, hr]
      exact ⟨_, rfl⟩

theorem compileWith_include_unloaded (fuel : Nat) (c : TaskCompiler) (rc : RoleCompiler)
    (w : World) (t : Task) (hb : t.block = [])
    (hinc : t.isTaskInclude = true ∨ t.isRoleInclude = true)
    (hr : t.data.role = none) (hp : t.data.play = none) (hd : t.data.dataloader = false) :
    ∃ msg, Task.compileWith fuel c rc w t = .error (.panic msg) := by
  unfold Task.compileWith
  simp only [hb, List.length_nil, Nat.lt_irrefl, if_false]
  by_cases h1 : t.isTaskInclude = true
  · simp only [h1, if_true]
    exact ⟨_, compileTaskInclude_unloaded fuel c w t hr hp hd⟩
  · have h2 : t.isRoleInclude = true := hinc.resolve_left h1
    simp only [h1, h2, if_true, Bool.false_eq_true, if_false]
    exact compileRoleInclude_unloaded fuel rc w t hr hp

theorem unloaded_data (t : Task) (h : t.unloaded = true) :
    t.data.dataloader = false ∧ t.data.role = none ∧ t.data.play = none ∧
      unloadedAll t.block = true := by
  cases t with
  | mk d block =>
    simp only [Task.unloaded, Bool.and_eq_true, Bool.not_eq_true', Option.isNone_iff_eq_none] at h
    exact ⟨h.1.1.1, h.1.1.2, h.1.2, h.2⟩

theorem unloadedAll_mem : ∀ (ts : List Task), unloadedAll ts = true →
    ∀ t ∈ ts, t.unloaded = true := by
  intro ts
  induction ts with
  | nil => intro _ t ht; simp at ht
  | cons a rest ih =>
    intro h t ht
    simp only [unloadedAll, Bool.and_eq_true] at h
    simp only [List.mem_cons] at ht
    rcases ht with rfl | ht
    · exact h.1
    · exact ih h.2 t ht

theorem unloadedAll_of_mem : ∀ (ts : List Task), (∀ t ∈ ts, t.unloaded = true) →
    unloadedAll ts = true := by
  intro ts
  induction ts with
  | nil => intro _; rfl
  | cons a rest ih =>
    intro h
    simp only [unloadedAll, Bool.and_eq_true]
    exact ⟨h a (List.mem_cons_self _ _), ih fun t ht => h t (List.mem_cons_of_mem _ ht)⟩

theorem height_le_heightOfTasks : ∀ (ts : List Task), ∀ t ∈ ts, t.height ≤ heightOfTasks ts := by
  intro ts
  induction ts with
  | nil => intro t ht; simp at ht
  | cons a rest ih =>
    intro t ht
    simp only [heightOfTasks]
    simp only [List.mem_cons] at ht
    rcases ht with rfl | ht
    · exact Nat.le_max_left _ _
    · exact Nat.le_trans (ih t ht) (Nat.le_max_right _ _)

theorem height_of_block (t : Task) (hb : t.block.length > 0) :
    t.height = heightOfTasks t.block + 1 := by
  cases t with
  | mk d block =>
    cases block with
    | nil => simp [Task.block] at hb
    | cons b bs => simp only [Task.height, Task.block, heightOfTasks]

theorem height_pos (t : Task) : 0 < t.height := by
  cases t with
  | mk d block =>
    cases block with
    | nil => simp [Task.height]
    | cons b bs => simp [Task.height]

/-- A loop over tasks that each return or panic returns or panics. -/
theorem compileEach_settled (c : TaskCompiler) :
    ∀ (ts : List Task),
      (∀ t ∈ ts, ∀ w, (∃ r, c w t = .ok r) ∨ ∃ msg, c w t = .error (.panic msg)) →
      ∀ w, (∃ r, compileEach c ts w = .ok r) ∨ ∃ msg, compileEach c ts w = .error (.panic msg) := by
  intro ts
  induction ts with
  | nil => intro _ w; exact .inl ⟨_, rfl⟩
  | cons a rest ih =>
    intro h w
    rcases h a (List.mem_cons_self _ _) w with ⟨r, hr⟩ | ⟨msg, hm⟩
    · rcases ih (fun t ht => h t (List.mem_cons_of_mem _ ht)) r.world with ⟨r2, hr2⟩ | ⟨msg, hm⟩
      · exact .inl ⟨_, by simp only [compileEach, hr, hr2]; rfl⟩
      · exact .inr ⟨msg, by simp only [compileEach, hr, hm]⟩
    · exact .inr ⟨msg, by simp only [compileEach, hm]⟩

/-- A loop over tasks one of which never returns does not return. -/
theorem compileEach_error_of_mem (c : TaskCompiler) (t : Task)
    (hc : ∀ w, ∃ e, c w t = .error e) :
    ∀ (ts : List Task), t ∈ ts → ∀ w, ∃ e, compileEach c ts w = .error e := by
  intro ts
  induction ts with
  | nil => intro ht; simp at ht
  | cons a rest ih =>
    intro ht w
    simp only [List.mem_cons] at ht
    cases h1 : c w a with
    | error e => exact ⟨e, by simp only [compileEach, h1]⟩
    | ok r =>
      rcases ht with rfl | ht
      · obtain ⟨e, he⟩ := hc w
        rw [he] at h1
        simp at h1
      · obtain ⟨e, he⟩ := ih ht r.world
        exact ⟨e, by simp only [compileEach, h1, he]⟩

/-- With fuel for its height, a tree of tasks that no loader owns compiles or panics. -/
theorem taskCompile_settled : ∀ (fuel : Nat) (t : Task), t.unloaded = true → t.height ≤ fuel →
    ∀ w, (∃ r, Task.Compile fuel w t = .ok r) ∨ ∃ msg, Task.Compile fuel w t = .error (.panic msg) := by
  intro fuel
  induction fuel with
  | zero =>
    intro t _ hh
    have := height_pos t
    omega
  | succ n ih =>
    intro t hu hh w
    obtain ⟨hd, hr, hp, hall⟩ := unloaded_data t hu
    rw [taskCompile_succ]
    by_cases hb : t.block.length > 0
    · have hheight := height_of_block t hb
      have hkids : ∀ b ∈ t.block, ∀ w1, (∃ r, Task.Compile n w1 b = .ok r) ∨
          ∃ msg, Task.Compile n w1 b = .error (.panic msg) := by
        intro b hbm w1
        have h1 := height_le_heightOfTasks t.block b hbm
        exact ih b (unloadedAll_mem _ hall b hbm) (by omega) w1
      simp only [Task.compileWith, hb, if_true, Task.compileBlockTasks]
      rcases compileEach_settled (Task.Compile n) t.block hkids w with ⟨r, hr1⟩ | ⟨msg, hm⟩
      · exact .inl ⟨_, by simp only [hr1]; rfl⟩
      · exact .inr ⟨msg, by simp only [hm]⟩
    · have hnil : t.block = [] := by
        cases hbl : t.block with
        | nil => rfl
        | cons b bs => simp [hbl] at hb
      by_cases hinc : t.isTaskInclude = true ∨ t.isRoleInclude = true
      · exact .inr (compileWith_include_unloaded (n + 1) _ _ w t hnil hinc hr hp hd)
      · simp only [not_or, Bool.not_eq_true] at hinc
        refine .inl ⟨{ out := [t], task := t, world := w }, ?_⟩
        simp only [Task.compileWith, hb, hinc.1, hinc.2, if_false, Bool.false_eq_true]

/-- A task include or role include that no loader owns never compiles. -/
theorem taskCompile_include_error (t : Task) (hb : t.block = [])
    (hinc : t.isTaskInclude = true ∨ t.isRoleInclude = true)
    (hr : t.data.role = none) (hp : t.data.play = none) (hd : t.data.dataloader = false) :
    ∀ fuel w, ∃ e, Task.Compile fuel w t = .error e := by
  intro fuel w
  cases fuel with
  | zero => exact ⟨.outOfFuel, rfl⟩
  | succ n =>
    rw [taskCompile_succ]
    obtain ⟨msg, h⟩ := compileWith_include_unloaded (n + 1) (Task.Compile n) (Role.Compile n) w t
      hb hinc hr hp hd
    exact ⟨_, h⟩

/-! ### The tasks of a play are decoded without loader -/

theorem updateParent_unloaded (b t : Task) : (b.updateParent t).unloaded = b.unloaded := by
  cases b with
  | mk d block => simp only [Task.updateParent, Task.unloaded, Task.data, Task.block]

mutual
theorem decodeTask_unloaded :
    ∀ (node : Node) (addr next : Nat) (t : Task),
      decodeTask node addr = .ok (.ok t, next) → t.unloaded = true
  | .scalar l k tx, addr, next, t, h => by
    rw [decodeTask_scalar_ok l k tx addr next t h]
    rfl
  | .seq l items, addr, next, t, h => absurd h (decodeTask_seq_ok l items addr next t)
  | .map l entries, addr, next, t, h => by
    obtain ⟨raw, name, vars, children, hb, rfl⟩ := decodeTask_map_ok l entries addr next t h
    have hc := decodeBlockField_unloaded entries (addr + 1) next children hb
    have hall : unloadedAll ((children.filterMap id).map fun b =>
        b.updateParent (.mk (newTask addr (.map l entries) raw name vars) [])) = true := by
      apply unloadedAll_of_mem
      intro t ht
      simp only [List.mem_map] at ht
      obtain ⟨b, hbm, rfl⟩ := ht
      rw [updateParent_unloaded]
      exact hc b hbm
    simp only [Task.unloaded, hall]
    rfl
theorem decodeBlockField_unloaded :
    ∀ (entries : List (String × Node)) (addr next : Nat) (ts : List (Option Task)),
      decodeBlockField entries addr = .ok (.ok ts, next) →
        ∀ t ∈ ts.filterMap id, t.unloaded = true
  | [], addr, next, ts, h => by
    rw [(decodeBlockField_nil_ok addr next ts h).1]
    simp
  | (k, n) :: rest, addr, next, ts, h => by
    rcases decodeBlockField_cons_ok k n rest addr next ts h with ⟨l, items, rfl, hi⟩ | ⟨rfl, _⟩ | hr
    · exact decodeTaskItems_unloaded_all items addr next ts hi
    · simp
    · exact decodeBlockField_unloaded rest addr next ts hr
theorem decodeTaskItems_unloaded_all :
    ∀ (items : List Node) (addr next : Nat) (ts : List (Option Task)),
      decodeTaskItems items addr = .ok (.ok ts, next) →
        ∀ t ∈ ts.filterMap id, t.unloaded = true
  | [], addr, next, ts, h => by
    rw [(decodeTaskItems_nil_ok addr next ts h).1]
    simp
  | n :: ns, addr, next, ts, h => by
    rcases decodeTaskItems_cons_ok n ns addr next ts h with
      ⟨as, hr, rfl⟩ | ⟨t1, mid, as, ht, hr, rfl⟩
    · simpa using decodeTaskItems_unloaded_all ns addr next as hr
    · have h1 := decodeTask_unloaded n addr mid t1 ht
      have ih := decodeTaskItems_unloaded_all ns mid next as hr
      intro t hm
      simp only [List.filterMap_cons, id_eq, List.mem_cons] at hm
      rcases hm with rfl | hm
      · exact h1
      · exact ih t hm
end

theorem decodeTaskItems_unloaded (items : List Node) (addr next : Nat)
    (ts : List (Option Task)) (h : decodeTaskItems items addr = .ok (.ok ts, next)) :
    ∀ t, some t ∈ ts → t.unloaded = true := by
  intro t ht
  exact decodeTaskItems_unloaded_all items addr next ts h t (by simpa using ht)

theorem decodeTasksField_unloaded (entries : List (String × Node)) (key : String)
    (addr next : Nat) (ts : List (Option Task))
    (h : decodeTasksField entries key addr = .ok (.ok ts, next)) :
    ∀ t, some t ∈ ts → t.unloaded = true := by
  unfold decodeTasksField at h
  split at h
  · simp only [Except.ok.injEq, Prod.mk.injEq] at h
    intro t ht
    rw [← h.1] at ht
    simp at ht
  · rename_i n _
    unfold decodeTasks at h
    cases n with
    | seq l items => exact decodeTaskItems_unloaded items addr next ts h
    | scalar l k tx =>
      cases k <;> simp only [Except.ok.injEq, Prod.mk.injEq, reduceCtorEq, false_and] at h
      intro t ht
      rw [← h.1] at ht
      simp at ht
    | map l es => simp at h

theorem decodePlay_unloaded (node : Node) (addr next : Nat) (d : PlayDoc)
    (h : decodePlay node addr = .ok (.ok d, next)) :
    ∀ t, some t ∈ d.preTasks ∨ some t ∈ d.tasks ∨ some t ∈ d.postTasks →
      t.unloaded = true := by
  cases node with
  | scalar l k tx => simp [decodePlay] at h
  | seq l items => simp [decodePlay] at h
  | map l entries =>
    simp only [decodePlay] at h
    split at h
    · simp at h
    · split at h
      · simp at h
      · split at h
        · simp at h
        · rename_i pre a1 hpre
          split at h
          · simp at h
          · rename_i tasks a2 htasks
            split at h
            · simp at h
            · rename_i post a3 hpost
              split at h
              · simp only [Except.ok.injEq, Prod.mk.injEq] at h
                obtain ⟨h1, _⟩ := h
                subst h1
                intro t ht
                rcases ht with ht | ht | ht
                · exact decodeTasksField_unloaded _ _ _ _ _ hpre t ht
                · exact decodeTasksField_unloaded _ _ _ _ _ htasks t ht
                · exact decodeTasksField_unloaded _ _ _ _ _ hpost t ht
              · simp at h

theorem decodePlays_unloaded :
    ∀ (items : List Node) (addr next : Nat) (docs : List (Option PlayDoc)),
      decodePlays items addr = .ok (.ok docs, next) →
      ∀ d, some d ∈ docs →
        ∀ t, some t ∈ d.preTasks ∨ some t ∈ d.tasks ∨ some t ∈ d.postTasks →
          t.unloaded = true := by
  intro items
  induction items with
  | nil =>
    intro addr next docs h d hd
    simp only [decodePlays, Except.ok.injEq, Prod.mk.injEq] at h
    rw [← h.1] at hd
    simp at hd
  | cons n ns ih =>
    intro addr next docs h d hd
    simp only [decodePlays] at h
    split at h
    · split at h
      · simp at h
      · rename_i rest nx hr
        simp only [Except.ok.injEq, Prod.mk.injEq] at h
        obtain ⟨a, as, ha, has, hl⟩ := consDecoded_ok _ _ _ h.1
        simp only [Except.ok.injEq] at ha
        subst ha has hl
        simp only [List.mem_cons, reduceCtorEq, false_or] at hd
        exact ih addr nx as hr d hd
    · split at h
      · simp at h
      · rename_i p mid hp
        split at h
        · simp at h
        · rename_i rest nx hr
          simp only [Except.ok.injEq, Prod.mk.injEq] at h
          obtain ⟨a, as, ha, has, hl⟩ := consDecoded_ok _ _ _ h.1
          subst has hl
          cases p with
          | error e => simp [Except.map] at ha
          | ok d1 =>
            simp only [Except.map, Except.ok.injEq] at ha
            subst ha
            simp only [List.mem_cons, Option.some.injEq] at hd
            rcases hd with rfl | hd
            · exact decodePlay_unloaded n addr mid d hp
            · exact ih mid nx as hr d hd

theorem decodePlaybook_unloaded (node : Node) (addr next : Nat) (docs : List (Option PlayDoc))
    (h : decodePlaybook node addr = .ok (.ok (some docs), next)) :
    ∀ d, some d ∈ docs →
      ∀ t, some t ∈ d.preTasks ∨ some t ∈ d.tasks ∨ some t ∈ d.postTasks →
        t.unloaded = true := by
  cases node with
  | seq l items =>
    simp only [decodePlaybook] at h
    split at h
    · simp at h
    · rename_i plays nx hp
      simp only [Except.ok.injEq, Prod.mk.injEq] at h
      cases plays with
      | error e => simp [Except.map] at h
      | ok ds =>
        simp only [Except.map, Except.ok.injEq, Option.some.injEq] at h
        obtain ⟨h1, _⟩ := h
        subst h1
        exact decodePlays_unloaded items addr nx ds hp
  | scalar l k tx => cases k <;> simp [decodePlaybook] at h
  | map l es => simp [decodePlaybook] at h


/-- Stamping the metadata of a play leaves its tasks without loader, role and play. -/
theorem updateMetadata_unloaded (d : PlayDoc) (ptr : Nat) (src : Option MetaRef) (path : String)
    (play0 : Play) (h : d.UpdateMetadata ptr src path = some play0)
    (hd : ∀ t, some t ∈ d.preTasks ∨ some t ∈ d.tasks ∨ some t ∈ d.postTasks →
      t.unloaded = true) :
    ∀ t ∈ play0.listTasks, t.unloaded = true := by
  have hstamp : ∀ (t0 : Task) (m : Metadata),
      (Task.mk { t0.data with metadata := m } t0.block).unloaded = t0.unloaded := by
    intro t0 m
    cases t0 with
    | mk d0 block => simp only [Task.unloaded, Task.data, Task.block]
  unfold PlayDoc.UpdateMetadata at h
  split at h
  · rename_i roleDefs pre tasks post _ h1 h2 h3
    simp only [Option.some.injEq] at h
    subst h
    intro t ht
    simp only [Play.listTasks, List.mem_append, List.mem_map] at ht
    rcases ht with (⟨t0, ht0, rfl⟩ | ⟨t0, ht0, rfl⟩) | ⟨t0, ht0, rfl⟩
    · rw [hstamp]
      exact hd t0 (.inl (allSome_mem _ _ h1 t0 ht0))
    · rw [hstamp]
      exact hd t0 (.inr (.inl (allSome_mem _ _ h2 t0 ht0)))
    · rw [hstamp]
      exact hd t0 (.inr (.inr (allSome_mem _ _ h3 t0 ht0)))
  · simp at h

/-- The tasks of the plays that `LoadPlaybook` returns have no loader, no role and
no play, at every depth of their blocks. -/
theorem loadPlaybook_unloaded (w : World) (src : Option MetaRef) (path : String)
    (plays : List Nat) (w1 : World)
    (h : LoadPlaybook w src path = .ok (.ok (some plays), w1)) :
    ∀ p ∈ plays, ∃ play, w1.play p = .ok play ∧ play.dataloader = true ∧
      ∀ t ∈ play.listTasks, t.unloaded = true := by
  obtain ⟨node, docs, next, _, _, hdec, hl⟩ := loadPlaybook_some w src path plays w1 h
  obtain ⟨_, _, _, i4, i5⟩ := loadPlays_ok src path docs [] _ _ _ hl
  simp only [List.nil_append] at i4
  intro p hp
  rw [i4, List.mem_range'_1] at hp
  obtain ⟨hp1, hp2⟩ := hp
  obtain ⟨i, rfl⟩ : ∃ i, p = w.plays.length + i := ⟨p - w.plays.length, by omega⟩
  obtain ⟨d, play0, play, hd, hup, hcell, hplay, _⟩ := i5 i (by omega)
  refine ⟨play, (play_eq_ok _ _ _).mpr hcell, ?_, ?_⟩
  · rw [hplay]
    unfold PlayDoc.UpdateMetadata at hup
    split at hup
    · simp only [Option.some.injEq] at hup
      rw [← hup]
    · simp at hup
  · have hlist : play.listTasks = play0.listTasks := by
      rw [hplay]
      rfl
    rw [hlist]
    exact updateMetadata_unloaded d _ src path play0 hup
      (decodePlaybook_unloaded node _ next docs hdec d (List.getElem?_mem hd))

/-- A play that imports no playbook and holds, directly in its tasks, an include
that no loader owns never compiles; with fuel for the height of its tasks, which
no loader owns either, it panics. -/
theorem playCompile_include_panics (w : World) (p : Nat) (play : Play) (t : Task)
    (hplay : w.play p = .ok play) (himp : play.isIncludePlaybook = none)
    (hall : ∀ x ∈ play.listTasks, x.unloaded = true) (ht : t ∈ play.listTasks)
    (hb : t.block = []) (hinc : t.isTaskInclude = true ∨ t.isRoleInclude = true) :
    (∀ fuel, ∃ e, Play.Compile fuel w p = .error e) ∧
    (∀ fuel, heightOfTasks play.listTasks < fuel →
      ∃ msg, Play.Compile fuel w p = .error (.panic msg)) := by
  obtain ⟨hd, hr, hp, _⟩ := unloaded_data t (hall t ht)
  have herr : ∀ n w2, ∃ e, compileEach (Task.Compile n) play.listTasks w2 = .error e :=
    fun n => compileEach_error_of_mem (Task.Compile n) t
      (fun w2 => taskCompile_include_error t hb hinc hr hp hd n w2) play.listTasks ht
  constructor
  · intro fuel
    cases fuel with
    | zero => exact ⟨.outOfFuel, rfl⟩
    | succ n =>
      obtain ⟨e, he⟩ := herr n w
      exact ⟨e, by simp only [Play.Compile, Play.compileWith, hplay, himp, he]⟩
  · intro fuel hfuel
    cases fuel with
    | zero => omega
    | succ n =>
      have hset := compileEach_settled (Task.Compile n) play.listTasks
        (fun x hx w2 => taskCompile_settled n x (hall x hx)
          (Nat.le_trans (height_le_heightOfTasks _ x hx) (by omega)) w2) w
      obtain ⟨e, he⟩ := herr n w
      rcases hset with ⟨r, hr1⟩ | ⟨msg, hm⟩
      · rw [he] at hr1
        simp at hr1
      · exact ⟨msg, by simp only [Play.Compile, Play.compileWith, hplay, himp, hm]⟩

/-- C31, counterexample: a play that imports a playbook and holds a task include
directly in its `tasks` compiles: `Play.Compile` returns the tasks of the imported
playbook and never compiles the include. -/
theorem play_include_counterexample :
    LoadPlaybook importWithTasksWorld none "playbook.yaml" =
      .ok (.ok (some [0]), importWithTasksLoaded) ∧
    importWithTasksLoaded.play 0 = .ok importWithTasksPlay ∧
    importWithTasksPlay.listTasks.map
        (fun t => (t.Name, t.block.length, t.isTaskInclude, t.data.dataloader)) =
      [("Include tasks in a play", 0, true, false)] ∧
    importWithTasksPlay.isIncludePlaybook = some "other.yaml" ∧
    compiledNames (Play.Compile 3 importWithTasksLoaded 0) = some ["Imported task"] :=
  ⟨rfl, rfl, rfl, rfl, rfl⟩

/-- C31, amended: the tasks of a play that `LoadPlaybook` returns have no loader, no
role and no play, at every depth. So a play that imports no playbook and holds,
directly in its `pre_tasks`, `tasks` or `post_tasks`, a task without block that is a
task include or a role include, never compiles: `Play.Compile` ends in an error for
every fuel, and in a panic with fuel for the height of the tasks. A task include or
role include without loader, role and play panics wherever it is compiled. -/
theorem play_include_aborts (w : World) (src : Option MetaRef) (path : String)
    (plays : List Nat) (w1 : World)
    (h : LoadPlaybook w src path = .ok (.ok (some plays), w1)) :
    (∀ p ∈ plays, ∃ play, w1.play p = .ok play ∧
      (∀ t ∈ play.listTasks,
        t.unloaded = true ∧ t.data.dataloader = false ∧ t.data.role = none) ∧
      (play.isIncludePlaybook = none →
        ∀ t ∈ play.listTasks, t.block = [] →
          (t.isTaskInclude = true ∨ t.isRoleInclude = true) →
          ∀ w2, w2.play p = .ok play →
            (∀ fuel, ∃ e, Play.Compile fuel w2 p = .error e) ∧
            (∀ fuel, heightOfTasks play.listTasks < fuel →
              ∃ msg, Play.Compile fuel w2 p = .error (.panic msg)))) ∧
    (∀ t : Task, t.block = [] → (t.isTaskInclude = true ∨ t.isRoleInclude = true) →
      t.data.dataloader = false → t.data.role = none → t.data.play = none →
      ∀ fuel w2, ∃ msg, Task.Compile (fuel + 1) w2 t = .error (.panic msg)) := by
  constructor
  · intro p hp
    obtain ⟨play, hplay, _, hall⟩ := loadPlaybook_unloaded w src path plays w1 h p hp
    refine ⟨play, hplay, ?_, ?_⟩
    · intro t ht
      obtain ⟨hd, hr, _, _⟩ := unloaded_data t (hall t ht)
      exact ⟨hall t ht, hd, hr⟩
    · intro himp t ht hb hinc w2 hplay2
      exact playCompile_include_panics w2 p play t hplay2 himp hall ht hb hinc
  · intro t hb hinc hd hr hp fuel w2
    rw [taskCompile_succ]
    exact compileWith_include_unloaded (fuel + 1) _ _ w2 t hb hinc hr hp hd

/-- C31 on a play that includes a tasks file directly in its `tasks`: compiling the
play panics, while the same kind of include in the tasks of a role, which came
through `LoadTasks`, compiles. -/
theorem play_include_aborts_witness :
    LoadPlaybook playIncludeWorld none "playbook.yaml" =
      .ok (.ok (some [0]), playIncludeLoaded) ∧
    playIncludeLoaded.play 0 = .ok playIncludePlay ∧
    playIncludePlay.isIncludePlaybook = none ∧
    playIncludePlay.listTasks.map Task.Name = ["First task", "Include tasks in a play"] ∧
    playIncludeTask.block = [] ∧ playIncludeTask.isTaskInclude = true ∧
    (∃ msg, Play.Compile 2 playIncludeLoaded 0 = .error (.panic msg)) ∧
    (∀ fuel, ∃ e, Play.Compile fuel playIncludeLoaded 0 = .error e) ∧
    (Tasks.Compile 3 includeTasksLoaded.2 includeTasksLoaded.1).toOption.map
        (fun r => r.out.map Task.Name) =
      some ["Test task", "Test task 2", "Test task 3"] := by
  refine ⟨rfl, rfl, rfl, rfl, rfl, rfl, ?_, ?_, rfl⟩
  all_goals
    obtain ⟨play, hplay, _, habort⟩ :=
      (play_include_aborts playIncludeWorld none "playbook.yaml" [0] playIncludeLoaded rfl).1 0
        (List.mem_singleton.mpr rfl)
    have e : playIncludeLoaded.play 0 = .ok playIncludePlay := rfl
    rw [e] at hplay
    simp only [Except.ok.injEq] at hplay
    subst hplay
    have hmem : playIncludeTask ∈ playIncludePlay.listTasks := by
      have e2 : playIncludePlay.listTasks =
          [playIncludePlay.listTasks.headD debugLeaf, playIncludeTask] := rfl
      rw [e2]
      simp
    have hboth := habort rfl playIncludeTask hmem rfl (.inl rfl) playIncludeLoaded rfl
  · exact hboth.2 2 (Nat.lt_of_le_of_lt (Nat.le_of_eq rfl) (Nat.lt_succ_self 1))
  · exact hboth.1

/-! ### `parsePlaybooks` -/

/-- A nil playbook without error leaves the world as it was. -/
theorem loadPlaybook_nil_world (w : World) (src : Option MetaRef) (path : String) (w1 : World)
    (h : LoadPlaybook w src path = .ok (.ok none, w1)) : w1 = w := by
  cases hs : w.loader.fsys.stat path with
  | false => simp [LoadPlaybook, hs] at h
  | true =>
    simp only [LoadPlaybook, hs, Bool.not_true, Bool.false_eq_true, if_false] at h
    split at h
    · simp only [Except.ok.injEq, Prod.mk.injEq, true_and] at h
      exact h.symm
    · split at h
      · simp at h
      · simp only [Except.ok.injEq, Prod.mk.injEq, true_and] at h
        exact h.symm
      · simp only [Except.ok.injEq, Prod.mk.injEq, true_and] at h
        exact h.symm
      · split at h <;> simp at h

theorem loadPlaybooks_cons (path : String) (rest : List String) (w : World)
    (pbs : List Playbook) (w2 : World) (h : loadPlaybooks (path :: rest) w = some (pbs, w2)) :
    ∃ pb w1 tail, LoadPlaybook w none path = .ok (.ok (some pb), w1) ∧
      loadPlaybooks rest w1 = some (tail, w2) ∧ pbs = pb :: tail := by
  simp only [loadPlaybooks] at h
  split at h
  · rename_i pb w1 hload
    split at h
    · rename_i tail w3 hrest
      simp only [Option.some.injEq, Prod.mk.injEq] at h
      obtain ⟨h1, h2⟩ := h
      subst h1 h2
      exact ⟨pb, w1, tail, hload, hrest, rfl⟩
    · simp at h
  · simp at h

/-- While the paths hold playbooks, `parsePlaybooks` stores them and goes on with
the rest of the paths. -/
theorem parsePlaybooks_while :
    ∀ (pre : List String) (project : AnsibleProject) (w : World) (pbs : List Playbook)
      (w1 : World), loadPlaybooks pre w = some (pbs, w1) →
      pbs.length = pre.length ∧
      ∀ rest, parsePlaybooks project (pre ++ rest) w =
        parsePlaybooks (storePlaybooks project (pre.zip pbs)) rest w1 := by
  intro pre
  induction pre with
  | nil =>
    intro project w pbs w1 h
    simp only [loadPlaybooks, Option.some.injEq, Prod.mk.injEq] at h
    obtain ⟨h1, h2⟩ := h
    subst h1 h2
    exact ⟨rfl, fun rest => rfl⟩
  | cons path pre ih =>
    intro project w pbs w2 h
    obtain ⟨pb, w1, tail, hload, hrest, rfl⟩ := loadPlaybooks_cons path pre w pbs w2 h
    by_cases hmain : isMainPlaybook path = true
    · obtain ⟨hlen, hgo⟩ := ih { project with mainPlaybook := some pb } w1 tail w2 hrest
      refine ⟨by simp [hlen], fun rest => ?_⟩
      simp only [List.cons_append, parsePlaybooks, hload, hmain, if_true, List.zip_cons_cons,
        storePlaybooks]
      exact hgo rest
    · obtain ⟨hlen, hgo⟩ :=
        ih { project with playbooks := project.playbooks ++ [pb] } w1 tail w2 hrest
      refine ⟨by simp [hlen], fun rest => ?_⟩
      simp only [List.cons_append, parsePlaybooks, hload, hmain, if_false, List.zip_cons_cons,
        storePlaybooks, Bool.false_eq_true]
      exact hgo rest

/-- The playbooks of a project after storing: the old ones, then the stored ones
whose path is not a main path, in order. -/
theorem storePlaybooks_playbooks :
    ∀ (xs : List (String × Playbook)) (project : AnsibleProject),
      (storePlaybooks project xs).playbooks =
        project.playbooks ++ (xs.filter fun x => !isMainPlaybook x.1).map Prod.snd := by
  intro xs
  induction xs with
  | nil => intro project; simp [storePlaybooks]
  | cons x xs ih =>
    intro project
    obtain ⟨path, pb⟩ := x
    by_cases hmain : isMainPlaybook path = true
    · simp only [storePlaybooks, hmain, if_true, ih, List.filter_cons, Bool.not_true,
        Bool.false_eq_true, if_false]
    · simp only [Bool.not_eq_true] at hmain
      simp only [storePlaybooks, hmain, Bool.false_eq_true, if_false, ih, List.filter_cons,
        Bool.not_false, if_true, List.map_cons, List.append_assoc, List.singleton_append]

/-- C32: when the paths `pre` hold playbooks that load and the next path holds a
document that is not a playbook, `parsePlaybooks` returns no error and the project
it leaves is the one after `pre` alone, whatever paths follow: the later paths are
not read (the world is the one after `pre`) and their playbooks are not stored. -/
theorem parsePlaybooks_stops (project : AnsibleProject) (pre : List String) (path : String)
    (post : List String) (w : World) (pbs : List Playbook) (w1 w2 : World)
    (hpre : loadPlaybooks pre w = some (pbs, w1))
    (hnot : LoadPlaybook w1 none path = .ok (.ok none, w2)) :
    w2 = w1 ∧
    parsePlaybooks project (pre ++ path :: post) w =
      .ok (.ok (), storePlaybooks project (pre.zip pbs), w1) ∧
    parsePlaybooks project pre w = .ok (.ok (), storePlaybooks project (pre.zip pbs), w1) ∧
    pbs.length = pre.length ∧
    (storePlaybooks project (pre.zip pbs)).playbooks =
      project.playbooks ++ ((pre.zip pbs).filter fun x => !isMainPlaybook x.1).map Prod.snd := by
  have hw := loadPlaybook_nil_world w1 none path w2 hnot
  subst hw
  obtain ⟨hlen, hgo⟩ := parsePlaybooks_while pre project w pbs w2 hpre
  refine ⟨rfl, ?_, ?_, hlen, storePlaybooks_playbooks _ _⟩
  · rw [hgo (path :: post)]
    simp only [parsePlaybooks, hnot]
  · have := hgo []
    rw [List.append_nil] at this
    rw [this]
    rfl

/-- C32 on three paths: `first.yaml` and `last.yaml` are playbooks, `settings.yaml`
between them is a mapping. The project keeps the playbook of `first.yaml` only, and
its task list lacks `Last task`; without `settings.yaml` both are kept. -/
theorem parsePlaybooks_stops_witness :
    loadPlaybooks ["first.yaml"] parserWorld = some ([[0]], firstLoaded) ∧
    LoadPlaybook firstLoaded none "settings.yaml" = .ok (.ok none, firstLoaded) ∧
    parseAndList 3 parserWorld ["first.yaml", "settings.yaml", "last.yaml"] =
      some (none, [[0]], ["First task"]) ∧
    parseAndList 3 parserWorld ["first.yaml", "last.yaml"] =
      some (none, [[0], [1]], ["First task", "Last task"]) ∧
    (firstLoaded = firstLoaded ∧
      parsePlaybooks emptyProject (["first.yaml"] ++ "settings.yaml" :: ["last.yaml"]) parserWorld =
        .ok (.ok (), storePlaybooks emptyProject (["first.yaml"].zip [[0]]), firstLoaded) ∧
      parsePlaybooks emptyProject ["first.yaml"] parserWorld =
        .ok (.ok (), storePlaybooks emptyProject (["first.yaml"].zip [[0]]), firstLoaded) ∧
      [[0]].length = ["first.yaml"].length ∧
      (storePlaybooks emptyProject (["first.yaml"].zip [[0]])).playbooks =
        emptyProject.playbooks ++
          ((["first.yaml"].zip [[0]]).filter fun x => !isMainPlaybook x.1).map Prod.snd) :=
  ⟨rfl, rfl, rfl, rfl,
    parsePlaybooks_stops emptyProject ["first.yaml"] "settings.yaml" ["last.yaml"] parserWorld
      [[0]] firstLoaded firstLoaded rfl rfl⟩

/-! ### `isMainPlaybook` -/

theorem afterLastSlash_suffix : ∀ (cs : List Char), (afterLastSlash cs).1 <:+ cs := by
  intro cs
  induction cs with
  | nil => exact List.suffix_refl _
  | cons c cs ih =>
    simp only [afterLastSlash]
    rcases h : afterLastSlash cs with ⟨tail, seen⟩
    rw [h] at ih
    cases seen with
    | true => exact List.suffix_cons_iff.mpr (.inr ih)
    | false =>
      by_cases hc : c = '/'
      · simp only [hc, if_true]
        exact List.suffix_cons_iff.mpr (.inr ih)
      · simp only [hc, if_false]
        -- without a slash seen, the tail is the whole rest
        have hall : ∀ (ds : List Char) (tl : List Char),
            afterLastSlash ds = (tl, false) → tl = ds := by
          intro ds
          induction ds with
          | nil => intro tl h1; simp only [afterLastSlash, Prod.mk.injEq] at h1; exact h1.1.symm
          | cons d ds ih2 =>
            intro tl h1
            simp only [afterLastSlash] at h1
            rcases h2 : afterLastSlash ds with ⟨tail2, seen2⟩
            rw [h2] at h1
            cases seen2 with
            | true => simp at h1
            | false =>
              by_cases hd : d = '/'
              · simp [hd] at h1
              · simp only [hd, if_false, Prod.mk.injEq, and_true] at h1
                rw [← h1, ih2 tail2 h2]
        rw [hall cs tail h]

theorem afterLastSlash_no_slash : ∀ (cs : List Char), '/' ∉ (afterLastSlash cs).1 := by
  intro cs
  induction cs with
  | nil => simp [afterLastSlash]
  | cons c cs ih =>
    simp only [afterLastSlash]
    rcases h : afterLastSlash cs with ⟨tail, seen⟩
    rw [h] at ih
    cases seen with
    | true => exact ih
    | false =>
      by_cases hc : c = '/'
      · simp only [hc, if_true]
        exact ih
      · simp only [hc, if_false, List.mem_cons, not_or]
        exact ⟨fun e => hc e.symm, ih⟩

theorem extChars_suffix : ∀ (cs e : List Char), extChars cs = some e → e <:+ cs := by
  intro cs
  induction cs with
  | nil => intro e h; simp [extChars] at h
  | cons c cs ih =>
    intro e h
    simp only [extChars] at h
    cases h1 : extChars cs with
    | some e1 =>
      rw [h1] at h
      simp only [Option.some.injEq] at h
      rw [← h]
      exact List.suffix_cons_iff.mpr (.inr (ih e1 h1))
    | none =>
      rw [h1] at h
      by_cases hc : c = '.'
      · subst hc
        simp only [if_true, Option.some.injEq] at h
        subst h
        exact List.suffix_refl _
      · simp [hc] at h

/-- The extension is an end of the last element of the path. -/
theorem filepathExt_suffix (p : String) :
    (filepathExt p).data <:+ (afterLastSlash p.data).1 := by
  unfold filepathExt
  cases h : extChars (afterLastSlash p.data).1 with
  | some e => exact extChars_suffix _ e h
  | none => exact List.nil_suffix

/-- The path without its extension, followed by the extension, is the path. -/
theorem cutExtension_append (p : String) : cutExtension p ++ filepathExt p = p := by
  have hsuf : (filepathExt p).data <:+ p.data :=
    (filepathExt_suffix p).trans (afterLastSlash_suffix p.data)
  obtain ⟨pre, hpre⟩ := hsuf
  apply String.ext
  rw [String.data_append]
  simp only [cutExtension]
  rw [← hpre]
  simp

theorem isMainPlaybook_iff_append (p : String) :
    isMainPlaybook p = true ↔ p = "site" ++ filepathExt p := by
  have hcut := cutExtension_append p
  simp only [isMainPlaybook, decide_eq_true_eq]
  constructor
  · intro h
    rw [h] at hcut
    exact hcut.symm
  · intro h
    have h1 : (cutExtension p ++ filepathExt p).data = ("site" ++ filepathExt p).data := by
      rw [hcut, ← h]
    rw [String.data_append, String.data_append] at h1
    exact String.ext (List.append_cancel_right h1)

theorem isMainPlaybook_slash (p : String) (h : '/' ∈ p.data) : isMainPlaybook p = false := by
  cases hm : isMainPlaybook p with
  | false => rfl
  | true =>
    have hp := (isMainPlaybook_iff_append p).mp hm
    have hd : p.data = "site".data ++ (filepathExt p).data := by
      have := congrArg String.data hp
      rw [String.data_append] at this
      exact this
    rw [hd, List.mem_append] at h
    rcases h with h | h
    · exact absurd h (by decide)
    · exact absurd ((filepathExt_suffix p).subset h) (afterLastSlash_no_slash p.data)

/-- C33: `isMainPlaybook p` holds exactly when `cutExtension p` is `site`, where
`cutExtension p` followed by the extension of `p` is `p`; so exactly when `p` is
`site` followed by its own extension. `site.yml` and `site.yaml` are main, a path
with a directory is not. `parsePlaybooks` stores the playbook of a path that is not
main among the playbooks, and `ListTasks` compiles all the playbooks when the
project has no main playbook, and the main playbook alone when it has one. -/
theorem isMainPlaybook_site :
    (∀ p, cutExtension p ++ filepathExt p = p) ∧
    (∀ p, isMainPlaybook p = true ↔ cutExtension p = "site") ∧
    (∀ p, isMainPlaybook p = true ↔ p = "site" ++ filepathExt p) ∧
    isMainPlaybook "site.yml" = true ∧ isMainPlaybook "site.yaml" = true ∧
    isMainPlaybook "proj/site.yml" = false ∧
    (∀ p : String, '/' ∈ p.data → isMainPlaybook p = false) ∧
    (∀ (project : AnsibleProject) (path : String) (w w1 : World) (pb : Playbook),
      LoadPlaybook w none path = .ok (.ok (some pb), w1) →
      parsePlaybooks project [path] w =
        .ok (.ok (),
          (if isMainPlaybook path then { project with mainPlaybook := some pb }
            else { project with playbooks := project.playbooks ++ [pb] }), w1)) ∧
    (∀ (fuel : Nat) (w : World) (project : AnsibleProject), project.mainPlaybook = none →
      project.ListTasks fuel w = compilePlaybooks fuel project.playbooks w) ∧
    (∀ (fuel : Nat) (w : World) (project : AnsibleProject) (main : Playbook),
      project.mainPlaybook = some main →
      project.ListTasks fuel w = Playbook.Compile fuel w main) := by
  refine ⟨cutExtension_append, ?_, isMainPlaybook_iff_append, by decide, by decide, by decide,
    isMainPlaybook_slash, ?_, ?_, ?_⟩
  · intro p
    simp only [isMainPlaybook, decide_eq_true_eq]
  · intro project path w w1 pb h
    by_cases hmain : isMainPlaybook path = true
    · simp only [parsePlaybooks, h, hmain, if_true]
    · simp only [parsePlaybooks, h, hmain, if_false, Bool.false_eq_true]
  · intro fuel w project h
    simp only [AnsibleProject.ListTasks, h]
  · intro fuel w project main h
    simp only [AnsibleProject.ListTasks, h]

/-- C33 on `proj/site.yml`: it is not a main playbook, so the project keeps it among
its playbooks and lists the tasks of every playbook; with `site.yml` the project
lists the tasks of `site.yml` alone. -/
theorem isMainPlaybook_site_witness :
    '/' ∈ "proj/site.yml".data ∧ isMainPlaybook "proj/site.yml" = false ∧
    cutExtension "proj/site.yml" = "proj/site" ∧ filepathExt "proj/site.yml" = ".yml" ∧
    parseAndList 3 parserWorld ["proj/site.yml", "first.yaml"] =
      some (none, [[0], [1]], ["Nested site task", "First task"]) ∧
    parseAndList 3 parserWorld ["site.yml", "first.yaml"] =
      some (some [0], [[1]], ["Site task"]) ∧
    parsePlaybooks emptyProject ["first.yaml"] parserWorld =
      .ok (.ok (),
        (if isMainPlaybook "first.yaml" then { emptyProject with mainPlaybook := some [0] }
          else { emptyProject with playbooks := emptyProject.playbooks ++ [[0]] }),
        firstLoaded) :=
  ⟨by decide, isMainPlaybook_site.2.2.2.2.2.2.1 "proj/site.yml" (by decide), by decide,
    by decide, rfl, rfl,
    isMainPlaybook_site.2.2.2.2.2.2.2.1 emptyProject "first.yaml" parserWorld firstLoaded [0] rfl⟩

end Ansible
